import Mathlib

/-!
# DeSR `State.cpp`: transition engine and training oracle

A shallow embedding of `src/demo/ai/solarix/DeSR/desr-1.3.2/src/State.cpp`.

* C strings (`char const*`, `std::string`) are `List Char`.
* `TreeToken` objects live in `State.nodes`; a `TreeToken*` is the index of the
  object in that list.  The synthetic root made by `State::State` is object `0`,
  the token with id `i` of the sentence is object `i`.
* `stack`, `input` and `extracted` are `std::vector<TreeToken*>` used as stacks.
  They are written **top first**: the head of the Lean list is `v.back()`,
  `v.push_back x` is `x :: v`, `v.pop_back()` is `v.tail`, `v[v.size() - n]` is
  entry `n - 1` of the list and the bottom `v[0]` is the last entry.
* The child vectors `left` and `right` of a token are kept in vector order:
  `push_back x` appends `x` at the end and `back()` is the last entry.
* A member function that returns `State*` yields a `Result`: `this s` (returned
  `this`, the receiver now being `s`), `null s` (returned `0`, the receiver now
  being `s`) or `undefined` (the call ran `back()`, `pop_back()` or `operator[]`
  outside a vector, or read through a null pointer).
-/

namespace DeSR

/-! ## Data model -/

/-- An action, a C string: `S`, `U`, `L..`, `R..`, `l2..`, `r2..`, `D..`, `E`, `I`, `P`. -/
abbrev Action := List Char

/-- The fields of `FeatureConfig` read by the transition engine and the oracle,
with the defaults given by the constructor. -/
structure FeatureConfig where
  arcEager : Bool := false
  SingleRoot : Bool := true
  CompositeActions : Bool := true
  deriving DecidableEq, Repr

/-- A token of an annotated sentence as read from the corpus: the token with id
`i` is entry `i - 1`; `head` is the id of its gold head (`0` for the root) and
`label` its gold dependency label (attribute `DEPREL`). -/
structure Token where
  form : List Char := []
  pos : Option (List Char) := none
  head : Nat := 0
  label : List Char := []
  deriving DecidableEq, Repr, Inhabited

/-- A sentence with its annotation. -/
abbrev Sentence := List Token

/-- A `TreeToken`: `head` and `label` are `linkHead()` and `linkLabel()`,
`left` and `right` the child vectors (pointers, in vector order), `form`, `pos`
and `deprel` the attributes of the token payload (`deprel` is what
`get("DEPREL")` returns). -/
structure TreeToken where
  id : Nat
  head : Nat := 0
  label : List Char := []
  left : List Nat := []
  right : List Nat := []
  form : List Char := []
  pos : Option (List Char) := none
  deprel : List Char := []
  deriving DecidableEq, Repr, Inhabited

/-- What a state reads of its predecessor through `previous`: the recorded
action and the sentence vector. -/
structure Predecessor where
  action : Option Action
  sentence : List Nat
  deriving DecidableEq, Repr

/-- The fields of `State`, with the memory `nodes` holding the `TreeToken`
objects.  `sentence` is the vector of pointers to the tokens (entry `i - 1` for
id `i`), `action` the recorded action (`none` is the null pointer), `previous`
the predecessor (`none` is the null pointer). -/
structure State where
  nodes : List TreeToken
  sentence : List Nat
  stack : List Nat
  input : List Nat
  extracted : List Nat := []
  action : Option Action := none
  previous : Option Predecessor := none
  afterUnshift : Bool := false
  deriving DecidableEq, Repr

/-- Outcome of a member function returning `State*`. -/
inductive Result where
  | this (s : State)
  | null (s : State)
  | undefined
  deriving DecidableEq, Repr

/-- The function returned a null pointer. -/
def Result.isNull : Result → Bool
  | .null _ => true
  | _ => false

/-- The object `*p`. -/
def State.node (s : State) (p : Nat) : TreeToken := s.nodes.getD p default

/-- Assignment to the object `*p`. -/
def State.setNode (s : State) (p : Nat) (t : TreeToken) : State :=
  { s with nodes := s.nodes.set p t }

/-- The call `p->linkHead(h, 0)`. -/
def State.linkHead (s : State) (p h : Nat) : State :=
  s.setNode p { s.node p with head := h }

/-- The call `p->linkLabel(l)`. -/
def State.linkLabel (s : State) (p : Nat) (l : List Char) : State :=
  s.setNode p { s.node p with label := l }

/-- The call `p->left.push_back(c)`. -/
def State.pushLeft (s : State) (p c : Nat) : State :=
  s.setNode p { s.node p with left := (s.node p).left ++ [c] }

/-- The call `p->right.push_back(c)`. -/
def State.pushRight (s : State) (p c : Nat) : State :=
  s.setNode p { s.node p with right := (s.node p).right ++ [c] }

/-- The virtual member `copy`: the receiver after the call and the pointer
returned. -/
abbrev Copy := State → Nat → State × Nat

/-- `State::copy` of the base class (used by `TrainState`): nodes are modified
in place. -/
def State.copy : Copy := fun s x => (s, x)

/-- The value `action[1] - '0'` converted to `unsigned` (32 bits, modulus 4294967296); `action[1]`
is the terminating `0` when the action has a single character. -/
def actionDepth (action : Action) : Nat :=
  match action with
  | _ :: c :: _ => (c.toNat + 4294967296 - 48) % 4294967296
  | _ => 4294967296 - 48

/-- The constructor `State::State(sent, info)` (with `RightToLeft` off): the
synthetic root is object `0`, token `i` is object `i`; every token comes
without links. -/
def State.init (sent : Sentence) : State :=
  { nodes := { id := 0, form := ['#', 'N', 'U', 'L', 'L'] } ::
      (List.range sent.length).map fun i =>
        { id := i + 1, form := (sent.getD i default).form, pos := (sent.getD i default).pos,
          deprel := (sent.getD i default).label }
    sentence := (List.range sent.length).map (· + 1)
    stack := [0]
    input := (List.range sent.length).map (· + 1) }

/-- `State::hasNext`. -/
def State.hasNext (s : State) : Bool := !s.input.isEmpty

/-! ## Parsing actions -/

/-- `State::Shift`. -/
def State.Shift (s : State) : Result :=
  match s.input with
  | [] => .undefined
  | next :: input =>
    .this { s with input := input, stack := next :: s.stack, action := some ['S'],
                   afterUnshift := false }

/-- `State::Unshift`. -/
def State.Unshift (s : State) : Result :=
  if s.stack.length < 2 then .null s else
  match s.stack with
  | [] => .undefined
  | top :: stack =>
    .this { s with stack := stack, input := top :: s.input, action := some ['U'],
                   afterUnshift := true }

/-- `State::Right`: pop top and add it as left child to next token. -/
def State.Right (cfg : FeatureConfig) (copy : Copy) (s : State) (action : Action) : Result :=
  if s.stack.length = 1 then .null s else
  match s.stack with
  | [] => .undefined
  | t :: _ =>
    let (s, top) := copy s t
    let s := { s with stack := s.stack.tail }
    match s.input with
    | [] => .undefined
    | n :: _ =>
      let (s, next) := copy s n
      let s := { s with input := next :: s.input.tail }
      let s := s.pushLeft next top
      let s := s.linkHead top (s.node next).id
      let s := if cfg.CompositeActions then s.linkLabel top (action.drop 1) else s
      .this { s with action := some action }

/-- `State::Left`: pop top, add to it next token as right child and replace
next. -/
def State.Left (cfg : FeatureConfig) (copy : Copy) (s : State) (action : Action) : Result :=
  match s.stack with
  | [] => .undefined
  | t :: _ =>
    let (s, top) := copy s t
    match s.input with
    | [] => .undefined
    | n :: _ =>
      let (s, next) := copy s n
      let s := s.pushRight top next
      let s :=
        if cfg.arcEager then
          { s with stack := next :: s.stack, input := s.input.tail }
        else if cfg.CompositeActions then
          if s.stack.length > 1 then
            { s with stack := s.stack.tail, input := top :: s.input.tail }
          else
            { s with stack := top :: s.stack.tail, input := s.input.tail }
        else
          if s.stack.length ≠ 0 then
            { s with stack := s.stack.tail, input := top :: s.input.tail }
          else s
      let s := s.linkHead next (s.node top).id
      let s := if cfg.CompositeActions then s.linkLabel next (action.drop 1) else s
      .this { s with action := some action }

/-- `State::right` (`r2`, `r3`, `r4`): pop n-th top and add it as left child to
next token. -/
def State.right (cfg : FeatureConfig) (copy : Copy) (s : State) (action : Action) : Result :=
  let n := actionDepth action
  if s.stack.length ≤ n then .null s else
  if n = 0 then .undefined else
    let (s, nthTop) := copy s (s.stack.getD (n - 1) 0)
    let s := { s with stack := s.stack.eraseIdx (n - 1) }
    match s.input with
    | [] => .undefined
    | i :: _ =>
      let (s, next) := copy s i
      let s := s.pushLeft next nthTop
      let s := s.linkHead nthTop (s.node next).id
      if cfg.CompositeActions then
        let s := s.linkLabel nthTop (action.drop 2)
        match s.stack with
        | [] => .undefined
        | b :: stack =>
          .this { s with input := b :: s.input, stack := stack, action := some action }
      else
        .this { s with action := some action }

/-- The loop of `State::left`: `k` times `input.push_back(stack.back());
stack.pop_back()`; `none` when the stack runs empty. -/
def moveBack : Nat → List Nat → List Nat → Option (List Nat × List Nat)
  | 0, stack, input => some (stack, input)
  | _ + 1, [], _ => none
  | k + 1, b :: stack, input => moveBack k stack (b :: input)

/-- `State::left` (`l2`, `l3`, `l4`): add next token as right child to n-th top,
move n tokens from stack to input.  For `n = 0` the read `stack[stack.size()]`
is outside the vector; for `n = 1` the unsigned bound `n-2` of the loop is
4294967295 and the loop runs the stack empty. -/
def State.left (cfg : FeatureConfig) (copy : Copy) (s : State) (action : Action) : Result :=
  let n := actionDepth action
  if s.stack.length < n then .null s else
  if n < 2 then .undefined else
    let (s, nthTop) := copy s (s.stack.getD (n - 1) 0)
    match s.input with
    | [] => .undefined
    | i :: _ =>
      let (s, next) := copy s i
      let s := s.pushRight nthTop next
      let s := s.linkHead next (s.node nthTop).id
      let s := if cfg.CompositeActions then s.linkLabel next (action.drop 2) else s
      match s.stack with
      | [] => .undefined
      | b :: stack =>
        let s := { s with input := b :: s.input.tail, stack := stack }
        match moveBack (n - 2) s.stack s.input with
        | none => .undefined
        | some (stack, input) =>
          let s := { s with stack := stack, input := input }
          if s.stack.length > 1 then
            .this { s with input := nthTop :: s.input, stack := s.stack.tail,
                           action := some action }
          else
            match s.stack with
            | [] => .undefined
            | _ :: stack => .this { s with stack := nthTop :: stack, action := some action }

/-- The character `a[0]` of a possibly null C string: `none` for the null
pointer, `some none` for the terminating `0` of the empty string. -/
def firstChar : Option Action → Option (Option Char)
  | none => none
  | some a => some a.head?

/-- `State::DepLink`. -/
def State.DepLink (s : State) (action : Action) : Result :=
  match s.input with
  | [] => .undefined
  | next :: _ =>
    match firstChar (match s.previous with | some p => p.action | none => s.action) with
    | none => .undefined
    | some c =>
      if c = some 'R' ∨ c = some 'r' then
        match (s.node next).left.getLast? with
        | none => .undefined
        | some child =>
          let s := s.linkLabel child (action.drop 1)
          match firstChar s.action with
          | none => .undefined
          | some c0 =>
            if c0 = some 'r' then
              match s.stack with
              | [] => .undefined
              | b :: stack =>
                .this { s with input := b :: s.input, stack := stack, action := some action }
            else
              .this { s with action := some action }
      else if c = some 'L' ∨ c = some 'l' then
        match (s.node next).right.getLast? with
        | none => .undefined
        | some child =>
          let s := s.linkLabel child (action.drop 1)
          if s.stack.isEmpty then
            .this { s with input := s.input.tail, stack := next :: s.stack,
                           action := some action }
          else
            .this { s with action := some action }
      else .this s

/-- `State::Extract`: move second stack token to Extracted and Shift. -/
def State.Extract (s : State) : Result :=
  if s.stack.length < 3 ∨ s.input.length < 1 then .null s else
  match s.stack, s.input with
  | top :: nthStack :: stack, next :: input =>
    .this { s with extracted := nthStack :: s.extracted, stack := next :: top :: stack,
                   input := input, action := some ['E'] }
  | _, _ => .undefined

/-- `State::Insert`: move token from Extracted to next. -/
def State.Insert (s : State) : Result :=
  match s.extracted with
  | [] => .null s
  | e :: extracted =>
    .this { s with input := e :: s.input, extracted := extracted, action := some ['I'] }

/-- `State::Pop`. -/
def State.Pop (s : State) : Result :=
  if s.stack.length < 2 then .null s else
  .this { s with stack := s.stack.tail, action := some ['P'] }

/-- `State::transition`: perform a parsing action; the `switch` on `action[0]`
(`none` for the terminating `0` of the empty string). -/
def State.transition (cfg : FeatureConfig) (copy : Copy) (s : State) (action : Action) : Result :=
  if action.head? = some 'S' then
    if s.input.isEmpty then .this s else s.Shift
  else if action.head? = some 'R' then
    if s.stack.length = 1 then s.Shift else s.Right cfg copy action
  else if action.head? = some 'L' then s.Left cfg copy action
  else if action.head? = some 'r' then s.right cfg copy action
  else if action.head? = some 'l' then s.left cfg copy action
  else if action.head? = some 'D' then s.DepLink action
  else if action.head? = some 'E' then s.Extract
  else if action.head? = some 'I' then s.Insert
  else if action.head? = some 'P' then s.Pop
  else if action.head? = some 'U' then s.Unshift
  else .null s

/-! ## Training oracle -/

/-- The fields `TrainState` adds to `State`: `annotated`, the copy of the
sentence that keeps the gold links, and the counters `dependents`. -/
structure TrainState extends State where
  annotated : Sentence
  dependents : List Int
  deriving DecidableEq, Repr

/-- The loop of `TrainState::TrainState` counting the dependents of each node,
`if (head) dependents[head-1]++`, on the vector resized to the length of the
sentence: `none` when a head lies beyond the sentence, the slot `head-1` being
outside the vector. -/
def countDependents (sent : Sentence) : Option (List Int) :=
  sent.foldlM (fun d tok => if tok.head = 0 then some d else
      d[tok.head - 1]?.map fun c => d.set (tok.head - 1) (c + 1))
    (List.replicate sent.length 0)

/-- The constructor `TrainState::TrainState(sent, info)`; the links of the
working tokens are cleared, `annotated` keeps them.  `none` when the count of
the dependents is undefined. -/
def TrainState.init (sent : Sentence) : Option TrainState :=
  (countDependents sent).map fun d =>
    { State.init sent with annotated := sent, dependents := d }

/-- The macro `ORIG(tok)`, `annotated[(tok)->id-1]`. -/
def TrainState.ORIG (ts : TrainState) (tok : Nat) : Option Token :=
  if (ts.node tok).id = 0 then none else ts.annotated[(ts.node tok).id - 1]?

/-- The macro `Resolved(tok)`, `!dependents[(tok)->id-1]`. -/
def TrainState.Resolved (ts : TrainState) (tok : Nat) : Option Bool :=
  if (ts.node tok).id = 0 then none
  else ts.dependents[(ts.node tok).id - 1]?.map (· == 0)

/-- The statement `dependents[(tok)->id-1]--`. -/
def TrainState.decrement (ts : TrainState) (tok : Nat) : Option TrainState :=
  if (ts.node tok).id = 0 then none
  else ts.dependents[(ts.node tok).id - 1]?.map fun d =>
    { ts with dependents := ts.dependents.set ((ts.node tok).id - 1) (d - 1) }

/-- `MakeAction(CompositeActions, a, dep)`: with `CompositeActions`, or for
`D`, `sprintf` writes `a`, `dep` and the terminating `0` into `char action[128]`;
`none` when they do not fit in the 128 characters. -/
def MakeAction (CompositeActions : Bool) (a : Action) (dep : List Char) : Option Action :=
  if CompositeActions || a == ['D'] then
    if a.length + dep.length + 1 ≤ 128 then some (a ++ dep) else none
  else some a

/-- The macro `NextToStackLink(n)` for `n ≥ 1` (arc: next -> top[-n]). -/
def TrainState.NextToStackLink (ts : TrainState) (n next : Nat) : Option Bool :=
  if ts.stack.length > n then
    (ts.ORIG (ts.stack.getD (n - 1) 0)).map fun o => o.head == (ts.node next).id
  else some false

/-- The macro `StackToNextLink(n)` for `n ≥ 1` (arc: top[-n] -> next). -/
def TrainState.StackToNextLink (ts : TrainState) (n nextHead : Nat) : Bool :=
  ts.stack.length > n && (ts.node (ts.stack.getD (n - 1) 0)).id == nextHead

/-- The C condition `a && b` where evaluating `b` may be undefined. -/
def andThen (a : Bool) (b : Option Bool) : Option Bool := if a then b else some false

/-- The test `this->action && strchr("RrLl", this->action[0])` of
`TrainState::nextAction`; `strchr` also finds the terminating `0`, the first
character of the empty string. -/
def strchrRrLl (action : Option Action) : Bool :=
  match action with
  | some (c :: _) => c = 'R' ∨ c = 'r' ∨ c = 'L' ∨ c = 'l'
  | some [] => true
  | none => false

/-- `TrainState::nextAction`: the action returned (`none` for the null pointer)
and the receiver after the call; `none` when the call is undefined. -/
def TrainState.nextAction (cfg : FeatureConfig) (ts : TrainState) :
    Option (Option Action × TrainState) :=
  if ts.input.length = 0 then
    if ts.stack.length > 1 then some (some ['U'], ts) else some (none, ts)
  else if !cfg.CompositeActions && strchrRrLl ts.action then
    match ts.input, ts.action with
    | next :: _, some (c :: _) =>
      if c = 'R' ∨ c = 'r' then
        (ts.node next).left.getLast?.bind fun ch =>
          (MakeAction cfg.CompositeActions ['D'] (ts.node ch).deprel).map fun a => (some a, ts)
      else
        (ts.node next).right.getLast?.bind fun ch =>
          (MakeAction cfg.CompositeActions ['D'] (ts.node ch).deprel).map fun a => (some a, ts)
    | _ :: _, _ => some (none, ts)
    | [], _ => none
  else if ts.stack.length = 0 then some (some ['S'], ts)
  else
    match ts.input, ts.stack with
    | next :: _, top :: _ => do
      let onext ← ts.ORIG next
      let nextHead := onext.head
      let nextLabel := onext.label
      let c4 := ts.extracted.length ≠ 0 &&
        nextHead == (ts.node (ts.extracted.headD 0)).id
      if c4 then some (some ['I'], ts) else
      let c5 ← andThen ((ts.node top).id ≠ 0)
        ((ts.ORIG top).map fun o => o.head == (ts.node next).id)
      if c5 then do
        let r ← ts.Resolved top
        if !r then some (some ['S'], ts) else do
        let ts ← ts.decrement next
        let otop ← ts.ORIG top
        (MakeAction cfg.CompositeActions ['R'] otop.label).map fun a => (some a, ts)
      else
      let c6 ← andThen (cfg.arcEager && ts.stack.length > 1) (ts.Resolved top)
      if c6 then some (some ['P'], ts) else
      let c7 ← andThen (nextHead == (ts.node top).id) (ts.Resolved next)
      if c7 then do
        let ts ← if ts.stack.length > 1 then ts.decrement top else some ts
        (MakeAction cfg.CompositeActions ['L'] nextLabel).map fun a => (some a, ts)
      else
      let c8 ← (ts.NextToStackLink 2 next).bind fun l =>
        andThen l (ts.Resolved (ts.stack.getD 1 0))
      if c8 then do
        let ts ← ts.decrement next
        let o ← ts.ORIG (ts.stack.getD 1 0)
        (MakeAction cfg.CompositeActions ['r', '2'] o.label).map fun a => (some a, ts)
      else
      let c9 ← (ts.NextToStackLink 3 next).bind fun l =>
        andThen l (ts.Resolved (ts.stack.getD 2 0))
      if c9 then do
        let ts ← ts.decrement next
        let o ← ts.ORIG (ts.stack.getD 2 0)
        (MakeAction cfg.CompositeActions ['r', '3'] o.label).map fun a => (some a, ts)
      else
      let c10 ← (andThen (ts.input.length = 1) (ts.NextToStackLink 4 next)).bind fun l =>
        andThen l (ts.Resolved (ts.stack.getD 3 0))
      if c10 then do
        let ts ← ts.decrement next
        let o ← ts.ORIG (ts.stack.getD 3 0)
        (MakeAction cfg.CompositeActions ['r', '4'] o.label).map fun a => (some a, ts)
      else
      let c11 ← andThen (nextHead == (ts.node top).id) ((ts.Resolved next).map (!·))
      if c11 then some (some ['S'], ts) else
      let c12 ← andThen (ts.StackToNextLink 2 nextHead) (ts.Resolved next)
      if c12 then do
        let ts ← if ts.stack.length = 2 then some ts else ts.decrement (ts.stack.getD 1 0)
        (MakeAction cfg.CompositeActions ['l', '2'] nextLabel).map fun a => (some a, ts)
      else
      let c13 ← andThen (ts.StackToNextLink 3 nextHead) (ts.Resolved next)
      if c13 then do
        let ts ← if ts.stack.length > 3 then ts.decrement (ts.stack.getD 2 0) else some ts
        (MakeAction cfg.CompositeActions ['l', '3'] nextLabel).map fun a => (some a, ts)
      else
      let c14 ← andThen (ts.StackToNextLink 4 nextHead) (ts.Resolved next)
      if c14 then do
        let ts ← if ts.stack.length > 4 then ts.decrement (ts.stack.getD 3 0) else some ts
        (MakeAction cfg.CompositeActions ['l', '4'] nextLabel).map fun a => (some a, ts)
      else some (some ['S'], ts)
    | _, _ => none

/-- One round of the training loop, `transition(nextAction())`: `some none`
when `nextAction` returned the null pointer (the sequence is finished),
`some (some (a, ts))` when action `a` was emitted and applied, the receiver now
being `ts`, and `none` when one of the two calls is undefined. -/
def TrainState.step (cfg : FeatureConfig) (ts : TrainState) :
    Option (Option (Action × TrainState)) :=
  match ts.nextAction cfg with
  | none => none
  | some (none, _) => some none
  | some (some a, ts) =>
    match ts.toState.transition cfg State.copy a with
    | .undefined => none
    | .null s => some (some (a, { ts with toState := s }))
    | .this s => some (some (a, { ts with toState := s }))

/-- The training loop run for at most `fuel` rounds: the actions emitted and
the final state when `nextAction` returned the null pointer within `fuel`
rounds, `none` otherwise (a call was undefined, or the loop is still running). -/
def TrainState.run (cfg : FeatureConfig) : Nat → TrainState → Option (List Action × TrainState)
  | 0, _ => none
  | fuel + 1, ts =>
    match ts.step cfg with
    | none => none
    | some none => some ([], ts)
    | some (some (a, ts1)) => (TrainState.run cfg fuel ts1).map fun r => (a :: r.1, r.2)

/-- The state after `k` rounds of the training loop: `none` when one of the
calls is undefined or when `nextAction` returned the null pointer before `k`
actions were emitted. -/
def TrainState.after (cfg : FeatureConfig) : Nat → TrainState → Option TrainState
  | 0, ts => some ts
  | k + 1, ts =>
    match ts.step cfg with
    | some (some (_, ts1)) => TrainState.after cfg k ts1
    | _ => none

/-- Between two rounds of the loop no label is owed: the recorded action is not
a reduction, and a `TrainState` has no predecessor. -/
def TrainState.idle (ts : TrainState) : Prop :=
  ts.previous = none ∧ strchrRrLl ts.action = false

/-! ## Copy-on-write successor states (`ParseState`) -/

/-- Modelled from the spec: `ParseState::copy`, declared in `State.h`, which
is not among the sources.  "The helper `copy(tok)` returns `tok` if it is
already owned by the current state, otherwise allocates a fresh TokenGraph
carrying the same id and a pointer to the same underlying Token payload,
records the new node at slot `id-1` of the state's sentence, and returns it."
A node is taken to be owned by the state unless the predecessor's sentence
holds it at slot `id-1`; the fresh node starts as a copy of `*tok`; the
synthetic root (id 0, no slot) is returned as it is. -/
def ParseState.copy : Copy := fun s tok =>
  match s.previous with
  | none => (s, tok)
  | some p =>
    if (s.node tok).id ≠ 0 ∧ p.sentence[(s.node tok).id - 1]? = some tok then
      ({ s with nodes := s.nodes ++ [s.node tok]
                sentence := s.sentence.set ((s.node tok).id - 1) s.nodes.length },
       s.nodes.length)
    else (s, tok)

/-- Modelled from the spec: the copy constructor `ParseState(ParseState&)`,
declared in `State.h`, which is not among the sources: "`transition(action)`
clones `self`", "every `ParseState` preserves a link to its predecessor". -/
def ParseState.clone (p : State) : State :=
  { p with previous := some { action := p.action, sentence := p.sentence } }

/-- `ParseState::transition`: the receiver after the call and the successor
returned (`none` for the null pointer); `none` when the call is undefined.
`ispunct` is the test of the pattern `State::ispunct`. -/
def ParseState.transition (cfg : FeatureConfig) (copy : Copy) (ispunct : List Char → Bool)
    (p : State) (action : Action) : Option (State × Option State) :=
  let action : Action :=
    if p.extracted.length ≠ 0 && p.input.length ≠ 0 &&
        (action.head? = some 'S' || action.head? = some 'L') &&
        ispunct (p.node (p.input.headD 0)).form then ['I'] else action
  match (ParseState.clone p).transition cfg copy action with
  | .this next => some ({ p with nodes := next.nodes }, some next)
  | .null next => some ({ p with nodes := next.nodes }, none)
  | .undefined => none

/-! ## Notions used by the properties -/

/-- The function returned `this`. -/
def Result.isThis : Result → Bool
  | .this _ => true
  | _ => false

/-- The `switch` of `State::DepLink` takes one of its reduce cases: the action
it reads (of the predecessor, or of the state itself when there is none) starts
with `R`, `r`, `L` or `l`. -/
def State.afterReduce (s : State) : Bool :=
  let c := firstChar (match s.previous with | some p => p.action | none => s.action)
  c = some (some 'R') ∨ c = some (some 'r') ∨ c = some (some 'L') ∨ c = some (some 'l')

/-- The canonical alphabet: `S`, `U`, `E`, `I`, `P`, and `L`, `R`, `D`,
`l2`, `l3`, `l4`, `r2`, `r3`, `r4` followed by a label. -/
def canonical (a : Action) : Bool :=
  match a with
  | [c] => c = 'S' ∨ c = 'U' ∨ c = 'E' ∨ c = 'I' ∨ c = 'P' ∨ c = 'L' ∨ c = 'R' ∨ c = 'D'
  | c :: d :: _ =>
    c = 'L' ∨ c = 'R' ∨ c = 'D' ∨ ((c = 'l' ∨ c = 'r') ∧ (d = '2' ∨ d = '3' ∨ d = '4'))
  | [] => false

/-- A sequence of successful actions: the state reached when every
`transition` of the sequence returned `this`, `none` otherwise. -/
def State.transitions (cfg : FeatureConfig) : State → List Action → Option State
  | s, [] => some s
  | s, a :: rest =>
    match s.transition cfg State.copy a with
    | .this s1 => State.transitions cfg s1 rest
    | _ => none

/-- The stack is not empty and its bottom element is the synthetic root (the
object 0, with id 0). -/
def State.rootAtBottom (s : State) : Prop :=
  s.stack.getLast? = some 0 ∧ (s.node 0).id = 0

/-- Gold head of the token with id `t` (`0` for the synthetic root). -/
def goldHead (sent : Sentence) (t : Nat) : Nat :=
  if t = 0 then 0 else (sent.getD (t - 1) default).head

/-- Gold label of the token with id `t`. -/
def goldLabel (sent : Sentence) (t : Nat) : List Char := (sent.getD (t - 1) default).label

/-- Two arcs, between positions `a`, `b` and between positions `c`, `d`, cross:
the second starts strictly inside the first and ends strictly beyond it. -/
def crossing (a b c d : Nat) : Prop :=
  min a b < min c d ∧ min c d < max a b ∧ max a b < max c d

/-- The gold links form a tree on the synthetic root: every head is a token of
the sentence or the root, and following the heads from any token arrives at
the root within `sent.length` steps. -/
def goldTree (sent : Sentence) : Prop :=
  (∀ i < sent.length, goldHead sent (i + 1) ≤ sent.length) ∧
  ∀ i < sent.length, (goldHead sent)^[sent.length] (i + 1) = 0

/-- The gold tree is projective: drawn above the sentence, with the synthetic
root at position 0, no two arcs cross. -/
def projective (sent : Sentence) : Prop :=
  ∀ i < sent.length, ∀ j < sent.length,
    ¬ crossing (goldHead sent (i + 1)) (i + 1) (goldHead sent (j + 1)) (j + 1)

instance (a b c d : Nat) : Decidable (crossing a b c d) := by
  unfold crossing; infer_instance

/-- Every gold label fits the buffer of `MakeAction` behind `R`, `L` or `D`:
the character of the action, the label and the terminating `0` are at most the
128 characters of `char action[128]`. -/
def labelsFit (sent : Sentence) : Prop := ∀ tok ∈ sent, tok.label.length + 2 ≤ 128

instance (sent : Sentence) : Decidable (labelsFit sent) := by
  unfold labelsFit; infer_instance

instance (sent : Sentence) : Decidable (goldTree sent) := by
  unfold goldTree; infer_instance

instance (sent : Sentence) : Decidable (projective sent) := by
  unfold projective; infer_instance

/-! ## Invariant of the oracle-driven run on a projective tree -/

/-- The tokens still waiting on the stack and the input (the synthetic root
among them), as the oracle keeps them on a projective gold tree.  Both lists are
top first, ids grow from the bottom of the stack to its top and on through the
input; a token that left both lists has been attached. -/
structure Frontier (sent : Sentence) (stack input : List Nat) : Prop where
  /-- The synthetic root is on the stack. -/
  zeroMem : 0 ∈ stack
  /-- Ids grow from the bottom of the stack to its top. -/
  stackSorted : stack.Pairwise (· > ·)
  /-- Ids grow from the next token through the input. -/
  inputSorted : input.Pairwise (· < ·)
  /-- The stack lies to the left of the input. -/
  stackInput : ∀ a ∈ stack, ∀ b ∈ input, a < b
  /-- Every waiting token is a token of the sentence. -/
  range : ∀ a, a ∈ stack ∨ a ∈ input → a ≤ sent.length
  /-- The gold head of a waiting token is waiting too. -/
  closed : ∀ c, c ∈ stack ∨ c ∈ input → c ≠ 0 →
    goldHead sent c ∈ stack ∨ goldHead sent c ∈ input
  /-- No token of the stack has its gold head above it on the stack. -/
  noHeadAbove : stack.Pairwise (fun a b => goldHead sent b ≠ a)
  /-- Every token of the stack has a gold arc to a waiting token on its right. -/
  waits : ∀ s ∈ stack, s ≠ 0 → ∃ p, (p ∈ stack ∨ p ∈ input) ∧ s < p ∧
    (goldHead sent s = p ∨ goldHead sent p = s)
  /-- When the input is used up only the root is left. -/
  drained : input = [] → stack = [0]

/-- Invariant of the training loop on the sentence `sent`: the waiting tokens
form a `Frontier`, the token objects sit at their ids, every attached token
carries its gold head and label, and `dependents` counts the waiting
dependents of each token. -/
structure OracleInv (sent : Sentence) (ts : TrainState) : Prop where
  front : Frontier sent ts.stack ts.input
  annotated : ts.annotated = sent
  sentence : ts.sentence = (List.range sent.length).map (· + 1)
  extracted : ts.extracted = []
  size : ts.nodes.length = sent.length + 1
  ids : ∀ p, p ≤ sent.length → (ts.node p).id = p
  deprel : ∀ p, 1 ≤ p → p ≤ sent.length → (ts.node p).deprel = goldLabel sent p
  attached : ∀ t, 1 ≤ t → t ≤ sent.length → t ∉ ts.stack → t ∉ ts.input →
    (ts.node t).head = goldHead sent t ∧ (ts.node t).label = goldLabel sent t
  depSize : ts.dependents.length = sent.length
  counts : ∀ t, 1 ≤ t → t ≤ sent.length →
    ts.dependents.getD (t - 1) 0 =
      ((ts.stack.countP (fun c => goldHead sent c == t) +
        ts.input.countP (fun c => goldHead sent c == t) : Nat) : Int)

/-! ## Concrete states used by the examples -/

/-- The state reached from the initial state of a one-token sentence by `L`
with `CompositeActions` off: the root was popped and is the next input token,
token 1 is its right child. -/
def leftOnRoot : State :=
  { State.init [{}] with
    nodes := [{ id := 0, form := ['#', 'N', 'U', 'L', 'L'], right := [1] }, { id := 1 }]
    stack := []
    input := [0]
    action := some ['L'] }

/-- The state reached from the initial state of a three-token sentence by two
shifts. -/
def twoShifted : State :=
  { State.init [{}, {}, {}] with stack := [2, 1, 0], input := [3], action := some ['S'] }

/-- The `ParseState` reached from the initial state of a two-token sentence by
`S`, with `CompositeActions` off. -/
def parseShifted : State :=
  { State.init [{}, {}] with
    stack := [1, 0]
    input := [2]
    action := some ['S']
    previous := some { action := none, sentence := [1, 2] } }

/-- The `ParseState` reached from `parseShifted` by `R`: the copies of tokens 1
and 2 made by `copy` are objects 3 and 4, token 1 hangs under token 2. -/
def parseReduced : State :=
  { State.init [{}, {}] with
    nodes := [{ id := 0, form := ['#', 'N', 'U', 'L', 'L'] }, { id := 1 }, { id := 2 },
      { id := 1, head := 2 }, { id := 2, left := [3] }]
    sentence := [3, 4]
    stack := [0]
    input := [4]
    action := some ['R']
    previous := some { action := some ['S'], sentence := [1, 2] } }

/-- The sentence `1/the 2/dog 3/barks` with gold `1->2/det`, `2->3/nsubj`,
`3->0/root`. -/
def theDogBarks : Sentence :=
  [{ form := ['t', 'h', 'e'], head := 2, label := ['d', 'e', 't'] },
   { form := ['d', 'o', 'g'], head := 3, label := ['n', 's', 'u', 'b', 'j'] },
   { form := ['b', 'a', 'r', 'k', 's'], head := 0, label := ['r', 'o', 'o', 't'] }]

/-- A sentence of four tokens with gold heads `1->4`, `2->0`, `3->0`, `4->0`: a
tree, not projective (the arc between 1 and 4 crosses the arcs from the root to
2 and 3). -/
def crossedRoots : Sentence :=
  [{ head := 4, label := ['x'] }, { head := 0, label := ['x'] }, { head := 0, label := ['x'] },
   { head := 0, label := ['x'] }]

/-- A sentence of one token, the root of its tree. -/
def oneRoot : Sentence := [{ head := 0, label := ['x'] }]

/-- A sentence of one token, the root of its tree, whose label has 127
characters: with the character of `L` or `D` before it and the terminating `0`
behind, one more than the 128 characters of the buffer of `MakeAction`. -/
def longLabel : Sentence := [{ head := 0, label := List.replicate 127 'x' }]

/-- The training state of `crossedRoots` after the six actions `S S S r3x S S`
of the default configuration: token 1 hangs under token 4, tokens 2, 3 and 4
are on the stack and the input is used up. -/
def crossedRootsStuck : TrainState :=
  { State.init crossedRoots with
    annotated := crossedRoots
    nodes := [{ id := 0, form := ['#', 'N', 'U', 'L', 'L'] },
      { id := 1, head := 4, label := ['x'], deprel := ['x'] },
      { id := 2, deprel := ['x'] }, { id := 3, deprel := ['x'] },
      { id := 4, left := [1], deprel := ['x'] }]
    stack := [4, 3, 2, 0]
    input := []
    action := some ['S']
    dependents := [0, 0, 0, 0] }

/-- The state `crossedRootsStuck` after the `U` that the oracle emits on it. -/
def crossedRootsUnshifted : TrainState :=
  { crossedRootsStuck with
    stack := [3, 2, 0]
    input := [4]
    action := some ['U']
    afterUnshift := true }

/-! ## Definitions for the scenarios, the root fix-up and the order of the children -/

/-- The sentence `1/A 2/B 3/C 4/D` with gold heads `1->4`, `2->1`, `3->1`,
`4->0` (no labels given). -/
def scenarioTwo : Sentence :=
  [{ form := ['A'], head := 4 }, { form := ['B'], head := 1 }, { form := ['C'], head := 1 },
   { form := ['D'], head := 0 }]

/-- The first `k` actions emitted by the training loop and the state after
them: `none` when a call is undefined or when `nextAction` returned the null
pointer before `k` actions were emitted. -/
def TrainState.stream (cfg : FeatureConfig) : Nat → TrainState → Option (List Action × TrainState)
  | 0, ts => some ([], ts)
  | k + 1, ts =>
    match ts.step cfg with
    | some (some (a, ts1)) => (TrainState.stream cfg k ts1).map fun r => (a :: r.1, r.2)
    | _ => none

/-- The sentence `1/He 2/eats 3/apples` with gold `1->2/nsubj`, `3->2/obj`,
`2->0/root`. -/
def heEatsApples : Sentence :=
  [{ form := ['H', 'e'], head := 2, label := ['n', 's', 'u', 'b', 'j'] },
   { form := ['e', 'a', 't', 's'], head := 0, label := ['r', 'o', 'o', 't'] },
   { form := ['a', 'p', 'p', 'l', 'e', 's'], head := 2, label := ['o', 'b', 'j'] }]

/-- The training state of `heEatsApples` with `ArcEager` on after the eight
actions `S`, `R nsubj`, `S`, `L obj`, `U`, `P`, `S`, `U`: tokens 1 and 3 hang
under token 2, which was popped without a head, token 3 is the next token. -/
def heEatsApplesUnshifted : TrainState :=
  { State.init heEatsApples with
    annotated := heEatsApples
    nodes := [{ id := 0, form := ['#', 'N', 'U', 'L', 'L'] },
      { id := 1, head := 2, label := ['n', 's', 'u', 'b', 'j'], form := ['H', 'e'],
        deprel := ['n', 's', 'u', 'b', 'j'] },
      { id := 2, left := [1], right := [3], form := ['e', 'a', 't', 's'],
        deprel := ['r', 'o', 'o', 't'] },
      { id := 3, head := 2, label := ['o', 'b', 'j'], form := ['a', 'p', 'p', 'l', 'e', 's'],
        deprel := ['o', 'b', 'j'] }]
    stack := [0]
    input := [3]
    action := some ['U']
    afterUnshift := true
    dependents := [0, 0, 0] }

/-- The state `heEatsApplesUnshifted` after the `S` that the oracle emits on
it. -/
def heEatsApplesShifted : TrainState :=
  { heEatsApplesUnshifted with
    stack := [3, 0]
    input := []
    action := some ['S']
    afterUnshift := false }

/-- The call returned a state or the null pointer. -/
def Result.defined : Result → Bool
  | .undefined => false
  | _ => true

/-- The members of `Language` read by `ParseState::hasNext`: the test
`rootPos(pos)` and the label `rootLabel()`. -/
structure Language where
  rootPos : List Char → Bool
  rootLabel : List Char

/-- The test `tokPos && lang->rootPos(*tokPos)` of `ParseState::hasNext` on the
node `p`: the token has a pos tag and the language flags it as a root tag. -/
def State.rootEligible (lang : Language) (s : State) (p : Nat) : Bool :=
  match (s.node p).pos with
  | some q => lang.rootPos q
  | none => false

/-- The first loop of `ParseState::hasNext` ("find root") over the stack from
its bottom: the id of the root chosen so far and the size of its subtree.
`size` is `TreeToken::size()`, which is not among the sources. -/
def ParseState.findRoot (lang : Language) (size : State → Nat → Int) (s : State) :
    List Nat → Nat × Int → Nat × Int
  | [], acc => acc
  | node :: rest, (root, rootSize) =>
    if (s.node node).head = 0 then
      if decide (size s node > rootSize) && s.rootEligible lang node then
        ParseState.findRoot lang size s rest ((s.node node).id, size s node)
      else ParseState.findRoot lang size s rest (root, rootSize)
    else ParseState.findRoot lang size s rest (root, rootSize)

/-- The second loop of `ParseState::hasNext` over the stack from its bottom:
connect nodes to root. -/
def ParseState.connectRoots (cfg : FeatureConfig) (lang : Language) (root : Nat) :
    List Nat → State → State
  | [], s => s
  | node :: rest, s =>
    if (s.node node).head = 0 ∧ (s.node node).id ≠ root then
      if cfg.SingleRoot then
        let s := s.linkHead node root
        let s := if (s.node node).label.isEmpty then s.linkLabel node lang.rootLabel else s
        ParseState.connectRoots cfg lang root rest s
      else
        ParseState.connectRoots cfg lang root rest (s.linkLabel node lang.rootLabel)
    else ParseState.connectRoots cfg lang root rest s

/-- `ParseState::hasNext`: the value returned and the receiver after the call;
`none` when `sentence[root-1]` is outside the sentence. -/
def ParseState.hasNext (cfg : FeatureConfig) (lang : Language) (size : State → Nat → Int)
    (s : State) : Option (Bool × State) :=
  let res := s.hasNext
  if res then some (res, s) else
  if s.stack.length > 2 then
    let root := (ParseState.findRoot lang size s s.stack.reverse (0, 0)).1
    if root ≠ 0 then
      match s.sentence[root - 1]? with
      | none => none
      | some rootNode =>
        let s := if (s.node rootNode).label.isEmpty then s.linkLabel rootNode lang.rootLabel
          else s
        some (res, ParseState.connectRoots cfg lang root s.stack.reverse s)
    else some (res, s)
  else some (res, s)

/-- Modelled from the spec: `TreeToken::size()`, declared in a header that is
not among the sources: the "subtree size" of a node, the node itself and the
subtrees of its children; `fuel` bounds the depth of the walk. -/
def subtreeSize (s : State) : Nat → Nat → Int
  | 0, _ => 1
  | fuel + 1, p =>
    1 + ((s.node p).left.map (subtreeSize s fuel)).sum +
      ((s.node p).right.map (subtreeSize s fuel)).sum

/-- The subtree size of the node `p` in the state `s`. -/
def State.size (s : State) (p : Nat) : Int := subtreeSize s s.nodes.length p

/-- A sequence of successful `ParseState::transition` calls, each on the
successor returned by the one before: the last successor. -/
def ParseState.successors (cfg : FeatureConfig) (ispunct : List Char → Bool) :
    State → List Action → Option State
  | p, [] => some p
  | p, a :: rest =>
    match ParseState.transition cfg ParseState.copy ispunct p a with
    | some (_, some next) => ParseState.successors cfg ispunct next rest
    | _ => none

/-- A sentence of three tokens with the pos tag `V`. -/
def threeVerbs : Sentence := [{ pos := some ['V'] }, { pos := some ['V'] }, { pos := some ['V'] }]

/-- A language whose root tag is `V` and whose root label is `ROOT`. -/
def verbRoot : Language := { rootPos := fun p => p == ['V'], rootLabel := ['R', 'O', 'O', 'T'] }

/-- The `ParseState` reached from the initial state of `threeVerbs`, with
`ArcEager` on, by `Lx`, `S`, `Ry`, `S`: token 1 (object 4) was attached to the
synthetic root under the label `x` and stays on the stack, token 2 (object 5)
hangs under token 3 (object 6), the input is used up. -/
def strayRoots : State :=
  { State.init threeVerbs with
    nodes := [{ id := 0, form := ['#', 'N', 'U', 'L', 'L'], right := [4] },
      { id := 1, pos := some ['V'] }, { id := 2, pos := some ['V'] },
      { id := 3, pos := some ['V'] },
      { id := 1, label := ['x'], pos := some ['V'] },
      { id := 2, head := 3, label := ['y'], pos := some ['V'] },
      { id := 3, left := [5], pos := some ['V'] }]
    sentence := [4, 5, 6]
    stack := [6, 4, 0]
    input := []
    action := some ['S']
    previous := some { action := some ['R', 'y'], sentence := [4, 5, 6] } }

/-- The stack from its bottom followed by the input from the next token: the
waiting tokens in the order of the sentence. -/
def State.line (s : State) : List Nat := s.stack.reverse ++ s.input

/-- `left[*].id < self.id < right[*].id` for every node of the state. -/
def State.childrenOrdered (s : State) : Prop :=
  ∀ p, (∀ c ∈ (s.node p).left, (s.node c).id < (s.node p).id) ∧
    (∀ c ∈ (s.node p).right, (s.node p).id < (s.node c).id)

/-- Invariant of the transitions without `E` and `I`: every object sits at its
id, the waiting tokens are objects of the state and come in the order of the
sentence, and every child was attached on the side of its parent it comes
from. -/
structure State.Ordered (s : State) : Prop where
  ids : ∀ p, p < s.nodes.length → (s.node p).id = p
  bound : ∀ a ∈ s.line, a < s.nodes.length
  sorted : s.line.Pairwise (· < ·)
  lefts : ∀ p, ∀ c ∈ (s.node p).left, c < p ∧ p < s.nodes.length
  rights : ∀ p, ∀ c ∈ (s.node p).right, p < c ∧ c < s.nodes.length

/-- The state reached from the initial state of a two-token sentence by the
actions `S`, `Ra`, `Lb` of the default configuration: token 1 hangs under
token 2, token 2 under the root. -/
def twoAttached : State :=
  { State.init [{}, {}] with
    nodes := [{ id := 0, form := ['#', 'N', 'U', 'L', 'L'], right := [2] },
      { id := 1, head := 2, label := ['a'] }, { id := 2, label := ['b'], left := [1] }]
    input := []
    action := some ['L', 'b'] }

/-- The token made a dependent by the reduction `a` on the state `s`: the top
of the stack for `R` ("pop top and add it as left child to next token"), the
n-th top for `r<n>`, the next token for `L` and `l<n>` ("add to it next token
as right child"). -/
def State.dependent (s : State) (a : Action) : Nat :=
  if a.head? = some 'R' then s.stack.headD 0
  else if a.head? = some 'r' then s.stack.getD (actionDepth a - 1) 0
  else s.input.headD 0

/-- The action starts with `R`, `r`, `L` or `l`. -/
def isReduce (a : Action) : Bool :=
  a.head? = some 'R' || a.head? = some 'r' || a.head? = some 'L' || a.head? = some 'l'

/-- The child that `nextAction` reads the label of, and that `DepLink` labels,
when the recorded action is a reduction: `next->left.back()` after `R`, `r<n>`,
`next->right.back()` after `L`, `l<n>`. -/
def State.labelTarget (s : State) : Option Nat :=
  match s.input, s.action with
  | next :: _, some (c :: _) =>
    if c = 'R' ∨ c = 'r' then (s.node next).left.getLast?
    else if c = 'L' ∨ c = 'l' then (s.node next).right.getLast?
    else none
  | _, _ => none

/-- Invariant of the training loop with `CompositeActions` and `ArcEager` off,
on any annotated sentence: the waiting tokens come in the order of the
sentence, every token carries its gold label as `DEPREL`, and either no label
is owed and the root is at the bottom of the stack, or the recorded action is a
reduction, the child it attached is where `D` looks for it, and the root will
be at the bottom of the stack after the `D`. -/
structure Driven (sent : Sentence) (s : State) : Prop where
  ord : s.Ordered
  size : s.nodes.length = sent.length + 1
  deprel : ∀ p, 1 ≤ p → p ≤ sent.length → (s.node p).deprel = goldLabel sent p
  prev : s.previous = none
  extr : s.extracted = []
  mode : (strchrRrLl s.action = false ∧ s.stack.getLast? = some 0) ∨
    (∃ d, s.labelTarget = some d ∧ 1 ≤ d ∧ d ≤ sent.length ∧
      (firstChar s.action = some (some 'r') → s.stack.tail.getLast? = some 0) ∧
      (firstChar s.action = some (some 'L') →
        s.stack.getLast? = some 0 ∨ (s.stack = [] ∧ s.input.head? = some 0)) ∧
      (firstChar s.action ≠ some (some 'r') → firstChar s.action ≠ some (some 'L') →
        s.stack.getLast? = some 0))

/-- The training state of `theDogBarks` after the first action, `S`. -/
def theDogBarksShifted : TrainState :=
  { State.init theDogBarks with
    annotated := theDogBarks
    dependents := [0, 1, 1]
    stack := [1, 0]
    input := [2, 3]
    action := some ['S'] }

/-- The training state reached from `theDogBarksShifted` by `R` with
`CompositeActions` off: token 1 is the last left child of token 2 and carries
no label yet. -/
def theDogBarksAttached : TrainState :=
  { State.init theDogBarks with
    annotated := theDogBarks
    nodes := [{ id := 0, form := ['#', 'N', 'U', 'L', 'L'] },
      { id := 1, head := 2, form := ['t', 'h', 'e'], deprel := ['d', 'e', 't'] },
      { id := 2, left := [1], form := ['d', 'o', 'g'], deprel := ['n', 's', 'u', 'b', 'j'] },
      { id := 3, form := ['b', 'a', 'r', 'k', 's'], deprel := ['r', 'o', 'o', 't'] }]
    stack := [0]
    input := [2, 3]
    action := some ['R']
    dependents := [0, 0, 1] }

/-! ## Definitions for the feature extraction, the oracle rules and the conservation of tokens -/

/-- The state reached from the initial state of a four-token sentence by
`S`, `S`, `S`, `Rx` under the default configuration: stack root, 1, 2; next
token 4 with the left child 3. -/
def threeUnderFour : State :=
  { State.init [{}, {}, {}, {}] with
    nodes := [{ id := 0, form := ['#', 'N', 'U', 'L', 'L'] }, { id := 1 }, { id := 2 },
      { id := 3, head := 4, label := ['x'] }, { id := 4, left := [3] }]
    stack := [2, 1, 0]
    input := [4]
    action := some ['R', 'x'] }

/-- The vector `Features` of the predicates of a state. -/
abbrev Features := List (List Char)

/-- The sign of `std::string::compare`: negative when the receiver comes first
in lexicographic order, `0` when the strings are equal, positive otherwise. -/
def compareStr : List Char → List Char → Int
  | [], [] => 0
  | [], _ :: _ => -1
  | _ :: _, [] => 1
  | a :: as, b :: bs => if a < b then -1 else if b < a then 1 else compareStr as bs

/-- The body of the inner loop of the `SecondOrder` block of
`State::predicates`: the string `combo` made of `preds[i]` and `preds[j]`,
"in alphabetical order". -/
def combo (preds : Features) (i j : Nat) : List Char :=
  if compareStr (preds.getD i []) (preds.getD j []) < 0 then
    preds.getD i [] ++ '#' :: preds.getD j []
  else preds.getD j [] ++ '#' :: preds.getD i []

/-- The inner loop `for (j = ...; j < predNo; j++) preds.push_back(combo)`,
from the current value of `j`; `fuel` bounds the number of rounds. -/
def pairLoop (predNo i : Nat) : Nat → Nat → Features → Features
  | 0, _, preds => preds
  | fuel + 1, j, preds =>
    if j < predNo then pairLoop predNo i fuel (j + 1) (preds ++ [combo preds i j]) else preds

/-- The outer loop `for (i = ...; i < predNo; i++)`, from the current value of
`i`, the inner loop starting at `j = i+1`. -/
def pairsLoop (predNo : Nat) : Nat → Nat → Features → Features
  | 0, _, preds => preds
  | fuel + 1, i, preds =>
    if i < predNo then pairsLoop predNo fuel (i + 1) (pairLoop predNo i predNo (i + 1) preds)
    else preds

/-- The `SecondOrder` block of `State::predicates` ("add all pairs") applied to
the predicates emitted so far.  The counters `i` and `j` are `unsigned` (32
bits): with 4294967296 predicates or more they wrap around before reaching
`predNo` and the loops do not end (`none`). -/
def secondOrder (preds : Features) : Option Features :=
  if preds.length < 4294967296 then some (pairsLoop preds.length preds.length 0 preds)
  else none

/-- The pair predicate of the specification for two predicates:
`min(p,q) + '#' + max(p,q)` under the lexicographic order of strings. -/
def pairPredicate (p q : List Char) : List Char := min p q ++ '#' :: max p q

/-- The pair predicates of the specification: one for every pair of positions
`i < j`, by increasing `i`, then increasing `j`. -/
def pairPredicates (preds : Features) : Features :=
  ((List.range preds.length).map fun i =>
    ((List.range preds.length).filter fun j => i < j).map fun j =>
      pairPredicate (preds.getD i []) (preds.getD j [])).flatten

/-- A `TokenPath` as `State::tokenFeatures` reads it: the anchor `root`
(negative for the stack positions -1, -2, ..., otherwise an input position 0,
1, 2, ...), the value of `Code()` and the value of `length()`. -/
structure TokenPath where
  root : Int
  code : List Char := []
  length : Nat := 0
  deriving DecidableEq, Repr

/-- One `FeatureSpec` of a chain: the index of its attribute
(`conf_features::featureIndex[attrName]`, or `next->attrIndex(attrName)` for
the old version) and its path. -/
structure FeatureSpec where
  attrIndex : Nat
  path : TokenPath
  deriving DecidableEq, Repr

/-- The members of `TreeToken` that `tokenFeatures` calls and whose code is in a
header: `tok->follow(tp, sentence)` and `tok->predicted(attrName)`, `none` being
the null pointer, and the test of the pattern `State::nonWordAscii`. -/
structure TokenAccess where
  follow : State → Nat → TokenPath → Option Nat
  predicted : State → Nat → Nat → Option (List Char)
  nonWordAscii : List Char → Bool

/-- The fields of `FeatureConfig` read by `tokenFeatures`. -/
structure TokenFeatureConfig where
  features : List (List FeatureSpec)
  LexChildNonWord : Bool := true
  unambiguous : Bool := true

/-- The conversion `%d` of `snprintf` for an `int`. -/
def printInt (i : Int) : List Char :=
  if i < 0 then '-' :: Nat.toDigits 10 i.natAbs else Nat.toDigits 10 i.natAbs

/-- The feature type identifier `char featId = 'A' + attrIndex`, as the byte
that `%c` writes. -/
def featId (attrIndex : Nat) : Char := Char.ofNat ((65 + attrIndex) % 256)

/-- The text written by the `snprintf` of the main loop of `tokenFeatures` for
one `FeatureSpec`, with the four formats `"%s%d%c%s"`, `"%s%c%d%s"`,
`"%d%c%s%s"` and `"%c%d%s%s"`. -/
def featureText (unambiguous : Bool) (tp : TokenPath) (id : Char) (item : List Char) :
    List Char :=
  if unambiguous then
    if tp.root < 0 then tp.code ++ printInt (-tp.root) ++ [id] ++ item
    else tp.code ++ [id] ++ printInt tp.root ++ item
  else
    if tp.root < 0 then printInt (-tp.root) ++ [id] ++ tp.code ++ item
    else [id] ++ printInt tp.root ++ tp.code ++ item

/-- The call `fill += snprintf(fill, end - fill, ...)` on the buffer
`feature[4096]`: `text` is the string in the buffer, `pos` the offset of `fill`.
The text is truncated at 4095 characters; once `fill` is beyond `end` the size
argument wraps around and the write is outside the buffer (`none`). -/
def writeText (text : List Char) (pos : Nat) (piece : List Char) : Option (List Char × Nat) :=
  if pos > 4096 then none
  else if pos = 4096 then some (text, pos + piece.length)
  else some ((text ++ piece).take 4095, pos + piece.length)

/-- The token a path starts from: `stack[stack.size() + tp.root]` or
`input[input.size() - 1 - tp.root]`; `none` when the position is not there and
the loop breaks. -/
def State.anchor (s : State) (root : Int) : Option Nat :=
  if root < 0 then
    if -root > (s.stack.length : Int) - 1 then none else s.stack[(-root).toNat - 1]?
  else
    if root ≥ (s.input.length : Int) then none else s.input[root.toNat]?

/-- `childPunctFeature`: the predicates added for the token `tok` and the set
`lexChildNonWordTokens` after the call; the buffer has 8 characters. -/
def childPunctFeature (ta : TokenAccess) (unambiguous : Bool) (s : State) (tok : Nat)
    (root : Int) (visited : List Nat) : Features × List Nat :=
  if tok ∈ visited then ([], visited) else
    let l : Features :=
      if (s.node tok).left.any fun c => ta.nonWordAscii (s.node c).form then
        [((if unambiguous then ['/', '.'] ++ printInt root
          else ['.'] ++ printInt root ++ ['/']) : List Char).take 7]
      else []
    let r : Features :=
      if (s.node tok).right.any fun c => ta.nonWordAscii (s.node c).form then
        [((if unambiguous then ['\\', '.'] ++ printInt root
          else ['.'] ++ printInt root ++ ['\\']) : List Char).take 7]
      else []
    (l ++ r, tok :: visited)

/-- The inner loop of `tokenFeatures` over the `FeatureSpec`s of one chain,
from the current one: the predicates pushed and the set of visited tokens;
`first` tells that the current spec is the head of the chain. -/
def State.chainFeatures (ta : TokenAccess) (cfg : TokenFeatureConfig) (s : State) :
    List FeatureSpec → Bool → List Char → Nat → List Nat → Option (Features × List Nat)
  | [], _, _, _, visited => some ([], visited)
  | fs :: rest, first, text, pos, visited =>
    match s.anchor fs.path.root with
    | none => some ([], visited)
    | some tok0 =>
      match ta.follow s tok0 fs.path with
      | none => State.chainFeatures ta cfg s rest false text pos visited
      | some tok =>
        match ta.predicted s tok fs.attrIndex with
        | none => some ([], visited)
        | some item =>
          if item = [] then some ([], visited) else
          match writeText text pos
              (featureText cfg.unambiguous fs.path (featId fs.attrIndex) item) with
          | none => none
          | some (text, pos) =>
            match rest with
            | [] =>
              if first ∧ fs.path.length = 0 ∧ cfg.LexChildNonWord then
                let r := childPunctFeature ta cfg.unambiguous s tok fs.path.root visited
                some (text :: r.1, r.2)
              else some ([text], visited)
            | _ :: _ => State.chainFeatures ta cfg s rest false text pos visited

/-- The main loop of `State::tokenFeatures` over the chains of
`config->features`: the predicates pushed.  (The computation of the split
feature, which pushes no predicate, is left out.) -/
def State.tokenFeaturesLoop (ta : TokenAccess) (cfg : TokenFeatureConfig) (s : State) :
    List (List FeatureSpec) → List Nat → Option Features
  | [], _ => some []
  | chain :: chains, visited =>
    match State.chainFeatures ta cfg s chain true [] 0 visited with
    | none => none
    | some (preds, visited) =>
      (State.tokenFeaturesLoop ta cfg s chains visited).map fun r => preds ++ r

/-- `State::tokenFeatures`: the predicates pushed; `none` when the input is
empty (`input.back()` is read first) or a write is outside the buffer. -/
def State.tokenFeatures (ta : TokenAccess) (cfg : TokenFeatureConfig) (s : State) :
    Option Features :=
  if s.input = [] then none else State.tokenFeaturesLoop ta cfg s cfg.features []

/-- The layout of one piece of a templated token feature in the words of the
specification, the order of anchor number and letter corrected: with
`UnambiguousFeatures` the path code comes first, then `<n><letter>` for a stack
anchor (`root < 0`, `n = -root`) or `<letter><n>` for an input anchor
(`root >= 0`, `n = root`), then the attribute value; without it the anchor
number and the letter, in the same order, precede the path code. -/
def pieceLayout (unambiguous : Bool) (path : List Char) (root : Int) (letter : Char)
    (value : List Char) : List Char :=
  if unambiguous then
    if root < 0 then path ++ printInt (-root) ++ [letter] ++ value
    else path ++ [letter] ++ printInt root ++ value
  else
    if root < 0 then printInt (-root) ++ [letter] ++ path ++ value
    else [letter] ++ printInt root ++ path ++ value

/-- What one `FeatureSpec` contributes to the feature of its chain: `none` when
the chain is given up (the anchor is not on the stack or the input, or the
attribute is missing or empty), `some none` when the path finds no token and
the spec is passed over, `some (some piece)` when it contributes the piece
`piece`, laid out by `pieceLayout`. -/
def State.specPiece (ta : TokenAccess) (cfg : TokenFeatureConfig) (s : State)
    (fs : FeatureSpec) : Option (Option (List Char)) :=
  match s.anchor fs.path.root with
  | none => none
  | some tok0 =>
    match ta.follow s tok0 fs.path with
    | none => some none
    | some tok =>
      match ta.predicted s tok fs.attrIndex with
      | none => none
      | some value =>
        if value = [] then none
        else some (some (pieceLayout cfg.unambiguous fs.path.code fs.path.root
          (featId fs.attrIndex) value))

/-- The pieces of a chain: one for each of its `FeatureSpec`s that finds a
token. -/
def State.chainPieces (ta : TokenAccess) (cfg : TokenFeatureConfig) (s : State)
    (chain : List FeatureSpec) : List (List Char) :=
  chain.filterMap fun fs => (s.specPiece ta cfg fs).join

/-- The templated token feature of a chain: when no `FeatureSpec` gives the
chain up and the last one finds a token, the pieces of the chain one after the
other, cut at the 4095 characters of the buffer; otherwise none. -/
def State.chainFeature (ta : TokenAccess) (cfg : TokenFeatureConfig) (s : State)
    (chain : List FeatureSpec) : Option (List Char) :=
  if chain.all (fun fs => (s.specPiece ta cfg fs).isSome) &&
      ((chain.getLast?.bind (s.specPiece ta cfg)).join).isSome then
    some ((s.chainPieces ta cfg chain).flatten.take 4095)
  else none

/-- The value of `chainFeature` on the rest of a chain, `acc` being the pieces
written so far. -/
def restFeature (ta : TokenAccess) (cfg : TokenFeatureConfig) (s : State)
    (acc : List Char) (l : List FeatureSpec) : Option (List Char) :=
  if l.all (fun fs => (s.specPiece ta cfg fs).isSome) &&
      ((l.getLast?.bind (s.specPiece ta cfg)).join).isSome then
    some ((acc ++ (s.chainPieces ta cfg l).flatten).take 4095)
  else none

/-- A `TokenAccess` for the examples: every path stays on its anchor, the
attribute of index 0 is the form, and no form is a non-word. -/
def formAccess : TokenAccess :=
  { follow := fun _ tok _ => some tok
    predicted := fun s tok _ => some (s.node tok).form
    nonWordAscii := fun _ => false }

/-- The actions `TrainState::nextAction` can return on the state `ts`, each with
what the rule that returns it has tested: `digit` is the character of `n`. -/
inductive Emits (cfg : FeatureConfig) (ts : TrainState) : Action → Prop
  | U : ts.input = [] → 1 < ts.stack.length → Emits cfg ts ['U']
  | D (l : List Char) (ch : Nat) : ts.input ≠ [] → ts.labelTarget = some ch →
      Emits cfg ts ('D' :: l)
  | S : ts.input ≠ [] → Emits cfg ts ['S']
  | I : ts.input ≠ [] → ts.extracted ≠ [] → Emits cfg ts ['I']
  | R (l : List Char) (a : Action) : ts.input ≠ [] → ts.stack ≠ [] →
      MakeAction cfg.CompositeActions ['R'] l = some a → Emits cfg ts a
  | P : ts.input ≠ [] → cfg.arcEager = true → 1 < ts.stack.length → Emits cfg ts ['P']
  | L (l : List Char) (a : Action) : ts.input ≠ [] → ts.stack ≠ [] →
      MakeAction cfg.CompositeActions ['L'] l = some a → Emits cfg ts a
  | r (n : Nat) (digit : Char) (l : List Char) (a : Action) :
      (n = 2 ∧ digit = '2' ∨ n = 3 ∧ digit = '3' ∨ n = 4 ∧ digit = '4') →
      ts.input ≠ [] → n < ts.stack.length →
      MakeAction cfg.CompositeActions ['r', digit] l = some a → Emits cfg ts a
  | l (n : Nat) (digit : Char) (l : List Char) (a : Action) :
      (n = 2 ∧ digit = '2' ∨ n = 3 ∧ digit = '3' ∨ n = 4 ∧ digit = '4') →
      ts.input ≠ [] → n < ts.stack.length →
      MakeAction cfg.CompositeActions ['l', digit] l = some a → Emits cfg ts a

/-- A sentence of three tokens with gold heads `1->3`, `2->0`, `3->0`: the arc
from the root to token 2 crosses the arc from token 3 to token 1. -/
def rootOverOne : Sentence :=
  [{ head := 3, label := ['a'] }, { head := 0, label := ['b'] }, { head := 0, label := ['c'] }]

/-- The training state of `rootOverOne` after the first action, `S`: stack
root, 1; next token 2. -/
def rootOverOneShifted : TrainState :=
  { State.init rootOverOne with
    annotated := rootOverOne
    dependents := [0, 0, 1]
    stack := [1, 0]
    input := [2, 3]
    action := some ['S'] }

/-- What `DepLink` relies on in a `TrainState`: the state has no predecessor,
and its stack is not empty when its recorded action is `r<n>`. -/
def State.labelReady (s : State) : Prop :=
  s.previous = none ∧ (firstChar s.action = some (some 'r') → s.stack ≠ [])

instance (s : State) : Decidable s.labelReady := by
  unfold State.labelReady; infer_instance

/-- A `TrainState` that no run reaches: the recorded action is `r2`, token 1
hangs under the next token 2 as its last left child, and the stack is empty. -/
def emptyAfterRight : TrainState :=
  { State.init [{ head := 2, label := ['z'] }, { head := 0, label := ['y'] }] with
    annotated := [{ head := 2, label := ['z'] }, { head := 0, label := ['y'] }]
    dependents := [0, 0]
    nodes := [{ id := 0, form := ['#', 'N', 'U', 'L', 'L'] },
      { id := 1, head := 2, deprel := ['z'] }, { id := 2, left := [1], deprel := ['y'] }]
    stack := []
    input := [2]
    action := some ['r', '2'] }

/-- Two states have the same stack, the same input and, for every token, the
same head, label and child lists. -/
def State.agree (s1 s2 : State) : Prop :=
  s1.stack = s2.stack ∧ s1.input = s2.input ∧
    ∀ q, (s1.node q).head = (s2.node q).head ∧ (s1.node q).label = (s2.node q).label ∧
      (s1.node q).left = (s2.node q).left ∧ (s1.node q).right = (s2.node q).right

/-- The state reached from the initial state of a three-token sentence by `S`,
`L`, `Da`, `S` with `CompositeActions` off: token 2 hangs under token 1 with
the label `a`, the stack is root, 1 and the next token is 3. -/
def rightChildShifted : State :=
  { State.init [{}, {}, {}] with
    nodes := [{ id := 0, form := ['#', 'N', 'U', 'L', 'L'] }, { id := 1, right := [2] },
      { id := 2, head := 1, label := ['a'] }, { id := 3 }]
    stack := [1, 0]
    input := [3]
    action := some ['S'] }

/-- The tokens that wait in one of the three vectors of a state: `stack`,
`input` and `extracted`. -/
def State.waiting (s : State) : List Nat := s.stack ++ s.input ++ s.extracted

/-- The children of a node: its `left` vector followed by its `right` vector. -/
def State.children (s : State) (p : Nat) : List Nat := (s.node p).left ++ (s.node p).right

/-- The pointers of a state are sound: every object sits at its id and every
pointer of `stack`, `input` and `extracted` is an object of the state. -/
structure State.Sound (s : State) : Prop where
  ids : ∀ p, p < s.nodes.length → (s.node p).id = p
  bound : ∀ a ∈ s.waiting, a < s.nodes.length

/-- The successor `s1` of `s` keeps the objects, their ids and takes its waiting
tokens among those of `s`. -/
def State.Kept (s s1 : State) : Prop :=
  s1.nodes.length = s.nodes.length ∧ (∀ q, (s1.node q).id = (s.node q).id) ∧
    ∀ a ∈ s1.waiting, a ∈ s.waiting

/-- The successor `s1` of `s` has the same arcs and the same waiting tokens,
possibly in other places. -/
def State.Moved (s s1 : State) : Prop :=
  s1.nodes.length = s.nodes.length ∧
    (∀ q, (s1.node q).id = (s.node q).id ∧ (s1.node q).head = (s.node q).head ∧
      (s1.node q).left = (s.node q).left ∧ (s1.node q).right = (s.node q).right) ∧
    s1.waiting.Perm s.waiting

/-- The successor `s1` of `s` has one arc more: the waiting token `c` has left
the vectors and is a new child of the token `p`, which still waits. -/
def State.Attached (s s1 : State) (c p : Nat) : Prop :=
  s1.nodes.length = s.nodes.length ∧ (∀ q, (s1.node q).id = (s.node q).id) ∧
    (s1.node c).head = (s.node p).id ∧ (∀ q, q ≠ c → (s1.node q).head = (s.node q).head) ∧
    (s1.children p).Perm (c :: s.children p) ∧ (∀ q, q ≠ p → s1.children q = s.children q) ∧
    s.waiting.Perm (c :: s1.waiting) ∧ p ∈ s1.waiting

/-- The invariant of token conservation: no token waits twice, a token has
left the vectors exactly when it is a child of some node, it is a child of one
node only and once, its head is the id of that node, and the arcs have no
cycle. -/
structure State.Conserved (s : State) : Prop where
  nodup : s.waiting.Nodup
  attached : ∀ c, c < s.nodes.length → (c ∉ s.waiting ↔ ∃ p, c ∈ s.children p)
  parent : ∀ c p q, c ∈ s.children p → c ∈ s.children q → p = q
  once : ∀ p, (s.children p).Nodup
  heads : ∀ c p, c ∈ s.children p → (s.node c).head = (s.node p).id
  valid : ∀ c p, c ∈ s.children p → c < s.nodes.length
  acyclic : ∀ p, ¬ Relation.TransGen (fun c q => c ∈ s.children q) p p

/-- The patterns `State::ispunct`, `State::isOpenQuote` and
`State::isCloseQuote` (regular expressions of a library) as tests on a form. -/
structure Patterns where
  ispunct : List Char → Bool
  isOpenQuote : List Char → Bool
  isCloseQuote : List Char → Bool

/-- The vectors of `SentenceInfo`: `punctCount` and `inQuotes`. -/
structure SentenceInfo where
  punctCount : List Nat := []
  inQuotes : List Bool := []
  deriving DecidableEq, Repr

/-- The loop of `SentenceInfo::SentenceInfo` from the current token: `count` is
`punctCount[i-1]` (`0` at the start), `inquote` the local flag. -/
def SentenceInfo.scan (pat : Patterns) :
    List (List Char) → Nat → Bool → SentenceInfo → SentenceInfo
  | [], _, _, info => info
  | form :: rest, count, inquote, info =>
    let count := count + (if pat.ispunct form then 1 else 0)
    let info := { info with punctCount := info.punctCount ++ [count] }
    if pat.isOpenQuote form || (!inquote && form == ['"']) then
      SentenceInfo.scan pat rest count true { info with inQuotes := info.inQuotes ++ [inquote] }
    else if pat.isCloseQuote form || (inquote && form == ['"']) then
      SentenceInfo.scan pat rest count false { info with inQuotes := info.inQuotes ++ [false] }
    else
      SentenceInfo.scan pat rest count inquote
        { info with inQuotes := info.inQuotes ++ [inquote] }

/-- The constructor `SentenceInfo::SentenceInfo(sentence, info)` on the forms of
the tokens of the sentence. -/
def SentenceInfo.init (pat : Patterns) (forms : List (List Char)) : SentenceInfo :=
  SentenceInfo.scan pat forms 0 false {}

/-- The fields `InPunct`, `InQuotes` and `PunctCount` of `FeatureConfig`, with
the defaults given by the constructor. -/
structure PunctConfig where
  InPunct : Bool := false
  InQuotes : Bool := false
  PunctCount : Bool := true
  deriving DecidableEq, Repr

/-- The read `v[i]` of a vector with an `int` index: `none` outside the
vector. -/
def readAt {α : Type} (v : List α) (i : Int) : Option α :=
  if 0 ≤ i then v[i.toNat]? else none

/-- The index `id-2` of the reads of `punctCount` in `State::predicates`, for
the next token. -/
def State.punctIndex (s : State) : Int := ((s.node (s.input.headD 0)).id : Int) - 2

/-- The index `id-1` of the read of `inQuotes` in `State::predicates`, for the
next token. -/
def State.quoteIndex (s : State) : Int := ((s.node (s.input.headD 0)).id : Int) - 1

/-- `State::predicates` as far as `punctCount` and `inQuotes` are concerned: the
two early returns, then the blocks "Punctuation presence" and "Within quotes".
The result is the list of predicates these parts push, `none` when a vector is
read outside its range.  The other blocks read neither vector. -/
def State.punctPredicates (cfg : FeatureConfig) (pc : PunctConfig) (info : SentenceInfo)
    (s : State) : Option Features :=
  let pre : Features := if s.stack = [] then [['(']] else []
  if s.stack = [] ∧ cfg.CompositeActions = true then some pre
  else if s.input = [] then some (pre ++ [[')']])
  else do
    let id : Int := (s.node (s.input.headD 0)).id
    let a ← if id > 1 ∧ pc.InPunct = true then
        (readAt info.punctCount s.punctIndex).map fun c =>
          (if c % 2 ≠ 0 then [['.']] else [] : Features)
      else some []
    let b ← if id > 1 ∧ pc.PunctCount = true then
        (readAt info.punctCount s.punctIndex).map fun c =>
          (if c ≠ 0 then ['.' :: printInt c] else [] : Features)
      else some []
    let c ← if pc.InQuotes = true then
        (readAt info.inQuotes s.quoteIndex).map fun q =>
          (if q then [['0', '"']] else [] : Features)
      else some []
    some (pre ++ a ++ b ++ c)

/-- Patterns for the examples: a form is punctuation when it is `,`; no form
is a typographic quote. -/
def commaPatterns : Patterns :=
  { ispunct := fun f => f == [','], isOpenQuote := fun _ => false,
    isCloseQuote := fun _ => false }

/-! # Properties

## Failed actions -/

theorem Shift_ne_null (s s' : State) : s.Shift ≠ .null s' := by
  unfold State.Shift; split <;> simp

theorem Unshift_null (s s' : State) (h : s.Unshift = .null s') : s' = s := by
  unfold State.Unshift at h
  split at h
  · simpa using h.symm
  · split at h <;> simp at h

theorem Right_null (cfg : FeatureConfig) (copy : Copy) (s s' : State) (a : Action)
    (h : s.Right cfg copy a = .null s') : s' = s := by
  unfold State.Right at h
  split at h
  · simpa using h.symm
  · split at h
    · simp at h
    · simp only at h
      split at h <;> simp at h

theorem Left_ne_null (cfg : FeatureConfig) (copy : Copy) (s s' : State) (a : Action) :
    s.Left cfg copy a ≠ .null s' := by
  unfold State.Left
  split
  · simp
  · simp only
    split <;> simp

theorem right_null (cfg : FeatureConfig) (copy : Copy) (s s' : State) (a : Action)
    (h : s.right cfg copy a = .null s') : s' = s := by
  unfold State.right at h
  generalize actionDepth a = n at h
  dsimp only at h
  split at h
  · simpa using h.symm
  · split at h
    · simp at h
    · split at h
      · simp at h
      · split at h
        · split at h <;> simp at h
        · simp at h

theorem left_null (cfg : FeatureConfig) (copy : Copy) (s s' : State) (a : Action)
    (h : s.left cfg copy a = .null s') : s' = s := by
  unfold State.left at h
  generalize actionDepth a = n at h
  dsimp only at h
  split at h
  · simpa using h.symm
  · split at h
    · exact absurd h (by simp)
    · split at h
      · exact absurd h (by simp)
      · split at h
        · exact absurd h (by simp)
        · split at h
          · exact absurd h (by simp)
          · split at h
            · exact absurd h (by simp)
            · split at h <;> exact absurd h (by simp)

theorem DepLink_ne_null (s s' : State) (a : Action) : s.DepLink a ≠ .null s' := by
  unfold State.DepLink
  split
  · simp
  · split
    · simp
    · split
      · split
        · simp
        · dsimp only
          split
          · simp
          · split
            · split <;> simp
            · simp
      · split
        · split
          · simp
          · dsimp only
            split <;> simp
        · simp

theorem Extract_null (s s' : State) (h : s.Extract = .null s') : s' = s := by
  unfold State.Extract at h
  split at h
  · simpa using h.symm
  · split at h <;> simp at h

theorem Insert_null (s s' : State) (h : s.Insert = .null s') : s' = s := by
  unfold State.Insert at h
  split at h
  · simpa using h.symm
  · simp at h

theorem Pop_null (s s' : State) (h : s.Pop = .null s') : s' = s := by
  unfold State.Pop at h
  split at h
  · simpa using h.symm
  · simp at h

/-- C2: if `State::transition(action)` returns null, the state is untouched:
the receiver after the call (stack, input, extracted, recorded action,
afterUnshift and every token with its head, label and child lists) is the
receiver before the call.  This holds for every `copy`. -/
theorem transition_null_untouched (cfg : FeatureConfig) (copy : Copy) (s s' : State)
    (a : Action) (h : s.transition cfg copy a = .null s') : s' = s := by
  unfold State.transition at h
  split at h
  · split at h
    · simp at h
    · exact absurd h (Shift_ne_null _ _)
  split at h
  · split at h
    · exact absurd h (Shift_ne_null _ _)
    · exact Right_null _ _ _ _ _ h
  split at h
  · exact absurd h (Left_ne_null _ _ _ _ _)
  split at h
  · exact right_null _ _ _ _ _ h
  split at h
  · exact left_null _ _ _ _ _ h
  split at h
  · exact absurd h (DepLink_ne_null _ _ _)
  split at h
  · exact Extract_null _ _ h
  split at h
  · exact Insert_null _ _ h
  split at h
  · exact Pop_null _ _ h
  split at h
  · exact Unshift_null _ _ h
  · simpa using h.symm

theorem transition_null_untouched_witness :
    (State.init []).transition {} State.copy ['U'] = .null (State.init []) ∧
      State.init [] = State.init [] :=
  ⟨by decide, transition_null_untouched {} State.copy (State.init []) (State.init []) ['U']
    (by decide)⟩

/-- C10: on a state whose input is empty, `transition("S")` returns the
current state unchanged: the result is `this` and no field of the receiver has
changed. -/
theorem shift_empty_input (cfg : FeatureConfig) (copy : Copy) (s : State)
    (h : s.input = []) : s.transition cfg copy ['S'] = .this s := by
  simp [State.transition, h]

theorem shift_empty_input_witness :
    (State.init []).input = [] ∧
      (State.init []).transition {} State.copy ['S'] = .this (State.init []) :=
  ⟨by decide, shift_empty_input {} State.copy (State.init []) (by decide)⟩

/-! ## Preconditions of the actions -/

theorem actionDepth_two (c : Char) (rest : List Char) : actionDepth (c :: '2' :: rest) = 2 := rfl
theorem actionDepth_three (c : Char) (rest : List Char) : actionDepth (c :: '3' :: rest) = 3 := rfl
theorem actionDepth_four (c : Char) (rest : List Char) : actionDepth (c :: '4' :: rest) = 4 := rfl

@[simp] theorem isNull_null (s : State) : (Result.null s).isNull = true := rfl
@[simp] theorem isNull_this (s : State) : (Result.this s).isNull = false := rfl
@[simp] theorem isNull_undefined : Result.undefined.isNull = false := rfl
@[simp] theorem isThis_null (s : State) : (Result.null s).isThis = false := rfl
@[simp] theorem isThis_this (s : State) : (Result.this s).isThis = true := rfl
@[simp] theorem isThis_undefined : Result.undefined.isThis = false := rfl

@[simp] theorem setNode_stack (s : State) (p : Nat) (t : TreeToken) :
    (s.setNode p t).stack = s.stack := rfl
@[simp] theorem setNode_input (s : State) (p : Nat) (t : TreeToken) :
    (s.setNode p t).input = s.input := rfl
@[simp] theorem setNode_extracted (s : State) (p : Nat) (t : TreeToken) :
    (s.setNode p t).extracted = s.extracted := rfl
@[simp] theorem setNode_action (s : State) (p : Nat) (t : TreeToken) :
    (s.setNode p t).action = s.action := rfl
@[simp] theorem setNode_previous (s : State) (p : Nat) (t : TreeToken) :
    (s.setNode p t).previous = s.previous := rfl
@[simp] theorem setNode_sentence (s : State) (p : Nat) (t : TreeToken) :
    (s.setNode p t).sentence = s.sentence := rfl
@[simp] theorem setNode_afterUnshift (s : State) (p : Nat) (t : TreeToken) :
    (s.setNode p t).afterUnshift = s.afterUnshift := rfl

theorem Unshift_cases (s : State) :
    (s.Unshift.isNull = true ↔ s.stack.length < 2) ∧
      (s.Unshift.isThis = true ↔ 2 ≤ s.stack.length) := by
  unfold State.Unshift
  split
  · simp; omega
  · split
    · rename_i h; simp [h] at *
    · simp; omega

theorem Pop_cases (s : State) :
    (s.Pop.isNull = true ↔ s.stack.length < 2) ∧
      (s.Pop.isThis = true ↔ 2 ≤ s.stack.length) := by
  unfold State.Pop
  split
  · simp; omega
  · simp; omega

theorem Extract_cases (s : State) :
    (s.Extract.isNull = true ↔ (s.stack.length < 3 ∨ s.input = [])) ∧
      (s.Extract.isThis = true ↔ (3 ≤ s.stack.length ∧ s.input ≠ [])) := by
  unfold State.Extract
  rcases hs : s.stack with _ | ⟨a, _ | ⟨b, _ | ⟨c, t⟩⟩⟩ <;>
    rcases hi : s.input with _ | ⟨x, i⟩ <;> simp
  split
  · omega
  · simp

theorem Insert_cases (s : State) :
    (s.Insert.isNull = true ↔ s.extracted = []) ∧
      (s.Insert.isThis = true ↔ s.extracted ≠ []) := by
  unfold State.Insert
  rcases hs : s.extracted with _ | ⟨a, t⟩ <;> simp

theorem left_cases (cfg : FeatureConfig) (s : State) (a : Action) (n : Nat)
    (hn : actionDepth a = n) (h2 : n = 2 ∨ n = 3 ∨ n = 4) (hi : s.input ≠ []) :
    ((s.left cfg State.copy a).isNull = true ↔ s.stack.length < n) ∧
      ((s.left cfg State.copy a).isThis = true ↔ n ≤ s.stack.length) := by
  unfold State.left
  rw [hn]
  rcases hi' : s.input with _ | ⟨x, i⟩
  · exact absurd hi' hi
  cases hC : cfg.CompositeActions <;>
  rcases h2 with h | h | h <;> subst h <;>
  rcases hs : s.stack with _ | ⟨a, _ | ⟨b, _ | ⟨c, _ | ⟨d, _ | ⟨e, t⟩⟩⟩⟩⟩ <;>
    simp_arith [State.copy, hi', hs, State.pushRight, State.linkHead,
      State.linkLabel, moveBack]


theorem transition_U (cfg : FeatureConfig) (copy : Copy) (s : State) (rest : List Char) :
    s.transition cfg copy ('U' :: rest) = s.Unshift := by
  simp [State.transition]

theorem transition_P (cfg : FeatureConfig) (copy : Copy) (s : State) (rest : List Char) :
    s.transition cfg copy ('P' :: rest) = s.Pop := by
  simp [State.transition]

theorem transition_E (cfg : FeatureConfig) (copy : Copy) (s : State) (rest : List Char) :
    s.transition cfg copy ('E' :: rest) = s.Extract := by
  simp [State.transition]

theorem transition_I (cfg : FeatureConfig) (copy : Copy) (s : State) (rest : List Char) :
    s.transition cfg copy ('I' :: rest) = s.Insert := by
  simp [State.transition]

theorem transition_l (cfg : FeatureConfig) (copy : Copy) (s : State) (rest : List Char) :
    s.transition cfg copy ('l' :: rest) = s.left cfg copy ('l' :: rest) := by
  simp [State.transition]

theorem transition_r (cfg : FeatureConfig) (copy : Copy) (s : State) (rest : List Char) :
    s.transition cfg copy ('r' :: rest) = s.right cfg copy ('r' :: rest) := by
  simp [State.transition]

theorem transition_L (cfg : FeatureConfig) (copy : Copy) (s : State) (rest : List Char) :
    s.transition cfg copy ('L' :: rest) = s.Left cfg copy ('L' :: rest) := by
  simp [State.transition]

theorem transition_D (cfg : FeatureConfig) (copy : Copy) (s : State) (rest : List Char) :
    s.transition cfg copy ('D' :: rest) = s.DepLink ('D' :: rest) := by
  simp [State.transition]

theorem transition_R (cfg : FeatureConfig) (copy : Copy) (s : State) (rest : List Char) :
    s.transition cfg copy ('R' :: rest) =
      if s.stack.length = 1 then s.Shift else s.Right cfg copy ('R' :: rest) := by
  simp [State.transition]

theorem transition_S (cfg : FeatureConfig) (copy : Copy) (s : State) (rest : List Char) :
    s.transition cfg copy ('S' :: rest) = if s.input.isEmpty then .this s else s.Shift := by
  simp [State.transition]

/-- C5: `State::transition` returns null exactly when the precondition of the
action fails, and returns `this` otherwise: `U` and `P` return null iff
`stack.size() < 2`; on a non-empty input `l2`, `l3`, `l4` return null iff
`stack.size() < n`; `E` returns null iff `stack.size() < 3` or the input is
empty; `I` returns null iff `extracted` is empty. -/
theorem transition_null_iff (cfg : FeatureConfig) (s : State) (rest : List Char) :
    (((s.transition cfg State.copy ('U' :: rest)).isNull = true ↔ s.stack.length < 2) ∧
      ((s.transition cfg State.copy ('U' :: rest)).isThis = true ↔ 2 ≤ s.stack.length)) ∧
    (((s.transition cfg State.copy ('P' :: rest)).isNull = true ↔ s.stack.length < 2) ∧
      ((s.transition cfg State.copy ('P' :: rest)).isThis = true ↔ 2 ≤ s.stack.length)) ∧
    (s.input ≠ [] →
      (((s.transition cfg State.copy ('l' :: '2' :: rest)).isNull = true ↔ s.stack.length < 2) ∧
        ((s.transition cfg State.copy ('l' :: '2' :: rest)).isThis = true ↔
          2 ≤ s.stack.length)) ∧
      (((s.transition cfg State.copy ('l' :: '3' :: rest)).isNull = true ↔ s.stack.length < 3) ∧
        ((s.transition cfg State.copy ('l' :: '3' :: rest)).isThis = true ↔
          3 ≤ s.stack.length)) ∧
      (((s.transition cfg State.copy ('l' :: '4' :: rest)).isNull = true ↔ s.stack.length < 4) ∧
        ((s.transition cfg State.copy ('l' :: '4' :: rest)).isThis = true ↔
          4 ≤ s.stack.length))) ∧
    (((s.transition cfg State.copy ('E' :: rest)).isNull = true ↔
        (s.stack.length < 3 ∨ s.input = [])) ∧
      ((s.transition cfg State.copy ('E' :: rest)).isThis = true ↔
        (3 ≤ s.stack.length ∧ s.input ≠ []))) ∧
    (((s.transition cfg State.copy ('I' :: rest)).isNull = true ↔ s.extracted = []) ∧
      ((s.transition cfg State.copy ('I' :: rest)).isThis = true ↔ s.extracted ≠ [])) := by
  refine ⟨?_, ?_, ?_, ?_, ?_⟩
  · rw [transition_U]; exact Unshift_cases s
  · rw [transition_P]; exact Pop_cases s
  · intro hi
    refine ⟨?_, ?_, ?_⟩
    · rw [transition_l]; exact left_cases cfg s _ 2 (actionDepth_two _ _) (by simp) hi
    · rw [transition_l]; exact left_cases cfg s _ 3 (actionDepth_three _ _) (by simp) hi
    · rw [transition_l]; exact left_cases cfg s _ 4 (actionDepth_four _ _) (by simp) hi
  · rw [transition_E]; exact Extract_cases s
  · rw [transition_I]; exact Insert_cases s

theorem transition_null_iff_witness :
    (State.init [{}]).input ≠ [] ∧
      (((State.init [{}]).transition {} State.copy ['l', '2']).isNull = true ↔
        (State.init [{}]).stack.length < 2) :=
  ⟨by decide, ((transition_null_iff {} (State.init [{}]) []).2.2.1 (by decide)).1.1⟩

/-! ## The recorded action -/

theorem Shift_this (s s' : State) (h : s.Shift = .this s') : s'.action = some ['S'] := by
  unfold State.Shift at h
  split at h
  · simp at h
  · simp at h; subst h; rfl

theorem Unshift_this (s s' : State) (h : s.Unshift = .this s') : s'.action = some ['U'] := by
  unfold State.Unshift at h
  split at h
  · simp at h
  · split at h
    · simp at h
    · simp at h; subst h; rfl

theorem Extract_this (s s' : State) (h : s.Extract = .this s') : s'.action = some ['E'] := by
  unfold State.Extract at h
  split at h
  · simp at h
  · split at h
    · simp at h; subst h; rfl
    · simp at h

theorem Insert_this (s s' : State) (h : s.Insert = .this s') : s'.action = some ['I'] := by
  unfold State.Insert at h
  split at h
  · simp at h
  · simp at h; subst h; rfl

theorem Pop_this (s s' : State) (h : s.Pop = .this s') : s'.action = some ['P'] := by
  unfold State.Pop at h
  split at h
  · simp at h
  · simp at h; subst h; rfl

theorem Right_this (cfg : FeatureConfig) (copy : Copy) (s s' : State) (a : Action)
    (h : s.Right cfg copy a = .this s') : s'.action = some a := by
  unfold State.Right at h
  split at h
  · simp at h
  · split at h
    · simp at h
    · simp only at h
      split at h
      · simp at h
      · simp at h; subst h; rfl

theorem Left_this (cfg : FeatureConfig) (copy : Copy) (s s' : State) (a : Action)
    (h : s.Left cfg copy a = .this s') : s'.action = some a := by
  unfold State.Left at h
  split at h
  · simp at h
  · simp only at h
    split at h
    · simp at h
    · simp at h; subst h; rfl

theorem right_this (cfg : FeatureConfig) (copy : Copy) (s s' : State) (a : Action)
    (h : s.right cfg copy a = .this s') : s'.action = some a := by
  unfold State.right at h
  generalize actionDepth a = n at h
  dsimp only at h
  split at h
  · simp at h
  · split at h
    · simp at h
    · split at h
      · simp at h
      · split at h
        · split at h
          · simp at h
          · simp at h; subst h; rfl
        · simp at h; subst h; rfl

theorem left_this (cfg : FeatureConfig) (copy : Copy) (s s' : State) (a : Action)
    (h : s.left cfg copy a = .this s') : s'.action = some a := by
  unfold State.left at h
  generalize actionDepth a = n at h
  dsimp only at h
  split at h
  · simp at h
  · split at h
    · simp at h
    · split at h
      · simp at h
      · split at h
        · simp at h
        · split at h
          · simp at h
          · split at h
            · simp at h; subst h; rfl
            · split at h
              · simp at h
              · simp at h; subst h; rfl

theorem DepLink_this (s s' : State) (a : Action) (h : s.DepLink a = .this s') :
    (s.afterReduce = true → s'.action = some a) ∧ (s.afterReduce = false → s' = s) := by
  unfold State.DepLink at h
  unfold State.afterReduce
  split at h
  · simp at h
  · split at h
    · simp at h
    · rename_i c hc
      rw [hc]
      split at h
      · rename_i hR
        refine ⟨fun _ => ?_, fun h0 => ?_⟩
        · split at h
          · simp at h
          · dsimp only at h
            split at h
            · simp at h
            · split at h
              · split at h
                · simp at h
                · simp at h; subst h; rfl
              · simp at h; subst h; rfl
        · rcases hR with h1 | h1 <;> subst h1 <;> simp at h0
      · split at h
        · rename_i hR hL
          refine ⟨fun _ => ?_, fun h0 => ?_⟩
          · split at h
            · simp at h
            · dsimp only at h
              split at h
              · simp at h; subst h; rfl
              · simp at h; subst h; rfl
          · rcases hL with h1 | h1 <;> subst h1 <;> simp at h0
        · rename_i hR hL
          simp at h
          refine ⟨fun h1 => ?_, fun _ => h.symm⟩
          exfalso
          simp at h1 hR hL
          rcases h1 with h1 | h1 | h1 | h1 <;> simp [h1] at hR hL

/-- C6 (amended): if `State::transition(a)` returns `this` for an action `a`
of the canonical alphabet, the recorded action is `a`, except in three cases:
`S` on an empty input and `D` when the action read by `DepLink` is not a reduce
leave the state (and so the recorded action) as it was, and an `R` action on a
stack of one element records `S`. -/
theorem transition_records_action (cfg : FeatureConfig) (s s' : State) (a : Action)
    (hc : canonical a = true) (h : s.transition cfg State.copy a = .this s') :
    (¬ (a = ['S'] ∧ s.input = []) → ¬ (a.head? = some 'R' ∧ s.stack.length = 1) →
        ¬ (a.head? = some 'D' ∧ s.afterReduce = false) → s'.action = some a) ∧
      (a = ['S'] ∧ s.input = [] → s' = s) ∧
      (a.head? = some 'R' ∧ s.stack.length = 1 → s'.action = some ['S']) ∧
      (a.head? = some 'D' ∧ s.afterReduce = false → s' = s) := by
  rcases a with _ | ⟨c, _ | ⟨d, rest⟩⟩
  · simp [canonical] at hc
  · simp [canonical] at hc
    rcases hc with hc | hc | hc | hc | hc | hc | hc | hc <;> subst hc
    · rw [transition_S] at h
      split at h
      · rename_i hi
        simp at h hi
        subst h
        simp [hi]
      · rename_i hi
        simp at hi
        simp [hi, Shift_this _ _ h]
    · rw [transition_U] at h; simp [Unshift_this _ _ h]
    · rw [transition_E] at h; simp [Extract_this _ _ h]
    · rw [transition_I] at h; simp [Insert_this _ _ h]
    · rw [transition_P] at h; simp [Pop_this _ _ h]
    · rw [transition_L] at h; simp [Left_this _ _ _ _ _ h]
    · rw [transition_R] at h
      split at h
      · rename_i h1; simp [h1, Shift_this _ _ h]
      · rename_i h1; simp [h1, Right_this _ _ _ _ _ h]
    · rw [transition_D] at h
      have := DepLink_this _ _ _ h
      cases hr : s.afterReduce <;> simp [hr] at this ⊢ <;> exact this
  · simp [canonical] at hc
    rcases hc with hc | hc | hc | ⟨hc | hc, _⟩ <;> subst hc
    · rw [transition_L] at h; simp [Left_this _ _ _ _ _ h]
    · rw [transition_R] at h
      split at h
      · rename_i h1; simp [h1, Shift_this _ _ h]
      · rename_i h1; simp [h1, Right_this _ _ _ _ _ h]
    · rw [transition_D] at h
      have := DepLink_this _ _ _ h
      cases hr : s.afterReduce <;> simp [hr] at this ⊢ <;> exact this
    · rw [transition_l] at h; simp [left_this _ _ _ _ _ h]
    · rw [transition_r] at h; simp [right_this _ _ _ _ _ h]

theorem transition_records_action_witness :
    canonical ['S'] = true ∧
      (State.init [{}]).transition {} State.copy ['S'] =
        .this { State.init [{}] with stack := [1, 0], input := [], action := some ['S'] } ∧
      (some ['S'] : Option Action) = some ['S'] :=
  ⟨by decide, by decide,
    (transition_records_action {} (State.init [{}])
      { State.init [{}] with stack := [1, 0], input := [], action := some ['S'] } ['S']
      (by decide) (by decide)).1 (by decide) (by decide) (by decide)⟩

/-- C6 (counterexample): on the initial state of a one-token sentence,
`transition("Rx")` returns `this` but the recorded action is `S`, not `Rx`. -/
theorem transition_records_action_counterexample :
    (State.init [{}]).transition {} State.copy ['R', 'x'] =
        .this { State.init [{}] with stack := [1, 0], input := [], action := some ['S'] } ∧
      ({ State.init [{}] with stack := [1, 0], input := [], action := some ['S'] } : State).action
        ≠ some ['R', 'x'] := by
  decide

/-! ## Round trips -/

/-- C8 (amended): for every state with a non-empty input and a non-empty
stack, `S` and then `U` both succeed and restore the configuration: stack,
input, extracted and every token (the memory `nodes`) are those of the original
state. -/
theorem shift_unshift_restores (cfg : FeatureConfig) (s : State) (hi : s.input ≠ [])
    (hs : s.stack ≠ []) :
    ∃ s1 s2, s.transition cfg State.copy ['S'] = .this s1 ∧
      s1.transition cfg State.copy ['U'] = .this s2 ∧
      s2.stack = s.stack ∧ s2.input = s.input ∧ s2.extracted = s.extracted ∧
      s2.nodes = s.nodes ∧ s2.sentence = s.sentence := by
  rcases hi' : s.input with _ | ⟨x, i⟩
  · exact absurd hi' hi
  rcases hs' : s.stack with _ | ⟨t, st⟩
  · exact absurd hs' hs
  refine ⟨{ s with input := i, stack := x :: s.stack, action := some ['S'],
                   afterUnshift := false },
    { s with action := some ['U'], afterUnshift := true }, ?_, ?_, ?_⟩
  · simp [transition_S, hi', State.Shift]
  · simp [transition_U, State.Unshift, hs', hi']
  · simp [hs', hi']

theorem shift_unshift_restores_witness :
    (State.init [{}]).input ≠ [] ∧ (State.init [{}]).stack ≠ [] ∧
    ∃ s1 s2, (State.init [{}]).transition {} State.copy ['S'] = .this s1 ∧
      s1.transition {} State.copy ['U'] = .this s2 ∧
      s2.stack = (State.init [{}]).stack ∧ s2.input = (State.init [{}]).input ∧
      s2.extracted = (State.init [{}]).extracted ∧
      s2.nodes = (State.init [{}]).nodes ∧ s2.sentence = (State.init [{}]).sentence :=
  ⟨by decide, by decide, shift_unshift_restores {} (State.init [{}]) (by decide) (by decide)⟩

/-- C8 (counterexample): with `CompositeActions` off, `L` on the initial
state of a one-token sentence leaves the stack empty and the root as next
token; on this state, whose input is not empty, `S` succeeds but the following
`U` returns null, and the stack is `[root]`, not the empty stack of before. -/
theorem shift_unshift_counterexample :
    (State.init [{}]).transition { CompositeActions := false } State.copy ['L'] =
        .this leftOnRoot ∧
      leftOnRoot.input ≠ [] ∧
      leftOnRoot.transition { CompositeActions := false } State.copy ['S'] =
        .this { leftOnRoot with stack := [0], input := [], action := some ['S'] } ∧
      ({ leftOnRoot with stack := [0], input := [], action := some ['S'] } : State).transition
          { CompositeActions := false } State.copy ['U'] =
        .null { leftOnRoot with stack := [0], input := [], action := some ['S'] } ∧
      ({ leftOnRoot with stack := [0], input := [], action := some ['S'] } : State).stack
        ≠ leftOnRoot.stack := by
  decide


/-- C9 (amended): for every state with `stack.size() >= 3` and a non-empty
input, `E` and then `I` both succeed; they restore `extracted` and leave the
tokens alone, but the stack becomes the old stack without `stack[-2]` and with
`next` pushed, and the input becomes the old input with `next` replaced by the
old `stack[-2]`. -/
theorem extract_insert (cfg : FeatureConfig) (s : State) (hs : 3 ≤ s.stack.length)
    (hi : s.input ≠ []) :
    ∃ s1 s2, s.transition cfg State.copy ['E'] = .this s1 ∧
      s1.transition cfg State.copy ['I'] = .this s2 ∧
      s2.extracted = s.extracted ∧ s2.nodes = s.nodes ∧
      s2.stack = s.input.headD 0 :: s.stack.eraseIdx 1 ∧
      s2.input = s.stack.getD 1 0 :: s.input.tail := by
  rcases hi' : s.input with _ | ⟨x, i⟩
  · exact absurd hi' hi
  rcases hs' : s.stack with _ | ⟨a, _ | ⟨b, _ | ⟨c, t⟩⟩⟩
  · simp [hs'] at hs
  · simp [hs'] at hs
  · simp [hs'] at hs
  refine ⟨{ s with extracted := b :: s.extracted, stack := x :: a :: c :: t, input := i,
                   action := some ['E'] },
    { s with stack := x :: a :: c :: t, input := b :: i, action := some ['I'] }, ?_, ?_, ?_⟩
  · simp [transition_E, State.Extract, hs', hi']
  · simp [transition_I, State.Insert]
  · simp

theorem extract_insert_witness :
    3 ≤ twoShifted.stack.length ∧ twoShifted.input ≠ [] ∧
    ∃ s1 s2, twoShifted.transition {} State.copy ['E'] = .this s1 ∧
      s1.transition {} State.copy ['I'] = .this s2 ∧
      s2.extracted = twoShifted.extracted ∧ s2.nodes = twoShifted.nodes ∧
      s2.stack = twoShifted.input.headD 0 :: twoShifted.stack.eraseIdx 1 ∧
      s2.input = twoShifted.stack.getD 1 0 :: twoShifted.input.tail :=
  ⟨by decide, by decide, extract_insert {} twoShifted (by decide) (by decide)⟩

/-- C9 (counterexample): after two shifts on a three-token sentence (stack
`0 1 2`, input `3`), `E` then `I` succeed and leave stack `0 2 3` and input `1`:
the configuration is not restored. -/
theorem extract_insert_counterexample :
    State.transitions {} (State.init [{}, {}, {}]) [['S'], ['S']] = some twoShifted ∧
      3 ≤ twoShifted.stack.length ∧ twoShifted.input ≠ [] ∧
      twoShifted.transition {} State.copy ['E'] =
        .this { twoShifted with stack := [3, 2, 0], input := [], extracted := [1],
                                action := some ['E'] } ∧
      ({ twoShifted with stack := [3, 2, 0], input := [], extracted := [1],
                         action := some ['E'] } : State).transition {} State.copy ['I'] =
        .this { twoShifted with stack := [3, 2, 0], input := [1], action := some ['I'] } ∧
      ({ twoShifted with stack := [3, 2, 0], input := [1], action := some ['I'] } : State).stack
        ≠ twoShifted.stack ∧
      ({ twoShifted with stack := [3, 2, 0], input := [1], action := some ['I'] } : State).input
        ≠ twoShifted.input := by
  decide

/-- C3 (the code at the failing input): with `CompositeActions` off, the
`ParseState` reached from the initial state of a two-token sentence by `S` and
`R` holds the copy of token 1 (object 3) in slot 0 of its sentence, without a
label; `transition("Dx")` on it, whatever `copy` does, writes the label `x` on
that very object: the receiver's token is mutated. -/
theorem parseState_transition_mutates_receiver :
    ParseState.transition { CompositeActions := false } ParseState.copy (fun _ => false)
        (State.init [{}, {}]) ['S'] = some (State.init [{}, {}], some parseShifted) ∧
      (ParseState.transition { CompositeActions := false } ParseState.copy (fun _ => false)
        parseShifted ['R']).map (·.2) = some (some parseReduced) ∧
      parseReduced.sentence[0]? = some 3 ∧ (parseReduced.node 3).label = [] ∧
      ∀ (copy : Copy) (ispunct : List Char → Bool),
        (ParseState.transition { CompositeActions := false } copy ispunct
          parseReduced ['D', 'x']).map (fun r => (r.1.sentence[0]?, (r.1.node 3).label)) =
            some (some 3, ['x']) := by
  refine ⟨by decide, by decide, by decide, by decide, ?_⟩
  intro copy ispunct
  rfl

/-! ## The synthetic root -/

@[simp] theorem linkHead_stack (s : State) (p h : Nat) : (s.linkHead p h).stack = s.stack := rfl
@[simp] theorem linkHead_input (s : State) (p h : Nat) : (s.linkHead p h).input = s.input := rfl
@[simp] theorem linkHead_extracted (s : State) (p h : Nat) :
    (s.linkHead p h).extracted = s.extracted := rfl
@[simp] theorem linkHead_action (s : State) (p h : Nat) : (s.linkHead p h).action = s.action := rfl
@[simp] theorem linkHead_sentence (s : State) (p h : Nat) :
    (s.linkHead p h).sentence = s.sentence := rfl
@[simp] theorem linkHead_previous (s : State) (p h : Nat) :
    (s.linkHead p h).previous = s.previous := rfl
@[simp] theorem linkHead_afterUnshift (s : State) (p h : Nat) :
    (s.linkHead p h).afterUnshift = s.afterUnshift := rfl
@[simp] theorem linkLabel_stack (s : State) (p : Nat) (l : List Char) :
    (s.linkLabel p l).stack = s.stack := rfl
@[simp] theorem linkLabel_input (s : State) (p : Nat) (l : List Char) :
    (s.linkLabel p l).input = s.input := rfl
@[simp] theorem linkLabel_extracted (s : State) (p : Nat) (l : List Char) :
    (s.linkLabel p l).extracted = s.extracted := rfl
@[simp] theorem linkLabel_action (s : State) (p : Nat) (l : List Char) :
    (s.linkLabel p l).action = s.action := rfl
@[simp] theorem linkLabel_sentence (s : State) (p : Nat) (l : List Char) :
    (s.linkLabel p l).sentence = s.sentence := rfl
@[simp] theorem linkLabel_previous (s : State) (p : Nat) (l : List Char) :
    (s.linkLabel p l).previous = s.previous := rfl
@[simp] theorem linkLabel_afterUnshift (s : State) (p : Nat) (l : List Char) :
    (s.linkLabel p l).afterUnshift = s.afterUnshift := rfl
@[simp] theorem pushLeft_stack (s : State) (p c : Nat) : (s.pushLeft p c).stack = s.stack := rfl
@[simp] theorem pushLeft_input (s : State) (p c : Nat) : (s.pushLeft p c).input = s.input := rfl
@[simp] theorem pushLeft_extracted (s : State) (p c : Nat) :
    (s.pushLeft p c).extracted = s.extracted := rfl
@[simp] theorem pushLeft_action (s : State) (p c : Nat) : (s.pushLeft p c).action = s.action := rfl
@[simp] theorem pushLeft_sentence (s : State) (p c : Nat) :
    (s.pushLeft p c).sentence = s.sentence := rfl
@[simp] theorem pushLeft_previous (s : State) (p c : Nat) :
    (s.pushLeft p c).previous = s.previous := rfl
@[simp] theorem pushLeft_afterUnshift (s : State) (p c : Nat) :
    (s.pushLeft p c).afterUnshift = s.afterUnshift := rfl
@[simp] theorem pushRight_stack (s : State) (p c : Nat) : (s.pushRight p c).stack = s.stack := rfl
@[simp] theorem pushRight_input (s : State) (p c : Nat) : (s.pushRight p c).input = s.input := rfl
@[simp] theorem pushRight_extracted (s : State) (p c : Nat) :
    (s.pushRight p c).extracted = s.extracted := rfl
@[simp] theorem pushRight_action (s : State) (p c : Nat) :
    (s.pushRight p c).action = s.action := rfl
@[simp] theorem pushRight_sentence (s : State) (p c : Nat) :
    (s.pushRight p c).sentence = s.sentence := rfl
@[simp] theorem pushRight_previous (s : State) (p c : Nat) :
    (s.pushRight p c).previous = s.previous := rfl
@[simp] theorem pushRight_afterUnshift (s : State) (p c : Nat) :
    (s.pushRight p c).afterUnshift = s.afterUnshift := rfl

theorem node_setNode (s : State) (p q : Nat) (t : TreeToken) :
    (s.setNode p t).node q = if q = p ∧ p < s.nodes.length then t else s.node q := by
  unfold State.node State.setNode
  simp only [List.getD_eq_getElem?_getD, List.getElem?_set]
  by_cases h : p = q
  · subst h
    by_cases h2 : p < s.nodes.length
    · simp [h2]
    · simp [h2, List.getElem?_eq_none (not_lt.mp h2)]
  · have : ¬ q = p := fun h' => h h'.symm
    simp [h, this]

@[simp] theorem id_linkHead (s : State) (p h q : Nat) :
    ((s.linkHead p h).node q).id = (s.node q).id := by
  unfold State.linkHead
  rw [node_setNode]
  split
  · rename_i h1; rw [h1.1]
  · rfl

@[simp] theorem id_linkLabel (s : State) (p q : Nat) (l : List Char) :
    ((s.linkLabel p l).node q).id = (s.node q).id := by
  unfold State.linkLabel
  rw [node_setNode]
  split
  · rename_i h1; rw [h1.1]
  · rfl

@[simp] theorem id_pushLeft (s : State) (p c q : Nat) :
    ((s.pushLeft p c).node q).id = (s.node q).id := by
  unfold State.pushLeft
  rw [node_setNode]
  split
  · rename_i h1; rw [h1.1]
  · rfl

@[simp] theorem id_pushRight (s : State) (p c q : Nat) :
    ((s.pushRight p c).node q).id = (s.node q).id := by
  unfold State.pushRight
  rw [node_setNode]
  split
  · rename_i h1; rw [h1.1]
  · rfl

/-- Reading a node looks at the memory only. -/
@[simp] theorem node_mk_nodes (s : State) (se st i e : List Nat) (a : Option Action)
    (p : Option Predecessor) (au : Bool) (q : Nat) :
    (State.mk s.nodes se st i e a p au).node q = s.node q := rfl

theorem node_congr (s1 s2 : State) (p : Nat) (e : s1.nodes = s2.nodes) :
    s1.node p = s2.node p := by
  simp [State.node, e]

theorem rootAtBottom_right (cfg : FeatureConfig) (hC : cfg.CompositeActions = true)
    (s s' : State) (a : Action) (n : Nat) (hn : actionDepth a = n) (h2 : n = 2 ∨ n = 3 ∨ n = 4)
    (h : s.right cfg State.copy a = .this s') (hr : s.rootAtBottom) : s'.rootAtBottom := by
  unfold State.right at h
  rw [hn] at h
  obtain ⟨r1, r2⟩ := hr
  rcases hi : s.input with _ | ⟨x, i⟩
  · rcases h2 with h0 | h0 | h0 <;> subst h0 <;> simp [State.copy, hi] at h <;>
      split at h <;> simp at h
  rcases h2 with h0 | h0 | h0 <;> subst h0 <;>
  rcases hs : s.stack with _ | ⟨a, _ | ⟨b, _ | ⟨c, _ | ⟨d, _ | ⟨e, t⟩⟩⟩⟩⟩ <;>
    simp_arith [State.copy, hi, hs, hC] at h <;>
    subst h <;>
    simp [hs] at r1 <;>
    refine ⟨by simpa using r1, ?_⟩ <;>
    simpa using r2


theorem rootAtBottom_Shift (s s' : State) (h : s.Shift = .this s') (hr : s.rootAtBottom) :
    s'.rootAtBottom := by
  unfold State.Shift at h
  split at h
  · simp at h
  · simp at h; subst h
    obtain ⟨h1, h2⟩ := hr
    refine ⟨?_, h2⟩
    rcases hs : s.stack with _ | ⟨a, t⟩
    · simp [hs] at h1
    · simpa [hs] using h1

theorem rootAtBottom_tail (s s' : State) (hl : 2 ≤ s.stack.length) (hr : s.rootAtBottom)
    (h1 : s'.stack = s.stack.tail) (h2 : (s'.node 0).id = (s.node 0).id) : s'.rootAtBottom := by
  obtain ⟨r1, r2⟩ := hr
  refine ⟨?_, h2 ▸ r2⟩
  rcases hs : s.stack with _ | ⟨a, _ | ⟨b, t⟩⟩
  · simp [hs] at hl
  · simp [hs] at hl
  · rw [h1, hs]; simpa [hs] using r1

theorem rootAtBottom_Unshift (s s' : State) (h : s.Unshift = .this s') (hr : s.rootAtBottom) :
    s'.rootAtBottom := by
  unfold State.Unshift at h
  split at h
  · simp at h
  · rename_i hl
    split at h
    · simp at h
    · rename_i top st hs
      simp at h; subst h
      exact rootAtBottom_tail s _ (by omega) hr (by simp [hs]) rfl

theorem rootAtBottom_Pop (s s' : State) (h : s.Pop = .this s') (hr : s.rootAtBottom) :
    s'.rootAtBottom := by
  unfold State.Pop at h
  split at h
  · simp at h
  · rename_i hl
    simp at h; subst h
    exact rootAtBottom_tail s _ (by omega) hr rfl rfl

theorem rootAtBottom_Insert (s s' : State) (h : s.Insert = .this s') (hr : s.rootAtBottom) :
    s'.rootAtBottom := by
  unfold State.Insert at h
  split at h
  · simp at h
  · simp at h; subst h; exact hr

theorem rootAtBottom_Extract (s s' : State) (h : s.Extract = .this s') (hr : s.rootAtBottom) :
    s'.rootAtBottom := by
  unfold State.Extract at h
  split at h
  · simp at h
  · split at h
    · rename_i top nth st next inp hs hi
      simp at h; subst h
      obtain ⟨r1, r2⟩ := hr
      refine ⟨?_, r2⟩
      rcases st with _ | ⟨c, t⟩
      · simp [hs] at *
      · simpa [hs] using r1
    · simp at h

theorem rootAtBottom_Right (cfg : FeatureConfig) (s s' : State) (a : Action)
    (h : s.Right cfg State.copy a = .this s') (hr : s.rootAtBottom) : s'.rootAtBottom := by
  unfold State.Right at h
  obtain ⟨r1, r2⟩ := hr
  cases hC : cfg.CompositeActions <;>
  rcases hi : s.input with _ | ⟨x, i⟩ <;>
  rcases hs : s.stack with _ | ⟨a, _ | ⟨b, t⟩⟩ <;>
    simp [State.copy, hi, hs, hC] at h <;>
  subst h <;>
  simp [hs] at r1 <;>
  exact ⟨by simpa using r1, by simpa using r2⟩

theorem rootAtBottom_Left (cfg : FeatureConfig) (hC : cfg.CompositeActions = true)
    (s s' : State) (a : Action)
    (h : s.Left cfg State.copy a = .this s') (hr : s.rootAtBottom) : s'.rootAtBottom := by
  unfold State.Left at h
  obtain ⟨r1, r2⟩ := hr
  rcases hi : s.input with _ | ⟨x, i⟩ <;>
  rcases hs : s.stack with _ | ⟨a, _ | ⟨b, t⟩⟩ <;>
    simp [State.copy, hi, hs, hC] at h <;>
  subst h <;>
  simp [hs] at r1 <;>
  cases hE : cfg.arcEager <;>
  exact ⟨by simpa using r1, by simpa using r2⟩

theorem rootAtBottom_left (cfg : FeatureConfig) (hC : cfg.CompositeActions = true)
    (s s' : State) (a : Action) (n : Nat) (hn : actionDepth a = n) (h2 : n = 2 ∨ n = 3 ∨ n = 4)
    (h : s.left cfg State.copy a = .this s') (hr : s.rootAtBottom) : s'.rootAtBottom := by
  unfold State.left at h
  rw [hn] at h
  obtain ⟨r1, r2⟩ := hr
  rcases hi : s.input with _ | ⟨x, i⟩
  · rcases h2 with h0 | h0 | h0 <;> subst h0 <;> simp [State.copy, hi] at h <;>
      split at h <;> simp at h
  rcases h2 with h0 | h0 | h0 <;> subst h0 <;>
  rcases hs : s.stack with _ | ⟨a, _ | ⟨b, _ | ⟨c, _ | ⟨d, _ | ⟨e, t⟩⟩⟩⟩⟩ <;>
    simp_arith [State.copy, hi, hs, hC, moveBack] at h <;>
    subst h <;>
    simp [hs] at r1 <;>
    refine ⟨by simpa using r1, ?_⟩ <;>
    simpa using r2


theorem rootAtBottom_transition (cfg : FeatureConfig) (hC : cfg.CompositeActions = true)
    (s s' : State) (a : Action) (hc : canonical a = true) (hD : a.head? ≠ some 'D')
    (h : s.transition cfg State.copy a = .this s') (hr : s.rootAtBottom) : s'.rootAtBottom := by
  rcases a with _ | ⟨c, _ | ⟨d, rest⟩⟩
  · simp [canonical] at hc
  · simp [canonical] at hc
    rcases hc with hc | hc | hc | hc | hc | hc | hc | hc <;> subst hc
    · rw [transition_S] at h
      split at h
      · simp at h; subst h; exact hr
      · exact rootAtBottom_Shift _ _ h hr
    · rw [transition_U] at h; exact rootAtBottom_Unshift _ _ h hr
    · rw [transition_E] at h; exact rootAtBottom_Extract _ _ h hr
    · rw [transition_I] at h; exact rootAtBottom_Insert _ _ h hr
    · rw [transition_P] at h; exact rootAtBottom_Pop _ _ h hr
    · rw [transition_L] at h; exact rootAtBottom_Left _ hC _ _ _ h hr
    · rw [transition_R] at h
      split at h
      · exact rootAtBottom_Shift _ _ h hr
      · exact rootAtBottom_Right _ _ _ _ h hr
    · simp at hD
  · simp [canonical] at hc
    rcases hc with hc | hc | hc | ⟨hc | hc, hd⟩ <;> subst hc
    · rw [transition_L] at h; exact rootAtBottom_Left _ hC _ _ _ h hr
    · rw [transition_R] at h
      split at h
      · exact rootAtBottom_Shift _ _ h hr
      · exact rootAtBottom_Right _ _ _ _ h hr
    · simp at hD
    · rw [transition_l] at h
      rcases hd with hd | hd | hd <;> subst hd
      · exact rootAtBottom_left _ hC _ _ _ 2 (actionDepth_two _ _) (by simp) h hr
      · exact rootAtBottom_left _ hC _ _ _ 3 (actionDepth_three _ _) (by simp) h hr
      · exact rootAtBottom_left _ hC _ _ _ 4 (actionDepth_four _ _) (by simp) h hr
    · rw [transition_r] at h
      rcases hd with hd | hd | hd <;> subst hd
      · exact rootAtBottom_right _ hC _ _ _ 2 (actionDepth_two _ _) (by simp) h hr
      · exact rootAtBottom_right _ hC _ _ _ 3 (actionDepth_three _ _) (by simp) h hr
      · exact rootAtBottom_right _ hC _ _ _ 4 (actionDepth_four _ _) (by simp) h hr

theorem transitions_append (cfg : FeatureConfig) (as bs : List Action) (s s' : State)
    (h : State.transitions cfg s (as ++ bs) = some s') :
    ∃ s1, State.transitions cfg s as = some s1 ∧ State.transitions cfg s1 bs = some s' := by
  induction as generalizing s with
  | nil => exact ⟨s, rfl, h⟩
  | cons a as ih =>
    cases ht : s.transition cfg State.copy a with
    | this s1 =>
      simp only [List.cons_append, State.transitions, ht] at h ⊢
      exact ih s1 h
    | null s1 => simp [State.transitions, ht] at h
    | undefined => simp [State.transitions, ht] at h

theorem rootAtBottom_transitions (cfg : FeatureConfig) (hC : cfg.CompositeActions = true)
    (acts : List Action) (s s' : State)
    (hcan : ∀ a ∈ acts, canonical a = true ∧ a.head? ≠ some 'D')
    (h : State.transitions cfg s acts = some s') (hr : s.rootAtBottom) : s'.rootAtBottom := by
  induction acts generalizing s with
  | nil => simp [State.transitions] at h; subst h; exact hr
  | cons a as ih =>
    cases ht : s.transition cfg State.copy a with
    | this s1 =>
      simp only [State.transitions, ht] at h
      have ha := hcan a (List.mem_cons_self _ _)
      exact ih s1 (fun b hb => hcan b (List.mem_cons_of_mem _ hb)) h
        (rootAtBottom_transition cfg hC s s1 a ha.1 ha.2 ht hr)
    | null s1 => simp [State.transitions, ht] at h
    | undefined => simp [State.transitions, ht] at h

theorem rootAtBottom_init (sent : Sentence) : (State.init sent).rootAtBottom := by
  constructor <;> rfl

theorem goldHead_zero (sent : Sentence) : goldHead sent 0 = 0 := rfl

theorem goldHead_le (sent : Sentence) (ht : goldTree sent) (t : Nat) :
    goldHead sent t ≤ sent.length := by
  by_cases h0 : t = 0
  · subst h0; simp [goldHead]
  by_cases hn : t ≤ sent.length
  · have := ht.1 (t - 1) (by omega)
    rwa [Nat.sub_add_cancel (by omega)] at this
  · have : sent[t - 1]? = none := List.getElem?_eq_none (by omega)
    have hd : (default : Token).head = 0 := rfl
    simp [goldHead, h0, List.getD_eq_getElem?_getD, this, hd]

theorem iterate_goldHead_zero (sent : Sentence) (k : Nat) : (goldHead sent)^[k] 0 = 0 := by
  induction k with
  | zero => rfl
  | succ k ih => rw [Function.iterate_succ_apply, goldHead_zero, ih]

theorem goldHead_reaches (sent : Sentence) (ht : goldTree sent) (t : Nat) :
    ∃ k, (goldHead sent)^[k] t = 0 := by
  by_cases h0 : t = 0
  · exact ⟨0, h0⟩
  by_cases hn : t ≤ sent.length
  · refine ⟨sent.length, ?_⟩
    have := ht.2 (t - 1) (by omega)
    rwa [Nat.sub_add_cancel (by omega)] at this
  · refine ⟨1, ?_⟩
    have : sent[t - 1]? = none := List.getElem?_eq_none (by omega)
    have hd : (default : Token).head = 0 := rfl
    simp [goldHead, h0, List.getD_eq_getElem?_getD, this, hd]

theorem goldHead_acyclic (sent : Sentence) (ht : goldTree sent) (t k : Nat) (h0 : t ≠ 0)
    (hk : 1 ≤ k) : (goldHead sent)^[k] t ≠ t := by
  intro h
  obtain ⟨j, hj⟩ := goldHead_reaches sent ht t
  have h1 : (goldHead sent)^[k * j] t = t := by
    rw [Function.iterate_mul]
    exact Function.iterate_fixed h j
  have h2 : (goldHead sent)^[k * j] t = 0 := by
    have : k * j = (k * j - j) + j := by
      have : j ≤ k * j := Nat.le_mul_of_pos_left j hk
      omega
    rw [this, Function.iterate_add_apply, hj, iterate_goldHead_zero]
  exact h0 (h1.symm.trans h2)

theorem no_crossing (sent : Sentence) (hp : projective sent) (c d : Nat)
    (hc1 : 1 ≤ c) (hc2 : c ≤ sent.length) (hd1 : 1 ≤ d) (hd2 : d ≤ sent.length) :
    ¬ (min (goldHead sent c) c < min (goldHead sent d) d ∧
       min (goldHead sent d) d < max (goldHead sent c) c ∧
       max (goldHead sent c) c < max (goldHead sent d) d) := by
  have := hp (c - 1) (by omega) (d - 1) (by omega)
  rwa [Nat.sub_add_cancel hc1, Nat.sub_add_cancel hd1] at this

/-- A token strictly inside an arc hangs below one of its two ends. -/
theorem escape (sent : Sentence) (ht : goldTree sent) (hp : projective sent) (a b c t : Nat)
    (hc1 : 1 ≤ c) (hc2 : c ≤ sent.length)
    (harc : (c = a ∧ goldHead sent c = b) ∨ (c = b ∧ goldHead sent c = a))
    (h1 : a < t) (h2 : t < b) :
    ∃ k, 1 ≤ k ∧ ((goldHead sent)^[k] t = a ∨ (goldHead sent)^[k] t = b) := by
  have hb : b ≤ sent.length := by
    rcases harc with ⟨e, e2⟩ | ⟨e, _⟩
    · rw [← e2]; exact goldHead_le sent ht c
    · omega
  obtain ⟨m, hm⟩ := goldHead_reaches sent ht t
  induction m generalizing t with
  | zero => simp at hm; omega
  | succ m ih =>
    rw [Function.iterate_succ_apply] at hm
    by_cases hin : a < goldHead sent t ∧ goldHead sent t < b
    · obtain ⟨k, hk, hk2⟩ := ih (goldHead sent t) hin.1 hin.2 hm
      exact ⟨k + 1, by omega, by rwa [Function.iterate_succ_apply]⟩
    · by_cases hab : goldHead sent t = a ∨ goldHead sent t = b
      · exact ⟨1, le_refl _, by simpa using hab⟩
      · exfalso
        have n1 := no_crossing sent hp c t hc1 hc2 (by omega) (by omega)
        have n2 := no_crossing sent hp t c (by omega) (by omega) hc1 hc2
        rcases harc with ⟨e, e2⟩ | ⟨e, e2⟩ <;> subst e <;> rw [e2] at n1 n2 <;> omega

/-! ## The waiting tokens of a projective run -/

variable {sent : Sentence}

theorem Frontier.top_pos {top x : Nat} {st inp : List Nat}
    (f : Frontier sent (top :: st) (x :: inp)) : top < x :=
  f.stackInput top (List.mem_cons_self _ _) x (List.mem_cons_self _ _)

theorem Frontier.below_lt {top : Nat} {st inp : List Nat}
    (f : Frontier sent (top :: st) inp) {b : Nat} (hb : b ∈ st) : b < top :=
  (List.pairwise_cons.mp f.stackSorted).1 b hb

theorem Frontier.tail_gt {x : Nat} {stack inp : List Nat}
    (f : Frontier sent stack (x :: inp)) {b : Nat} (hb : b ∈ inp) : x < b :=
  (List.pairwise_cons.mp f.inputSorted).1 b hb

/-- The top of a stack with something below it is not the root. -/
theorem Frontier.top_ne_zero {top : Nat} {st inp : List Nat}
    (f : Frontier sent (top :: st) inp) (hst : st ≠ []) : top ≠ 0 := by
  intro h0
  rcases st with _ | ⟨b, st⟩
  · exact hst rfl
  · have := f.below_lt (List.mem_cons_self b st)
    omega

theorem Frontier.zero_below {top : Nat} {st inp : List Nat}
    (f : Frontier sent (top :: st) inp) (h0 : top ≠ 0) : 0 ∈ st := by
  have := f.zeroMem
  rcases List.mem_cons.mp this with h | h
  · exact absurd h.symm h0
  · exact h

theorem Frontier.top_zero {top : Nat} {inp : List Nat}
    (f : Frontier sent [top] inp) : top = 0 := by
  have := f.zeroMem
  simp at this
  exact this.symm

/-- The partner of the top of the stack is on the input. -/
theorem Frontier.top_waits {top : Nat} {st inp : List Nat}
    (f : Frontier sent (top :: st) inp) (h0 : top ≠ 0) :
    ∃ p ∈ inp, top < p ∧ (goldHead sent top = p ∨ goldHead sent p = top) := by
  obtain ⟨p, hp, hlt, harc⟩ := f.waits top (List.mem_cons_self _ _) h0
  rcases hp with hp | hp
  · exfalso
    rcases List.mem_cons.mp hp with h | h
    · omega
    · have := f.below_lt h
      omega
  · exact ⟨p, hp, hlt, harc⟩

/-- No token below the top of the stack has the next token as its head. -/
theorem Frontier.no_right_below (ht : goldTree sent) (hp : projective sent)
    {top x : Nat} {st inp : List Nat} (f : Frontier sent (top :: st) (x :: inp))
    (h5 : goldHead sent top ≠ x) {b : Nat} (hb : b ∈ st) : goldHead sent b ≠ x := by
  intro hbx
  have hbt := f.below_lt hb
  have htx := f.top_pos
  have hb0 : b ≠ 0 := by
    intro h0; subst h0; rw [goldHead_zero] at hbx; omega
  have hbn : b ≤ sent.length := f.range b (Or.inl (List.mem_cons_of_mem _ hb))
  have htn : top ≤ sent.length := f.range top (Or.inl (List.mem_cons_self _ _))
  obtain ⟨p, hpin, hlt, harc⟩ := f.top_waits (by omega)
  have hpn : p ≤ sent.length := f.range p (Or.inr hpin)
  rcases List.mem_cons.mp hpin with hpx | hpx
  · subst hpx
    rcases harc with h | h
    · exact h5 h
    · -- top hangs below b or p, and p hangs below top
      obtain ⟨k, hk, hk2⟩ := escape sent ht hp b p b top (by omega) hbn
        (Or.inl ⟨rfl, hbx⟩) hbt htx
      have : ∃ j, 1 ≤ j ∧ (goldHead sent)^[j] top = p := by
        rcases hk2 with h2 | h2
        · exact ⟨k + 1, by omega, by rw [Function.iterate_succ_apply', h2, hbx]⟩
        · exact ⟨k, hk, h2⟩
      obtain ⟨j, hj, hj2⟩ := this
      refine goldHead_acyclic sent ht top (j + 1) (by omega) (by omega) ?_
      rw [Function.iterate_succ_apply', hj2, h]
  · have hxp := f.tail_gt hpx
    have n1 := no_crossing sent hp b top (by omega) hbn (by omega) htn
    have n2 := no_crossing sent hp b p (by omega) hbn (by omega) hpn
    rcases harc with h | h
    · rw [hbx, h] at n1; omega
    · rw [hbx, h] at n2; omega

/-- The head of the next token is not below the top of the stack. -/
theorem Frontier.no_left_below (hp : projective sent)
    {top x : Nat} {st inp : List Nat} (f : Frontier sent (top :: st) (x :: inp))
    (h5 : goldHead sent top ≠ x) {b : Nat} (hb : b ∈ st) : goldHead sent x ≠ b := by
  intro hxb
  have hbt := f.below_lt hb
  have htx := f.top_pos
  have htn : top ≤ sent.length := f.range top (Or.inl (List.mem_cons_self _ _))
  have hxn : x ≤ sent.length := f.range x (Or.inr (List.mem_cons_self _ _))
  obtain ⟨p, hpin, hlt, harc⟩ := f.top_waits (by omega)
  have hpn : p ≤ sent.length := f.range p (Or.inr hpin)
  rcases List.mem_cons.mp hpin with hpx | hpx
  · subst hpx
    rcases harc with h | h
    · exact h5 h
    · omega
  · have hxp := f.tail_gt hpx
    have n1 := no_crossing sent hp x top (by omega) hxn (by omega) htn
    have n2 := no_crossing sent hp x p (by omega) hxn (by omega) hpn
    rcases harc with h | h
    · rw [hxb, h] at n1; omega
    · rw [hxb, h] at n2; omega


/-- The next token is not the root. -/
theorem Frontier.next_pos {top x : Nat} {st inp : List Nat}
    (f : Frontier sent (top :: st) (x :: inp)) : x ≠ 0 := by
  have := f.top_pos
  omega

/-- When the gold head of the top of the stack is the next token, the top has no
waiting dependent: the oracle never defers a right reduction. -/
theorem Frontier.right_resolved (ht : goldTree sent) (hp : projective sent)
    {top x : Nat} {st inp : List Nat} (f : Frontier sent (top :: st) (x :: inp))
    (h0 : top ≠ 0) (h5 : goldHead sent top = x) (c : Nat)
    (hc : c ∈ top :: st ∨ c ∈ x :: inp) : goldHead sent c ≠ top := by
  intro hct
  have htx := f.top_pos
  have two : ∀ y, y ≠ 0 → goldHead sent y = top → goldHead sent top = y → False := by
    intro y hy h1 h2
    refine goldHead_acyclic sent ht y 2 hy (by omega) ?_
    show goldHead sent (goldHead sent y) = y
    rw [h1, h2]
  rcases hc with hc | hc
  · rcases List.mem_cons.mp hc with h | h
    · subst h; omega
    · exact (List.pairwise_cons.mp f.noHeadAbove).1 c h hct
  · rcases List.mem_cons.mp hc with h | h
    · subst h; exact two c (by omega) hct h5
    · have hxc := f.tail_gt h
      have hcn : c ≤ sent.length := f.range c (Or.inr hc)
      obtain ⟨k, hk, hk2⟩ := escape sent ht hp top c c x (by omega) hcn
        (Or.inr ⟨rfl, hct⟩) htx hxc
      have : ∃ j, 1 ≤ j ∧ (goldHead sent)^[j] x = top := by
        rcases hk2 with h2 | h2
        · exact ⟨k, hk, h2⟩
        · exact ⟨k + 1, by omega, by rw [Function.iterate_succ_apply', h2, hct]⟩
      obtain ⟨j, hj, hj2⟩ := this
      refine goldHead_acyclic sent ht x (j + 1) (by omega) (by omega) ?_
      rw [Function.iterate_succ_apply', hj2, h5]

/-- When the oracle shifts, the next token has a gold arc into the rest of the
input. -/
theorem Frontier.shift_waits (ht : goldTree sent) (hp : projective sent)
    {top x : Nat} {st inp : List Nat} (f : Frontier sent (top :: st) (x :: inp))
    (h5 : ¬ (top ≠ 0 ∧ goldHead sent top = x))
    (h7 : ¬ (goldHead sent x = top ∧
      ∀ c, c ∈ top :: st ∨ c ∈ x :: inp → goldHead sent c ≠ x)) :
    ∃ p ∈ inp, x < p ∧ (goldHead sent x = p ∨ goldHead sent p = x) := by
  have htx := f.top_pos
  have hx0 : x ≠ 0 := f.next_pos
  have hself : goldHead sent x ≠ x := by
    have := goldHead_acyclic sent ht x 1 hx0 (le_refl _)
    simpa using this
  by_cases hxt : goldHead sent x = top
  · have : ¬ ∀ c, c ∈ top :: st ∨ c ∈ x :: inp → goldHead sent c ≠ x := fun h => h7 ⟨hxt, h⟩
    push_neg at this
    obtain ⟨c, hc, hcx⟩ := this
    have h5' : goldHead sent top ≠ x := by
      intro h
      refine goldHead_acyclic sent ht x 2 hx0 (by omega) ?_
      show goldHead sent (goldHead sent x) = x
      rw [hxt, h]
    rcases hc with hc | hc
    · rcases List.mem_cons.mp hc with h | h
      · subst h; exact absurd hcx h5'
      · exact absurd hcx (f.no_right_below ht hp h5' h)
    · rcases List.mem_cons.mp hc with h | h
      · subst h; exact absurd hcx hself
      · exact ⟨c, h, f.tail_gt h, Or.inr hcx⟩
  · have hcl := f.closed x (Or.inr (List.mem_cons_self _ _)) hx0
    rcases hcl with hc | hc
    · rcases List.mem_cons.mp hc with h | h
      · exact absurd h hxt
      · exfalso
        have hst : st ≠ [] := List.ne_nil_of_mem h
        have h0 := f.top_ne_zero hst
        exact f.no_left_below hp (fun e => h5 ⟨h0, e⟩) h rfl
    · rcases List.mem_cons.mp hc with h | h
      · exact absurd h hself
      · exact ⟨_, h, f.tail_gt h, Or.inl rfl⟩

theorem Frontier.shift (ht : goldTree sent) (hp : projective sent)
    {top x : Nat} {st inp : List Nat} (f : Frontier sent (top :: st) (x :: inp))
    (h5 : ¬ (top ≠ 0 ∧ goldHead sent top = x))
    (h7 : ¬ (goldHead sent x = top ∧
      ∀ c, c ∈ top :: st ∨ c ∈ x :: inp → goldHead sent c ≠ x)) :
    Frontier sent (x :: top :: st) inp := by
  obtain ⟨p, hpin, hxp, harc⟩ := f.shift_waits ht hp h5 h7
  have htx := f.top_pos
  refine ⟨List.mem_cons_of_mem _ f.zeroMem, ?_, (List.pairwise_cons.mp f.inputSorted).2, ?_,
    ?_, ?_, ?_, ?_, ?_⟩
  · exact List.pairwise_cons.mpr
      ⟨fun a ha => f.stackInput a ha x (List.mem_cons_self _ _), f.stackSorted⟩
  · intro a ha b hb
    rcases List.mem_cons.mp ha with h | h
    · subst h; exact f.tail_gt hb
    · exact f.stackInput a h b (List.mem_cons_of_mem _ hb)
  · intro a ha
    apply f.range
    rcases ha with ha | ha
    · rcases List.mem_cons.mp ha with h | h
      · exact Or.inr (h ▸ List.mem_cons_self _ _)
      · exact Or.inl h
    · exact Or.inr (List.mem_cons_of_mem _ ha)
  · intro c hc hc0
    have hc' : c ∈ top :: st ∨ c ∈ x :: inp := by
      rcases hc with hc | hc
      · rcases List.mem_cons.mp hc with h | h
        · exact Or.inr (h ▸ List.mem_cons_self _ _)
        · exact Or.inl h
      · exact Or.inr (List.mem_cons_of_mem _ hc)
    rcases f.closed c hc' hc0 with h | h
    · exact Or.inl (List.mem_cons_of_mem _ h)
    · rcases List.mem_cons.mp h with h1 | h1
      · exact Or.inl (h1 ▸ List.mem_cons_self _ _)
      · exact Or.inr h1
  · refine List.pairwise_cons.mpr ⟨?_, f.noHeadAbove⟩
    intro b hb
    by_cases h0 : top = 0
    · subst h0
      have hst : st = [] := by
        rcases st with _ | ⟨y, st⟩
        · rfl
        · have := f.below_lt (List.mem_cons_self y st)
          omega
      subst hst
      simp at hb
      subst hb
      rw [goldHead_zero]; omega
    · have h5' : goldHead sent top ≠ x := fun e => h5 ⟨h0, e⟩
      rcases List.mem_cons.mp hb with h | h
      · subst h; exact h5'
      · exact f.no_right_below ht hp h5' h
  · intro s hs hs0
    rcases List.mem_cons.mp hs with h | h
    · subst h
      exact ⟨p, Or.inr hpin, hxp, harc⟩
    · obtain ⟨q, hq, hlt, hq2⟩ := f.waits s h hs0
      refine ⟨q, ?_, hlt, hq2⟩
      rcases hq with hq | hq
      · exact Or.inl (List.mem_cons_of_mem _ hq)
      · rcases List.mem_cons.mp hq with h1 | h1
        · exact Or.inl (h1 ▸ List.mem_cons_self _ _)
        · exact Or.inr h1
  · intro h
    subst h
    simp at hpin

theorem Frontier.right (ht : goldTree sent) (hp : projective sent)
    {top x : Nat} {st inp : List Nat} (f : Frontier sent (top :: st) (x :: inp))
    (h0 : top ≠ 0) (h5 : goldHead sent top = x) : Frontier sent st (x :: inp) := by
  have htx := f.top_pos
  refine ⟨f.zero_below h0, (List.pairwise_cons.mp f.stackSorted).2, f.inputSorted, ?_, ?_, ?_,
    (List.pairwise_cons.mp f.noHeadAbove).2, ?_, ?_⟩
  · intro a ha b hb
    exact f.stackInput a (List.mem_cons_of_mem _ ha) b hb
  · intro a ha
    apply f.range
    rcases ha with ha | ha
    · exact Or.inl (List.mem_cons_of_mem _ ha)
    · exact Or.inr ha
  · intro c hc hc0
    have hc' : c ∈ top :: st ∨ c ∈ x :: inp := by
      rcases hc with hc | hc
      · exact Or.inl (List.mem_cons_of_mem _ hc)
      · exact Or.inr hc
    have hne := f.right_resolved ht hp h0 h5 c hc'
    rcases f.closed c hc' hc0 with h | h
    · rcases List.mem_cons.mp h with h1 | h1
      · exact absurd h1 hne
      · exact Or.inl h1
    · exact Or.inr h
  · intro s hs hs0
    obtain ⟨q, hq, hlt, hq2⟩ := f.waits s (List.mem_cons_of_mem _ hs) hs0
    have hst := f.below_lt hs
    refine ⟨q, ?_, hlt, hq2⟩
    rcases hq with hq | hq
    · rcases List.mem_cons.mp hq with h1 | h1
      · exfalso
        subst h1
        rcases hq2 with h2 | h2
        · exact (List.pairwise_cons.mp f.noHeadAbove).1 s hs h2
        · omega
      · exact Or.inl h1
    · exact Or.inr hq
  · intro h
    simp at h

theorem Frontier.left {top x : Nat} {st inp : List Nat} (hst : st ≠ [])
    (f : Frontier sent (top :: st) (x :: inp))
    (h7 : goldHead sent x = top)
    (hr : ∀ c, c ∈ top :: st ∨ c ∈ x :: inp → goldHead sent c ≠ x) :
    Frontier sent st (top :: inp) := by
  have htx := f.top_pos
  have h0 := f.top_ne_zero hst
  refine ⟨f.zero_below h0, (List.pairwise_cons.mp f.stackSorted).2, ?_, ?_, ?_, ?_,
    (List.pairwise_cons.mp f.noHeadAbove).2, ?_, ?_⟩
  · refine List.pairwise_cons.mpr ⟨?_, (List.pairwise_cons.mp f.inputSorted).2⟩
    intro b hb
    have := f.tail_gt hb
    omega
  · intro a ha b hb
    rcases List.mem_cons.mp hb with h | h
    · subst h; exact f.below_lt ha
    · exact f.stackInput a (List.mem_cons_of_mem _ ha) b (List.mem_cons_of_mem _ h)
  · intro a ha
    apply f.range
    rcases ha with ha | ha
    · exact Or.inl (List.mem_cons_of_mem _ ha)
    · rcases List.mem_cons.mp ha with h | h
      · exact Or.inl (h ▸ List.mem_cons_self _ _)
      · exact Or.inr (List.mem_cons_of_mem _ h)
  · intro c hc hc0
    have hc' : c ∈ top :: st ∨ c ∈ x :: inp := by
      rcases hc with hc | hc
      · exact Or.inl (List.mem_cons_of_mem _ hc)
      · rcases List.mem_cons.mp hc with h | h
        · exact Or.inl (h ▸ List.mem_cons_self _ _)
        · exact Or.inr (List.mem_cons_of_mem _ h)
    have hne := hr c hc'
    rcases f.closed c hc' hc0 with h | h
    · rcases List.mem_cons.mp h with h1 | h1
      · exact Or.inr (h1 ▸ List.mem_cons_self _ _)
      · exact Or.inl h1
    · rcases List.mem_cons.mp h with h1 | h1
      · exact absurd h1 hne
      · exact Or.inr (List.mem_cons_of_mem _ h1)
  · intro s hs hs0
    obtain ⟨q, hq, hlt, hq2⟩ := f.waits s (List.mem_cons_of_mem _ hs) hs0
    have hslt := f.below_lt hs
    refine ⟨q, ?_, hlt, hq2⟩
    rcases hq with hq | hq
    · rcases List.mem_cons.mp hq with h1 | h1
      · exact Or.inr (h1 ▸ List.mem_cons_self _ _)
      · exact Or.inl h1
    · rcases List.mem_cons.mp hq with h1 | h1
      · exfalso
        subst h1
        rcases hq2 with h2 | h2
        · exact hr s (Or.inl (List.mem_cons_of_mem _ hs)) h2
        · omega
      · exact Or.inr (List.mem_cons_of_mem _ h1)
  · intro h
    simp at h

theorem Frontier.left_root {top x : Nat} {inp : List Nat}
    (f : Frontier sent [top] (x :: inp))
    (hr : ∀ c, c ∈ [top] ∨ c ∈ x :: inp → goldHead sent c ≠ x) :
    Frontier sent [top] inp := by
  have h0 : top = 0 := f.top_zero
  subst h0
  refine ⟨f.zeroMem, f.stackSorted, (List.pairwise_cons.mp f.inputSorted).2, ?_, ?_, ?_,
    f.noHeadAbove, ?_, ?_⟩
  · intro a ha b hb
    exact f.stackInput a ha b (List.mem_cons_of_mem _ hb)
  · intro a ha
    apply f.range
    rcases ha with ha | ha
    · exact Or.inl ha
    · exact Or.inr (List.mem_cons_of_mem _ ha)
  · intro c hc hc0
    have hc' : c ∈ [0] ∨ c ∈ x :: inp := by
      rcases hc with hc | hc
      · exact Or.inl hc
      · exact Or.inr (List.mem_cons_of_mem _ hc)
    have hne := hr c hc'
    rcases f.closed c hc' hc0 with h | h
    · exact Or.inl h
    · rcases List.mem_cons.mp h with h1 | h1
      · exact absurd h1 hne
      · exact Or.inr h1
  · intro s hs hs0
    simp at hs
    exact absurd hs hs0
  · intro _
    rfl

/-! ## The reductions on the token objects -/

theorem node_linkHead (s : State) (p h q : Nat) :
    (s.linkHead p h).node q =
      if q = p ∧ p < s.nodes.length then { s.node p with head := h } else s.node q := by
  unfold State.linkHead; rw [node_setNode]

theorem node_linkLabel (s : State) (p q : Nat) (l : List Char) :
    (s.linkLabel p l).node q =
      if q = p ∧ p < s.nodes.length then { s.node p with label := l } else s.node q := by
  unfold State.linkLabel; rw [node_setNode]

theorem node_pushLeft (s : State) (p c q : Nat) :
    (s.pushLeft p c).node q =
      if q = p ∧ p < s.nodes.length then { s.node p with left := (s.node p).left ++ [c] }
      else s.node q := by
  unfold State.pushLeft; rw [node_setNode]

theorem node_pushRight (s : State) (p c q : Nat) :
    (s.pushRight p c).node q =
      if q = p ∧ p < s.nodes.length then { s.node p with right := (s.node p).right ++ [c] }
      else s.node q := by
  unfold State.pushRight; rw [node_setNode]

@[simp] theorem length_linkHead (s : State) (p h : Nat) :
    (s.linkHead p h).nodes.length = s.nodes.length := by
  simp [State.linkHead, State.setNode]

@[simp] theorem length_linkLabel (s : State) (p : Nat) (l : List Char) :
    (s.linkLabel p l).nodes.length = s.nodes.length := by
  simp [State.linkLabel, State.setNode]

@[simp] theorem length_pushLeft (s : State) (p c : Nat) :
    (s.pushLeft p c).nodes.length = s.nodes.length := by
  simp [State.pushLeft, State.setNode]

@[simp] theorem length_pushRight (s : State) (p c : Nat) :
    (s.pushRight p c).nodes.length = s.nodes.length := by
  simp [State.pushRight, State.setNode]

/-- What `Right` does on a stack of at least two elements and a non-empty
input. -/
theorem Right_spec (cfg : FeatureConfig) (s : State) (a : Action) (t x : Nat) (st i : List Nat)
    (hs : s.stack = t :: st) (hst : st ≠ []) (hi : s.input = x :: i) :
    ∃ s', s.Right cfg State.copy a = .this s' ∧
      (∀ q, s'.node q = (if cfg.CompositeActions then
          (((s.pushLeft x t).linkHead t ((s.pushLeft x t).node x).id).linkLabel t
            (a.drop 1)).node q
        else ((s.pushLeft x t).linkHead t ((s.pushLeft x t).node x).id).node q)) ∧
      s'.nodes.length = s.nodes.length ∧
      s'.stack = st ∧ s'.input = x :: i ∧
      s'.extracted = s.extracted ∧ s'.action = some a ∧ s'.sentence = s.sentence ∧
      s'.previous = s.previous ∧ s'.afterUnshift = s.afterUnshift := by
  unfold State.Right
  rcases st with _ | ⟨b, st⟩
  · exact absurd rfl hst
  simp only [hs, State.copy, hi]
  cases cfg.CompositeActions <;> simp [hs, hi] <;> (intro q; rfl)

/-- What `Left` does on a non-empty stack and a non-empty input. -/
theorem Left_spec (cfg : FeatureConfig) (s : State) (a : Action) (t x : Nat) (st i : List Nat)
    (hs : s.stack = t :: st) (hi : s.input = x :: i) :
    ∃ s', s.Left cfg State.copy a = .this s' ∧
      (∀ q, s'.node q = (if cfg.CompositeActions then
          (((s.pushRight t x).linkHead x ((s.pushRight t x).node t).id).linkLabel x
            (a.drop 1)).node q
        else ((s.pushRight t x).linkHead x ((s.pushRight t x).node t).id).node q)) ∧
      s'.nodes.length = s.nodes.length ∧
      s'.stack = (if cfg.arcEager then x :: t :: st
        else if cfg.CompositeActions then (if st ≠ [] then st else [t]) else st) ∧
      s'.input = (if cfg.arcEager then i
        else if cfg.CompositeActions then (if st ≠ [] then t :: i else i) else t :: i) ∧
      s'.extracted = s.extracted ∧ s'.action = some a ∧ s'.sentence = s.sentence ∧
      s'.previous = s.previous ∧ s'.afterUnshift = s.afterUnshift := by
  unfold State.Left
  simp only [hs, State.copy, hi]
  cases cfg.arcEager <;> cases cfg.CompositeActions <;> rcases st with _ | ⟨b, st⟩ <;>
    simp [hs, hi] <;> (intro q; rfl)

/-! ## The oracle on a projective tree -/

theorem OracleInv.ORIG_eq {ts : TrainState} (hv : OracleInv sent ts) (p : Nat) (h1 : 1 ≤ p)
    (h2 : p ≤ sent.length) : ts.ORIG p = some (sent.getD (p - 1) default) := by
  unfold TrainState.ORIG
  rw [hv.ids p h2, hv.annotated]
  have : sent[p - 1]? = some (sent.getD (p - 1) default) := by
    rw [List.getD_eq_getElem?_getD, List.getElem?_eq_getElem (by omega)]
    rfl
  rw [if_neg (by omega), this]

theorem OracleInv.ORIG_head {ts : TrainState} (hv : OracleInv sent ts) (p : Nat) (h1 : 1 ≤ p)
    (h2 : p ≤ sent.length) : (ts.ORIG p).map (·.head) = some (goldHead sent p) := by
  rw [hv.ORIG_eq p h1 h2]
  simp [goldHead, show p ≠ 0 by omega]

theorem OracleInv.Resolved_eq {ts : TrainState} (hv : OracleInv sent ts) (p : Nat) (h1 : 1 ≤ p)
    (h2 : p ≤ sent.length) :
    ts.Resolved p = some (ts.dependents.getD (p - 1) 0 == 0) := by
  unfold TrainState.Resolved
  rw [hv.ids p h2]
  have hl : p - 1 < ts.dependents.length := by rw [hv.depSize]; omega
  simp [show p ≠ 0 by omega, List.getD_eq_getElem?_getD, List.getElem?_eq_getElem hl]

theorem OracleInv.decrement_eq {ts : TrainState} (hv : OracleInv sent ts) (p : Nat) (h1 : 1 ≤ p)
    (h2 : p ≤ sent.length) :
    ts.decrement p = some { ts with
      dependents := ts.dependents.set (p - 1) (ts.dependents.getD (p - 1) 0 - 1) } := by
  unfold TrainState.decrement
  rw [hv.ids p h2]
  have hl : p - 1 < ts.dependents.length := by rw [hv.depSize]; omega
  simp [show p ≠ 0 by omega, List.getD_eq_getElem?_getD, List.getElem?_eq_getElem hl]

/-- A token is resolved exactly when none of the waiting tokens hangs under it. -/
theorem OracleInv.resolved_iff {ts : TrainState} (hv : OracleInv sent ts) (p : Nat)
    (h1 : 1 ≤ p) (h2 : p ≤ sent.length) :
    ts.dependents.getD (p - 1) 0 = 0 ↔
      ∀ c, c ∈ ts.stack ∨ c ∈ ts.input → goldHead sent c ≠ p := by
  rw [hv.counts p h1 h2]
  constructor
  · intro h c hc hcp
    have h' : List.countP (fun c => goldHead sent c == p) ts.stack +
        List.countP (fun c => goldHead sent c == p) ts.input = 0 := by exact_mod_cast h
    have h3 := Nat.eq_zero_of_add_eq_zero h'
    rcases hc with hc | hc
    · have := List.countP_eq_zero.mp h3.1 c hc
      simp [hcp] at this
    · have := List.countP_eq_zero.mp h3.2 c hc
      simp [hcp] at this
  · intro h
    have e1 : List.countP (fun c => goldHead sent c == p) ts.stack = 0 :=
      List.countP_eq_zero.mpr (fun c hc => by simpa using h c (Or.inl hc))
    have e2 : List.countP (fun c => goldHead sent c == p) ts.input = 0 :=
      List.countP_eq_zero.mpr (fun c hc => by simpa using h c (Or.inr hc))
    rw [e1, e2]; rfl

theorem sentence_eq_map_range (sent : Sentence) :
    sent = (List.range sent.length).map (fun i => sent.getD i default) := by
  apply List.ext_getElem
  · simp
  · intro i h1 h2
    simp [List.getD_eq_getElem?_getD, List.getElem?_eq_getElem h1]

theorem countP_input (sent : Sentence) (t : Nat) :
    ((List.range sent.length).map (· + 1)).countP (fun c => goldHead sent c == t) =
      sent.countP (fun tok => tok.head == t) := by
  conv_rhs => rw [sentence_eq_map_range sent]
  rw [List.countP_map, List.countP_map]
  apply List.countP_congr
  intro i _
  simp [goldHead]

theorem foldlM_count (l : List Token) (d : List Int) (hb : ∀ tok ∈ l, tok.head ≤ d.length) :
    ∃ e, l.foldlM (fun d tok => if tok.head = 0 then some d else
        d[tok.head - 1]?.map fun c => d.set (tok.head - 1) (c + 1)) d = some e ∧
      e.length = d.length ∧
      ∀ j, j < d.length →
        e.getD j 0 = d.getD j 0 + (l.countP (fun tok => tok.head == j + 1) : Nat) := by
  induction l generalizing d with
  | nil => exact ⟨d, rfl, rfl, by simp⟩
  | cons tok l ih =>
    have hh := hb tok (List.mem_cons_self _ _)
    by_cases h0 : tok.head = 0
    · obtain ⟨e, he, hl, hc⟩ := ih d (fun t ht => hb t (List.mem_cons_of_mem _ ht))
      refine ⟨e, ?_, hl, ?_⟩
      · rw [List.foldlM_cons]
        simpa [h0] using he
      · intro j hj
        rw [hc j hj, List.countP_cons]
        simp [h0]
    · have hlt : tok.head - 1 < d.length := by omega
      obtain ⟨e, he, hl, hc⟩ := ih (d.set (tok.head - 1) (d.getD (tok.head - 1) 0 + 1))
        (fun t ht => by simpa using hb t (List.mem_cons_of_mem _ ht))
      refine ⟨e, ?_, by simpa using hl, ?_⟩
      · rw [List.foldlM_cons]
        simpa [h0, List.getElem?_eq_getElem hlt, List.getD_eq_getElem?_getD] using he
      · intro j hj
        rw [hc j (by simpa using hj), List.countP_cons]
        by_cases hj1 : tok.head = j + 1
        · have : tok.head - 1 = j := by omega
          simp [hj1, List.getD_eq_getElem?_getD, List.getElem?_set, hj]
          omega
        · have : tok.head - 1 ≠ j := by omega
          simp [hj1, List.getD_eq_getElem?_getD, List.getElem?_set, this]

/-- The count of the dependents is defined when every head is the root or a
token of the sentence, and then gives each token the number of its dependents. -/
theorem countDependents_some (sent : Sentence) (hb : ∀ tok ∈ sent, tok.head ≤ sent.length) :
    ∃ d, countDependents sent = some d ∧ d.length = sent.length ∧
      ∀ t, 1 ≤ t → t ≤ sent.length →
        d.getD (t - 1) 0 = (sent.countP (fun tok => tok.head == t) : Nat) := by
  obtain ⟨e, he, hl, hc⟩ := foldlM_count sent (List.replicate sent.length 0) (by simpa using hb)
  refine ⟨e, he, by simpa using hl, ?_⟩
  intro t h1 h2
  rw [hc (t - 1) (by simp; omega)]
  have : t - 1 + 1 = t := by omega
  rw [this]
  simp [List.getD_eq_getElem?_getD, List.getElem?_replicate]
  split <;> rfl

theorem foldlM_bound (l : List Token) (d e : List Int)
    (h : l.foldlM (fun d tok => if tok.head = 0 then some d else
        d[tok.head - 1]?.map fun c => d.set (tok.head - 1) (c + 1)) d = some e) :
    ∀ tok ∈ l, tok.head ≤ d.length := by
  induction l generalizing d with
  | nil => simp
  | cons tok l ih =>
    rw [List.foldlM_cons] at h
    obtain ⟨d1, h1, h2⟩ := Option.bind_eq_some.mp h
    have hl : d1.length = d.length ∧ tok.head ≤ d.length := by
      by_cases h0 : tok.head = 0
      · simp [h0] at h1
        subst h1
        exact ⟨rfl, by omega⟩
      · simp only [h0, if_false, Option.map_eq_some'] at h1
        obtain ⟨c, hc, rfl⟩ := h1
        have := (List.getElem?_eq_some_iff.mp hc).1
        exact ⟨by simp, by omega⟩
    intro t ht
    rcases List.mem_cons.mp ht with rfl | ht
    · exact hl.2
    · have := ih d1 h2 t ht
      omega

/-- The constructor is defined only when every head is the root or a token of
the sentence. -/
theorem init_bound (sent : Sentence) (ts : TrainState) (h : TrainState.init sent = some ts) :
    ∀ tok ∈ sent, tok.head ≤ sent.length := by
  unfold TrainState.init at h
  obtain ⟨d, hd, _⟩ := Option.map_eq_some'.mp h
  simpa using foldlM_bound sent _ d hd

theorem init_toState (sent : Sentence) (ts : TrainState) (h : TrainState.init sent = some ts) :
    ts.toState = State.init sent ∧ ts.annotated = sent := by
  unfold TrainState.init at h
  obtain ⟨d, _, rfl⟩ := Option.map_eq_some'.mp h
  exact ⟨rfl, rfl⟩

theorem goldTree_bound (ht : goldTree sent) : ∀ tok ∈ sent, tok.head ≤ sent.length := by
  intro tok htok
  obtain ⟨i, hi, rfl⟩ := List.getElem_of_mem htok
  have := ht.1 i hi
  simpa [goldHead, List.getD_eq_getElem?_getD, List.getElem?_eq_getElem hi] using this

theorem frontier_init (ht : goldTree sent) :
    Frontier sent [0] ((List.range sent.length).map (· + 1)) := by
  refine ⟨by simp, by simp, ?_, ?_, ?_, ?_, by simp, ?_, fun _ => rfl⟩
  · rw [List.pairwise_map]
    exact (List.pairwise_lt_range _).imp (by intro a b h; omega)
  · intro a ha b hb
    simp at ha hb
    obtain ⟨i, _, hi⟩ := hb
    omega
  · intro a ha
    rcases ha with ha | ha
    · simp at ha; omega
    · simp at ha
      obtain ⟨i, hi, hi2⟩ := ha
      omega
  · intro c _ _
    have := goldHead_le sent ht c
    by_cases h0 : goldHead sent c = 0
    · left; simp [h0]
    · right
      simp
      exact ⟨goldHead sent c - 1, by omega, by omega⟩
  · intro s hs hs0
    simp at hs
    exact absurd hs hs0

theorem node_init (sent : Sentence) (p : Nat) (h1 : 1 ≤ p) (h2 : p ≤ sent.length) :
    (State.init sent).node p =
      { id := p, form := (sent.getD (p - 1) default).form, pos := (sent.getD (p - 1) default).pos,
        deprel := (sent.getD (p - 1) default).label } := by
  unfold State.node State.init
  obtain ⟨q, rfl⟩ : ∃ q, p = q + 1 := ⟨p - 1, by omega⟩
  simp [List.getD_eq_getElem?_getD, List.getElem?_map, List.getElem?_range (show q < sent.length by omega)]

theorem oracleInv_init (ht : goldTree sent) :
    ∃ ts, TrainState.init sent = some ts ∧ OracleInv sent ts ∧ ts.idle ∧
      ts.input.length = sent.length ∧ ts.stack.length = 1 := by
  obtain ⟨d, hd, hl, hc⟩ := countDependents_some sent (goldTree_bound ht)
  refine ⟨{ State.init sent with annotated := sent, dependents := d }, by simp [TrainState.init, hd],
    ?_, ⟨rfl, rfl⟩, by simp [State.init], rfl⟩
  refine ⟨frontier_init ht, rfl, rfl, rfl, ?_, ?_, ?_, ?_, hl, ?_⟩
  · simp [State.init]
  · intro p hp
    by_cases h0 : p = 0
    · subst h0; rfl
    · show ((State.init sent).node p).id = p
      rw [node_init sent p (by omega) hp]
  · intro p h1 h2
    show ((State.init sent).node p).deprel = _
    rw [node_init sent p h1 h2]
    rfl
  · intro t h1 h2 _ hin
    exfalso
    apply hin
    show t ∈ (List.range sent.length).map (· + 1)
    simp
    exact ⟨t - 1, by omega, by omega⟩
  · intro t h1 h2
    show d.getD (t - 1) 0 = _
    rw [hc t h1 h2]
    have e1 : List.countP (fun c => goldHead sent c == t) [0] = 0 := by
      simp [goldHead_zero]; omega
    show _ = ((List.countP (fun c => goldHead sent c == t) [0] +
      List.countP (fun c => goldHead sent c == t) ((List.range sent.length).map (· + 1)) : Nat) : Int)
    rw [e1, countP_input]
    simp

@[simp] theorem ORIG_dependents (ts : TrainState) (d : List Int) (p : Nat) :
    ({ ts with dependents := d } : TrainState).ORIG p = ts.ORIG p := rfl

theorem OracleInv.frontier {ts : TrainState} (hv : OracleInv sent ts) {top x : Nat}
    {st inp : List Nat} (hs : ts.stack = top :: st) (hi : ts.input = x :: inp) :
    Frontier sent (top :: st) (x :: inp) := by
  rw [← hs, ← hi]; exact hv.front

theorem goldLabel_eq (sent : Sentence) (p : Nat) :
    (sent[p - 1]?.getD default).label = goldLabel sent p := by
  simp [goldLabel, List.getD_eq_getElem?_getD]

theorem goldHead_eq (sent : Sentence) (p : Nat) (h : p ≠ 0) :
    (sent[p - 1]?.getD default).head = goldHead sent p := by
  simp [goldHead, h, List.getD_eq_getElem?_getD]

/-- The rule asking for a `D` is skipped with `CompositeActions` on, and with it
off when the recorded action is not a reduction. -/
theorem rule2_skipped (cfg : FeatureConfig) (ts : TrainState)
    (hA : cfg.CompositeActions = true ∨ strchrRrLl ts.action = false) :
    (!cfg.CompositeActions && strchrRrLl ts.action) = false := by
  rcases hA with h | h <;> simp [h]

theorem makeAction_composite (cfg : FeatureConfig) (hC : cfg.CompositeActions = true)
    (c : Char) (l : List Char) (hl : l.length + 2 ≤ 128) :
    MakeAction cfg.CompositeActions [c] l = some (c :: l) := by
  have : 1 + l.length + 1 ≤ 128 := by omega
  simp [MakeAction, hC, this]

theorem goldLabel_fit (hl : labelsFit sent) (t : Nat) : (goldLabel sent t).length + 2 ≤ 128 := by
  unfold goldLabel
  by_cases h : t - 1 < sent.length
  · rw [List.getD_eq_getElem?_getD, List.getElem?_eq_getElem h]
    exact hl _ (List.getElem_mem _)
  · rw [List.getD_eq_getElem?_getD, List.getElem?_eq_none (by omega)]
    decide

theorem OracleInv.nextAction_right {ts : TrainState} (hv : OracleInv sent ts)
    (ht : goldTree sent) (hp : projective sent) (cfg : FeatureConfig)
    (hA : cfg.CompositeActions = true ∨ strchrRrLl ts.action = false)
    {top x : Nat} {st inp : List Nat}
    (hs : ts.stack = top :: st) (hi : ts.input = x :: inp)
    (h0 : top ≠ 0) (h5 : goldHead sent top = x) :
    ts.nextAction cfg = (MakeAction cfg.CompositeActions ['R'] (goldLabel sent top)).map fun a =>
      (some a,
        { ts with dependents := ts.dependents.set (x - 1) (ts.dependents.getD (x - 1) 0 - 1) }) := by
  have hc2 := rule2_skipped cfg ts hA
  have f := hv.frontier hs hi
  have hx0 : x ≠ 0 := f.next_pos
  have hxn : x ≤ sent.length := f.range x (Or.inr (List.mem_cons_self _ _))
  have htn : top ≤ sent.length := f.range top (Or.inl (List.mem_cons_self _ _))
  have hres : ts.dependents.getD (top - 1) 0 = 0 := by
    rw [hv.resolved_iff top (by omega) htn, hs, hi]
    exact f.right_resolved ht hp h0 h5
  rw [List.getD_eq_getElem?_getD] at hres
  unfold TrainState.nextAction
  simp only [hi, hs, hc2, List.length_cons, Bool.false_eq_true, if_false]
  simp [hv.ORIG_eq x (by omega) hxn, hv.ORIG_eq top (by omega) htn, hv.extracted,
    hv.ids top htn, hv.ids x hxn, h0, andThen, goldHead_eq sent top h0, h5,
    hv.Resolved_eq top (by omega) htn, hres, hv.decrement_eq x (by omega) hxn,
    goldLabel_eq]


theorem OracleInv.nextAction_left {ts : TrainState} (hv : OracleInv sent ts)
    (cfg : FeatureConfig) (hA : cfg.CompositeActions = true ∨ strchrRrLl ts.action = false)
    (hE : cfg.arcEager = false)
    {top x : Nat} {st inp : List Nat}
    (hs : ts.stack = top :: st) (hi : ts.input = x :: inp) (hst : st ≠ [])
    (h5 : goldHead sent top ≠ x) (h7 : goldHead sent x = top)
    (hres : ts.dependents.getD (x - 1) 0 = 0) :
    ts.nextAction cfg = (MakeAction cfg.CompositeActions ['L'] (goldLabel sent x)).map fun a =>
      (some a, { ts with
        dependents := ts.dependents.set (top - 1) (ts.dependents.getD (top - 1) 0 - 1) }) := by
  have hc2 := rule2_skipped cfg ts hA
  have f := hv.frontier hs hi
  have hx0 : x ≠ 0 := f.next_pos
  have hxn : x ≤ sent.length := f.range x (Or.inr (List.mem_cons_self _ _))
  have htn : top ≤ sent.length := f.range top (Or.inl (List.mem_cons_self _ _))
  have h0 : top ≠ 0 := f.top_ne_zero hst
  have hlen : 0 < st.length := List.length_pos.mpr hst
  rw [List.getD_eq_getElem?_getD] at hres
  unfold TrainState.nextAction
  simp only [hi, hs, hc2, List.length_cons, Bool.false_eq_true, if_false]
  simp [hv.ORIG_eq x (by omega) hxn, hv.ORIG_eq top (by omega) htn, hv.extracted,
    hv.ids top htn, hv.ids x hxn, h0, andThen, goldHead_eq sent top h0, goldHead_eq sent x hx0,
    h5, h7, hE, hlen,
    hv.Resolved_eq x (by omega) hxn, hres, hv.decrement_eq top (by omega) htn,
    goldLabel_eq]

theorem OracleInv.nextAction_left_root {ts : TrainState} (hv : OracleInv sent ts)
    (cfg : FeatureConfig) (hA : cfg.CompositeActions = true ∨ strchrRrLl ts.action = false)
    {top x : Nat} {inp : List Nat}
    (hs : ts.stack = [top]) (hi : ts.input = x :: inp)
    (h7 : goldHead sent x = top)
    (hres : ts.dependents.getD (x - 1) 0 = 0) :
    ts.nextAction cfg =
      (MakeAction cfg.CompositeActions ['L'] (goldLabel sent x)).map fun a => (some a, ts) := by
  have hc2 := rule2_skipped cfg ts hA
  have f := hv.frontier hs hi
  have hx0 : x ≠ 0 := f.next_pos
  have hxn : x ≤ sent.length := f.range x (Or.inr (List.mem_cons_self _ _))
  have h0 : top = 0 := f.top_zero
  subst h0
  rw [List.getD_eq_getElem?_getD] at hres
  unfold TrainState.nextAction
  simp only [hi, hs, hc2, List.length_cons, Bool.false_eq_true, if_false]
  simp [hv.ORIG_eq x (by omega) hxn, hv.extracted,
    hv.ids 0 (by omega), hv.ids x hxn, andThen, goldHead_eq sent x hx0,
    h7, hv.Resolved_eq x (by omega) hxn, hres, goldLabel_eq]

theorem getD_ne_zero_of_sorted (l : List Nat) (h : l.Pairwise (· > ·)) (i : Nat)
    (hi : i + 1 < l.length) : l.getD i 0 ≠ 0 := by
  have := List.pairwise_iff_getElem.mp h i (i + 1) (by omega) hi (by omega)
  rw [List.getD_eq_getElem?_getD, List.getElem?_eq_getElem (by omega)]
  simp
  omega

theorem getD_mem_tail (top : Nat) (st : List Nat) (n : Nat) (h2 : 2 ≤ n)
    (hl : n < (top :: st).length) : (top :: st).getD (n - 1) 0 ∈ st := by
  obtain ⟨m, rfl⟩ : ∃ m, n = m + 2 := ⟨n - 2, by omega⟩
  simp at hl
  simp [List.getD_eq_getElem?_getD, List.getElem?_eq_getElem (show m < st.length by omega)]

theorem OracleInv.nextToStackLink_false {ts : TrainState} (hv : OracleInv sent ts)
    (ht : goldTree sent) (hp : projective sent) {top x : Nat} {st inp : List Nat}
    (hs : ts.stack = top :: st) (hi : ts.input = x :: inp)
    (h5 : ¬ (top ≠ 0 ∧ goldHead sent top = x)) (n : Nat) (h2 : 2 ≤ n) :
    ts.NextToStackLink n x = some false := by
  have f := hv.frontier hs hi
  have hxn : x ≤ sent.length := f.range x (Or.inr (List.mem_cons_self _ _))
  unfold TrainState.NextToStackLink
  split
  · rename_i hl
    rw [hs] at hl ⊢
    have hmem := getD_mem_tail top st n h2 hl
    have hb0 : (top :: st).getD (n - 1) 0 ≠ 0 :=
      getD_ne_zero_of_sorted _ f.stackSorted (n - 1) (by omega)
    have hbn := f.range _ (Or.inl (List.mem_cons_of_mem top hmem))
    have h0 := f.top_ne_zero (List.ne_nil_of_mem hmem)
    have := f.no_right_below ht hp (fun e => h5 ⟨h0, e⟩) hmem
    rw [hv.ORIG_eq _ (by omega) hbn, hv.ids x hxn]
    simp [List.getD_eq_getElem?_getD] at this hb0 ⊢
    rw [goldHead_eq sent _ hb0]
    exact this
  · rfl

theorem OracleInv.stackToNextLink_false {ts : TrainState} (hv : OracleInv sent ts)
    (hp : projective sent) {top x : Nat} {st inp : List Nat}
    (hs : ts.stack = top :: st) (hi : ts.input = x :: inp)
    (h5 : ¬ (top ≠ 0 ∧ goldHead sent top = x)) (n : Nat) (h2 : 2 ≤ n) :
    ts.StackToNextLink n (goldHead sent x) = false := by
  have f := hv.frontier hs hi
  unfold TrainState.StackToNextLink
  by_cases hl : ts.stack.length > n
  · rw [hs] at hl ⊢
    have hmem := getD_mem_tail top st n h2 hl
    have hbn := f.range _ (Or.inl (List.mem_cons_of_mem top hmem))
    have h0 := f.top_ne_zero (List.ne_nil_of_mem hmem)
    have := f.no_left_below hp (fun e => h5 ⟨h0, e⟩) hmem
    rw [hv.ids _ hbn]
    simp
    intro _ e
    apply this
    rw [List.getD_eq_getElem?_getD]
    exact e.symm
  · simp [hl]

theorem OracleInv.nextAction_shift {ts : TrainState} (hv : OracleInv sent ts)
    (ht : goldTree sent) (hp : projective sent)
    (cfg : FeatureConfig) (hA : cfg.CompositeActions = true ∨ strchrRrLl ts.action = false)
    (hE : cfg.arcEager = false)
    {top x : Nat} {st inp : List Nat}
    (hs : ts.stack = top :: st) (hi : ts.input = x :: inp)
    (h5 : ¬ (top ≠ 0 ∧ goldHead sent top = x))
    (h7 : ¬ (goldHead sent x = top ∧ ts.dependents.getD (x - 1) 0 = 0)) :
    ts.nextAction cfg = some (some ['S'], ts) := by
  have hc2 := rule2_skipped cfg ts hA
  have f := hv.frontier hs hi
  have hx0 : x ≠ 0 := f.next_pos
  have hxn : x ≤ sent.length := f.range x (Or.inr (List.mem_cons_self _ _))
  have htn : top ≤ sent.length := f.range top (Or.inl (List.mem_cons_self _ _))
  have n2 := hv.nextToStackLink_false ht hp hs hi h5 2 (by omega)
  have n3 := hv.nextToStackLink_false ht hp hs hi h5 3 (by omega)
  have n4 := hv.nextToStackLink_false ht hp hs hi h5 4 (by omega)
  have s2 := hv.stackToNextLink_false hp hs hi h5 2 (by omega)
  have s3 := hv.stackToNextLink_false hp hs hi h5 3 (by omega)
  have s4 := hv.stackToNextLink_false hp hs hi h5 4 (by omega)
  rw [List.getD_eq_getElem?_getD] at h7
  have c5 : andThen (decide ((ts.node top).id ≠ 0))
      ((ts.ORIG top).map fun o => o.head == (ts.node x).id) = some false := by
    rw [hv.ids top htn, hv.ids x hxn]
    by_cases h0 : top = 0
    · simp [andThen, h0]
    · simp [andThen, h0, hv.ORIG_eq top (by omega) htn, goldHead_eq sent top h0]
      exact fun e => h5 ⟨h0, e⟩
  unfold TrainState.nextAction
  simp only [hi, hs, hc2, List.length_cons, Bool.false_eq_true, if_false]
  simp only [← hs, c5, n2, n3, n4]
  by_cases hxt : goldHead sent x = top
  · have hres : ¬ ts.dependents[x - 1]?.getD 0 = 0 := fun e => h7 ⟨hxt, e⟩
    simp [hv.ORIG_eq x (by omega) hxn, hv.extracted, hv.ids top htn, andThen,
      goldHead_eq sent x hx0, hxt, hE, hv.Resolved_eq x (by omega) hxn, hres]
  · simp [hv.ORIG_eq x (by omega) hxn, hv.extracted, hv.ids top htn, andThen,
      goldHead_eq sent x hx0, hxt, hE, s2, s3, s4]

theorem head_linkHead (s : State) (p h q : Nat) :
    ((s.linkHead p h).node q).head = if q = p ∧ p < s.nodes.length then h else (s.node q).head := by
  rw [node_linkHead]
  split <;> rfl

@[simp] theorem label_linkHead (s : State) (p h q : Nat) :
    ((s.linkHead p h).node q).label = (s.node q).label := by
  rw [node_linkHead]
  split
  · rename_i h1; rw [h1.1]
  · rfl

@[simp] theorem deprel_linkHead (s : State) (p h q : Nat) :
    ((s.linkHead p h).node q).deprel = (s.node q).deprel := by
  rw [node_linkHead]
  split
  · rename_i h1; rw [h1.1]
  · rfl

@[simp] theorem head_linkLabel (s : State) (p q : Nat) (l : List Char) :
    ((s.linkLabel p l).node q).head = (s.node q).head := by
  rw [node_linkLabel]
  split
  · rename_i h1; rw [h1.1]
  · rfl

theorem label_linkLabel (s : State) (p q : Nat) (l : List Char) :
    ((s.linkLabel p l).node q).label =
      if q = p ∧ p < s.nodes.length then l else (s.node q).label := by
  rw [node_linkLabel]
  split <;> rfl

@[simp] theorem deprel_linkLabel (s : State) (p q : Nat) (l : List Char) :
    ((s.linkLabel p l).node q).deprel = (s.node q).deprel := by
  rw [node_linkLabel]
  split
  · rename_i h1; rw [h1.1]
  · rfl

@[simp] theorem head_pushLeft (s : State) (p c q : Nat) :
    ((s.pushLeft p c).node q).head = (s.node q).head := by
  rw [node_pushLeft]
  split
  · rename_i h1; rw [h1.1]
  · rfl

@[simp] theorem label_pushLeft (s : State) (p c q : Nat) :
    ((s.pushLeft p c).node q).label = (s.node q).label := by
  rw [node_pushLeft]
  split
  · rename_i h1; rw [h1.1]
  · rfl

@[simp] theorem deprel_pushLeft (s : State) (p c q : Nat) :
    ((s.pushLeft p c).node q).deprel = (s.node q).deprel := by
  rw [node_pushLeft]
  split
  · rename_i h1; rw [h1.1]
  · rfl

@[simp] theorem head_pushRight (s : State) (p c q : Nat) :
    ((s.pushRight p c).node q).head = (s.node q).head := by
  rw [node_pushRight]
  split
  · rename_i h1; rw [h1.1]
  · rfl

@[simp] theorem label_pushRight (s : State) (p c q : Nat) :
    ((s.pushRight p c).node q).label = (s.node q).label := by
  rw [node_pushRight]
  split
  · rename_i h1; rw [h1.1]
  · rfl

@[simp] theorem deprel_pushRight (s : State) (p c q : Nat) :
    ((s.pushRight p c).node q).deprel = (s.node q).deprel := by
  rw [node_pushRight]
  split
  · rename_i h1; rw [h1.1]
  · rfl

theorem getD_set_int (l : List Int) (i j : Nat) (v : Int) :
    (l.set i v).getD j 0 = if i = j ∧ i < l.length then v else l.getD j 0 := by
  simp only [List.getD_eq_getElem?_getD, List.getElem?_set]
  by_cases h : i = j
  · subst h
    by_cases h2 : i < l.length
    · simp [h2]
    · simp [h2, List.getElem?_eq_none (not_lt.mp h2)]
  · simp [h]

theorem step_eq (cfg : FeatureConfig) (ts ts1 : TrainState) (a : Action) (s : State)
    (h1 : ts.nextAction cfg = some (some a, ts1))
    (h2 : ts1.toState.transition cfg State.copy a = .this s) :
    ts.step cfg = some (some (a, { ts1 with toState := s })) := by
  unfold TrainState.step
  rw [h1]
  simp only
  rw [h2]

/-- The invariant once the top of the stack hangs under the next token. -/
theorem oracleInv_right {ts ts' : TrainState} (hv : OracleInv sent ts)
    (ht : goldTree sent) (hp : projective sent) {top x : Nat} {st inp : List Nat}
    (hs : ts.stack = top :: st) (hi : ts.input = x :: inp)
    (h0 : top ≠ 0) (h5 : goldHead sent top = x)
    (hnode : ∀ q, ts'.node q =
      (((ts.pushLeft x top).linkHead top ((ts.pushLeft x top).node x).id).linkLabel top
        (goldLabel sent top)).node q)
    (hlen : ts'.nodes.length = ts.nodes.length)
    (hs' : ts'.stack = st) (hi' : ts'.input = x :: inp)
    (hex : ts'.extracted = ts.extracted) (hsen : ts'.sentence = ts.sentence)
    (han : ts'.annotated = ts.annotated)
    (hdep : ts'.dependents = ts.dependents.set (x - 1) (ts.dependents.getD (x - 1) 0 - 1)) :
    OracleInv sent ts' := by
  have f := hv.frontier hs hi
  have hx0 : x ≠ 0 := f.next_pos
  have hxn : x ≤ sent.length := f.range x (Or.inr (List.mem_cons_self _ _))
  have htn : top ≤ sent.length := f.range top (Or.inl (List.mem_cons_self _ _))
  have f' := f.right ht hp h0 h5
  have hlt : top < ts.nodes.length := by rw [hv.size]; omega
  refine ⟨by simpa [hs', hi'] using f', by rw [han]; exact hv.annotated,
    by simpa [hsen] using hv.sentence, by simpa [hex] using hv.extracted,
    by simpa [hlen] using hv.size, ?_, ?_, ?_, by simpa [hdep] using hv.depSize, ?_⟩
  · intro p hp'
    rw [hnode]
    simpa using hv.ids p hp'
  · intro p h1 h2
    rw [hnode]
    simpa using hv.deprel p h1 h2
  · intro t h1 h2 hts hti
    rw [hs'] at hts
    rw [hi'] at hti
    rw [hnode, label_linkLabel]
    simp only [head_linkLabel, head_linkHead, length_linkHead, length_pushLeft, label_linkHead,
      label_pushLeft, head_pushLeft, id_pushLeft]
    by_cases htt : t = top
    · subst htt
      have hid : (ts.node x).id = x := hv.ids x hxn
      simp [hlt, hid, h5]
    · have := hv.attached t h1 h2 (by rw [hs]; simp [htt, hts]) (by rw [hi]; exact hti)
      simpa [htt] using this
  · intro t h1 h2
    have := hv.counts t h1 h2
    rw [hs, hi] at this
    rw [hdep, hs', hi', getD_set_int]
    simp only [List.countP_cons] at this ⊢
    have hxl : x - 1 < ts.dependents.length := by rw [hv.depSize]; omega
    by_cases htx : t = x
    · subst htx
      simp only [hxl, and_self, if_true, this]
      simp [h5]
      split_ifs <;> omega
    · have : ¬ (x - 1 = t - 1) := by omega
      have h5' : ¬ goldHead sent top = t := by rw [h5]; exact fun e => htx e.symm
      simp [this, h5'] at *
      assumption

/-- The invariant once the next token hangs under the top of the stack, which
went back to the input. -/
theorem oracleInv_left {ts ts' : TrainState} (hv : OracleInv sent ts)
    {top x : Nat} {st inp : List Nat}
    (hs : ts.stack = top :: st) (hi : ts.input = x :: inp) (hst : st ≠ [])
    (h7 : goldHead sent x = top) (hres : ts.dependents.getD (x - 1) 0 = 0)
    (hnode : ∀ q, ts'.node q =
      (((ts.pushRight top x).linkHead x ((ts.pushRight top x).node top).id).linkLabel x
        (goldLabel sent x)).node q)
    (hlen : ts'.nodes.length = ts.nodes.length)
    (hs' : ts'.stack = st) (hi' : ts'.input = top :: inp)
    (hex : ts'.extracted = ts.extracted) (hsen : ts'.sentence = ts.sentence)
    (han : ts'.annotated = ts.annotated)
    (hdep : ts'.dependents =
      ts.dependents.set (top - 1) (ts.dependents.getD (top - 1) 0 - 1)) :
    OracleInv sent ts' := by
  have f := hv.frontier hs hi
  have hx0 : x ≠ 0 := f.next_pos
  have hxn : x ≤ sent.length := f.range x (Or.inr (List.mem_cons_self _ _))
  have htn : top ≤ sent.length := f.range top (Or.inl (List.mem_cons_self _ _))
  have h0 : top ≠ 0 := f.top_ne_zero hst
  have htx := f.top_pos
  have hr : ∀ c, c ∈ top :: st ∨ c ∈ x :: inp → goldHead sent c ≠ x := by
    have := (hv.resolved_iff x (by omega) hxn).mp hres
    rwa [hs, hi] at this
  have f' := f.left hst h7 hr
  have hlt : x < ts.nodes.length := by rw [hv.size]; omega
  refine ⟨by simpa [hs', hi'] using f', by rw [han]; exact hv.annotated,
    by simpa [hsen] using hv.sentence, by simpa [hex] using hv.extracted,
    by simpa [hlen] using hv.size, ?_, ?_, ?_, by simpa [hdep] using hv.depSize, ?_⟩
  · intro p hp'
    rw [hnode]
    simpa using hv.ids p hp'
  · intro p h1 h2
    rw [hnode]
    simpa using hv.deprel p h1 h2
  · intro t h1 h2 hts hti
    rw [hs'] at hts
    rw [hi'] at hti
    rw [hnode, label_linkLabel]
    simp only [head_linkLabel, head_linkHead, length_linkHead, length_pushRight, label_linkHead,
      label_pushRight, head_pushRight, id_pushRight]
    by_cases htt : t = x
    · subst htt
      have hid : (ts.node top).id = top := hv.ids top htn
      simp [hlt, hid, h7]
    · simp at hti
      have := hv.attached t h1 h2 (by rw [hs]; simp [hti.1, hts]) (by rw [hi]; simp [htt, hti.2])
      simpa [htt] using this
  · intro t h1 h2
    have := hv.counts t h1 h2
    rw [hs, hi] at this
    rw [hdep, hs', hi', getD_set_int]
    simp only [List.countP_cons] at this ⊢
    have hxl : top - 1 < ts.dependents.length := by rw [hv.depSize]; omega
    by_cases htt : t = top
    · subst htt
      simp only [hxl, and_self, if_true, this]
      simp [h7]
      split_ifs <;> omega
    · have hne : ¬ (top - 1 = t - 1 ∧ top - 1 < ts.dependents.length) := by omega
      have h7' : (goldHead sent x == t) = false := by
        simp [h7]; exact fun e => htt e.symm
      rw [if_neg hne, this]
      simp only [h7']
      push_cast
      split_ifs <;> omega

/-- The invariant once the next token hangs under the root, alone on the stack. -/
theorem oracleInv_left_root {ts ts' : TrainState} (hv : OracleInv sent ts)
    {top x : Nat} {inp : List Nat}
    (hs : ts.stack = [top]) (hi : ts.input = x :: inp)
    (h7 : goldHead sent x = top) (hres : ts.dependents.getD (x - 1) 0 = 0)
    (hnode : ∀ q, ts'.node q =
      (((ts.pushRight top x).linkHead x ((ts.pushRight top x).node top).id).linkLabel x
        (goldLabel sent x)).node q)
    (hlen : ts'.nodes.length = ts.nodes.length)
    (hs' : ts'.stack = [top]) (hi' : ts'.input = inp)
    (hex : ts'.extracted = ts.extracted) (hsen : ts'.sentence = ts.sentence)
    (han : ts'.annotated = ts.annotated) (hdep : ts'.dependents = ts.dependents) :
    OracleInv sent ts' := by
  have f := hv.frontier hs hi
  have hx0 : x ≠ 0 := f.next_pos
  have hxn : x ≤ sent.length := f.range x (Or.inr (List.mem_cons_self _ _))
  have h0 : top = 0 := f.top_zero
  have hr : ∀ c, c ∈ [top] ∨ c ∈ x :: inp → goldHead sent c ≠ x := by
    have := (hv.resolved_iff x (by omega) hxn).mp hres
    rwa [hs, hi] at this
  have f' := f.left_root hr
  have hlt : x < ts.nodes.length := by rw [hv.size]; omega
  refine ⟨by simpa [hs', hi'] using f', by rw [han]; exact hv.annotated,
    by simpa [hsen] using hv.sentence, by simpa [hex] using hv.extracted,
    by simpa [hlen] using hv.size, ?_, ?_, ?_, by simpa [hdep] using hv.depSize, ?_⟩
  · intro p hp'
    rw [hnode]
    simpa using hv.ids p hp'
  · intro p h1 h2
    rw [hnode]
    simpa using hv.deprel p h1 h2
  · intro t h1 h2 hts hti
    rw [hs'] at hts
    rw [hi'] at hti
    rw [hnode, label_linkLabel]
    simp only [head_linkLabel, head_linkHead, length_linkHead, length_pushRight, label_linkHead,
      label_pushRight, head_pushRight, id_pushRight]
    by_cases htt : t = x
    · subst htt
      have hid : (ts.node top).id = top := hv.ids top (by omega)
      simp [hlt, hid, h7]
    · have := hv.attached t h1 h2 (by rw [hs]; exact hts) (by rw [hi]; simp [htt, hti])
      simpa [htt] using this
  · intro t h1 h2
    have := hv.counts t h1 h2
    rw [hs, hi] at this
    rw [hdep, hs', hi', this]
    have h7' : ¬ goldHead sent x = t := by rw [h7, h0]; omega
    simp [List.countP_cons, h7']

theorem OracleInv.step_right {ts : TrainState} (hv : OracleInv sent ts) (hl : labelsFit sent)
    (ht : goldTree sent) (hp : projective sent)
    (cfg : FeatureConfig) (hC : cfg.CompositeActions = true)
    {top x : Nat} {st inp : List Nat}
    (hs : ts.stack = top :: st) (hi : ts.input = x :: inp)
    (h0 : top ≠ 0) (h5 : goldHead sent top = x) :
    ∃ ts', ts.step cfg = some (some ('R' :: goldLabel sent top, ts')) ∧ OracleInv sent ts' ∧
      ts'.stack = st ∧ ts'.input = x :: inp := by
  have f := hv.frontier hs hi
  have hst : st ≠ [] := List.ne_nil_of_mem (f.zero_below h0)
  have hna := hv.nextAction_right ht hp cfg (Or.inl hC) hs hi h0 h5
  rw [makeAction_composite cfg hC _ _ (goldLabel_fit hl _)] at hna
  obtain ⟨s', hR, hnode, hlen, hs', hi', hex, _, hsen, _, _⟩ :=
    Right_spec cfg ts.toState ('R' :: goldLabel sent top) top x st inp hs hst hi
  simp only [hC, if_true] at hnode
  have htr : ts.toState.transition cfg State.copy ('R' :: goldLabel sent top) = .this s' := by
    rw [transition_R, if_neg, hR]
    rw [hs]
    rcases st with _ | ⟨b, st⟩
    · exact absurd rfl hst
    · simp
  exact ⟨_, step_eq cfg ts _ _ _ hna htr,
    oracleInv_right hv ht hp hs hi h0 h5 hnode hlen hs' hi' hex hsen rfl rfl, hs', hi'⟩

theorem OracleInv.step_left {ts : TrainState} (hv : OracleInv sent ts) (hl : labelsFit sent)
    (cfg : FeatureConfig) (hC : cfg.CompositeActions = true) (hE : cfg.arcEager = false)
    {top x : Nat} {st inp : List Nat}
    (hs : ts.stack = top :: st) (hi : ts.input = x :: inp) (hst : st ≠ [])
    (h5 : goldHead sent top ≠ x) (h7 : goldHead sent x = top)
    (hres : ts.dependents.getD (x - 1) 0 = 0) :
    ∃ ts', ts.step cfg = some (some ('L' :: goldLabel sent x, ts')) ∧ OracleInv sent ts' ∧
      ts'.stack = st ∧ ts'.input = top :: inp := by
  have hna := hv.nextAction_left cfg (Or.inl hC) hE hs hi hst h5 h7 hres
  rw [makeAction_composite cfg hC _ _ (goldLabel_fit hl _)] at hna
  obtain ⟨s', hL, hnode, hlen, hs', hi', hex, _, hsen, _, _⟩ :=
    Left_spec cfg ts.toState ('L' :: goldLabel sent x) top x st inp hs hi
  simp only [hC, hE, hst, if_true, ne_eq, not_false_eq_true, Bool.false_eq_true, if_false]
    at hnode hs' hi'
  have htr : ts.toState.transition cfg State.copy ('L' :: goldLabel sent x) = .this s' := by
    rw [transition_L, hL]
  exact ⟨_, step_eq cfg ts _ _ _ hna htr,
    oracleInv_left hv hs hi hst h7 hres hnode hlen hs' hi' hex hsen rfl rfl, hs', hi'⟩

theorem OracleInv.step_left_root {ts : TrainState} (hv : OracleInv sent ts) (hl : labelsFit sent)
    (cfg : FeatureConfig) (hC : cfg.CompositeActions = true) (hE : cfg.arcEager = false)
    {top x : Nat} {inp : List Nat}
    (hs : ts.stack = [top]) (hi : ts.input = x :: inp)
    (h7 : goldHead sent x = top)
    (hres : ts.dependents.getD (x - 1) 0 = 0) :
    ∃ ts', ts.step cfg = some (some ('L' :: goldLabel sent x, ts')) ∧ OracleInv sent ts' ∧
      ts'.stack = [top] ∧ ts'.input = inp := by
  have hna := hv.nextAction_left_root cfg (Or.inl hC) hs hi h7 hres
  rw [makeAction_composite cfg hC _ _ (goldLabel_fit hl _)] at hna
  obtain ⟨s', hL, hnode, hlen, hs', hi', hex, _, hsen, _, _⟩ :=
    Left_spec cfg ts.toState ('L' :: goldLabel sent x) top x [] inp hs hi
  simp only [hC, hE, if_true, ne_eq, not_true_eq_false, Bool.false_eq_true, if_false]
    at hnode hs' hi'
  have htr : ts.toState.transition cfg State.copy ('L' :: goldLabel sent x) = .this s' := by
    rw [transition_L, hL]
  exact ⟨_, step_eq cfg ts _ _ _ hna htr,
    oracleInv_left_root hv hs hi h7 hres hnode hlen hs' hi' hex hsen rfl rfl, hs', hi'⟩

theorem OracleInv.step_shift {ts : TrainState} (hv : OracleInv sent ts)
    (ht : goldTree sent) (hp : projective sent)
    (cfg : FeatureConfig) (hA : cfg.CompositeActions = true ∨ strchrRrLl ts.action = false)
    (hE : cfg.arcEager = false)
    {top x : Nat} {st inp : List Nat}
    (hs : ts.stack = top :: st) (hi : ts.input = x :: inp)
    (h5 : ¬ (top ≠ 0 ∧ goldHead sent top = x))
    (h7 : ¬ (goldHead sent x = top ∧ ts.dependents.getD (x - 1) 0 = 0)) :
    ∃ ts', ts.step cfg = some (some (['S'], ts')) ∧ OracleInv sent ts' ∧
      ts'.stack = x :: top :: st ∧ ts'.input = inp ∧ ts'.action = some ['S'] ∧
      ts'.previous = ts.previous := by
  have f := hv.frontier hs hi
  have hx0 : x ≠ 0 := f.next_pos
  have hxn : x ≤ sent.length := f.range x (Or.inr (List.mem_cons_self _ _))
  have h7' : ¬ (goldHead sent x = top ∧
      ∀ c, c ∈ top :: st ∨ c ∈ x :: inp → goldHead sent c ≠ x) := by
    intro h
    apply h7
    refine ⟨h.1, ?_⟩
    rw [hv.resolved_iff x (by omega) hxn, hs, hi]
    exact h.2
  have hna := hv.nextAction_shift ht hp cfg hA hE hs hi h5 h7
  have htr : ts.toState.transition cfg State.copy ['S'] =
      .this { ts.toState with input := inp, stack := x :: ts.stack, action := some ['S'],
                              afterUnshift := false } := by
    rw [transition_S]
    simp [hi, State.Shift]
  refine ⟨_, step_eq cfg ts ts _ _ hna htr, ?_, by simp [hs], rfl, rfl, rfl⟩
  have f' := f.shift ht hp h5 h7'
  refine ⟨by simpa [hs] using f', hv.annotated, hv.sentence, hv.extracted, hv.size, hv.ids,
    hv.deprel, ?_, hv.depSize, ?_⟩
  · intro t h1 h2 hts hti
    simp [hs] at hts
    apply hv.attached t h1 h2
    · rw [hs]; simp; exact ⟨hts.2.1, hts.2.2⟩
    · rw [hi]; simp; exact ⟨hts.1, hti⟩
  · intro t h1 h2
    have := hv.counts t h1 h2
    rw [hs, hi] at this
    simp only [hs, List.countP_cons] at this ⊢
    rw [this]
    push_cast
    omega

/-- On a projective tree every round of the loop with tokens left on the input
emits an action, keeps the invariant and brings the end nearer. -/
theorem OracleInv.step {ts : TrainState} (hv : OracleInv sent ts) (hl : labelsFit sent)
    (ht : goldTree sent) (hp : projective sent)
    (cfg : FeatureConfig) (hC : cfg.CompositeActions = true) (hE : cfg.arcEager = false)
    (hne : ts.input ≠ []) :
    ∃ a ts', ts.step cfg = some (some (a, ts')) ∧ OracleInv sent ts' ∧
      2 * ts'.input.length + ts'.stack.length < 2 * ts.input.length + ts.stack.length := by
  rcases hi : ts.input with _ | ⟨x, inp⟩
  · exact absurd hi hne
  rcases hs : ts.stack with _ | ⟨top, st⟩
  · have := hv.front.zeroMem
    simp [hs] at this
  have f := hv.frontier hs hi
  by_cases h5 : top ≠ 0 ∧ goldHead sent top = x
  · obtain ⟨ts', h1, h2, h3, h4⟩ := hv.step_right hl ht hp cfg hC hs hi h5.1 h5.2
    exact ⟨_, ts', h1, h2, by rw [h3, h4]; simp⟩
  by_cases h7 : goldHead sent x = top ∧ ts.dependents.getD (x - 1) 0 = 0
  · rcases st with _ | ⟨b, st⟩
    · obtain ⟨ts', h1, h2, h3, h4⟩ := hv.step_left_root hl cfg hC hE hs hi h7.1 h7.2
      exact ⟨_, ts', h1, h2, by rw [h3, h4]; simp⟩
    · have h0 := f.top_ne_zero (by simp)
      obtain ⟨ts', h1, h2, h3, h4⟩ := hv.step_left hl cfg hC hE hs hi (by simp)
        (fun e => h5 ⟨h0, e⟩) h7.1 h7.2
      exact ⟨_, ts', h1, h2, by rw [h3, h4]; simp⟩
  · obtain ⟨ts', h1, h2, h3, h4, _, _⟩ := hv.step_shift ht hp cfg (Or.inl hC) hE hs hi h5 h7
    exact ⟨_, ts', h1, h2, by rw [h3, h4]; simp; omega⟩

/-- Once the input is used up the loop is finished. -/
theorem OracleInv.finished {ts : TrainState} (hv : OracleInv sent ts)
    (cfg : FeatureConfig) (he : ts.input = []) : ts.step cfg = some none := by
  have hs := hv.front.drained he
  unfold TrainState.step TrainState.nextAction
  simp [he, hs]

/-- On a projective tree the loop ends within the fuel given by the tokens left,
with every token attached to its gold head under its gold label. -/
theorem OracleInv.run (hl : labelsFit sent) (ht : goldTree sent) (hp : projective sent)
    (cfg : FeatureConfig) (hC : cfg.CompositeActions = true) (hE : cfg.arcEager = false)
    (fuel : Nat) (ts : TrainState) (hv : OracleInv sent ts)
    (hf : 2 * ts.input.length + ts.stack.length ≤ fuel) :
    ∃ acts fin, ts.run cfg fuel = some (acts, fin) ∧
      acts.length + 1 ≤ 2 * ts.input.length + ts.stack.length ∧
      fin.sentence = (List.range sent.length).map (· + 1) ∧
      ∀ t, 1 ≤ t → t ≤ sent.length →
        (fin.node t).id = t ∧ (fin.node t).head = goldHead sent t ∧
          (fin.node t).label = goldLabel sent t := by
  induction fuel generalizing ts with
  | zero =>
    exfalso
    have := hv.front.zeroMem
    rcases hs : ts.stack with _ | ⟨top, st⟩
    · simp [hs] at this
    · simp [hs] at hf
  | succ fuel ih =>
    by_cases he : ts.input = []
    · have hs := hv.front.drained he
      refine ⟨[], ts, ?_, by simp [hs], hv.sentence, ?_⟩
      · simp [TrainState.run, hv.finished cfg he]
      · intro t h1 h2
        have := hv.attached t h1 h2 (by rw [hs]; simp; omega) (by rw [he]; simp)
        exact ⟨hv.ids t h2, this.1, this.2⟩
    · obtain ⟨a, ts', h1, h2, h3⟩ := hv.step hl ht hp cfg hC hE he
      obtain ⟨acts, fin, r1, r2, r3, r4⟩ := ih ts' h2 (by omega)
      refine ⟨a :: acts, fin, ?_, by simp; omega, r3, r4⟩
      simp [TrainState.run, h1, r1]

/-! ### The loop with `CompositeActions` off -/

/-- What `DepLink` does after `R` in a state without predecessor. -/
theorem DepLink_spec_R (s : State) (rest act : List Char) (x child : Nat) (i : List Nat)
    (hi : s.input = x :: i) (hp : s.previous = none) (ha : s.action = some ('R' :: act))
    (hc : (s.node x).left.getLast? = some child) :
    s.DepLink ('D' :: rest) =
      .this { s.linkLabel child rest with action := some ('D' :: rest) } := by
  unfold State.DepLink
  simp [hi, hp, ha, firstChar, hc]

/-- What `DepLink` does after `L` in a state without predecessor. -/
theorem DepLink_spec_L (s : State) (rest act : List Char) (x child : Nat) (i : List Nat)
    (hi : s.input = x :: i) (hp : s.previous = none) (ha : s.action = some ('L' :: act))
    (hc : (s.node x).right.getLast? = some child) :
    s.DepLink ('D' :: rest) =
      .this (if s.stack.isEmpty then
          { s.linkLabel child rest with input := i, stack := [x], action := some ('D' :: rest) }
        else { s.linkLabel child rest with action := some ('D' :: rest) }) := by
  unfold State.DepLink
  cases hs : s.stack <;> simp [hi, hp, ha, firstChar, hc, hs]

theorem DepLink_spec_r (s : State) (rest act : List Char) (x child b : Nat) (i st : List Nat)
    (hi : s.input = x :: i) (hs : s.stack = b :: st) (hp : s.previous = none)
    (ha : s.action = some ('r' :: act)) (hc : (s.node x).left.getLast? = some child) :
    s.DepLink ('D' :: rest) =
      .this { s.linkLabel child rest with
        input := b :: x :: i, stack := st, action := some ('D' :: rest) } := by
  unfold State.DepLink
  simp [hi, hp, ha, firstChar, hc, hs]

theorem DepLink_spec_l (s : State) (rest act : List Char) (x child : Nat) (i : List Nat)
    (hi : s.input = x :: i) (hp : s.previous = none) (ha : s.action = some ('l' :: act))
    (hc : (s.node x).right.getLast? = some child) :
    s.DepLink ('D' :: rest) =
      .this (if s.stack.isEmpty then
          { s.linkLabel child rest with input := i, stack := [x], action := some ('D' :: rest) }
        else { s.linkLabel child rest with action := some ('D' :: rest) }) := by
  unfold State.DepLink
  cases hs : s.stack <;> simp [hi, hp, ha, firstChar, hc, hs]

theorem nextAction_D_right (cfg : FeatureConfig) (hC : cfg.CompositeActions = false)
    (ts : TrainState) (act : List Char) (x child : Nat) (i : List Nat)
    (hi : ts.input = x :: i) (ha : ts.action = some ('R' :: act))
    (hc : (ts.node x).left.getLast? = some child)
    (hl : (ts.node child).deprel.length + 2 ≤ 128) :
    ts.nextAction cfg = some (some ('D' :: (ts.node child).deprel), ts) := by
  unfold TrainState.nextAction
  simp [hi, hC, ha, strchrRrLl, hc, MakeAction]
  omega

theorem nextAction_D_left (cfg : FeatureConfig) (hC : cfg.CompositeActions = false)
    (ts : TrainState) (act : List Char) (x child : Nat) (i : List Nat)
    (hi : ts.input = x :: i) (ha : ts.action = some ('L' :: act))
    (hc : (ts.node x).right.getLast? = some child)
    (hl : (ts.node child).deprel.length + 2 ≤ 128) :
    ts.nextAction cfg = some (some ('D' :: (ts.node child).deprel), ts) := by
  unfold TrainState.nextAction
  simp [hi, hC, ha, strchrRrLl, hc, MakeAction]
  omega

theorem node_linkLabel_congr (s1 s2 : State) (p : Nat) (l : List Char)
    (hn : ∀ q, s1.node q = s2.node q) (hl : s1.nodes.length = s2.nodes.length) (q : Nat) :
    (s1.linkLabel p l).node q = (s2.linkLabel p l).node q := by
  rw [node_linkLabel, node_linkLabel, hn, hn, hl]

theorem makeAction_bare (cfg : FeatureConfig) (hC : cfg.CompositeActions = false)
    (c : Char) (hc : c ≠ 'D') (l : List Char) :
    MakeAction cfg.CompositeActions [c] l = some [c] := by
  simp [MakeAction, hC, hc]

/-- With `CompositeActions` off, `R` and the `D` that follows attach the top of
the stack under the next token with its gold label. -/
theorem OracleInv.round_right {ts : TrainState} (hv : OracleInv sent ts) (hl : labelsFit sent)
    (ht : goldTree sent) (hp : projective sent)
    (cfg : FeatureConfig) (hC : cfg.CompositeActions = false) (hidle : ts.idle)
    {top x : Nat} {st inp : List Nat}
    (hs : ts.stack = top :: st) (hi : ts.input = x :: inp)
    (h0 : top ≠ 0) (h5 : goldHead sent top = x) :
    ∃ ts1 ts', ts.step cfg = some (some (['R'], ts1)) ∧
      ts1.step cfg = some (some ('D' :: goldLabel sent top, ts')) ∧
      OracleInv sent ts' ∧ ts'.idle ∧ ts'.stack = st ∧ ts'.input = x :: inp := by
  have f := hv.frontier hs hi
  have hxn : x ≤ sent.length := f.range x (Or.inr (List.mem_cons_self _ _))
  have htn : top ≤ sent.length := f.range top (Or.inl (List.mem_cons_self _ _))
  have htx := f.top_pos
  have hst : st ≠ [] := List.ne_nil_of_mem (f.zero_below h0)
  have hna := hv.nextAction_right ht hp cfg (Or.inr hidle.2) hs hi h0 h5
  rw [makeAction_bare cfg hC 'R' (by decide)] at hna
  obtain ⟨s1, hR, hnode, hlen, hs1, hi1, hex, hact, hsen, hprev, _⟩ :=
    Right_spec cfg ts.toState ['R'] top x st inp hs hst hi
  simp only [hC, Bool.false_eq_true, if_false] at hnode
  have htr : ts.toState.transition cfg State.copy ['R'] = .this s1 := by
    rw [transition_R, if_neg, hR]
    rw [hs]
    rcases st with _ | ⟨b, st⟩
    · exact absurd rfl hst
    · simp
  have h1 := step_eq cfg ts _ _ _ hna htr
  have hxl : x < ts.nodes.length := by rw [hv.size]; omega
  have hc : (s1.node x).left.getLast? = some top := by
    rw [hnode, node_linkHead, if_neg (by omega), node_pushLeft]
    simp [hxl]
  have hd : (s1.node top).deprel = goldLabel sent top := by
    rw [hnode]
    simpa using hv.deprel top (by omega) htn
  have hnaD := nextAction_D_right cfg hC
    { ts with toState := s1,
              dependents := ts.dependents.set (x - 1) (ts.dependents.getD (x - 1) 0 - 1) }
    [] x top inp hi1 hact hc
    (by show (s1.node top).deprel.length + 2 ≤ 128; rw [hd]; exact goldLabel_fit hl top)
  have hd' : (TrainState.mk s1 ts.annotated
      (ts.dependents.set (x - 1) (ts.dependents.getD (x - 1) 0 - 1))).node top = s1.node top := rfl
  rw [hd', hd] at hnaD
  have htrD : s1.transition cfg State.copy ('D' :: goldLabel sent top) = _ :=
    (transition_D cfg State.copy s1 _).trans
      (DepLink_spec_R s1 (goldLabel sent top) [] x top inp hi1 (hprev.trans hidle.1) hact hc)
  have h2 := step_eq cfg _ _ _ _ hnaD htrD
  refine ⟨_, _, h1, h2, ?_, ⟨hprev.trans hidle.1, rfl⟩, hs1, hi1⟩
  refine oracleInv_right hv ht hp hs hi h0 h5 ?_ (by simpa using hlen) hs1 hi1 hex hsen rfl rfl
  intro q
  exact node_linkLabel_congr s1 _ top _ hnode (by simpa using hlen) q

/-- With `CompositeActions` off, `L` and the `D` that follows attach the next
token under the top of the stack, which goes back to the input. -/
theorem OracleInv.round_left {ts : TrainState} (hv : OracleInv sent ts) (hl : labelsFit sent)
    (cfg : FeatureConfig) (hC : cfg.CompositeActions = false) (hE : cfg.arcEager = false)
    (hidle : ts.idle) {top x : Nat} {st inp : List Nat}
    (hs : ts.stack = top :: st) (hi : ts.input = x :: inp) (hst : st ≠ [])
    (h5 : goldHead sent top ≠ x) (h7 : goldHead sent x = top)
    (hres : ts.dependents.getD (x - 1) 0 = 0) :
    ∃ ts1 ts', ts.step cfg = some (some (['L'], ts1)) ∧
      ts1.step cfg = some (some ('D' :: goldLabel sent x, ts')) ∧
      OracleInv sent ts' ∧ ts'.idle ∧ ts'.stack = st ∧ ts'.input = top :: inp := by
  have f := hv.frontier hs hi
  have hxn : x ≤ sent.length := f.range x (Or.inr (List.mem_cons_self _ _))
  have htn : top ≤ sent.length := f.range top (Or.inl (List.mem_cons_self _ _))
  have htx := f.top_pos
  have hx0 : x ≠ 0 := f.next_pos
  have hna := hv.nextAction_left cfg (Or.inr hidle.2) hE hs hi hst h5 h7 hres
  rw [makeAction_bare cfg hC 'L' (by decide)] at hna
  obtain ⟨s1, hL, hnode, hlen, hs1, hi1, hex, hact, hsen, hprev, _⟩ :=
    Left_spec cfg ts.toState ['L'] top x st inp hs hi
  simp only [hC, hE, Bool.false_eq_true, if_false] at hnode hs1 hi1
  have htr : ts.toState.transition cfg State.copy ['L'] = .this s1 := by
    rw [transition_L, hL]
  have h1 := step_eq cfg ts _ _ _ hna htr
  have htl : top < ts.nodes.length := by rw [hv.size]; omega
  have hc : (s1.node top).right.getLast? = some x := by
    rw [hnode, node_linkHead, if_neg (by omega), node_pushRight]
    simp [htl]
  have hd : (s1.node x).deprel = goldLabel sent x := by
    rw [hnode]
    simpa using hv.deprel x (by omega) hxn
  have hnaD := nextAction_D_left cfg hC
    { ts with toState := s1,
              dependents := ts.dependents.set (top - 1) (ts.dependents.getD (top - 1) 0 - 1) }
    [] top x inp hi1 hact hc
    (by show (s1.node x).deprel.length + 2 ≤ 128; rw [hd]; exact goldLabel_fit hl x)
  have hd' : (TrainState.mk s1 ts.annotated
      (ts.dependents.set (top - 1) (ts.dependents.getD (top - 1) 0 - 1))).node x = s1.node x := rfl
  rw [hd', hd] at hnaD
  have hD := DepLink_spec_L s1 (goldLabel sent x) [] top x inp hi1 (hprev.trans hidle.1) hact hc
  have hemp : s1.stack.isEmpty = false := by
    rw [hs1]
    rcases st with _ | ⟨b, st⟩
    · exact absurd rfl hst
    · rfl
  simp only [hemp, Bool.false_eq_true, if_false] at hD
  have htrD : s1.transition cfg State.copy ('D' :: goldLabel sent x) = _ :=
    (transition_D cfg State.copy s1 _).trans hD
  have h2 := step_eq cfg _ _ _ _ hnaD htrD
  refine ⟨_, _, h1, h2, ?_, ⟨hprev.trans hidle.1, rfl⟩, hs1, hi1⟩
  refine oracleInv_left hv hs hi hst h7 hres ?_ (by simpa using hlen) hs1 hi1 hex hsen rfl rfl
  intro q
  exact node_linkLabel_congr s1 _ x _ hnode (by simpa using hlen) q

/-- With `CompositeActions` off, `L` on the root pops it and the `D` that
follows puts it back: the next token is attached under the root. -/
theorem OracleInv.round_left_root {ts : TrainState} (hv : OracleInv sent ts) (hl : labelsFit sent)
    (cfg : FeatureConfig) (hC : cfg.CompositeActions = false) (hE : cfg.arcEager = false)
    (hidle : ts.idle) {top x : Nat} {inp : List Nat}
    (hs : ts.stack = [top]) (hi : ts.input = x :: inp)
    (h7 : goldHead sent x = top)
    (hres : ts.dependents.getD (x - 1) 0 = 0) :
    ∃ ts1 ts', ts.step cfg = some (some (['L'], ts1)) ∧
      ts1.step cfg = some (some ('D' :: goldLabel sent x, ts')) ∧
      OracleInv sent ts' ∧ ts'.idle ∧ ts'.stack = [top] ∧ ts'.input = inp := by
  have f := hv.frontier hs hi
  have hxn : x ≤ sent.length := f.range x (Or.inr (List.mem_cons_self _ _))
  have htn : top ≤ sent.length := f.range top (Or.inl (List.mem_cons_self _ _))
  have htx := f.top_pos
  have hx0 : x ≠ 0 := f.next_pos
  have hna := hv.nextAction_left_root cfg (Or.inr hidle.2) hs hi h7 hres
  rw [makeAction_bare cfg hC 'L' (by decide)] at hna
  obtain ⟨s1, hL, hnode, hlen, hs1, hi1, hex, hact, hsen, hprev, _⟩ :=
    Left_spec cfg ts.toState ['L'] top x [] inp hs hi
  simp only [hC, hE, Bool.false_eq_true, if_false] at hnode hs1 hi1
  have htr : ts.toState.transition cfg State.copy ['L'] = .this s1 := by
    rw [transition_L, hL]
  have h1 := step_eq cfg ts _ _ _ hna htr
  have htl : top < ts.nodes.length := by rw [hv.size]; omega
  have hc : (s1.node top).right.getLast? = some x := by
    rw [hnode, node_linkHead, if_neg (by omega), node_pushRight]
    simp [htl]
  have hd : (s1.node x).deprel = goldLabel sent x := by
    rw [hnode]
    simpa using hv.deprel x (by omega) hxn
  have hnaD := nextAction_D_left cfg hC { ts with toState := s1 } [] top x inp hi1 hact hc
    (by show (s1.node x).deprel.length + 2 ≤ 128; rw [hd]; exact goldLabel_fit hl x)
  have hd' : (TrainState.mk s1 ts.annotated ts.dependents).node x = s1.node x := rfl
  rw [hd', hd] at hnaD
  have hD := DepLink_spec_L s1 (goldLabel sent x) [] top x inp hi1 (hprev.trans hidle.1) hact hc
  have hemp : s1.stack.isEmpty = true := by rw [hs1]; rfl
  simp only [hemp, if_true] at hD
  have htrD : s1.transition cfg State.copy ('D' :: goldLabel sent x) = _ :=
    (transition_D cfg State.copy s1 _).trans hD
  have h2 := step_eq cfg _ _ _ _ hnaD htrD
  refine ⟨_, _, h1, h2, ?_, ⟨hprev.trans hidle.1, rfl⟩, rfl, rfl⟩
  refine oracleInv_left_root hv hs hi h7 hres ?_ (by simpa using hlen) rfl rfl hex hsen rfl rfl
  intro q
  exact node_linkLabel_congr s1 _ x _ hnode (by simpa using hlen) q

/-- With `CompositeActions` off, on a projective tree the loop with tokens left
on the input emits one action (`S`) or two (a reduction and its `D`), comes
back to a state that owes no label, and comes nearer to the end by as much. -/
theorem OracleInv.round {ts : TrainState} (hv : OracleInv sent ts) (hl : labelsFit sent)
    (ht : goldTree sent) (hp : projective sent)
    (cfg : FeatureConfig) (hC : cfg.CompositeActions = false) (hE : cfg.arcEager = false)
    (hidle : ts.idle) (hne : ts.input ≠ []) :
    (∃ a ts', ts.step cfg = some (some (a, ts')) ∧ OracleInv sent ts' ∧ ts'.idle ∧
      3 * ts'.input.length + 2 * ts'.stack.length + 1 ≤
        3 * ts.input.length + 2 * ts.stack.length) ∨
    (∃ a b ts1 ts', ts.step cfg = some (some (a, ts1)) ∧
      ts1.step cfg = some (some (b, ts')) ∧ OracleInv sent ts' ∧ ts'.idle ∧
      3 * ts'.input.length + 2 * ts'.stack.length + 2 ≤
        3 * ts.input.length + 2 * ts.stack.length) := by
  rcases hi : ts.input with _ | ⟨x, inp⟩
  · exact absurd hi hne
  rcases hs : ts.stack with _ | ⟨top, st⟩
  · have := hv.front.zeroMem
    simp [hs] at this
  have f := hv.frontier hs hi
  by_cases h5 : top ≠ 0 ∧ goldHead sent top = x
  · obtain ⟨ts1, ts', h1, h2, h3, h4, h5, h6⟩ :=
      hv.round_right hl ht hp cfg hC hidle hs hi h5.1 h5.2
    exact Or.inr ⟨_, _, ts1, ts', h1, h2, h3, h4, by rw [h5, h6]; simp; omega⟩
  by_cases h7 : goldHead sent x = top ∧ ts.dependents.getD (x - 1) 0 = 0
  · rcases st with _ | ⟨b, st⟩
    · obtain ⟨ts1, ts', h1, h2, h3, h4, h5, h6⟩ :=
        hv.round_left_root hl cfg hC hE hidle hs hi h7.1 h7.2
      exact Or.inr ⟨_, _, ts1, ts', h1, h2, h3, h4, by rw [h5, h6]; simp; omega⟩
    · have h0 := f.top_ne_zero (by simp)
      obtain ⟨ts1, ts', h1, h2, h3, h4, h5, h6⟩ :=
        hv.round_left hl cfg hC hE hidle hs hi (by simp) (fun e => h5 ⟨h0, e⟩) h7.1 h7.2
      exact Or.inr ⟨_, _, ts1, ts', h1, h2, h3, h4, by rw [h5, h6]; simp; omega⟩
  · obtain ⟨ts', h1, h2, h3, h4, h5, h6⟩ :=
      hv.step_shift ht hp cfg (Or.inr hidle.2) hE hs hi h5 h7
    refine Or.inl ⟨_, ts', h1, h2, ⟨h6.trans hidle.1, by rw [h5]; rfl⟩, ?_⟩
    rw [h3, h4]; simp; omega

/-- With `CompositeActions` off, on a projective tree the loop ends within the
fuel given by the tokens left. -/
theorem OracleInv.run_bare (hl : labelsFit sent) (ht : goldTree sent) (hp : projective sent)
    (cfg : FeatureConfig) (hC : cfg.CompositeActions = false) (hE : cfg.arcEager = false)
    (m : Nat) : ∀ (ts : TrainState), OracleInv sent ts → ts.idle →
      3 * ts.input.length + 2 * ts.stack.length ≤ m + 1 → ∀ fuel, m ≤ fuel →
      ∃ acts fin, ts.run cfg fuel = some (acts, fin) ∧
        acts.length + 2 ≤ 3 * ts.input.length + 2 * ts.stack.length := by
  induction m using Nat.strong_induction_on with
  | _ m ih =>
    intro ts hv hidle hm fuel hf
    have hz := hv.front.zeroMem
    have hpos : 1 ≤ ts.stack.length := by
      rcases hs : ts.stack with _ | ⟨top, st⟩
      · simp [hs] at hz
      · simp
    by_cases he : ts.input = []
    · have hs := hv.front.drained he
      obtain ⟨fuel, rfl⟩ : ∃ k, fuel = k + 1 := ⟨fuel - 1, by omega⟩
      refine ⟨[], ts, ?_, by simp [hs]⟩
      simp [TrainState.run, hv.finished cfg he]
    · rcases hv.round hl ht hp cfg hC hE hidle he with
        ⟨a, ts', h1, h2, h3, h4⟩ | ⟨a, b, ts1, ts', h1, h1', h2, h3, h4⟩
      · have hz' := h2.front.zeroMem
        have hpos' : 1 ≤ ts'.stack.length := by
          rcases hs : ts'.stack with _ | ⟨top, st⟩
          · simp [hs] at hz'
          · simp
        obtain ⟨fuel, rfl⟩ : ∃ k, fuel = k + 1 := ⟨fuel - 1, by omega⟩
        obtain ⟨acts, fin, r1, r2⟩ := ih (m - 1) (by omega) ts' h2 h3 (by omega) fuel (by omega)
        refine ⟨a :: acts, fin, ?_, by simp; omega⟩
        simp [TrainState.run, h1, r1]
      · have hz' := h2.front.zeroMem
        have hpos' : 1 ≤ ts'.stack.length := by
          rcases hs : ts'.stack with _ | ⟨top, st⟩
          · simp [hs] at hz'
          · simp
        obtain ⟨fuel, rfl⟩ : ∃ k, fuel = k + 2 := ⟨fuel - 2, by omega⟩
        obtain ⟨acts, fin, r1, r2⟩ := ih (m - 2) (by omega) ts' h2 h3 (by omega) fuel (by omega)
        refine ⟨a :: b :: acts, fin, ?_, by simp; omega⟩
        simp [TrainState.run, h1, h1', r1]

/-! ### The run on a projective tree -/

/-- C1: for every annotated sentence whose gold links form a projective tree and
whose labels fit the buffer of `MakeAction` (at most 126 characters), with
`CompositeActions` on and `ArcEager` off (the default configuration), the
constructor is defined and driving the `TrainState` by
`transition(nextAction())` until `nextAction` returns null terminates, and
afterwards every token of the sentence (slot `i` of the sentence holds the
object of id `i + 1`) has `head` equal to its gold head and `label` equal to
its gold label. -/
theorem oracle_reproduces_projective_tree (sent : Sentence) (cfg : FeatureConfig)
    (hC : cfg.CompositeActions = true) (hE : cfg.arcEager = false)
    (ht : goldTree sent) (hp : projective sent) (hl : labelsFit sent) :
    ∃ ts0 fuel acts fin, TrainState.init sent = some ts0 ∧
      ts0.run cfg fuel = some (acts, fin) ∧
      ∀ i, i < sent.length →
        fin.sentence[i]? = some (i + 1) ∧ (fin.node (i + 1)).id = i + 1 ∧
        (fin.node (i + 1)).head = (sent.getD i default).head ∧
        (fin.node (i + 1)).label = (sent.getD i default).label := by
  obtain ⟨ts0, h0, hv, _, _, _⟩ := oracleInv_init ht
  obtain ⟨acts, fin, r1, _, r3, r4⟩ := OracleInv.run hl ht hp cfg hC hE _ ts0 hv (le_refl _)
  refine ⟨ts0, _, acts, fin, h0, r1, ?_⟩
  intro i hi
  obtain ⟨e1, e2, e3⟩ := r4 (i + 1) (by omega) (by omega)
  refine ⟨?_, e1, ?_, ?_⟩
  · rw [r3]; simp [hi]
  · rw [e2]; simp [goldHead]
  · rw [e3]; simp [goldLabel]

/-- C7: for every annotated sentence of `n` tokens whose gold links form a
projective tree and whose labels fit the buffer of `MakeAction`, with
`ArcEager` off and `CompositeActions` on or off, the run that repeatedly applies
`transition(nextAction())` from the initial `TrainState` reaches the finished
result (`nextAction` returns null) after at most `3 n` actions, and at most
`2 n` when `CompositeActions` is on. -/
theorem oracle_terminates_linear (sent : Sentence) (cfg : FeatureConfig) (hE : cfg.arcEager = false)
    (ht : goldTree sent) (hp : projective sent) (hl : labelsFit sent) :
    ∃ ts0 acts fin, TrainState.init sent = some ts0 ∧
      ts0.run cfg (3 * sent.length + 1) = some (acts, fin) ∧
      acts.length ≤ (if cfg.CompositeActions then 2 else 3) * sent.length := by
  obtain ⟨ts0, h0, hv, hidle, hi, hs⟩ := oracleInv_init ht
  cases hC : cfg.CompositeActions
  · obtain ⟨acts, fin, r1, r2⟩ :=
      OracleInv.run_bare hl ht hp cfg hC hE (3 * sent.length + 1) ts0 hv hidle
        (by rw [hi, hs]) _ (le_refl _)
    rw [hi, hs] at r2
    exact ⟨ts0, acts, fin, h0, r1, by simp; omega⟩
  · obtain ⟨acts, fin, r1, r2, _, _⟩ :=
      OracleInv.run hl ht hp cfg hC hE (3 * sent.length + 1) ts0 hv (by rw [hi, hs]; omega)
    rw [hi, hs] at r2
    exact ⟨ts0, acts, fin, h0, r1, by simp; omega⟩

theorem oracle_reproduces_projective_tree_witness :
    ({} : FeatureConfig).CompositeActions = true ∧ ({} : FeatureConfig).arcEager = false ∧
    goldTree theDogBarks ∧ projective theDogBarks ∧ labelsFit theDogBarks ∧
    ∃ ts0 fuel acts fin, TrainState.init theDogBarks = some ts0 ∧
      ts0.run {} fuel = some (acts, fin) ∧
      ∀ i, i < theDogBarks.length →
        fin.sentence[i]? = some (i + 1) ∧ (fin.node (i + 1)).id = i + 1 ∧
        (fin.node (i + 1)).head = (theDogBarks.getD i default).head ∧
        (fin.node (i + 1)).label = (theDogBarks.getD i default).label :=
  ⟨rfl, rfl, by decide, by decide, by decide,
    oracle_reproduces_projective_tree theDogBarks {} rfl rfl (by decide) (by decide)
      (by decide)⟩

theorem oracle_terminates_linear_witness :
    ({ CompositeActions := false } : FeatureConfig).arcEager = false ∧
    goldTree theDogBarks ∧ projective theDogBarks ∧ labelsFit theDogBarks ∧
    ∃ ts0 acts fin, TrainState.init theDogBarks = some ts0 ∧
      ts0.run { CompositeActions := false } (3 * theDogBarks.length + 1) = some (acts, fin) ∧
      acts.length ≤ (if ({ CompositeActions := false } : FeatureConfig).CompositeActions
        then 2 else 3) * theDogBarks.length :=
  ⟨rfl, by decide, by decide, by decide,
    oracle_terminates_linear theDogBarks { CompositeActions := false } rfl (by decide)
      (by decide) (by decide)⟩

/-- The loop stops at once, without a result, on a state where `nextAction` is
undefined. -/
theorem run_none_of_nextAction (cfg : FeatureConfig) (ts : TrainState)
    (h : ts.nextAction cfg = none) (fuel : Nat) : ts.run cfg fuel = none := by
  cases fuel with
  | zero => rfl
  | succ fuel => simp [TrainState.run, TrainState.step, h]

/-! ### Runs of the oracle that never finish -/

theorem after_add (cfg : FeatureConfig) (j k : Nat) (ts : TrainState) :
    ts.after cfg (j + k) = (ts.after cfg j).bind (TrainState.after cfg k) := by
  induction j generalizing ts with
  | zero => simp [TrainState.after]
  | succ j ih =>
    rw [Nat.succ_add]
    simp only [TrainState.after]
    rcases ts.step cfg with _ | _ | ⟨a, ts1⟩
    · rfl
    · rfl
    · exact ih ts1

/-- A loop that is still running after every number of rounds never returns. -/
theorem run_none_of_after (cfg : FeatureConfig) (fuel : Nat) (ts : TrainState)
    (h : ∀ k, (ts.after cfg k).isSome = true) : ts.run cfg fuel = none := by
  induction fuel generalizing ts with
  | zero => rfl
  | succ fuel ih =>
    have h1 := h 1
    simp only [TrainState.after, TrainState.run] at h1 ⊢
    rcases hs : ts.step cfg with _ | _ | ⟨a, ts1⟩
    · simp [hs] at h1
    · simp [hs] at h1
    · have : ∀ k, (ts1.after cfg k).isSome = true := by
        intro k
        have := h (k + 1)
        simpa [TrainState.after, hs] using this
      simp [ih ts1 this]

/-- Two states that the loop carries into each other keep it running. -/
theorem after_of_cycle (cfg : FeatureConfig) (ts1 ts2 : TrainState) (a b : Action)
    (h1 : ts1.step cfg = some (some (a, ts2))) (h2 : ts2.step cfg = some (some (b, ts1)))
    (k : Nat) : (ts1.after cfg k).isSome = true ∧ (ts2.after cfg k).isSome = true := by
  induction k with
  | zero => exact ⟨rfl, rfl⟩
  | succ k ih =>
    simp only [TrainState.after, h1, h2]
    exact ⟨ih.2, ih.1⟩

theorem after_isSome_of_le (cfg : FeatureConfig) (j k : Nat) (ts : TrainState) (hjk : j ≤ k)
    (h : (ts.after cfg k).isSome = true) : (ts.after cfg j).isSome = true := by
  obtain ⟨m, rfl⟩ : ∃ m, k = j + m := ⟨k - j, by omega⟩
  rw [after_add] at h
  cases h' : ts.after cfg j with
  | none => simp [h'] at h
  | some t => rfl

theorem crossedRoots_after (k : Nat) :
    ((TrainState.init crossedRoots).bind (TrainState.after {} k)).isSome = true := by
  obtain ⟨ts0, h0, h6⟩ : ∃ ts0, TrainState.init crossedRoots = some ts0 ∧
      ts0.after {} 6 = some crossedRootsStuck := ⟨_, rfl, by decide⟩
  rw [h0, Option.some_bind]
  have hU : crossedRootsStuck.step {} = some (some (['U'], crossedRootsUnshifted)) := by
    decide
  have hS : crossedRootsUnshifted.step {} = some (some (['S'], crossedRootsStuck)) := by
    decide
  by_cases hk : k ≤ 6
  · exact after_isSome_of_le {} k 6 _ hk (by rw [h6]; rfl)
  · obtain ⟨m, rfl⟩ : ∃ m, k = 6 + m := ⟨k - 6, by omega⟩
    rw [after_add, h6]
    exact (after_of_cycle {} _ _ _ _ hU hS m).1


/-- With `ArcEager` on, `L` on the root and the following `U` bring the loop back
to where it was. -/
theorem arcEager_round (cfg : FeatureConfig) (hC : cfg.CompositeActions = true)
    (hE : cfg.arcEager = true) (ts : TrainState) (hv : OracleInv oneRoot ts)
    (hs : ts.stack = [0]) (hi : ts.input = [1]) :
    ∃ ts2, ts.after cfg 2 = some ts2 ∧ OracleInv oneRoot ts2 ∧
      ts2.stack = [0] ∧ ts2.input = [1] := by
  have hres : ts.dependents.getD (1 - 1) 0 = 0 := by
    rw [hv.resolved_iff 1 (le_refl _) (le_refl _), hs, hi]
    intro c hc
    simp at hc
    rcases hc with h | h <;> subst h <;> decide
  have hna := hv.nextAction_left_root cfg (Or.inl hC) hs hi (by decide) hres
  rw [makeAction_composite cfg hC _ _ (by decide)] at hna
  obtain ⟨s1, hL, hnode, hlen, hs1, hi1, hex, _, hsen, _, _⟩ :=
    Left_spec cfg ts.toState ('L' :: goldLabel oneRoot 1) 0 1 [] [] hs hi
  simp only [hC, hE, if_true] at hnode hs1 hi1
  have htr : ts.toState.transition cfg State.copy ('L' :: goldLabel oneRoot 1) = .this s1 := by
    rw [transition_L, hL]
  have h1 := step_eq cfg ts _ _ _ hna htr
  have h2 : ({ ts with toState := s1 } : TrainState).step cfg = some (some (['U'],
      { ts with toState := { s1 with stack := [0], input := [1], action := some ['U'],
                                     afterUnshift := true } })) := by
    unfold TrainState.step TrainState.nextAction
    simp [hs1, hi1, transition_U, State.Unshift]
  refine ⟨{ ts with toState := { s1 with stack := [0], input := [1], action := some ['U'],
                                          afterUnshift := true } },
    by simp [TrainState.after, h1, h2], ?_, rfl, rfl⟩
  refine ⟨by simpa [hs, hi] using hv.front, hv.annotated, by simpa [hsen] using hv.sentence,
    by simpa [hex] using hv.extracted, by simpa [hlen] using hv.size, ?_, ?_, ?_, hv.depSize, ?_⟩
  · intro p hp'
    show (s1.node p).id = p
    rw [hnode]
    simpa using hv.ids p hp'
  · intro p h1 h2
    show (s1.node p).deprel = _
    rw [hnode]
    simpa using hv.deprel p h1 h2
  · intro t h1 h2 _ hti
    exfalso
    apply hti
    have : t = 1 := by
      have : oneRoot.length = 1 := rfl
      omega
    subst this
    exact List.mem_cons_self _ _
  · intro t h1 h2
    have := hv.counts t h1 h2
    rwa [hs, hi] at this

theorem oneRoot_after (cfg : FeatureConfig) (hC : cfg.CompositeActions = true)
    (hE : cfg.arcEager = true) (k : Nat) (ts : TrainState) (hv : OracleInv oneRoot ts)
    (hs : ts.stack = [0]) (hi : ts.input = [1]) : (ts.after cfg k).isSome = true := by
  induction k using Nat.strong_induction_on generalizing ts with
  | _ k ih =>
    obtain ⟨ts2, h2, hv2, hs2, hi2⟩ := arcEager_round cfg hC hE ts hv hs hi
    by_cases hk : k ≤ 2
    · exact after_isSome_of_le cfg k 2 ts hk (by rw [h2]; rfl)
    · obtain ⟨m, rfl⟩ : ∃ m, k = 2 + m := ⟨k - 2, by omega⟩
      rw [after_add, h2]
      exact ih m (by omega) ts2 hv2 hs2 hi2

set_option maxRecDepth 100000 in
/-- C7 (counterexample): the loop `transition(nextAction())` does not finish on
every annotated sentence under every configuration. Under the default
configuration, on the four-token sentence with gold heads 4, 0, 0, 0 (a tree,
with the arc 1 → 4 crossing the root arcs of tokens 2 and 3) the loop is still
running after every number of rounds (from the sixth on it alternates `U` and
`S`), so no amount of fuel makes the run return. With `ArcEager` on, the same
holds on the one-token sentence whose token is attached to the root (a
projective tree): the oracle alternates `L` and `U`. On the one-token sentence
whose label has 127 characters the first call of `nextAction` is undefined:
`L` and the label do not fit the buffer of `MakeAction`. -/
theorem oracle_loops_counterexample :
    goldTree crossedRoots ∧ labelsFit crossedRoots ∧
    (∀ k, ((TrainState.init crossedRoots).bind (TrainState.after {} k)).isSome = true) ∧
    (∀ fuel, (TrainState.init crossedRoots).bind (TrainState.run {} fuel) = none) ∧
    goldTree oneRoot ∧ projective oneRoot ∧ labelsFit oneRoot ∧
    (∀ k, ((TrainState.init oneRoot).bind
      (TrainState.after { arcEager := true } k)).isSome = true) ∧
    (∀ fuel, (TrainState.init oneRoot).bind (TrainState.run { arcEager := true } fuel) = none) ∧
    goldTree longLabel ∧ projective longLabel ∧
    (∃ ts0, TrainState.init longLabel = some ts0 ∧ ts0.nextAction {} = none ∧
      ∀ fuel, ts0.run {} fuel = none) := by
  have h1 := crossedRoots_after
  obtain ⟨c0, hc0⟩ : ∃ ts0, TrainState.init crossedRoots = some ts0 := ⟨_, rfl⟩
  obtain ⟨t0, ht0, hv, _, hi, hs⟩ := oracleInv_init (show goldTree oneRoot by decide)
  have hs' : t0.stack = [0] := (init_toState _ _ ht0).1 ▸ rfl
  have hi' : t0.input = [1] := (init_toState _ _ ht0).1 ▸ rfl
  have h2 : ∀ k, ((TrainState.init oneRoot).bind
      (TrainState.after { arcEager := true } k)).isSome = true := by
    intro k
    rw [ht0, Option.some_bind]
    exact oneRoot_after { arcEager := true } rfl rfl k t0 hv hs' hi'
  have h3 : ∃ ts0, TrainState.init longLabel = some ts0 ∧ ts0.nextAction {} = none :=
    ⟨_, rfl, by decide⟩
  obtain ⟨l0, hl0, hn0⟩ := h3
  refine ⟨by decide, by decide, h1, ?_, by decide, by decide, by decide, h2, ?_, by decide,
    by decide, l0, hl0, hn0, run_none_of_nextAction _ _ hn0⟩
  · intro fuel
    rw [hc0, Option.some_bind]
    refine run_none_of_after _ fuel _ (fun k => ?_)
    have := h1 k
    rwa [hc0, Option.some_bind] at this
  · intro fuel
    rw [ht0, Option.some_bind]
    refine run_none_of_after _ fuel _ (fun k => ?_)
    have := h2 k
    rwa [ht0, Option.some_bind] at this

set_option maxRecDepth 100000 in
/-- C1 (failing input): on the one-token sentence whose token hangs under the
root with a label of 127 characters (a projective tree), under the default
configuration, the constructor is defined and the first call of `nextAction`
is not: `MakeAction` writes `L`, the label and the terminating `0`, 129
characters, into `char action[128]`. The loop returns with no amount of
fuel. -/
theorem oracle_overflows_on_long_label :
    goldTree longLabel ∧ projective longLabel ∧ ¬ labelsFit longLabel ∧
    MakeAction true ['L'] (goldLabel longLabel 1) = none ∧
    ∃ ts0, TrainState.init longLabel = some ts0 ∧ ts0.nextAction {} = none ∧
      ∀ fuel, ts0.run {} fuel = none := by
  have h3 : ∃ ts0, TrainState.init longLabel = some ts0 ∧ ts0.nextAction {} = none :=
    ⟨_, rfl, by decide⟩
  obtain ⟨l0, hl0, hn0⟩ := h3
  exact ⟨by decide, by decide, by decide, by decide, l0, hl0, hn0,
    run_none_of_nextAction _ _ hn0⟩

/-! ## The reductions `r<n>` and `l<n>` in full -/

theorem moveBack_eq (k : Nat) (st inp : List Nat) :
    moveBack k st inp =
      if k ≤ st.length then some (st.drop k, (st.take k).reverse ++ inp) else none := by
  induction k generalizing st inp with
  | zero => simp [moveBack]
  | succ k ih =>
    cases st with
    | nil => simp [moveBack]
    | cons b st =>
      simp only [moveBack, ih, List.length_cons, Nat.add_le_add_iff_right, List.drop_succ_cons,
        List.take_succ_cons, List.reverse_cons, List.append_assoc, List.singleton_append]

/-- What `right` does when the stack is deeper than its depth. -/
theorem rightN_spec (cfg : FeatureConfig) (s : State) (a : Action) (x : Nat) (i : List Nat)
    (hi : s.input = x :: i) (h1 : 1 ≤ actionDepth a) (hl : actionDepth a < s.stack.length) :
    ∃ s', s.right cfg State.copy a = .this s' ∧
      (∀ q, s'.node q = (if cfg.CompositeActions then
          (((s.pushLeft x (s.stack.getD (actionDepth a - 1) 0)).linkHead
            (s.stack.getD (actionDepth a - 1) 0)
            ((s.pushLeft x (s.stack.getD (actionDepth a - 1) 0)).node x).id).linkLabel
              (s.stack.getD (actionDepth a - 1) 0) (a.drop 2)).node q
        else ((s.pushLeft x (s.stack.getD (actionDepth a - 1) 0)).linkHead
            (s.stack.getD (actionDepth a - 1) 0)
            ((s.pushLeft x (s.stack.getD (actionDepth a - 1) 0)).node x).id).node q)) ∧
      s'.nodes.length = s.nodes.length ∧
      s'.stack = (if cfg.CompositeActions then (s.stack.eraseIdx (actionDepth a - 1)).tail
        else s.stack.eraseIdx (actionDepth a - 1)) ∧
      s'.input = (if cfg.CompositeActions then
          (s.stack.eraseIdx (actionDepth a - 1)).headD 0 :: x :: i
        else x :: i) ∧
      s'.extracted = s.extracted ∧ s'.action = some a ∧ s'.sentence = s.sentence ∧
      s'.previous = s.previous ∧ s'.afterUnshift = s.afterUnshift := by
  unfold State.right
  generalize actionDepth a = n at h1 hl
  have hn0 : n ≠ 0 := by omega
  have hle : ¬ s.stack.length ≤ n := by omega
  have hne : s.stack.eraseIdx (n - 1) ≠ [] := by
    intro h
    have := congrArg List.length h
    rw [List.length_eraseIdx] at this
    split at this <;> simp at this <;> omega
  rcases he : s.stack.eraseIdx (n - 1) with _ | ⟨b, t⟩
  · exact absurd he hne
  cases hC : cfg.CompositeActions <;>
    simp [hi, hn0, hle, State.copy, he] <;> (intro q; rfl)

theorem rightN_this (cfg : FeatureConfig) (s s' : State) (a : Action)
    (h : s.right cfg State.copy a = .this s') :
    s.input ≠ [] ∧ 1 ≤ actionDepth a ∧ actionDepth a < s.stack.length := by
  unfold State.right at h
  generalize actionDepth a = n at h
  dsimp only at h
  split at h
  · simp at h
  · split at h
    · simp at h
    · rename_i h1 h2
      refine ⟨?_, by omega, by omega⟩
      intro hi
      simp [State.copy, hi] at h

/-- What `left` does when the stack is as deep as its depth. -/
theorem leftN_spec (cfg : FeatureConfig) (s : State) (a : Action) (x : Nat) (i : List Nat)
    (hi : s.input = x :: i) (h2 : 2 ≤ actionDepth a) (hl : actionDepth a ≤ s.stack.length) :
    ∃ s', s.left cfg State.copy a = .this s' ∧
      (∀ q, s'.node q = (if cfg.CompositeActions then
          (((s.pushRight (s.stack.getD (actionDepth a - 1) 0) x).linkHead x
            ((s.pushRight (s.stack.getD (actionDepth a - 1) 0) x).node
              (s.stack.getD (actionDepth a - 1) 0)).id).linkLabel x (a.drop 2)).node q
        else ((s.pushRight (s.stack.getD (actionDepth a - 1) 0) x).linkHead x
            ((s.pushRight (s.stack.getD (actionDepth a - 1) 0) x).node
              (s.stack.getD (actionDepth a - 1) 0)).id).node q)) ∧
      s'.nodes.length = s.nodes.length ∧
      s'.stack = (if 1 < (s.stack.drop (actionDepth a - 1)).length
        then (s.stack.drop (actionDepth a - 1)).tail
        else s.stack.getD (actionDepth a - 1) 0 :: (s.stack.drop (actionDepth a - 1)).tail) ∧
      s'.input = (if 1 < (s.stack.drop (actionDepth a - 1)).length
        then s.stack.getD (actionDepth a - 1) 0 ::
          ((s.stack.take (actionDepth a - 1)).reverse ++ i)
        else (s.stack.take (actionDepth a - 1)).reverse ++ i) ∧
      s'.extracted = s.extracted ∧ s'.action = some a ∧ s'.sentence = s.sentence ∧
      s'.previous = s.previous ∧ s'.afterUnshift = s.afterUnshift := by
  unfold State.left
  generalize actionDepth a = n at h2 hl
  obtain ⟨m, rfl⟩ : ∃ m, n = m + 2 := ⟨n - 2, by omega⟩
  rcases hs : s.stack with _ | ⟨b, st⟩
  · simp [hs] at hl
  rw [hs] at hl
  simp only [List.length_cons] at hl
  have hm : m ≤ st.length := by omega
  have hlt : ¬ (st.length + 1 < m + 2) := by omega
  have hd : st.drop m ≠ [] := by
    intro h
    have := congrArg List.length h
    simp at this
    omega
  rcases hdm : st.drop m with _ | ⟨c, t⟩
  · exact absurd hdm hd
  cases hC : cfg.CompositeActions <;> rcases t with _ | ⟨d, t⟩ <;>
    simp [hi, hlt, State.copy, hs, moveBack_eq, hm, hdm]

theorem leftN_this (cfg : FeatureConfig) (s s' : State) (a : Action)
    (h : s.left cfg State.copy a = .this s') :
    s.input ≠ [] ∧ 2 ≤ actionDepth a ∧ actionDepth a ≤ s.stack.length := by
  unfold State.left at h
  generalize actionDepth a = n at h
  dsimp only at h
  split at h
  · simp at h
  · split at h
    · simp at h
    · rename_i h1 h2
      refine ⟨?_, by omega, by omega⟩
      intro hi
      simp [State.copy, hi] at h

/-- The three ways `DepLink` returns `this`: nothing to label, a left child of
the next token labelled (after `R`, `r`), a right child labelled (after `L`,
`l`). -/
theorem DepLink_cases (s s' : State) (a : Action) (h : s.DepLink a = .this s') :
    (s.afterReduce = false ∧ s' = s) ∨
    (∃ x i child, s.input = x :: i ∧ (s.node x).left.getLast? = some child ∧
      (∃ c, firstChar (match s.previous with | some p => p.action | none => s.action) = some c ∧
        (c = some 'R' ∨ c = some 'r')) ∧
      ((firstChar s.action = some (some 'r') ∧ ∃ b st, s.stack = b :: st ∧
          s' = { s.linkLabel child (a.drop 1) with
            input := b :: x :: i, stack := st, action := some a }) ∨
        (firstChar s.action ≠ some (some 'r') ∧
          s' = { s.linkLabel child (a.drop 1) with action := some a }))) ∨
    (∃ x i child, s.input = x :: i ∧ (s.node x).right.getLast? = some child ∧
      (∃ c, firstChar (match s.previous with | some p => p.action | none => s.action) = some c ∧
        ¬ (c = some 'R' ∨ c = some 'r') ∧ (c = some 'L' ∨ c = some 'l')) ∧
      ((s.stack = [] ∧
          s' = { s.linkLabel child (a.drop 1) with
            input := i, stack := [x], action := some a }) ∨
        (s.stack ≠ [] ∧ s' = { s.linkLabel child (a.drop 1) with action := some a }))) := by
  unfold State.DepLink at h
  unfold State.afterReduce
  split at h
  · simp at h
  · rename_i x i hi
    split at h
    · simp at h
    · rename_i c hc
      rw [hc]
      split at h
      · rename_i hR
        right; left
        split at h
        · simp at h
        · rename_i child hch
          dsimp only at h
          refine ⟨x, i, child, hi, hch, ⟨c, by first | exact hc | rfl, hR⟩, ?_⟩
          split at h
          · simp at h
          · rename_i c0 hc0
            split at h
            · rename_i hr
              split at h
              · simp at h
              · rename_i b st hst
                left
                simp only [linkLabel_action] at hc0
                simp only [linkLabel_stack] at hst
                refine ⟨by rw [hc0, hr], b, st, hst, ?_⟩
                cases h
                simp [hi]
            · rename_i hr
              right
              simp only [linkLabel_action] at hc0
              refine ⟨by rw [hc0]; simpa using hr, ?_⟩
              cases h
              rfl
      · split at h
        · rename_i hR hL
          right; right
          split at h
          · simp at h
          · rename_i child hch
            dsimp only at h
            refine ⟨x, i, child, hi, hch, ⟨c, by first | exact hc | rfl, hR, hL⟩, ?_⟩
            split at h
            · rename_i he
              left
              simp only [linkLabel_stack, List.isEmpty_iff] at he
              refine ⟨he, ?_⟩
              cases h
              simp [hi, he]
            · rename_i he
              right
              simp only [linkLabel_stack, List.isEmpty_iff] at he
              refine ⟨he, ?_⟩
              cases h
              rfl
        · rename_i hR hL
          left
          simp at h
          refine ⟨?_, h.symm⟩
          simp at hR hL ⊢
          exact ⟨hR.1, hR.2, hL.1, hL.2⟩

/-! ## `R` with only the root on the stack -/

/-- C11 (the code at the failing input): on a state whose stack holds only the
synthetic root and whose input is not empty, `transition` with an `R` action
returns what `transition("S")` returns (the same state, with `S` recorded and no
arc created).  On the initial state of the empty sentence (stack root only,
input empty) `transition("S")` returns the state unchanged, while
`transition("R")` runs `Shift()`, which reads `input.back()` of the empty
input. -/
theorem right_on_root_at_end :
    (∀ (cfg : FeatureConfig) (copy : Copy) (s : State) (rest : List Char),
      s.stack.length = 1 → s.input ≠ [] →
        s.transition cfg copy ('R' :: rest) = s.transition cfg copy ['S']) ∧
    (State.init []).stack = [0] ∧ (State.init []).input = [] ∧
    (State.init []).transition {} State.copy ['S'] = .this (State.init []) ∧
    (State.init []).transition {} State.copy ['R'] = .undefined := by
  refine ⟨?_, rfl, rfl, by decide, by decide⟩
  intro cfg copy s rest hs hi
  rw [transition_R, transition_S, if_pos hs]
  cases h : s.input with
  | nil => exact absurd h hi
  | cons x i => simp

/-! ## The scenarios of the specification -/

/-- A finished run stays what it is when more fuel is given. -/
theorem run_add (cfg : FeatureConfig) (fuel k : Nat) (ts : TrainState)
    (r : List Action × TrainState) (h : ts.run cfg fuel = some r) :
    ts.run cfg (fuel + k) = some r := by
  induction fuel generalizing ts r with
  | zero => simp [TrainState.run] at h
  | succ fuel ih =>
    rw [Nat.add_right_comm]
    unfold TrainState.run at h ⊢
    cases hs : ts.step cfg with
    | none => simp [hs] at h
    | some o =>
      cases o with
      | none => simpa [hs] using h
      | some p =>
        obtain ⟨a, ts1⟩ := p
        simp only [hs] at h ⊢
        cases hr : TrainState.run cfg fuel ts1 with
        | none => simp [hr] at h
        | some r1 =>
          rw [ih ts1 r1 hr]
          simpa [hr] using h

/-- Two finished runs from the same state are the same run. -/
theorem run_unique (cfg : FeatureConfig) (f1 f2 : Nat) (ts : TrainState)
    (r1 r2 : List Action × TrainState) (h1 : ts.run cfg f1 = some r1)
    (h2 : ts.run cfg f2 = some r2) : r1 = r2 := by
  have e1 := run_add cfg f1 f2 ts r1 h1
  have e2 := run_add cfg f2 f1 ts r2 h2
  rw [Nat.add_comm] at e2
  rw [e1] at e2
  exact Option.some.inj e2

theorem bind_run_add (cfg : FeatureConfig) (f k : Nat) (o : Option TrainState)
    (r : List Action × TrainState) (h : o.bind (TrainState.run cfg f) = some r) :
    o.bind (TrainState.run cfg (f + k)) = some r := by
  cases o with
  | none => simp at h
  | some ts => exact run_add cfg f k ts r h

theorem bind_run_unique (cfg : FeatureConfig) (f1 f2 : Nat) (o : Option TrainState)
    (r1 r2 : List Action × TrainState) (h1 : o.bind (TrainState.run cfg f1) = some r1)
    (h2 : o.bind (TrainState.run cfg f2) = some r2) : r1 = r2 := by
  cases o with
  | none => simp at h1
  | some ts => exact run_unique cfg f1 f2 ts r1 r2 h1 h2

theorem theDogBarks_run :
    ((TrainState.init theDogBarks).bind (TrainState.run {} 6)).map (·.1) =
      some [['S'], ['R', 'd', 'e', 't'], ['S'], ['R', 'n', 's', 'u', 'b', 'j'],
        ['L', 'r', 'o', 'o', 't']] := by
  decide

/-- C12 (amended): for the sentence `1/the 2/dog 3/barks` with gold `1->2/det`,
`2->3/nsubj`, `3->0/root`, under the default configuration, the oracle-driven
run ends (with any fuel from 6 on) and emits exactly the action stream `S`,
`R det`, `S`, `R nsubj`, `L root`. -/
theorem scenario_one_stream (k : Nat) :
    ((TrainState.init theDogBarks).bind (TrainState.run {} (6 + k))).map (·.1) =
      some [['S'], ['R', 'd', 'e', 't'], ['S'], ['R', 'n', 's', 'u', 'b', 'j'],
        ['L', 'r', 'o', 'o', 't']] := by
  have h := theDogBarks_run
  cases hr : (TrainState.init theDogBarks).bind (TrainState.run {} 6) with
  | none => simp [hr] at h
  | some r =>
    rw [bind_run_add _ 6 k _ r hr]
    simpa [hr] using h

/-- C12 (counterexample): no run of the oracle on that sentence, whatever the
fuel, emits the stream `S`, `S`, `L det`, `S`, `L nsubj`, `R root`, `S`. -/
theorem scenario_one_counterexample :
    ¬ ∃ fuel fin, (TrainState.init theDogBarks).bind (TrainState.run {} fuel) =
      some ([['S'], ['S'], ['L', 'd', 'e', 't'], ['S'], ['L', 'n', 's', 'u', 'b', 'j'],
        ['R', 'r', 'o', 'o', 't'], ['S']], fin) := by
  rintro ⟨fuel, fin, h⟩
  have h6 := theDogBarks_run
  cases hr : (TrainState.init theDogBarks).bind (TrainState.run {} 6) with
  | none => simp [hr] at h6
  | some r =>
    have := bind_run_unique _ _ _ _ _ _ h hr
    subst this
    simp [hr] at h6

theorem scenarioTwo_run :
    ((TrainState.init scenarioTwo).bind (TrainState.run {} 8)).map (·.1) =
      some [['S'], ['L'], ['S'], ['L'], ['S'], ['R'], ['L']] := by
  decide

/-- C13 (amended): for the sentence `1/A 2/B 3/C 4/D` with gold heads `1->4`,
`2->1`, `3->1`, `4->0` (a projective tree), under the default configuration,
the oracle-driven run ends (with any fuel from 8 on) and emits exactly the
action stream `S`, `L`, `S`, `L`, `S`, `R`, `L`: tokens 2 and 3 are attached to
token 1 by `L` when token 1 is on top of the stack, and no `l2` is emitted. -/
theorem scenario_two_stream (k : Nat) :
    ((TrainState.init scenarioTwo).bind (TrainState.run {} (8 + k))).map (·.1) =
      some [['S'], ['L'], ['S'], ['L'], ['S'], ['R'], ['L']] := by
  have h := scenarioTwo_run
  cases hr : (TrainState.init scenarioTwo).bind (TrainState.run {} 8) with
  | none => simp [hr] at h
  | some r =>
    rw [bind_run_add _ 8 k _ r hr]
    simpa [hr] using h

/-- C13 (counterexample): no run of the oracle on that sentence, whatever the
fuel, emits a stream with an action that starts with `l2`. -/
theorem scenario_two_counterexample :
    ¬ ∃ fuel acts fin, (TrainState.init scenarioTwo).bind (TrainState.run {} fuel) =
        some (acts, fin) ∧
      ∃ a ∈ acts, a.take 2 = ['l', '2'] := by
  rintro ⟨fuel, acts, fin, h, a, ha, h2⟩
  have h8 := scenarioTwo_run
  cases hr : (TrainState.init scenarioTwo).bind (TrainState.run {} 8) with
  | none => simp [hr] at h8
  | some r =>
    have := bind_run_unique _ _ _ _ _ _ h hr
    subst this
    simp [hr] at h8
    subst h8
    simp at ha
    rcases ha with e | e | e | e | e | e | e <;> subst e <;> simp at h2

theorem stream_add (cfg : FeatureConfig) (j k : Nat) (ts : TrainState) :
    ts.stream cfg (j + k) = (ts.stream cfg j).bind fun r =>
      (r.2.stream cfg k).map fun r2 => (r.1 ++ r2.1, r2.2) := by
  induction j generalizing ts with
  | zero => simp [TrainState.stream]
  | succ j ih =>
    rw [Nat.succ_add]
    simp only [TrainState.stream]
    rcases ts.step cfg with _ | _ | ⟨a, ts1⟩
    · rfl
    · rfl
    · simp only [ih ts1]
      cases TrainState.stream cfg j ts1 with
      | none => rfl
      | some r =>
        simp only [Option.map_some', Option.some_bind, Option.map_map]
        cases TrainState.stream cfg k r.2 <;> rfl

theorem after_eq_stream (cfg : FeatureConfig) (k : Nat) (ts : TrainState) :
    ts.after cfg k = (ts.stream cfg k).map (·.2) := by
  induction k generalizing ts with
  | zero => rfl
  | succ k ih =>
    simp only [TrainState.after, TrainState.stream]
    rcases ts.step cfg with _ | _ | ⟨a, ts1⟩
    · rfl
    · rfl
    · simp only [ih ts1, Option.map_map]
      rfl

/-- A pair of states that the loop carries into each other: the stream repeats
the two actions. -/
theorem stream_of_cycle (cfg : FeatureConfig) (ts1 ts2 : TrainState) (a b : Action)
    (h1 : ts1.step cfg = some (some (a, ts2))) (h2 : ts2.step cfg = some (some (b, ts1)))
    (k : Nat) : ts1.stream cfg (2 * k) = some ((List.replicate k [a, b]).flatten, ts1) := by
  induction k with
  | zero => rfl
  | succ k ih =>
    have : 2 * (k + 1) = 2 * k + 1 + 1 := by omega
    rw [this]
    simp [TrainState.stream, h1, h2, ih, List.replicate_succ]

theorem heEatsApples_stream :
    (TrainState.init heEatsApples).bind (TrainState.stream { arcEager := true } 6) =
      some ([['S'], ['R', 'n', 's', 'u', 'b', 'j'], ['S'], ['L', 'o', 'b', 'j'], ['U'], ['P']],
        { heEatsApplesUnshifted with action := some ['P'] }) := by
  decide

theorem heEatsApples_cycle :
    ({ heEatsApplesUnshifted with action := some ['P'] } : TrainState).step { arcEager := true } =
      some (some (['S'], heEatsApplesShifted)) ∧
    heEatsApplesShifted.step { arcEager := true } =
      some (some (['U'], heEatsApplesUnshifted)) ∧
    heEatsApplesUnshifted.step { arcEager := true } =
      some (some (['S'], heEatsApplesShifted)) := by
  decide

theorem heEatsApples_streams (k : Nat) :
    ((TrainState.init heEatsApples).bind
      (TrainState.stream { arcEager := true } (6 + 2 * k))).map (·.1) =
      some ([['S'], ['R', 'n', 's', 'u', 'b', 'j'], ['S'], ['L', 'o', 'b', 'j'], ['U'], ['P']] ++
        (List.replicate k [['S'], ['U']]).flatten) := by
  obtain ⟨c1, c2, c3⟩ := heEatsApples_cycle
  obtain ⟨ts0, h0⟩ : ∃ ts0, TrainState.init heEatsApples = some ts0 := ⟨_, rfl⟩
  have h6 := heEatsApples_stream
  rw [h0, Option.some_bind] at h6 ⊢
  rw [stream_add, h6]
  cases k with
  | zero => rfl
  | succ j =>
    have : 2 * (j + 1) = 2 + 2 * j := by omega
    rw [Option.some_bind, this, stream_add]
    have h2 : TrainState.stream { arcEager := true } 2
        ({ heEatsApplesUnshifted with action := some ['P'] } : TrainState) =
        some ([['S'], ['U']], heEatsApplesUnshifted) := by
      simp [TrainState.stream, c1, c2]
    simp only [h2, Option.some_bind, stream_of_cycle _ _ _ _ _ c3 c2 j, Option.map_some',
      List.replicate_succ, List.flatten_cons]

theorem heEatsApples_run (fuel : Nat) :
    (TrainState.init heEatsApples).bind (TrainState.run { arcEager := true } fuel) = none := by
  have hk := heEatsApples_streams
  obtain ⟨ts0, h0⟩ : ∃ ts0, TrainState.init heEatsApples = some ts0 := ⟨_, rfl⟩
  rw [h0, Option.some_bind]
  apply run_none_of_after
  intro k
  apply after_isSome_of_le _ k (6 + 2 * k) _ (by omega)
  rw [after_eq_stream]
  have := hk k
  rw [h0, Option.some_bind] at this
  cases h : TrainState.stream { arcEager := true } (6 + 2 * k) ts0 with
  | none => simp [h] at this
  | some r => rfl

/-- C14 (amended): with `ArcEager` on, for the sentence `1/He 2/eats 3/apples`
with gold `1->2/nsubj`, `3->2/obj`, `2->0/root`, the oracle-driven run emits the
action stream `S`, `R nsubj`, `S`, `L obj`, `U`, `P` and then `S`, `U` over and
over: after `6 + 2 k` actions the stream is these six followed by `k` times
`S`, `U`, and `nextAction` never returns null (no fuel makes the run end). -/
theorem scenario_four_stream (k : Nat) :
    ((TrainState.init heEatsApples).bind
      (TrainState.stream { arcEager := true } (6 + 2 * k))).map (·.1) =
      some ([['S'], ['R', 'n', 's', 'u', 'b', 'j'], ['S'], ['L', 'o', 'b', 'j'], ['U'], ['P']] ++
        (List.replicate k [['S'], ['U']]).flatten) ∧
    (TrainState.init heEatsApples).bind (TrainState.run { arcEager := true } k) = none :=
  ⟨heEatsApples_streams k, heEatsApples_run k⟩

/-- C14 (counterexample): with `ArcEager` on, no run of the oracle on that
sentence, whatever the fuel, emits the stream `S`, `S`, `L nsubj`, `S`,
`R obj`, `P`, `R root`; the second action emitted is `R nsubj`. -/
theorem scenario_four_counterexample :
    (¬ ∃ fuel fin, (TrainState.init heEatsApples).bind
        (TrainState.run { arcEager := true } fuel) =
      some ([['S'], ['S'], ['L', 'n', 's', 'u', 'b', 'j'], ['S'], ['R', 'o', 'b', 'j'], ['P'],
        ['R', 'r', 'o', 'o', 't']], fin)) ∧
    ((TrainState.init heEatsApples).bind (TrainState.stream { arcEager := true } 2)).map (·.1) =
      some [['S'], ['R', 'n', 's', 'u', 'b', 'j']] := by
  refine ⟨?_, by decide⟩
  rintro ⟨fuel, fin, h⟩
  rw [heEatsApples_run] at h
  exact absurd h (by simp)

/-! ## Length of the input -/

theorem Shift_input (s s' : State) (h : s.Shift = .this s') :
    s'.input = s.input.tail ∧ s.input ≠ [] := by
  unfold State.Shift at h
  split at h
  · simp at h
  · rename_i x i hi
    cases h
    simp [hi]

theorem Right_input (cfg : FeatureConfig) (s s' : State) (a : Action)
    (h : s.Right cfg State.copy a = .this s') : s'.input = s.input := by
  unfold State.Right at h
  cases hC : cfg.CompositeActions <;>
  rcases hi : s.input with _ | ⟨x, i⟩ <;>
  rcases hs : s.stack with _ | ⟨a, _ | ⟨b, t⟩⟩ <;>
    simp [State.copy, hi, hs, hC] at h <;>
  subst h <;> simp

theorem Left_input (cfg : FeatureConfig) (s s' : State) (a : Action)
    (h : s.Left cfg State.copy a = .this s') : s'.input.length ≤ s.input.length := by
  unfold State.Left at h
  cases hC : cfg.CompositeActions <;> cases hE : cfg.arcEager <;>
  rcases hi : s.input with _ | ⟨x, i⟩ <;>
  rcases hs : s.stack with _ | ⟨a, _ | ⟨b, t⟩⟩ <;>
    simp [State.copy, hi, hs, hC, hE] at h <;>
  subst h <;> simp

theorem Extract_input (s s' : State) (h : s.Extract = .this s') :
    s'.input = s.input.tail := by
  unfold State.Extract at h
  split at h
  · simp at h
  · split at h
    · rename_i hs hi
      cases h
      simp [hi]
    · simp at h

theorem Pop_input (s s' : State) (h : s.Pop = .this s') : s'.input = s.input := by
  unfold State.Pop at h
  split at h
  · simp at h
  · cases h; rfl

theorem DepLink_input (s s' : State) (a : Action) (h : s.DepLink a = .this s')
    (hr : firstChar s.action ≠ some (some 'r')) : s'.input.length ≤ s.input.length := by
  rcases DepLink_cases s s' a h with ⟨_, e⟩ | ⟨x, i, child, hi, _, _, ⟨h1, _⟩ | ⟨_, e⟩⟩ |
      ⟨x, i, child, hi, _, _, ⟨_, e⟩ | ⟨_, e⟩⟩
  · rw [e]
  · exact absurd h1 hr
  · rw [e]; simp
  · rw [e, hi]; simp
  · rw [e]; simp

/-- C20 (amended): for every successful transition whose action is `S`, `R`,
`L`, `E` or `P`, whose action is `r<n>` with `CompositeActions` off, or whose
action is `D` on a state whose recorded action does not start with `r`, the
input after the transition is not longer than before it.  (The other actions
push tokens back onto the input: `U` and `I`, and also `r<n>` with
`CompositeActions` on, `l<n>`, and `D` after `r<n>`.) -/
theorem input_not_longer (cfg : FeatureConfig) (s s' : State) (a : Action)
    (h : s.transition cfg State.copy a = .this s')
    (ha : a.head? = some 'S' ∨ a.head? = some 'R' ∨ a.head? = some 'L' ∨ a.head? = some 'E' ∨
      a.head? = some 'P' ∨ (a.head? = some 'r' ∧ cfg.CompositeActions = false) ∨
      (a.head? = some 'D' ∧ firstChar s.action ≠ some (some 'r'))) :
    s'.input.length ≤ s.input.length := by
  rcases a with _ | ⟨c, rest⟩
  · simp at ha
  simp only [List.head?_cons, Option.some.injEq] at ha
  rcases ha with hc | hc | hc | hc | hc | ⟨hc, hC⟩ | ⟨hc, hr⟩ <;> subst hc
  · rw [State.transition] at h
    simp only [List.head?_cons, if_true] at h
    split at h
    · cases h; exact le_refl _
    · rw [(Shift_input _ _ h).1]; simp
  · rw [transition_R] at h
    split at h
    · rw [(Shift_input _ _ h).1]; simp
    · rw [Right_input _ _ _ _ h]
  · rw [transition_L] at h
    exact Left_input _ _ _ _ h
  · rw [State.transition] at h
    simp at h
    rw [Extract_input _ _ h]; simp
  · rw [State.transition] at h
    simp at h
    rw [Pop_input _ _ h]
  · rw [transition_r] at h
    obtain ⟨hi, h1, hl⟩ := rightN_this _ _ _ _ h
    rcases hx : s.input with _ | ⟨x, i⟩
    · exact absurd hx hi
    obtain ⟨s2, e, _, _, _, hin, _⟩ := rightN_spec cfg s _ x i hx h1 hl
    rw [e] at h
    cases h
    rw [hin, hC]
    simp
  · rw [transition_D] at h
    exact DepLink_input _ _ _ h hr

theorem input_not_longer_witness :
    twoShifted.transition {} State.copy ['S'] =
        .this { twoShifted with stack := [3, 2, 1, 0], input := [] } ∧
      (['S'].head? = some 'S' ∨ ['S'].head? = some 'R' ∨ ['S'].head? = some 'L' ∨
        ['S'].head? = some 'E' ∨ ['S'].head? = some 'P' ∨
        (['S'].head? = some 'r' ∧ ({} : FeatureConfig).CompositeActions = false) ∨
        (['S'].head? = some 'D' ∧ firstChar twoShifted.action ≠ some (some 'r'))) ∧
      ({ twoShifted with stack := [3, 2, 1, 0], input := [] } : State).input.length ≤
        twoShifted.input.length :=
  ⟨by decide, by decide,
    input_not_longer {} twoShifted _ ['S'] (by decide) (by decide)⟩

/-- C20 (counterexample): after two shifts on a three-token sentence (stack
root, 1, 2; input 3) the successful actions `r2x` (with `CompositeActions` on)
and `l2x` leave an input of two tokens where there was one; so does `Dy`
applied after `r2` with `CompositeActions` off. -/
theorem input_longer_counterexample :
    twoShifted.input.length = 1 ∧
    (∃ s', twoShifted.transition {} State.copy ['r', '2', 'x'] = .this s' ∧
      s'.input.length = 2) ∧
    (∃ s', twoShifted.transition {} State.copy ['l', '2', 'x'] = .this s' ∧
      s'.input.length = 2) ∧
    (∃ s1 s', twoShifted.transition { CompositeActions := false } State.copy ['r', '2'] =
        .this s1 ∧ s1.input.length = 1 ∧
      s1.transition { CompositeActions := false } State.copy ['D', 'y'] = .this s' ∧
      s'.input.length = 2) := by
  refine ⟨rfl, ⟨_, rfl, rfl⟩, ⟨_, rfl, rfl⟩, ⟨_, _, rfl, rfl, rfl, rfl⟩⟩

/-! ## Reads of empty vectors -/

@[simp] theorem defined_this (s : State) : (Result.this s).defined = true := rfl

@[simp] theorem defined_null (s : State) : (Result.null s).defined = true := rfl

theorem Right_defined (cfg : FeatureConfig) (s : State) (a : Action)
    (hs : s.stack ≠ []) (hi : s.input ≠ []) : (s.Right cfg State.copy a).defined = true := by
  rcases hi' : s.input with _ | ⟨x, i⟩
  · exact absurd hi' hi
  rcases hs' : s.stack with _ | ⟨t, _ | ⟨b, st⟩⟩
  · exact absurd hs' hs
  · simp [State.Right, hs', Result.defined]
  · obtain ⟨s', e, _⟩ := Right_spec cfg s a t x (b :: st) i hs' (by simp) hi'
    rw [e]; rfl

theorem Left_defined (cfg : FeatureConfig) (s : State) (a : Action)
    (hs : s.stack ≠ []) (hi : s.input ≠ []) : (s.Left cfg State.copy a).defined = true := by
  rcases hi' : s.input with _ | ⟨x, i⟩
  · exact absurd hi' hi
  rcases hs' : s.stack with _ | ⟨t, st⟩
  · exact absurd hs' hs
  · obtain ⟨s', e, _⟩ := Left_spec cfg s a t x st i hs' hi'
    rw [e]; rfl

theorem rightN_defined (cfg : FeatureConfig) (s : State) (a : Action)
    (h1 : 1 ≤ actionDepth a) (hi : s.input ≠ []) :
    (s.right cfg State.copy a).defined = true := by
  rcases hi' : s.input with _ | ⟨x, i⟩
  · exact absurd hi' hi
  by_cases hl : actionDepth a < s.stack.length
  · obtain ⟨s', e, _⟩ := rightN_spec cfg s a x i hi' h1 hl
    rw [e]; rfl
  · unfold State.right
    simp [not_lt.mp hl]

theorem leftN_defined (cfg : FeatureConfig) (s : State) (a : Action)
    (h2 : 2 ≤ actionDepth a) (hi : s.input ≠ []) :
    (s.left cfg State.copy a).defined = true := by
  rcases hi' : s.input with _ | ⟨x, i⟩
  · exact absurd hi' hi
  by_cases hl : actionDepth a ≤ s.stack.length
  · obtain ⟨s', e, _⟩ := leftN_spec cfg s a x i hi' h2 hl
    rw [e]; rfl
  · unfold State.left
    simp [not_le.mp hl]

theorem Unshift_defined (s : State) : s.Unshift.defined = true := by
  unfold State.Unshift
  split
  · rfl
  · split
    · simp_all
    · rfl

theorem Extract_defined (s : State) : s.Extract.defined = true := by
  unfold State.Extract
  rcases hs : s.stack with _ | ⟨a, _ | ⟨b, _ | ⟨c, t⟩⟩⟩ <;>
    rcases hi : s.input with _ | ⟨x, i⟩ <;> simp
  split <;> rfl

theorem Insert_defined (s : State) : s.Insert.defined = true := by
  unfold State.Insert
  split <;> rfl

theorem Pop_defined (s : State) : s.Pop.defined = true := by
  unfold State.Pop
  split <;> rfl

/-- On a state with tokens on the stack and on the input, every action of the
canonical alphabet other than `D` returns a state or null. -/
theorem transition_defined (cfg : FeatureConfig) (s : State) (a : Action)
    (hs : s.stack ≠ []) (hi : s.input ≠ []) (hc : canonical a = true)
    (hD : a.head? ≠ some 'D') : (s.transition cfg State.copy a).defined = true := by
  have hS : s.Shift.defined = true := by
    unfold State.Shift
    split
    · rename_i h; exact absurd h hi
    · rfl
  rcases a with _ | ⟨c, _ | ⟨d, rest⟩⟩
  · simp [canonical] at hc
  · simp [canonical] at hc
    rcases hc with hc | hc | hc | hc | hc | hc | hc | hc <;> subst hc
    · rw [transition_S]; split
      · rfl
      · exact hS
    · rw [transition_U]; exact Unshift_defined s
    · rw [transition_E]; exact Extract_defined s
    · rw [transition_I]; exact Insert_defined s
    · rw [transition_P]; exact Pop_defined s
    · rw [transition_L]; exact Left_defined cfg s _ hs hi
    · rw [transition_R]; split
      · exact hS
      · exact Right_defined cfg s _ hs hi
    · simp at hD
  · simp [canonical] at hc
    rcases hc with hc | hc | hc | ⟨hc | hc, hd⟩ <;> subst hc
    · rw [transition_L]; exact Left_defined cfg s _ hs hi
    · rw [transition_R]; split
      · exact hS
      · exact Right_defined cfg s _ hs hi
    · simp at hD
    · rw [transition_l]
      apply leftN_defined cfg s _ _ hi
      rcases hd with hd | hd | hd <;> subst hd
      · rw [actionDepth_two]
      · rw [actionDepth_three]; omega
      · rw [actionDepth_four]; omega
    · rw [transition_r]
      apply rightN_defined cfg s _ _ hi
      rcases hd with hd | hd | hd <;> subst hd
      · rw [actionDepth_two]; omega
      · rw [actionDepth_three]; omega
      · rw [actionDepth_four]; omega

/-- C19 (the code at the failing inputs): on the initial state of the empty
sentence (stack root only, input empty) `transition("L")` reads `input.back()`
of the empty input, and so does `transition("R")` through `Shift()`; with
`CompositeActions` off, on the state reached from the initial state of a
one-token sentence by `L` (the root was popped) a second `L` reads
`stack.back()` of the empty stack; on the initial state of a one-token sentence
`D` reads the first character of the null recorded action.  On a state with
tokens on the stack and on the input every action of the canonical alphabet
other than `D` returns a state or null. -/
theorem transition_reads_empty_vectors :
    canonical ['L'] = true ∧ canonical ['R'] = true ∧ canonical ['D'] = true ∧
    (State.init []).transition {} State.copy ['L'] = .undefined ∧
    (State.init []).transition {} State.copy ['R'] = .undefined ∧
    State.transitions { CompositeActions := false } (State.init [{}]) [['L']] =
      some leftOnRoot ∧
    leftOnRoot.transition { CompositeActions := false } State.copy ['L'] = .undefined ∧
    (State.init [{}]).transition {} State.copy ['D'] = .undefined ∧
    (∀ (cfg : FeatureConfig) (s : State) (a : Action), s.stack ≠ [] → s.input ≠ [] →
      canonical a = true → a.head? ≠ some 'D' →
      (s.transition cfg State.copy a).defined = true) := by
  refine ⟨by decide, by decide, by decide, by decide, by decide, by decide, by decide,
    by decide, ?_⟩
  intro cfg s a hs hi hc hD
  exact transition_defined cfg s a hs hi hc hD

/-! ## The roots connected by `ParseState::hasNext` -/

/-- Once the largest root candidate is chosen the first loop keeps it. -/
theorem findRoot_keep (lang : Language) (size : State → Nat → Int) (s : State) (big : Nat)
    (l : List Nat)
    (hmax : ∀ m ∈ l, (s.node m).head = 0 → s.rootEligible lang m = true →
      size s m ≤ size s big) :
    ParseState.findRoot lang size s l ((s.node big).id, size s big) =
      ((s.node big).id, size s big) := by
  induction l with
  | nil => rfl
  | cons node rest ih =>
    have ih' := ih (fun m hm => hmax m (List.mem_cons_of_mem _ hm))
    unfold ParseState.findRoot
    split
    · rename_i h0
      split
      · rename_i h1
        simp only [Bool.and_eq_true, decide_eq_true_eq] at h1
        have := hmax node (List.mem_cons_self _ _) h0 h1.2
        omega
      · exact ih'
    · exact ih'

/-- The first loop chooses the head-less, root-eligible stack node of largest
subtree size. -/
theorem findRoot_largest (lang : Language) (size : State → Nat → Int) (s : State) (big : Nat)
    (l : List Nat) (acc : Nat × Int) (hb : big ∈ l) (hh : (s.node big).head = 0)
    (he : s.rootEligible lang big = true) (hacc : acc.2 < size s big)
    (hmax : ∀ m ∈ l, (s.node m).head = 0 → s.rootEligible lang m = true → m ≠ big →
      size s m < size s big) :
    ParseState.findRoot lang size s l acc = ((s.node big).id, size s big) := by
  induction l generalizing acc with
  | nil => simp at hb
  | cons node rest ih =>
    obtain ⟨root, rs⟩ := acc
    simp only at hacc
    by_cases hn : node = big
    · subst hn
      unfold ParseState.findRoot
      simp only [hh, if_true, he, Bool.and_true, decide_eq_true_eq, gt_iff_lt, hacc]
      apply findRoot_keep
      intro m hm h1 h2
      by_cases hmb : m = node
      · rw [hmb]
      · exact le_of_lt (hmax m (List.mem_cons_of_mem _ hm) h1 h2 hmb)
    · have hb' : big ∈ rest := by
        rcases List.mem_cons.mp hb with h | h
        · exact absurd h.symm hn
        · exact h
      have hmax' := fun m hm => hmax m (List.mem_cons_of_mem _ hm)
      unfold ParseState.findRoot
      split
      · rename_i h0
        split
        · rename_i h1
          simp only [Bool.and_eq_true, decide_eq_true_eq] at h1
          exact ih _ hb' (hmax node (List.mem_cons_self _ _) h0 h1.2 hn) hmax'
        · exact ih _ hb' hacc hmax'
      · exact ih _ hb' hacc hmax'

/-- One visit of the second loop with `SingleRoot` on. -/
theorem connect_visit (lang : Language) (root : Nat) (s : State) (node : Nat)
    (hn : node < s.nodes.length) :
    ∃ s1, s1 = (if ((s.linkHead node root).node node).label.isEmpty then
        (s.linkHead node root).linkLabel node lang.rootLabel else s.linkHead node root) ∧
      s1.nodes.length = s.nodes.length ∧ s1.stack = s.stack ∧ s1.input = s.input ∧
      ∀ q, s1.node q = if q = node then
          { s.node q with
            head := root
            label := if (s.node q).label.isEmpty then lang.rootLabel else (s.node q).label }
        else s.node q := by
  refine ⟨_, rfl, ?_, ?_, ?_, ?_⟩
  · split <;> simp
  · split <;> simp
  · split <;> simp
  · intro q
    have e1 : ((s.linkHead node root).node node).label = (s.node node).label := by simp
    rw [e1]
    by_cases hl : (s.node node).label.isEmpty = true
    · rw [if_pos hl, node_linkLabel, node_linkHead, node_linkHead]
      by_cases hq : q = node
      · subst hq
        simp [hn, hl]
      · simp [hq]
    · rw [if_neg hl, node_linkHead]
      by_cases hq : q = node
      · subst hq
        simp [hn, hl]
      · simp [hq]

/-- The second loop with `SingleRoot` on: every head-less node of the list
whose id is not the root gets the root as head, and the root label when it has
no label; nothing else changes. -/
theorem connectRoots_spec (cfg : FeatureConfig) (hS : cfg.SingleRoot = true) (lang : Language)
    (root : Nat) (hr : root ≠ 0) (l : List Nat) (s : State)
    (hv : ∀ p ∈ l, p < s.nodes.length) :
    (ParseState.connectRoots cfg lang root l s).nodes.length = s.nodes.length ∧
    (ParseState.connectRoots cfg lang root l s).stack = s.stack ∧
    (ParseState.connectRoots cfg lang root l s).input = s.input ∧
    ∀ q, (ParseState.connectRoots cfg lang root l s).node q =
      if q ∈ l ∧ (s.node q).head = 0 ∧ (s.node q).id ≠ root then
        { s.node q with
          head := root
          label := if (s.node q).label.isEmpty then lang.rootLabel else (s.node q).label }
      else s.node q := by
  induction l generalizing s with
  | nil => simp [ParseState.connectRoots]
  | cons node rest ih =>
    have hn : node < s.nodes.length := hv node (List.mem_cons_self _ _)
    unfold ParseState.connectRoots
    split
    · rename_i hc
      simp only [hS, if_true]
      obtain ⟨s1, e, v1, v2, v3, v4⟩ := connect_visit lang root s node hn
      rw [← e]
      obtain ⟨i1, i2, i3, i4⟩ := ih s1 (fun p hp => by
        rw [v1]; exact hv p (List.mem_cons_of_mem _ hp))
      refine ⟨i1.trans v1, i2.trans v2, i3.trans v3, ?_⟩
      intro q
      rw [i4 q, v4 q]
      by_cases hq : q = node
      · subst hq
        simp [hc.1, hc.2, hr.symm]
        intro _ h0
        exact absurd h0 hr
      · simp [hq]
    · rename_i hc
      obtain ⟨i1, i2, i3, i4⟩ := ih s (fun p hp => hv p (List.mem_cons_of_mem _ hp))
      refine ⟨i1, i2, i3, ?_⟩
      intro q
      rw [i4 q]
      by_cases hq : q = node
      · subst hq
        have : ¬ ((s.node q).head = 0 ∧ (s.node q).id ≠ root) := hc
        simp only [List.mem_cons, true_or, true_and]
        rw [if_neg (fun h => this h.2), if_neg this]
      · simp [hq]

/-- C16 (amended): for every `ParseState` with empty input and more than two
nodes on the stack, with `SingleRoot` on: if `big` is the head-less,
root-eligible stack node of largest subtree size (strictly larger than every
other head-less root-eligible stack node; its id is a token id of the sentence),
`hasNext()` returns false and afterwards every other head-less stack node (the
smaller-subtree token of a stack of root and two tokens among them) has the id
of `big` as head; its label is the language's root label when it had no label,
and the label it carried otherwise. -/
theorem stray_root_fixup (cfg : FeatureConfig) (lang : Language) (size : State → Nat → Int)
    (s : State) (big : Nat)
    (hS : cfg.SingleRoot = true) (hi : s.input = []) (hl : 2 < s.stack.length)
    (hv : ∀ p ∈ s.stack, p < s.nodes.length)
    (hb : big ∈ s.stack) (hh : (s.node big).head = 0) (he : s.rootEligible lang big = true)
    (hpos : 0 < size s big) (hid : (s.node big).id ≠ 0)
    (hsent : (s.node big).id ≤ s.sentence.length)
    (hmax : ∀ m ∈ s.stack, (s.node m).head = 0 → s.rootEligible lang m = true → m ≠ big →
      size s m < size s big) :
    ∃ s', ParseState.hasNext cfg lang size s = some (false, s') ∧
      s'.stack = s.stack ∧ s'.input = s.input ∧
      ∀ node ∈ s.stack, (s.node node).head = 0 → (s.node node).id ≠ (s.node big).id →
        (s'.node node).head = (s.node big).id ∧
        (s'.node node).label =
          if (s.node node).label = [] then lang.rootLabel else (s.node node).label := by
  have hroot : ParseState.findRoot lang size s s.stack.reverse (0, 0) =
      ((s.node big).id, size s big) :=
    findRoot_largest lang size s big _ (0, 0) (List.mem_reverse.mpr hb) hh he hpos
      (fun m hm => hmax m (List.mem_reverse.mp hm))
  obtain ⟨r, hr⟩ : ∃ r, s.sentence[(s.node big).id - 1]? = some r := by
    have h : (s.node big).id - 1 < s.sentence.length := by omega
    exact ⟨_, List.getElem?_eq_getElem h⟩
  -- the state after the label of the root is set
  obtain ⟨s1, e1, n1, k1, k2, k3⟩ : ∃ s1,
      s1 = (if (s.node r).label.isEmpty then s.linkLabel r lang.rootLabel else s) ∧
      s1.nodes.length = s.nodes.length ∧ s1.stack = s.stack ∧ s1.input = s.input ∧
      ∀ q, (s1.node q).head = (s.node q).head ∧ (s1.node q).id = (s.node q).id ∧
        (((s.node q).label ≠ [] → (s1.node q).label = (s.node q).label) ∧
         ((s.node q).label = [] → (s1.node q).label = [] ∨ (s1.node q).label = lang.rootLabel)) := by
    refine ⟨_, rfl, ?_, ?_, ?_, ?_⟩
    · split <;> simp
    · split <;> simp
    · split <;> simp
    · intro q
      split
      · rename_i hle
        refine ⟨by simp, by simp, ?_, ?_⟩
        · intro hq
          rw [label_linkLabel]
          split
          · rename_i hqr
            rw [hqr.1] at hq
            simp at hle
            exact absurd hle hq
          · rfl
        · intro hq
          rw [label_linkLabel]
          split
          · right; rfl
          · left; exact hq
      · exact ⟨rfl, rfl, fun _ => rfl, fun h => Or.inl h⟩
  obtain ⟨c1, c2, c3, c4⟩ := connectRoots_spec cfg hS lang (s.node big).id hid
    s1.stack.reverse s1 (fun p hp => by
      rw [n1]; exact hv p (by rw [← k1]; exact List.mem_reverse.mp hp))
  refine ⟨ParseState.connectRoots cfg lang (s.node big).id s1.stack.reverse s1, ?_,
    c2.trans k1, c3.trans k2, ?_⟩
  · unfold ParseState.hasNext
    have hn : s.hasNext = false := by simp [State.hasNext, hi]
    simp only [hn, Bool.false_eq_true, if_false, hl, if_true, hroot, ne_eq, hid,
      not_false_eq_true, hr, ← e1]
  · intro node hnode hh0 hidn
    obtain ⟨q1, q2, q3, q4⟩ := k3 node
    have hcond : node ∈ s1.stack.reverse ∧ (s1.node node).head = 0 ∧
        (s1.node node).id ≠ (s.node big).id := by
      refine ⟨List.mem_reverse.mpr (by rw [k1]; exact hnode), by rw [q1]; exact hh0,
        by rw [q2]; exact hidn⟩
    rw [c4 node, if_pos hcond]
    refine ⟨rfl, ?_⟩
    by_cases hlab : (s.node node).label = []
    · rw [if_pos hlab]
      rcases q4 hlab with h | h <;> simp [h]
    · rw [if_neg hlab]
      have := q3 hlab
      simp [this, hlab]

theorem stray_root_fixup_witness :
    ({ arcEager := true } : FeatureConfig).SingleRoot = true ∧ strayRoots.input = [] ∧
    2 < strayRoots.stack.length ∧ (∀ p ∈ strayRoots.stack, p < strayRoots.nodes.length) ∧
    6 ∈ strayRoots.stack ∧ (strayRoots.node 6).head = 0 ∧
    strayRoots.rootEligible verbRoot 6 = true ∧ 0 < strayRoots.size 6 ∧
    (strayRoots.node 6).id ≠ 0 ∧ (strayRoots.node 6).id ≤ strayRoots.sentence.length ∧
    (∀ m ∈ strayRoots.stack, (strayRoots.node m).head = 0 →
      strayRoots.rootEligible verbRoot m = true → m ≠ 6 →
      strayRoots.size m < strayRoots.size 6) ∧
    ∃ s', ParseState.hasNext { arcEager := true } verbRoot State.size strayRoots =
        some (false, s') ∧
      s'.stack = strayRoots.stack ∧ s'.input = strayRoots.input ∧
      ∀ node ∈ strayRoots.stack, (strayRoots.node node).head = 0 →
        (strayRoots.node node).id ≠ (strayRoots.node 6).id →
        (s'.node node).head = (strayRoots.node 6).id ∧
        (s'.node node).label =
          if (strayRoots.node node).label = [] then verbRoot.rootLabel
          else (strayRoots.node node).label :=
  ⟨rfl, rfl, by decide, by decide, by decide, rfl, by decide, by decide, by decide, by decide,
    by decide,
    stray_root_fixup { arcEager := true } verbRoot State.size strayRoots 6 rfl rfl (by decide)
      (by decide) (by decide) rfl (by decide) (by decide) (by decide) (by decide) (by decide)⟩

/-- C16 (counterexample): with `ArcEager` on, the `ParseState` reached from the
initial state of a sentence of three verbs by `Lx`, `S`, `Ry`, `S` has an empty
input and a stack of the synthetic root and two head-less root-eligible tokens,
token 1 of subtree size 1 and token 3 of subtree size 2, with `SingleRoot` on.
`hasNext()` returns false and sets the head of token 1 to 3, but its label is
still `x`, not the root label `ROOT`. -/
theorem stray_root_counterexample :
    ParseState.successors { arcEager := true } (fun _ => false) (State.init threeVerbs)
      [['L', 'x'], ['S'], ['R', 'y'], ['S']] = some strayRoots ∧
    strayRoots.input = [] ∧ strayRoots.stack = [6, 4, 0] ∧
    (strayRoots.node 4).head = 0 ∧ (strayRoots.node 6).head = 0 ∧
    strayRoots.rootEligible verbRoot 4 = true ∧ strayRoots.rootEligible verbRoot 6 = true ∧
    strayRoots.size 4 = 1 ∧ strayRoots.size 6 = 2 ∧
    (strayRoots.node 4).id = 1 ∧ (strayRoots.node 6).id = 3 ∧
    (ParseState.hasNext { arcEager := true } verbRoot State.size strayRoots).map
      (fun r => (r.1, (r.2.node 4).head, (r.2.node 4).label)) = some (false, 3, ['x']) ∧
    verbRoot.rootLabel = ['R', 'O', 'O', 'T'] := by
  decide

/-! ## Order of the children -/

@[simp] theorem left_linkHead (s : State) (p h q : Nat) :
    ((s.linkHead p h).node q).left = (s.node q).left := by
  rw [node_linkHead]
  split
  · rename_i h1; rw [h1.1]
  · rfl

@[simp] theorem right_linkHead (s : State) (p h q : Nat) :
    ((s.linkHead p h).node q).right = (s.node q).right := by
  rw [node_linkHead]
  split
  · rename_i h1; rw [h1.1]
  · rfl

@[simp] theorem left_linkLabel (s : State) (p q : Nat) (l : List Char) :
    ((s.linkLabel p l).node q).left = (s.node q).left := by
  rw [node_linkLabel]
  split
  · rename_i h1; rw [h1.1]
  · rfl

@[simp] theorem right_linkLabel (s : State) (p q : Nat) (l : List Char) :
    ((s.linkLabel p l).node q).right = (s.node q).right := by
  rw [node_linkLabel]
  split
  · rename_i h1; rw [h1.1]
  · rfl

@[simp] theorem right_pushLeft (s : State) (p c q : Nat) :
    ((s.pushLeft p c).node q).right = (s.node q).right := by
  rw [node_pushLeft]
  split
  · rename_i h1; rw [h1.1]
  · rfl

@[simp] theorem left_pushRight (s : State) (p c q : Nat) :
    ((s.pushRight p c).node q).left = (s.node q).left := by
  rw [node_pushRight]
  split
  · rename_i h1; rw [h1.1]
  · rfl

theorem left_pushLeft (s : State) (p c q : Nat) :
    ((s.pushLeft p c).node q).left =
      if q = p ∧ p < s.nodes.length then (s.node p).left ++ [c] else (s.node q).left := by
  rw [node_pushLeft]
  split <;> rfl

theorem right_pushRight (s : State) (p c q : Nat) :
    ((s.pushRight p c).node q).right =
      if q = p ∧ p < s.nodes.length then (s.node p).right ++ [c] else (s.node q).right := by
  rw [node_pushRight]
  split <;> rfl

theorem State.Ordered.children {s : State} (h : s.Ordered) : s.childrenOrdered := by
  intro p
  constructor
  · intro c hc
    obtain ⟨h1, h2⟩ := h.lefts p c hc
    rw [h.ids p h2, h.ids c (by omega)]
    exact h1
  · intro c hc
    obtain ⟨h1, h2⟩ := h.rights p c hc
    rw [h.ids p (by omega), h.ids c h2]
    exact h1

theorem ordered_init (sent : Sentence) : (State.init sent).Ordered := by
  have hnode : ∀ p, ((State.init sent).node p).left = [] ∧ ((State.init sent).node p).right = [] := by
    intro p
    have hd : (default : TreeToken).left = [] ∧ (default : TreeToken).right = [] := ⟨rfl, rfl⟩
    unfold State.node State.init
    simp only [List.getD_eq_getElem?_getD]
    rcases p with _ | p
    · simp
    · simp only [List.getElem?_cons_succ, List.getElem?_map]
      cases (List.range sent.length)[p]? <;> simp [hd]
  refine ⟨?_, ?_, ?_, ?_, ?_⟩
  · intro p hp
    rcases p with _ | p
    · rfl
    · have hp' : p + 1 ≤ sent.length := by
        simp [State.init] at hp
        omega
      rw [node_init sent (p + 1) (by omega) hp']
  · intro a ha
    simp [State.line, State.init] at ha ⊢
    rcases ha with h | ⟨i, hi, rfl⟩ <;> omega
  · simp only [State.line, State.init, List.reverse_cons, List.reverse_nil, List.nil_append,
      List.singleton_append, List.pairwise_cons]
    constructor
    · intro b hb
      simp at hb
      obtain ⟨i, _, rfl⟩ := hb
      omega
    · rw [List.pairwise_map]
      exact (List.pairwise_lt_range _).imp (by intro a b h; omega)
  · intro p c hc
    rw [(hnode p).1] at hc
    simp at hc
  · intro p c hc
    rw [(hnode p).2] at hc
    simp at hc

/-- Moving waiting tokens between stack and input, or dropping some, keeps the
invariant when the objects are untouched. -/
theorem State.Ordered.sub {s s' : State} (h : s.Ordered)
    (hn : ∀ q, s'.node q = s.node q) (hlen : s'.nodes.length = s.nodes.length)
    (hsub : s'.line.Sublist s.line) : s'.Ordered := by
  refine ⟨?_, ?_, h.sorted.sublist hsub, ?_, ?_⟩
  · intro p hp
    rw [hn]; exact h.ids p (hlen ▸ hp)
  · intro a ha
    rw [hlen]; exact h.bound a (hsub.subset ha)
  · intro p c hc
    rw [hn] at hc; rw [hlen]; exact h.lefts p c hc
  · intro p c hc
    rw [hn] at hc; rw [hlen]; exact h.rights p c hc

/-- A waiting token `t` becomes the last left child of a waiting token `x` to
its right. -/
theorem State.Ordered.attachLeft {s s' : State} (h : s.Ordered) (x t : Nat) (htx : t < x)
    (hx : x < s.nodes.length)
    (hid : ∀ q, (s'.node q).id = (s.node q).id) (hlen : s'.nodes.length = s.nodes.length)
    (hl : ∀ q, (s'.node q).left =
      if q = x ∧ x < s.nodes.length then (s.node x).left ++ [t] else (s.node q).left)
    (hr : ∀ q, (s'.node q).right = (s.node q).right)
    (hsub : s'.line.Sublist s.line) : s'.Ordered := by
  refine ⟨?_, ?_, h.sorted.sublist hsub, ?_, ?_⟩
  · intro p hp
    rw [hid]; exact h.ids p (hlen ▸ hp)
  · intro a ha
    rw [hlen]; exact h.bound a (hsub.subset ha)
  · intro p c hc
    rw [hl] at hc
    rw [hlen]
    split at hc
    · rename_i hq
      rw [List.mem_append] at hc
      have hpx : p = x := hq.1
      subst hpx
      rcases hc with hc | hc
      · exact h.lefts p c hc
      · simp at hc
        rw [hc]
        exact ⟨htx, hx⟩
    · exact h.lefts p c hc
  · intro p c hc
    rw [hr] at hc; rw [hlen]; exact h.rights p c hc

/-- A waiting token `x` becomes the last right child of a waiting token `t` to
its left. -/
theorem State.Ordered.attachRight {s s' : State} (h : s.Ordered) (x t : Nat) (htx : t < x)
    (hx : x < s.nodes.length)
    (hid : ∀ q, (s'.node q).id = (s.node q).id) (hlen : s'.nodes.length = s.nodes.length)
    (hl : ∀ q, (s'.node q).left = (s.node q).left)
    (hr : ∀ q, (s'.node q).right =
      if q = t ∧ t < s.nodes.length then (s.node t).right ++ [x] else (s.node q).right)
    (hsub : s'.line.Sublist s.line) : s'.Ordered := by
  refine ⟨?_, ?_, h.sorted.sublist hsub, ?_, ?_⟩
  · intro p hp
    rw [hid]; exact h.ids p (hlen ▸ hp)
  · intro a ha
    rw [hlen]; exact h.bound a (hsub.subset ha)
  · intro p c hc
    rw [hl] at hc; rw [hlen]; exact h.lefts p c hc
  · intro p c hc
    rw [hr] at hc
    rw [hlen]
    split at hc
    · rename_i hq
      rw [List.mem_append] at hc
      have hpt : p = t := hq.1
      subst hpt
      rcases hc with hc | hc
      · exact h.rights p c hc
      · simp at hc
        rw [hc]
        exact ⟨htx, hx⟩
    · exact h.rights p c hc

/-- A token of the stack is to the left of a token of the input. -/
theorem State.Ordered.stack_lt_input {s : State} (h : s.Ordered) {t x : Nat} (ht : t ∈ s.stack)
    (hx : x ∈ s.input) : t < x := by
  have := h.sorted
  unfold State.line at this
  rw [List.pairwise_append] at this
  exact this.2.2 t (List.mem_reverse.mpr ht) x hx

theorem Right_shape (cfg : FeatureConfig) (s s' : State) (a : Action)
    (h : s.Right cfg State.copy a = .this s') :
    ∃ t st x i, s.stack = t :: st ∧ st ≠ [] ∧ s.input = x :: i := by
  unfold State.Right at h
  rcases hi : s.input with _ | ⟨x, i⟩ <;>
  rcases hs : s.stack with _ | ⟨t, _ | ⟨b, st⟩⟩ <;>
    simp [State.copy, hi, hs] at h
  exact ⟨t, b :: st, x, i, rfl, by simp, rfl⟩

theorem Left_shape (cfg : FeatureConfig) (s s' : State) (a : Action)
    (h : s.Left cfg State.copy a = .this s') :
    ∃ t st x i, s.stack = t :: st ∧ s.input = x :: i := by
  unfold State.Left at h
  rcases hi : s.input with _ | ⟨x, i⟩ <;>
  rcases hs : s.stack with _ | ⟨t, st⟩ <;>
    simp [State.copy, hi, hs] at h
  exact ⟨t, st, x, i, rfl, rfl⟩

theorem line_mem_stack {s : State} {t : Nat} (h : t ∈ s.stack) : t ∈ s.line := by
  unfold State.line
  exact List.mem_append_left _ (List.mem_reverse.mpr h)

theorem line_mem_input {s : State} {x : Nat} (h : x ∈ s.input) : x ∈ s.line := by
  unfold State.line
  exact List.mem_append_right _ h

theorem ordered_Shift (s s' : State) (h : s.Shift = .this s') (hw : s.Ordered) :
    s'.Ordered := by
  unfold State.Shift at h
  split at h
  · simp at h
  · rename_i x i hi
    cases h
    refine hw.sub ?_ ?_ ?_
    · intro q; rfl
    · rfl
    · simp [State.line, hi]

theorem ordered_Unshift (s s' : State) (h : s.Unshift = .this s') (hw : s.Ordered) :
    s'.Ordered := by
  unfold State.Unshift at h
  split at h
  · simp at h
  · split at h
    · simp at h
    · rename_i t st hs
      cases h
      refine hw.sub ?_ ?_ ?_
      · intro q; rfl
      · rfl
      · simp [State.line, hs]

theorem ordered_Pop (s s' : State) (h : s.Pop = .this s') (hw : s.Ordered) :
    s'.Ordered := by
  unfold State.Pop at h
  split at h
  · simp at h
  · cases h
    refine hw.sub ?_ ?_ ?_
    · intro q; rfl
    · rfl
    · rcases hs : s.stack with _ | ⟨t, st⟩
      · simp [State.line, hs]
      · simp [State.line, hs]

theorem ordered_linkLabel (s : State) (p : Nat) (l : List Char) (hw : s.Ordered) :
    (s.linkLabel p l).Ordered := by
  refine ⟨?_, ?_, ?_, ?_, ?_⟩
  · intro q hq
    rw [id_linkLabel]; exact hw.ids q (by simpa using hq)
  · intro a ha
    rw [length_linkLabel]; exact hw.bound a ha
  · exact hw.sorted
  · intro q c hc
    rw [left_linkLabel] at hc; rw [length_linkLabel]; exact hw.lefts q c hc
  · intro q c hc
    rw [right_linkLabel] at hc; rw [length_linkLabel]; exact hw.rights q c hc

theorem ordered_DepLink (s s' : State) (a : Action) (h : s.DepLink a = .this s')
    (hw : s.Ordered) : s'.Ordered := by
  rcases DepLink_cases s s' a h with ⟨_, e⟩ |
      ⟨x, i, child, hi, _, _, ⟨_, b, st, hs, e⟩ | ⟨_, e⟩⟩ |
      ⟨x, i, child, hi, _, _, ⟨hs, e⟩ | ⟨_, e⟩⟩
  · rw [e]; exact hw
  · rw [e]
    refine (ordered_linkLabel s child (a.drop 1) hw).sub ?_ ?_ ?_
    · intro q; rfl
    · rfl
    · simp [State.line, hs, hi]
  · rw [e]
    refine (ordered_linkLabel s child (a.drop 1) hw).sub ?_ ?_ ?_
    · intro q; rfl
    · rfl
    · exact List.Sublist.refl _
  · rw [e]
    refine (ordered_linkLabel s child (a.drop 1) hw).sub ?_ ?_ ?_
    · intro q; rfl
    · rfl
    · simp [State.line, hs, hi]
  · rw [e]
    refine (ordered_linkLabel s child (a.drop 1) hw).sub ?_ ?_ ?_
    · intro q; rfl
    · rfl
    · exact List.Sublist.refl _

theorem ordered_Right (cfg : FeatureConfig) (s s' : State) (a : Action)
    (h : s.Right cfg State.copy a = .this s') (hw : s.Ordered) : s'.Ordered := by
  obtain ⟨t, st, x, i, hs, hst, hi⟩ := Right_shape cfg s s' a h
  obtain ⟨s2, e, hnode, hlen, hs', hi', _⟩ := Right_spec cfg s a t x st i hs hst hi
  rw [e] at h
  cases h
  have htx : t < x := hw.stack_lt_input (by rw [hs]; simp) (by rw [hi]; simp)
  have hx : x < s.nodes.length := hw.bound x (line_mem_input (by rw [hi]; simp))
  apply hw.attachLeft x t htx hx _ hlen
  · intro q; rw [hnode]; split <;> simp [left_pushLeft]
  · intro q; rw [hnode]; split <;> simp
  · simp [State.line, hs', hi', hs, hi]
  · intro q; rw [hnode]; split <;> simp

theorem ordered_Left (cfg : FeatureConfig) (s s' : State) (a : Action)
    (h : s.Left cfg State.copy a = .this s') (hw : s.Ordered) : s'.Ordered := by
  obtain ⟨t, st, x, i, hs, hi⟩ := Left_shape cfg s s' a h
  obtain ⟨s2, e, hnode, hlen, hs', hi', _⟩ := Left_spec cfg s a t x st i hs hi
  rw [e] at h
  cases h
  have htx : t < x := hw.stack_lt_input (by rw [hs]; simp) (by rw [hi]; simp)
  have hx : x < s.nodes.length := hw.bound x (line_mem_input (by rw [hi]; simp))
  apply hw.attachRight x t htx hx _ hlen
  · intro q; rw [hnode]; split <;> simp
  · intro q; rw [hnode]; split <;> simp [right_pushRight]
  · rw [State.line, hs', hi', State.line, hs, hi]
    cases cfg.arcEager <;> cases cfg.CompositeActions <;> rcases st with _ | ⟨b, st⟩ <;> simp
  · intro q; rw [hnode]; split <;> simp

theorem getD_mem_of_lt (l : List Nat) (k : Nat) (h : k < l.length) : l.getD k 0 ∈ l := by
  rw [List.getD_eq_getElem?_getD, List.getElem?_eq_getElem h]
  exact List.getElem_mem h

theorem getD_eq_head_drop (l : List Nat) (k : Nat) : l.getD k 0 = (l.drop k).headD 0 := by
  induction l generalizing k with
  | nil => simp
  | cons a l ih =>
    cases k with
    | zero => simp
    | succ k => simp [ih k]

theorem ordered_rightN (cfg : FeatureConfig) (s s' : State) (a : Action)
    (h : s.right cfg State.copy a = .this s') (hw : s.Ordered) : s'.Ordered := by
  obtain ⟨hin, h1, hl⟩ := rightN_this cfg s s' a h
  rcases hi : s.input with _ | ⟨x, i⟩
  · exact absurd hi hin
  obtain ⟨s2, e, hnode, hlen, hs', hi', _⟩ := rightN_spec cfg s a x i hi h1 hl
  rw [e] at h
  cases h
  have hmem : s.stack.getD (actionDepth a - 1) 0 ∈ s.stack :=
    getD_mem_of_lt _ _ (by omega)
  have htx := hw.stack_lt_input hmem (show x ∈ s.input by rw [hi]; simp)
  have hx : x < s.nodes.length := hw.bound x (line_mem_input (by rw [hi]; simp))
  have hsub : (s.stack.eraseIdx (actionDepth a - 1)).Sublist s.stack := List.eraseIdx_sublist _ _
  have hne : s.stack.eraseIdx (actionDepth a - 1) ≠ [] := by
    intro h0
    have := congrArg List.length h0
    rw [List.length_eraseIdx] at this
    split at this <;> simp at this <;> omega
  apply hw.attachLeft x _ htx hx _ hlen
  · intro q; rw [hnode]; split <;> simp [left_pushLeft]
  · intro q; rw [hnode]; split <;> simp
  · rw [State.line, hs', hi', State.line, hi]
    rcases he : s.stack.eraseIdx (actionDepth a - 1) with _ | ⟨b, t⟩
    · exact absurd he hne
    rw [he] at hsub
    cases cfg.CompositeActions
    · simp only [Bool.false_eq_true, if_false]
      exact hsub.reverse.append_right _
    · simp only [if_true, List.tail_cons, List.headD_cons]
      have := hsub.reverse.append_right (x :: i)
      simpa using this
  · intro q; rw [hnode]; split <;> simp

theorem ordered_leftN (cfg : FeatureConfig) (s s' : State) (a : Action)
    (h : s.left cfg State.copy a = .this s') (hw : s.Ordered) : s'.Ordered := by
  obtain ⟨hin, h2, hl⟩ := leftN_this cfg s s' a h
  rcases hi : s.input with _ | ⟨x, i⟩
  · exact absurd hi hin
  obtain ⟨s2, e, hnode, hlen, hs', hi', _⟩ := leftN_spec cfg s a x i hi h2 hl
  rw [e] at h
  cases h
  have hmem : s.stack.getD (actionDepth a - 1) 0 ∈ s.stack :=
    getD_mem_of_lt _ _ (by omega)
  have htx := hw.stack_lt_input hmem (show x ∈ s.input by rw [hi]; simp)
  have hx : x < s.nodes.length := hw.bound x (line_mem_input (by rw [hi]; simp))
  apply hw.attachRight x _ htx hx _ hlen
  · intro q; rw [hnode]; split <;> simp
  · intro q; rw [hnode]; split <;> simp [right_pushRight]
  · have hsplit := List.take_append_drop (actionDepth a - 1) s.stack
    have hg := getD_eq_head_drop s.stack (actionDepth a - 1)
    rw [hg] at hs' hi'
    rcases hd : s.stack.drop (actionDepth a - 1) with _ | ⟨c, t⟩
    · have := congrArg List.length hd
      simp at this
      omega
    rw [hd] at hs' hi' hsplit
    generalize s.stack.take (actionDepth a - 1) = tk at hs' hi' hsplit
    rw [State.line, hs', hi', State.line, hi, ← hsplit]
    rcases t with _ | ⟨d, t⟩ <;> simp
  · intro q; rw [hnode]; split <;> simp

theorem ordered_transition (cfg : FeatureConfig) (s s' : State) (a : Action)
    (hE : a.head? ≠ some 'E') (hI : a.head? ≠ some 'I')
    (h : s.transition cfg State.copy a = .this s') (hw : s.Ordered) : s'.Ordered := by
  unfold State.transition at h
  simp only [hE, hI, if_false] at h
  split at h
  · split at h
    · cases h; exact hw
    · exact ordered_Shift _ _ h hw
  split at h
  · split at h
    · exact ordered_Shift _ _ h hw
    · exact ordered_Right _ _ _ _ h hw
  split at h
  · exact ordered_Left _ _ _ _ h hw
  split at h
  · exact ordered_rightN _ _ _ _ h hw
  split at h
  · exact ordered_leftN _ _ _ _ h hw
  split at h
  · exact ordered_DepLink _ _ _ h hw
  split at h
  · exact ordered_Pop _ _ h hw
  split at h
  · exact ordered_Unshift _ _ h hw
  · simp at h

theorem ordered_transitions (cfg : FeatureConfig) (acts : List Action) (s s' : State)
    (hact : ∀ a ∈ acts, a.head? ≠ some 'E' ∧ a.head? ≠ some 'I')
    (h : State.transitions cfg s acts = some s') (hw : s.Ordered) : s'.Ordered := by
  induction acts generalizing s with
  | nil => simp [State.transitions] at h; subst h; exact hw
  | cons a as ih =>
    cases ht : s.transition cfg State.copy a with
    | this s1 =>
      simp only [State.transitions, ht] at h
      have ha := hact a (List.mem_cons_self _ _)
      exact ih s1 (fun b hb => hact b (List.mem_cons_of_mem _ hb)) h
        (ordered_transition cfg s s1 a ha.1 ha.2 ht hw)
    | null s1 => simp [State.transitions, ht] at h
    | undefined => simp [State.transitions, ht] at h

/-- C17: for every sequence of successful actions other than `E` and `I` (so
for every sequence of successful `S`, `U`, `L`, `R`, `l<n>`, `r<n>`, `D` and `P`
actions) applied from an initial state, under every configuration, every node
satisfies `left[*].id < self.id < right[*].id`: each token in a node's left
list has a smaller id than the node and each token in its right list has a
larger id. -/
theorem children_ordered (cfg : FeatureConfig) (sent : Sentence) (acts : List Action)
    (s : State) (hact : ∀ a ∈ acts, a.head? ≠ some 'E' ∧ a.head? ≠ some 'I')
    (h : State.transitions cfg (State.init sent) acts = some s) :
    ∀ p, (∀ c ∈ (s.node p).left, (s.node c).id < (s.node p).id) ∧
      (∀ c ∈ (s.node p).right, (s.node p).id < (s.node c).id) :=
  (ordered_transitions cfg acts _ s hact h (ordered_init sent)).children

theorem children_ordered_witness :
    (∀ a ∈ [['S'], ['R', 'a'], ['L', 'b']], a.head? ≠ some 'E' ∧ a.head? ≠ some 'I') ∧
    State.transitions {} (State.init [{}, {}]) [['S'], ['R', 'a'], ['L', 'b']] =
      some twoAttached ∧
    ∀ p, (∀ c ∈ (twoAttached.node p).left, (twoAttached.node c).id < (twoAttached.node p).id) ∧
      (∀ c ∈ (twoAttached.node p).right, (twoAttached.node p).id < (twoAttached.node c).id) :=
  ⟨by decide, by decide,
    children_ordered {} [{}, {}] [['S'], ['R', 'a'], ['L', 'b']] twoAttached (by decide)
      (by decide)⟩

/-! ## The loop with `CompositeActions` and `ArcEager` off, on any sentence -/

theorem andThen_true (a : Bool) (b : Option Bool) (h : andThen a b = some true) :
    a = true ∧ b = some true := by
  cases a <;> simp_all [andThen]

theorem nextToStackLink_true (ts : TrainState) (n x : Nat)
    (h : ts.NextToStackLink n x = some true) : n < ts.stack.length := by
  unfold TrainState.NextToStackLink at h
  split at h
  · assumption
  · simp at h

theorem stackToNextLink_true (ts : TrainState) (n hd : Nat)
    (h : ts.StackToNextLink n hd = true) : n < ts.stack.length := by
  unfold TrainState.StackToNextLink at h
  simp at h
  exact h.1

theorem decrement_some (ts ts2 : TrainState) (p : Nat) (h : ts.decrement p = some ts2) :
    ts2.toState = ts.toState ∧ ts2.annotated = ts.annotated := by
  unfold TrainState.decrement at h
  split at h
  · simp at h
  · simp only [Option.map_eq_some'] at h
    obtain ⟨d, _, rfl⟩ := h
    exact ⟨rfl, rfl⟩

/-- What the oracle returns on a state that owes no label, with
`CompositeActions` and `ArcEager` off: the state is as it was (only the counters
move) and the action is `S`, a bare `R` (the top of the stack is not the root),
a bare `L`, or a bare `r<n>` or `l<n>` with more than `n` nodes on the stack. -/
theorem nextAction_idle_cases (cfg : FeatureConfig) (hC : cfg.CompositeActions = false)
    (hE : cfg.arcEager = false) (ts ts' : TrainState) (a : Action) (x top : Nat)
    (inp st : List Nat) (hi : ts.input = x :: inp) (hs : ts.stack = top :: st)
    (hidle : strchrRrLl ts.action = false) (hex : ts.extracted = [])
    (h : ts.nextAction cfg = some (some a, ts')) :
    ts'.toState = ts.toState ∧ ts'.annotated = ts.annotated ∧
    (a = ['S'] ∨ (a = ['R'] ∧ (ts.node top).id ≠ 0) ∨ a = ['L'] ∨
      (a = ['r', '2'] ∧ 2 < ts.stack.length) ∨ (a = ['r', '3'] ∧ 3 < ts.stack.length) ∨
      (a = ['r', '4'] ∧ 4 < ts.stack.length) ∨
      (a = ['l', '2'] ∧ 2 < ts.stack.length) ∨ (a = ['l', '3'] ∧ 3 < ts.stack.length) ∨
      (a = ['l', '4'] ∧ 4 < ts.stack.length)) := by
  unfold TrainState.nextAction at h
  simp only [hi, hs, hC, hE, hidle, hex, List.length_cons, List.length_nil, Bool.not_false,
    Bool.and_false, Bool.false_eq_true, if_false, Nat.add_one_ne_zero, ne_eq, not_true_eq_false,
    decide_False, Bool.false_and, MakeAction, Bool.false_or] at h
  simp only [Option.bind_eq_bind] at h
  obtain ⟨onext, h1, h⟩ := Option.bind_eq_some.mp h
  obtain ⟨c5, h5, h⟩ := Option.bind_eq_some.mp h
  cases c5
  · simp only [Bool.false_eq_true, if_false] at h
    obtain ⟨c6, h6, h⟩ := Option.bind_eq_some.mp h
    simp only [andThen, Bool.false_eq_true, if_false, Option.some.injEq] at h6
    subst h6
    simp only [Bool.false_eq_true, if_false] at h
    obtain ⟨c7, h7, h⟩ := Option.bind_eq_some.mp h
    cases c7
    · simp only [Bool.false_eq_true, if_false] at h
      obtain ⟨c8, h8, h⟩ := Option.bind_eq_some.mp h
      cases c8
      · simp only [Bool.false_eq_true, if_false] at h
        obtain ⟨c9, h9, h⟩ := Option.bind_eq_some.mp h
        cases c9
        · simp only [Bool.false_eq_true, if_false] at h
          obtain ⟨c10, h10, h⟩ := Option.bind_eq_some.mp h
          cases c10
          · simp only [Bool.false_eq_true, if_false] at h
            obtain ⟨c11, h11, h⟩ := Option.bind_eq_some.mp h
            cases c11
            · simp only [Bool.false_eq_true, if_false] at h
              obtain ⟨c12, h12, h⟩ := Option.bind_eq_some.mp h
              cases c12
              · simp only [Bool.false_eq_true, if_false] at h
                obtain ⟨c13, h13, h⟩ := Option.bind_eq_some.mp h
                cases c13
                · simp only [Bool.false_eq_true, if_false] at h
                  obtain ⟨c14, h14, h⟩ := Option.bind_eq_some.mp h
                  cases c14
                  · simp at h
                    obtain ⟨rfl, rfl⟩ := h
                    exact ⟨rfl, rfl, Or.inl rfl⟩
                  · have hl := stackToNextLink_true _ _ _ (andThen_true _ _ h14).1
                    simp only [if_true] at h
                    split at h
                    · obtain ⟨y, hy, h⟩ := Option.bind_eq_some.mp h
                      obtain ⟨e1, e2⟩ := decrement_some _ _ _ hy
                      simp at h
                      obtain ⟨rfl, rfl⟩ := h
                      exact ⟨e1, e2, by simp [hl]⟩
                    · simp at h
                      obtain ⟨rfl, rfl⟩ := h
                      exact ⟨rfl, rfl, by simp [hl]⟩
                · have hl := stackToNextLink_true _ _ _ (andThen_true _ _ h13).1
                  simp only [if_true] at h
                  split at h
                  · obtain ⟨y, hy, h⟩ := Option.bind_eq_some.mp h
                    obtain ⟨e1, e2⟩ := decrement_some _ _ _ hy
                    simp at h
                    obtain ⟨rfl, rfl⟩ := h
                    exact ⟨e1, e2, by simp [hl]⟩
                  · simp at h
                    obtain ⟨rfl, rfl⟩ := h
                    exact ⟨rfl, rfl, by simp [hl]⟩
              · have hl := stackToNextLink_true _ _ _ (andThen_true _ _ h12).1
                simp only [if_true] at h
                split at h
                · simp at h
                  obtain ⟨rfl, rfl⟩ := h
                  exact ⟨rfl, rfl, by simp [hl]⟩
                · obtain ⟨y, hy, h⟩ := Option.bind_eq_some.mp h
                  obtain ⟨e1, e2⟩ := decrement_some _ _ _ hy
                  simp at h
                  obtain ⟨rfl, rfl⟩ := h
                  exact ⟨e1, e2, by simp [hl]⟩
            · simp at h
              obtain ⟨rfl, rfl⟩ := h
              exact ⟨rfl, rfl, Or.inl rfl⟩
          · obtain ⟨l4, hl4, hr4⟩ := Option.bind_eq_some.mp h10
            have e := (andThen_true _ _ hr4).1
            subst e
            have hl := nextToStackLink_true _ _ _ (andThen_true _ _ hl4).2
            simp only [if_true] at h
            obtain ⟨y, hy, h⟩ := Option.bind_eq_some.mp h
            obtain ⟨e1, e2⟩ := decrement_some _ _ _ hy
            obtain ⟨o, ho, h⟩ := Option.bind_eq_some.mp h
            simp at h
            obtain ⟨rfl, rfl⟩ := h
            exact ⟨e1, e2, by simp [hl]⟩
        · obtain ⟨l3, hl3, hr3⟩ := Option.bind_eq_some.mp h9
          have e := (andThen_true _ _ hr3).1
          subst e
          have hl := nextToStackLink_true _ _ _ hl3
          simp only [if_true] at h
          obtain ⟨y, hy, h⟩ := Option.bind_eq_some.mp h
          obtain ⟨e1, e2⟩ := decrement_some _ _ _ hy
          obtain ⟨o, ho, h⟩ := Option.bind_eq_some.mp h
          simp at h
          obtain ⟨rfl, rfl⟩ := h
          exact ⟨e1, e2, by simp [hl]⟩
      · obtain ⟨l2, hl2, hr2⟩ := Option.bind_eq_some.mp h8
        have e := (andThen_true _ _ hr2).1
        subst e
        have hl := nextToStackLink_true _ _ _ hl2
        simp only [if_true] at h
        obtain ⟨y, hy, h⟩ := Option.bind_eq_some.mp h
        obtain ⟨e1, e2⟩ := decrement_some _ _ _ hy
        obtain ⟨o, ho, h⟩ := Option.bind_eq_some.mp h
        simp at h
        obtain ⟨rfl, rfl⟩ := h
        exact ⟨e1, e2, by simp [hl]⟩
    · simp only [if_true] at h
      split at h
      · obtain ⟨y, hy, h⟩ := Option.bind_eq_some.mp h
        obtain ⟨e1, e2⟩ := decrement_some _ _ _ hy
        simp at h
        obtain ⟨rfl, rfl⟩ := h
        exact ⟨e1, e2, by simp⟩
      · simp at h
        obtain ⟨rfl, rfl⟩ := h
        exact ⟨rfl, rfl, by simp⟩
  · have h0 := (andThen_true _ _ h5).1
    simp only [if_true] at h
    obtain ⟨r, hr, h⟩ := Option.bind_eq_some.mp h
    cases r
    · simp at h
      obtain ⟨rfl, rfl⟩ := h
      exact ⟨rfl, rfl, Or.inl rfl⟩
    · simp only [Bool.not_true, Bool.false_eq_true, if_false] at h
      obtain ⟨y, hy, h⟩ := Option.bind_eq_some.mp h
      obtain ⟨e1, e2⟩ := decrement_some _ _ _ hy
      obtain ⟨o, ho, h⟩ := Option.bind_eq_some.mp h
      simp at h
      obtain ⟨rfl, rfl⟩ := h
      refine ⟨e1, e2, Or.inr (Or.inl ⟨rfl, ?_⟩)⟩
      simpa using h0

theorem driven_init (sent : Sentence) : Driven sent (State.init sent) := by
  refine ⟨ordered_init sent, ?_, ?_, rfl, rfl, Or.inl ⟨rfl, rfl⟩⟩
  · simp [State.init]
  · intro p h1 h2
    show ((State.init sent).node p).deprel = _
    rw [node_init sent p h1 h2]
    rfl

theorem driven_of_eq {sent : Sentence} {s s' : State} (h : Driven sent s) (e : s' = s) :
    Driven sent s' := e ▸ h

theorem labelTarget_some (s : State) (d : Nat) (h : s.labelTarget = some d) :
    ∃ y i c rest, s.input = y :: i ∧ s.action = some (c :: rest) ∧
      (((c = 'R' ∨ c = 'r') ∧ (s.node y).left.getLast? = some d) ∨
        (¬ (c = 'R' ∨ c = 'r') ∧ (c = 'L' ∨ c = 'l') ∧ (s.node y).right.getLast? = some d)) := by
  unfold State.labelTarget at h
  split at h
  · rename_i y i c rest hi ha
    refine ⟨y, i, c, rest, hi, ha, ?_⟩
    split at h
    · rename_i hc; exact Or.inl ⟨hc, h⟩
    · rename_i hc
      split at h
      · rename_i hl; exact Or.inr ⟨hc, hl, h⟩
      · simp at h
  · simp at h

/-- When a label is owed the oracle asks for `D` with the gold label of the
child just attached. -/
theorem nextAction_owing (cfg : FeatureConfig) (hC : cfg.CompositeActions = false)
    (sent : Sentence) (ts : TrainState) (d : Nat)
    (hdep : ∀ p, 1 ≤ p → p ≤ sent.length → (ts.node p).deprel = goldLabel sent p)
    (h : ts.labelTarget = some d) (h1 : 1 ≤ d) (h2 : d ≤ sent.length) :
    ts.nextAction cfg =
      (MakeAction cfg.CompositeActions ['D'] (goldLabel sent d)).map fun a => (some a, ts) := by
  obtain ⟨y, i, c, rest, hi, ha, hc⟩ := labelTarget_some ts.toState d h
  unfold TrainState.nextAction
  rcases hc with ⟨hc, hl⟩ | ⟨hn, hc, hl⟩
  · have hs : strchrRrLl (some (c :: rest)) = true := by
      rcases hc with rfl | rfl <;> rfl
    simp [hi, hC, ha, hs, hc, hl, hdep d h1 h2]
  · have hs : strchrRrLl (some (c :: rest)) = true := by
      rcases hc with rfl | rfl <;> rfl
    simp [hi, hC, ha, hs, hn, hl, hdep d h1 h2]

/-- What `MakeAction` returns for `D`: the label behind `D`, when it fits. -/
theorem makeAction_D (c : Bool) (l : List Char) (act : Action) :
    MakeAction c ['D'] l = some act ↔ l.length + 2 ≤ 128 ∧ act = 'D' :: l := by
  unfold MakeAction
  simp only [beq_self_eq_true, Bool.or_true, if_true, List.length_singleton,
    List.singleton_append]
  constructor
  · intro h
    split at h
    · exact ⟨by omega, (Option.some.inj h).symm⟩
    · simp at h
  · rintro ⟨h1, rfl⟩
    rw [if_pos (by omega)]

theorem step_some (cfg : FeatureConfig) (ts ts1 : TrainState) (a : Action)
    (h : ts.step cfg = some (some (a, ts1))) :
    ∃ ts' s1, ts.nextAction cfg = some (some a, ts') ∧
      (ts'.toState.transition cfg State.copy a = .this s1 ∨
        ts'.toState.transition cfg State.copy a = .null s1) ∧
      ts1 = { ts' with toState := s1 } := by
  unfold TrainState.step at h
  split at h
  · simp at h
  · simp at h
  · rename_i a' ts' hna
    split at h
    · simp at h
    · rename_i s1 htr
      simp at h
      obtain ⟨rfl, rfl⟩ := h
      exact ⟨ts', s1, hna, Or.inr htr, rfl⟩
    · rename_i s1 htr
      simp at h
      obtain ⟨rfl, rfl⟩ := h
      exact ⟨ts', s1, hna, Or.inl htr, rfl⟩

theorem strchrRrLl_D (l : List Char) : strchrRrLl (some ('D' :: l)) = false := rfl

theorem getLast_tail (l : List Nat) (h : 2 ≤ l.length) : l.tail.getLast? = l.getLast? := by
  rcases l with _ | ⟨a, _ | ⟨b, t⟩⟩
  · simp at h
  · simp at h
  · simp [List.getLast?_cons_cons]

theorem stack_sorted {s : State} (h : s.Ordered) : s.stack.Pairwise (· > ·) := by
  have := h.sorted
  unfold State.line at this
  rw [List.pairwise_append] at this
  exact List.pairwise_reverse.mp this.1

theorem getLast_drop (l : List Nat) (n : Nat) (h : n < l.length) :
    (l.drop n).getLast? = l.getLast? := by
  induction l generalizing n with
  | nil => simp at h
  | cons a l ih =>
    cases n with
    | zero => rfl
    | succ n =>
      simp only [List.length_cons, Nat.add_lt_add_iff_right] at h
      rw [List.drop_succ_cons, ih n h]
      rcases l with _ | ⟨b, t⟩
      · simp at h
      · simp [List.getLast?_cons_cons]

theorem getLast_eraseIdx (l : List Nat) (k : Nat) (h : k + 1 < l.length) :
    (l.eraseIdx k).getLast? = l.getLast? := by
  induction l generalizing k with
  | nil => simp at h
  | cons a l ih =>
    cases k with
    | zero =>
      rcases l with _ | ⟨b, t⟩
      · simp at h
      · simp [List.getLast?_cons_cons]
    | succ k =>
      simp only [List.length_cons, Nat.add_lt_add_iff_right] at h
      rw [List.eraseIdx_cons_succ]
      rcases l with _ | ⟨b, t⟩
      · simp at h
      · have := ih k h
        rcases he : (b :: t).eraseIdx k with _ | ⟨c, u⟩
        · have hl : ((b :: t).eraseIdx k).length = (b :: t).length - 1 := by
            rw [List.length_eraseIdx, if_pos (by omega)]
          rw [he] at hl
          simp only [List.length_nil] at hl
          omega
        · rw [he] at this
          rw [List.getLast?_cons_cons, List.getLast?_cons_cons, this]

theorem result_this (r : Result) (s1 s2 : State) (e : r = .this s2)
    (h : r = .this s1 ∨ r = .null s1) : s1 = s2 := by
  rw [e] at h
  rcases h with h | h
  · exact (Result.this.inj h).symm
  · simp at h

theorem driven_S (cfg : FeatureConfig) (sent : Sentence) (s s1 : State)
    (hg : Driven sent s) (hroot : s.stack.getLast? = some 0) (hi : s.input ≠ [])
    (htr : s.transition cfg State.copy ['S'] = .this s1 ∨
      s.transition cfg State.copy ['S'] = .null s1) : Driven sent s1 := by
  rcases hx : s.input with _ | ⟨x, inp⟩
  · exact absurd hx hi
  have e : s.transition cfg State.copy ['S'] =
      .this { s with input := inp, stack := x :: s.stack, action := some ['S'],
                     afterUnshift := false } := by
    rw [transition_S]; simp [hx, State.Shift]
  have := result_this _ _ _ e htr
  subst this
  refine ⟨ordered_transition cfg s _ ['S'] (by decide) (by decide) e hg.ord, hg.size,
    hg.deprel, hg.prev, hg.extr, Or.inl ⟨rfl, ?_⟩⟩
  rcases hs : s.stack with _ | ⟨t, st⟩
  · simp [hs] at hroot
  · simpa [hs, List.getLast?_cons_cons] using hroot

theorem driven_U (cfg : FeatureConfig) (sent : Sentence) (s s1 : State)
    (hg : Driven sent s) (hroot : s.stack.getLast? = some 0) (hl : 1 < s.stack.length)
    (htr : s.transition cfg State.copy ['U'] = .this s1 ∨
      s.transition cfg State.copy ['U'] = .null s1) : Driven sent s1 := by
  rcases hs : s.stack with _ | ⟨t, st⟩
  · simp [hs] at hl
  have e : s.transition cfg State.copy ['U'] =
      .this { s with stack := st, input := t :: s.input, action := some ['U'],
                     afterUnshift := true } := by
    rw [transition_U]
    unfold State.Unshift
    rw [if_neg (by omega)]
    simp [hs]
  have := result_this _ _ _ e htr
  subst this
  refine ⟨ordered_transition cfg s _ ['U'] (by decide) (by decide) e hg.ord, hg.size,
    hg.deprel, hg.prev, hg.extr, Or.inl ⟨rfl, ?_⟩⟩
  have := getLast_tail s.stack (by omega)
  rw [hroot, hs] at this
  exact this

theorem driven_R (cfg : FeatureConfig) (hC : cfg.CompositeActions = false) (sent : Sentence)
    (s s1 : State) (x top : Nat) (inp st : List Nat)
    (hg : Driven sent s) (hroot : s.stack.getLast? = some 0)
    (hi : s.input = x :: inp) (hs : s.stack = top :: st) (h0 : (s.node top).id ≠ 0)
    (htr : s.transition cfg State.copy ['R'] = .this s1 ∨
      s.transition cfg State.copy ['R'] = .null s1) :
    Driven sent s1 ∧ s1.labelTarget = some top ∧ 1 ≤ top ∧ top ≤ sent.length := by
  have htl : top < s.nodes.length := hg.ord.bound top (line_mem_stack (by rw [hs]; simp))
  have hx : x < s.nodes.length := hg.ord.bound x (line_mem_input (by rw [hi]; simp))
  have ht0 : top ≠ 0 := by rw [hg.ord.ids top htl] at h0; exact h0
  have hst : st ≠ [] := by
    rintro rfl
    simp [hs] at hroot
    exact ht0 hroot
  obtain ⟨s2, e, hnode, hlen, hs', hi', hex, hact, _, hprev, _⟩ :=
    Right_spec cfg s ['R'] top x st inp hs hst hi
  simp only [hC, Bool.false_eq_true, if_false] at hnode
  have e' : s.transition cfg State.copy ['R'] = .this s2 := by
    rw [transition_R, if_neg, e]
    rw [hs]
    rcases st with _ | ⟨b, st⟩
    · exact absurd rfl hst
    · simp
  have := result_this _ _ _ e' htr
  subst this
  have hlt : s1.labelTarget = some top := by
    unfold State.labelTarget
    rw [hi', hact]
    simp only [true_or, if_true]
    rw [hnode]
    simp [left_pushLeft, hx]
  have hsz := hg.size
  refine ⟨⟨ordered_transition cfg s _ ['R'] (by decide) (by decide) e' hg.ord,
    hlen.trans hg.size, ?_, hprev.trans hg.prev, hex.trans hg.extr,
    Or.inr ⟨top, hlt, by omega, by omega, ?_, ?_, ?_⟩⟩, hlt, by omega, by omega⟩
  · intro p h1 h2
    rw [hnode]
    simpa using hg.deprel p h1 h2
  · rw [hact]; intro h; simp [firstChar] at h
  · rw [hact]; intro h; simp [firstChar] at h
  · intro _ _
    rw [hs']
    rcases st with _ | ⟨b, st⟩
    · exact absurd rfl hst
    · simpa [hs, List.getLast?_cons_cons] using hroot

theorem driven_L (cfg : FeatureConfig) (hC : cfg.CompositeActions = false)
    (hE : cfg.arcEager = false) (sent : Sentence)
    (s s1 : State) (x top : Nat) (inp st : List Nat)
    (hg : Driven sent s) (hroot : s.stack.getLast? = some 0)
    (hi : s.input = x :: inp) (hs : s.stack = top :: st)
    (htr : s.transition cfg State.copy ['L'] = .this s1 ∨
      s.transition cfg State.copy ['L'] = .null s1) :
    Driven sent s1 ∧ s1.labelTarget = some x ∧ 1 ≤ x ∧ x ≤ sent.length := by
  have htl : top < s.nodes.length := hg.ord.bound top (line_mem_stack (by rw [hs]; simp))
  have hx : x < s.nodes.length := hg.ord.bound x (line_mem_input (by rw [hi]; simp))
  have htx : top < x := hg.ord.stack_lt_input (by rw [hs]; simp) (by rw [hi]; simp)
  obtain ⟨s2, e, hnode, hlen, hs', hi', hex, hact, _, hprev, _⟩ :=
    Left_spec cfg s ['L'] top x st inp hs hi
  simp only [hC, hE, Bool.false_eq_true, if_false] at hnode hs' hi'
  have e' : s.transition cfg State.copy ['L'] = .this s2 := by
    rw [transition_L, e]
  have := result_this _ _ _ e' htr
  subst this
  have hlt : s1.labelTarget = some x := by
    unfold State.labelTarget
    rw [hi', hact]
    simp only [Char.reduceEq, or_self, if_false, true_or, if_true]
    rw [hnode]
    simp [right_pushRight, htl]
  have hsz := hg.size
  refine ⟨⟨ordered_transition cfg s _ ['L'] (by decide) (by decide) e' hg.ord,
    hlen.trans hg.size, ?_, hprev.trans hg.prev, hex.trans hg.extr,
    Or.inr ⟨x, hlt, by omega, by omega, ?_, ?_, ?_⟩⟩, hlt, by omega, by omega⟩
  · intro p h1 h2
    rw [hnode]
    simpa using hg.deprel p h1 h2
  · rw [hact]; intro h; simp [firstChar] at h
  · intro _
    rw [hs', hi']
    rcases st with _ | ⟨b, st⟩
    · right
      simp [hs] at hroot
      simp [hroot]
    · left
      simpa [hs, List.getLast?_cons_cons] using hroot
  · rw [hact]; intro _ h; simp [firstChar] at h

theorem driven_rN (cfg : FeatureConfig) (hC : cfg.CompositeActions = false) (sent : Sentence)
    (s s1 : State) (rest : List Char)
    (hg : Driven sent s) (hroot : s.stack.getLast? = some 0) (hi : s.input ≠ [])
    (h2 : 2 ≤ actionDepth ('r' :: rest)) (hl : actionDepth ('r' :: rest) < s.stack.length)
    (htr : s.transition cfg State.copy ('r' :: rest) = .this s1 ∨
      s.transition cfg State.copy ('r' :: rest) = .null s1) :
    Driven sent s1 ∧
      s1.labelTarget = some (s.stack.getD (actionDepth ('r' :: rest) - 1) 0) ∧
      1 ≤ s.stack.getD (actionDepth ('r' :: rest) - 1) 0 ∧
      s.stack.getD (actionDepth ('r' :: rest) - 1) 0 ≤ sent.length := by
  rcases hx' : s.input with _ | ⟨x, inp⟩
  · exact absurd hx' hi
  generalize hn : actionDepth ('r' :: rest) = n at h2 hl
  have hmem : s.stack.getD (n - 1) 0 ∈ s.stack := getD_mem_of_lt _ _ (by omega)
  have htl : s.stack.getD (n - 1) 0 < s.nodes.length := hg.ord.bound _ (line_mem_stack hmem)
  have hx : x < s.nodes.length := hg.ord.bound x (line_mem_input (by rw [hx']; simp))
  have ht0 : s.stack.getD (n - 1) 0 ≠ 0 :=
    getD_ne_zero_of_sorted _ (stack_sorted hg.ord) (n - 1) (by omega)
  obtain ⟨s2, e, hnode, hlen, hs', hi', hex, hact, _, hprev, _⟩ :=
    rightN_spec cfg s ('r' :: rest) x inp hx' (by omega) (by omega)
  rw [hn] at hnode hs' hi'
  simp only [hC, Bool.false_eq_true, if_false] at hnode hs' hi'
  have e' : s.transition cfg State.copy ('r' :: rest) = .this s2 := by
    rw [transition_r, e]
  have := result_this _ _ _ e' htr
  subst this
  have hlt : s1.labelTarget = some (s.stack.getD (n - 1) 0) := by
    unfold State.labelTarget
    rw [hi', hact]
    simp only [or_true, if_true]
    rw [hnode]
    simp [left_pushLeft, hx]
  have hsz := hg.size
  refine ⟨⟨ordered_transition cfg s _ ('r' :: rest) (by simp) (by simp) e' hg.ord,
    hlen.trans hg.size, ?_, hprev.trans hg.prev, hex.trans hg.extr,
    Or.inr ⟨_, hlt, by omega, by omega, ?_, ?_, ?_⟩⟩, hlt, by omega, by omega⟩
  · intro p h1 h2
    rw [hnode]
    simpa using hg.deprel p h1 h2
  · intro _
    rw [hs']
    have h3 : (s.stack.eraseIdx (n - 1)).length = s.stack.length - 1 := by
      rw [List.length_eraseIdx, if_pos (by omega)]
    rw [getLast_tail _ (by omega), getLast_eraseIdx _ _ (by omega), hroot]
  · rw [hact]; intro h; simp [firstChar] at h
  · rw [hact]; intro h; simp [firstChar] at h

theorem driven_lN (cfg : FeatureConfig) (hC : cfg.CompositeActions = false) (sent : Sentence)
    (s s1 : State) (rest : List Char) (x : Nat) (inp : List Nat)
    (hg : Driven sent s) (hroot : s.stack.getLast? = some 0) (hi : s.input = x :: inp)
    (h2 : 2 ≤ actionDepth ('l' :: rest)) (hl : actionDepth ('l' :: rest) < s.stack.length)
    (htr : s.transition cfg State.copy ('l' :: rest) = .this s1 ∨
      s.transition cfg State.copy ('l' :: rest) = .null s1) :
    Driven sent s1 ∧ s1.labelTarget = some x ∧ 1 ≤ x ∧ x ≤ sent.length := by
  generalize hn : actionDepth ('l' :: rest) = n at h2 hl
  have hmem : s.stack.getD (n - 1) 0 ∈ s.stack := getD_mem_of_lt _ _ (by omega)
  have htl : s.stack.getD (n - 1) 0 < s.nodes.length := hg.ord.bound _ (line_mem_stack hmem)
  have hx : x < s.nodes.length := hg.ord.bound x (line_mem_input (by rw [hi]; simp))
  have htx : s.stack.getD (n - 1) 0 < x :=
    hg.ord.stack_lt_input hmem (by rw [hi]; simp)
  obtain ⟨s2, e, hnode, hlen, hs', hi', hex, hact, _, hprev, _⟩ :=
    leftN_spec cfg s ('l' :: rest) x inp hi (by omega) (by omega)
  rw [hn] at hnode hs' hi'
  have hdl : 1 < (s.stack.drop (n - 1)).length := by
    rw [List.length_drop]; omega
  simp only [hC, Bool.false_eq_true, if_false, hdl, if_true] at hnode hs' hi'
  have e' : s.transition cfg State.copy ('l' :: rest) = .this s2 := by
    rw [transition_l, e]
  have := result_this _ _ _ e' htr
  subst this
  have hlt : s1.labelTarget = some x := by
    unfold State.labelTarget
    rw [hi', hact]
    simp only [Char.reduceEq, or_self, if_false, or_true, if_true]
    rw [hnode]
    have htl2 : s.stack[n - 1]?.getD 0 < s.nodes.length := by simpa using htl
    simp [right_pushRight, htl2]
  have hsz := hg.size
  refine ⟨⟨ordered_transition cfg s _ ('l' :: rest) (by simp) (by simp) e' hg.ord,
    hlen.trans hg.size, ?_, hprev.trans hg.prev, hex.trans hg.extr,
    Or.inr ⟨x, hlt, by omega, by omega, ?_, ?_, ?_⟩⟩, hlt, by omega, by omega⟩
  · intro p h1 h2
    rw [hnode]
    simpa using hg.deprel p h1 h2
  · rw [hact]; intro h; simp [firstChar] at h
  · rw [hact]; intro h; simp [firstChar] at h
  · intro _ _
    rw [hs', getLast_tail _ (by omega), getLast_drop _ _ (by omega), hroot]

/-- The `D` that follows a reduction labels the child and leaves a state that
owes nothing, with the root at the bottom of the stack. -/
theorem driven_D (cfg : FeatureConfig) (sent : Sentence) (s s1 : State) (l : List Char)
    (d : Nat) (hg : Driven sent s) (hd : s.labelTarget = some d)
    (shr : firstChar s.action = some (some 'r') → s.stack.tail.getLast? = some 0)
    (shL : firstChar s.action = some (some 'L') →
      s.stack.getLast? = some 0 ∨ (s.stack = [] ∧ s.input.head? = some 0))
    (sho : firstChar s.action ≠ some (some 'r') → firstChar s.action ≠ some (some 'L') →
      s.stack.getLast? = some 0)
    (htr : s.transition cfg State.copy ('D' :: l) = .this s1 ∨
      s.transition cfg State.copy ('D' :: l) = .null s1) : Driven sent s1 := by
  rw [transition_D] at htr
  have h : s.DepLink ('D' :: l) = .this s1 := by
    rcases htr with h | h
    · exact h
    · exact absurd h (DepLink_ne_null _ _ _)
  have hord := ordered_DepLink s s1 _ h hg.ord
  obtain ⟨y, i, c, rest, hi, ha, hc⟩ := labelTarget_some s d hd
  have hprev := hg.prev
  have hfc : firstChar s.action = some (some c) := by rw [ha]; rfl
  have build : ∀ child (stk inp : List Nat) (s' : State),
      s' = { s.linkLabel child (('D' :: l).drop 1) with
        input := inp, stack := stk, action := some ('D' :: l) } →
      s'.Ordered → stk.getLast? = some 0 → Driven sent s' := by
    intro child stk inp s' e ho hlast
    subst e
    refine ⟨ho, by simpa using hg.size, ?_, hg.prev, hg.extr, Or.inl ⟨rfl, hlast⟩⟩
    intro p h1 h2
    show ((s.linkLabel child _).node p).deprel = _
    simpa using hg.deprel p h1 h2
  rcases DepLink_cases s s1 _ h with ⟨hno, _⟩ |
      ⟨x, i', child, hi', _, ⟨c', hc', hR⟩, ⟨hr, b, st, hs, e⟩ | ⟨hr, e⟩⟩ |
      ⟨x, i', child, hi', _, ⟨c', hc', hnR, hLl⟩, ⟨hs, e⟩ | ⟨hs, e⟩⟩
  · exfalso
    unfold State.afterReduce at hno
    simp only [hprev] at hno
    rw [hfc] at hno
    rcases hc with ⟨hc, _⟩ | ⟨_, hc, _⟩ <;> rcases hc with rfl | rfl <;> simp at hno
  · refine build child st _ s1 e hord ?_
    have := shr hr
    rwa [hs] at this
  · refine build child s.stack s.input s1 e hord ?_
    apply sho hr
    simp only [hprev] at hc'
    rw [hfc] at hc'
    have : c' = some c := (Option.some.inj hc').symm
    subst this
    rw [hfc]
    rcases hR with h1 | h1
    · simp at h1; subst h1; simp
    · simp at h1; subst h1; exact absurd hfc hr
  · refine build child [x] _ s1 e hord ?_
    simp only [hprev] at hc'
    rw [hfc] at hc'
    have : c' = some c := (Option.some.inj hc').symm
    subst this
    rcases hLl with h1 | h1
    · simp at h1; subst h1
      rcases shL hfc with h2 | ⟨_, h2⟩
      · simp [hs] at h2
      · rw [hi'] at h2
        simp at h2
        simp [h2]
    · simp at h1; subst h1
      have := sho (by rw [hfc]; simp) (by rw [hfc]; simp)
      simp [hs] at this
  · refine build child s.stack s.input s1 e hord ?_
    simp only [hprev] at hc'
    rw [hfc] at hc'
    have : c' = some c := (Option.some.inj hc').symm
    subst this
    rcases hLl with h1 | h1
    · simp at h1; subst h1
      rcases shL hfc with h2 | ⟨h2, _⟩
      · exact h2
      · exact absurd h2 hs
    · simp at h1; subst h1
      exact sho (by rw [hfc]; simp) (by rw [hfc]; simp)

theorem driven_step (cfg : FeatureConfig) (hC : cfg.CompositeActions = false)
    (hE : cfg.arcEager = false) (sent : Sentence) (ts ts1 : TrainState) (a : Action)
    (hg : Driven sent ts.toState) (h : ts.step cfg = some (some (a, ts1))) :
    Driven sent ts1.toState ∧
      (isReduce a = true → ts1.labelTarget = some (ts.dependent a) ∧
        1 ≤ ts.dependent a ∧ ts.dependent a ≤ sent.length) := by
  obtain ⟨ts', s1, hna, htr, e⟩ := step_some cfg ts ts1 a h
  subst e
  show Driven sent s1 ∧ (isReduce a = true → s1.labelTarget = _ ∧ _)
  rcases hg.mode with ⟨hidle, hroot⟩ | ⟨d, hd, d1, d2, shr, shL, sho⟩
  · rcases hi : ts.input with _ | ⟨x, inp⟩
    · -- the input is used up: `U`, or the end of the run
      unfold TrainState.nextAction at hna
      simp only [hi, List.length_nil, if_true] at hna
      split at hna
      · rename_i hl
        simp only [Option.some.injEq, Prod.mk.injEq] at hna
        obtain ⟨ha, e⟩ := hna
        subst e
        subst ha
        exact ⟨driven_U cfg sent _ s1 hg hroot hl htr, by intro h; simp [isReduce] at h⟩
      · simp at hna
    · rcases hs : ts.stack with _ | ⟨top, st⟩
      · simp [hs] at hroot
      obtain ⟨e1, _, hcase⟩ :=
        nextAction_idle_cases cfg hC hE ts ts' a x top inp st hi hs hidle hg.extr hna
      rw [e1] at htr
      have hine : ts.input ≠ [] := by rw [hi]; simp
      rcases hcase with rfl | ⟨rfl, h0⟩ | rfl | ⟨rfl, hl⟩ | ⟨rfl, hl⟩ | ⟨rfl, hl⟩ |
          ⟨rfl, hl⟩ | ⟨rfl, hl⟩ | ⟨rfl, hl⟩
      · exact ⟨driven_S cfg sent _ s1 hg hroot hine htr, by intro h; simp [isReduce] at h⟩
      · have := driven_R cfg hC sent _ s1 x top inp st hg hroot hi hs h0 htr
        refine ⟨this.1, fun _ => ?_⟩
        have e : ts.dependent ['R'] = top := by simp [State.dependent, hs]
        rw [e]; exact this.2
      · have := driven_L cfg hC hE sent _ s1 x top inp st hg hroot hi hs htr
        refine ⟨this.1, fun _ => ?_⟩
        have e : ts.dependent ['L'] = x := by simp [State.dependent, hi]
        rw [e]; exact this.2
      · have := driven_rN cfg hC sent _ s1 ['2'] hg hroot hine (by decide) hl htr
        exact ⟨this.1, fun _ => this.2⟩
      · have := driven_rN cfg hC sent _ s1 ['3'] hg hroot hine (by decide) hl htr
        exact ⟨this.1, fun _ => this.2⟩
      · have := driven_rN cfg hC sent _ s1 ['4'] hg hroot hine (by decide) hl htr
        exact ⟨this.1, fun _ => this.2⟩
      · have := driven_lN cfg hC sent _ s1 ['2'] x inp hg hroot hi (by decide) hl htr
        refine ⟨this.1, fun _ => ?_⟩
        have e : ts.dependent ['l', '2'] = x := by simp [State.dependent, hi]
        rw [e]; exact this.2
      · have := driven_lN cfg hC sent _ s1 ['3'] x inp hg hroot hi (by decide) hl htr
        refine ⟨this.1, fun _ => ?_⟩
        have e : ts.dependent ['l', '3'] = x := by simp [State.dependent, hi]
        rw [e]; exact this.2
      · have := driven_lN cfg hC sent _ s1 ['4'] x inp hg hroot hi (by decide) hl htr
        refine ⟨this.1, fun _ => ?_⟩
        have e : ts.dependent ['l', '4'] = x := by simp [State.dependent, hi]
        rw [e]; exact this.2
  · have hn := nextAction_owing cfg hC sent ts d hg.deprel hd d1 d2
    rw [hn] at hna
    obtain ⟨act, hm, hna⟩ := Option.map_eq_some'.mp hna
    simp only [Prod.mk.injEq, Option.some.injEq] at hna
    obtain ⟨ha, e⟩ := hna
    subst e
    subst ha
    obtain ⟨_, ha⟩ := (makeAction_D _ _ _).mp hm
    subst ha
    exact ⟨driven_D cfg sent _ s1 _ d hg hd shr shL sho htr, by intro h; simp [isReduce] at h⟩

theorem driven_after (cfg : FeatureConfig) (hC : cfg.CompositeActions = false)
    (hE : cfg.arcEager = false) (sent : Sentence) (k : Nat) :
    ∀ ts ts' : TrainState, Driven sent ts.toState → ts.after cfg k = some ts' →
      Driven sent ts'.toState := by
  induction k with
  | zero =>
    intro ts ts' hg h
    simp only [TrainState.after, Option.some.injEq] at h
    subst h
    exact hg
  | succ k ih =>
    intro ts ts' hg h
    unfold TrainState.after at h
    split at h
    · rename_i a ts1 hst
      exact ih ts1 ts' (driven_step cfg hC hE sent ts ts1 a hg hst).1 h
    · simp at h

/-- C15: with `CompositeActions` and `ArcEager` off, on every annotated sentence
the constructor accepts and after any number of rounds of the training loop,
when the next round emits and applies a reduction (`R`, `r<n>`, `L` or `l<n>`),
the token it made a dependent is a token of the sentence, it is the child that
`D` will label, and, when the gold label of that token has at most 126
characters (it fits the buffer of `MakeAction` behind `D`), the following call
of `nextAction` returns `D<label>` with that gold label, leaving the state as
it is. -/
theorem label_follows_reduction (cfg : FeatureConfig) (hC : cfg.CompositeActions = false)
    (hE : cfg.arcEager = false) (sent : Sentence) (k : Nat) (ts0 ts1 : TrainState)
    (a : Action) (h0 : (TrainState.init sent).bind (TrainState.after cfg k) = some ts0)
    (h1 : ts0.step cfg = some (some (a, ts1))) (hr : isReduce a = true)
    (hl : (goldLabel sent (ts0.dependent a)).length ≤ 126) :
    1 ≤ ts0.dependent a ∧ ts0.dependent a ≤ sent.length ∧
      ts1.labelTarget = some (ts0.dependent a) ∧
      ts1.nextAction cfg = some (some ('D' :: goldLabel sent (ts0.dependent a)), ts1) := by
  obtain ⟨ts00, hi0, h0⟩ := Option.bind_eq_some.mp h0
  have hg0 : Driven sent ts00.toState := by
    rw [(init_toState sent ts00 hi0).1]
    exact driven_init sent
  have hg := driven_after cfg hC hE sent k _ ts0 hg0 h0
  obtain ⟨hg1, hd⟩ := driven_step cfg hC hE sent ts0 ts1 a hg h1
  obtain ⟨hlt, d1, d2⟩ := hd hr
  refine ⟨d1, d2, hlt, ?_⟩
  rw [nextAction_owing cfg hC sent ts1 _ hg1.deprel hlt d1 d2,
    (makeAction_D _ _ _).mpr ⟨by omega, rfl⟩]
  rfl

theorem label_follows_reduction_witness :
    ({ CompositeActions := false } : FeatureConfig).CompositeActions = false ∧
    ({ CompositeActions := false } : FeatureConfig).arcEager = false ∧
    (TrainState.init theDogBarks).bind (TrainState.after { CompositeActions := false } 1) =
      some theDogBarksShifted ∧
    theDogBarksShifted.step { CompositeActions := false } =
      some (some (['R'], theDogBarksAttached)) ∧
    isReduce ['R'] = true ∧
    (goldLabel theDogBarks (theDogBarksShifted.dependent ['R'])).length ≤ 126 ∧
    1 ≤ theDogBarksShifted.dependent ['R'] ∧
    theDogBarksShifted.dependent ['R'] ≤ theDogBarks.length ∧
    theDogBarksAttached.labelTarget = some (theDogBarksShifted.dependent ['R']) ∧
    theDogBarksAttached.nextAction { CompositeActions := false } =
      some (some ('D' :: goldLabel theDogBarks (theDogBarksShifted.dependent ['R'])),
        theDogBarksAttached) :=
  ⟨rfl, rfl, by decide, by decide, by decide, by decide,
    label_follows_reduction { CompositeActions := false } rfl rfl theDogBarks 1
      theDogBarksShifted theDogBarksAttached ['R'] (by decide) (by decide) (by decide)
      (by decide)⟩

set_option maxRecDepth 100000 in
/-- C15 (counterexample): with `CompositeActions` off and `ArcEager` on, the
loop on the one-token sentence `oneRoot` emits `L` and then `U`: the `L` of
`ArcEager` shifts the token, the input is empty, and the first rule of
`nextAction` answers before the rule that emits `D`. With `CompositeActions`
and `ArcEager` off, on the one-token sentence whose label has 127 characters
the loop emits `L`, and the call of `nextAction` that follows is undefined:
`D`, the label and the terminating `0` are 129 characters for the 128 of the
buffer of `MakeAction`. -/
theorem label_follows_reduction_counterexample :
    ((TrainState.init oneRoot).bind
      (TrainState.stream { CompositeActions := false, arcEager := true } 2)).map
        (·.1) = some [['L'], ['U']] ∧
      isReduce ['L'] = true ∧ goldLabel oneRoot 1 = ['x'] ∧
    ((TrainState.init longLabel).bind
      (TrainState.stream { CompositeActions := false } 1)).map (·.1) = some [['L']] ∧
    (goldLabel longLabel 1).length = 127 ∧
    MakeAction false ['D'] (goldLabel longLabel 1) = none ∧
    ((TrainState.init longLabel).bind
      (TrainState.stream { CompositeActions := false } 1)).bind
        (fun r => r.2.nextAction { CompositeActions := false }) = none := by
  refine ⟨by decide, by decide, by decide, by decide, by decide, by decide, by decide⟩

/-! ## `D` after `l<n>` on the root -/

/-- C18 (the code at the failing input): with `CompositeActions` off, on a
three-token sentence the successful actions `S L Da S` leave stack `0 1`, input
`3` and token 2 labelled `a` under token 1. The successful `l2` then attaches
token 3 to the root, the second top, and leaves token 1 as next token; the
successful `Dx` that follows writes `x` on token 2, the last right child of
token 1, and token 3, the dependent of the `l2`, stays without label. On the
sibling path of `left`, where the second top is not the root (`S S l2 Dx`), the
second top becomes the next token and `D` labels token 3. -/
theorem deplink_after_left_on_root :
    (State.transitions { CompositeActions := false } (State.init [{}, {}, {}])
        [['S'], ['L'], ['D', 'a'], ['S']]).map
      (fun s => (s.stack, s.input, (s.node 2).head, (s.node 2).label, (s.node 3).label)) =
      some ([1, 0], [3], 1, ['a'], []) ∧
    (State.transitions { CompositeActions := false } (State.init [{}, {}, {}])
        [['S'], ['L'], ['D', 'a'], ['S'], ['l', '2']]).map
      (fun s => (s.stack, s.input, (s.node 0).right, (s.node 3).head, (s.node 1).right)) =
      some ([0], [1], [3], 0, [2]) ∧
    (State.transitions { CompositeActions := false } (State.init [{}, {}, {}])
        [['S'], ['L'], ['D', 'a'], ['S'], ['l', '2'], ['D', 'x']]).map
      (fun s => (s.stack, s.input, (s.node 1).label, (s.node 2).label, (s.node 3).label)) =
      some ([0], [1], [], ['x'], []) ∧
    (State.transitions { CompositeActions := false } (State.init [{}, {}, {}])
        [['S'], ['S'], ['l', '2']]).map
      (fun s => (s.stack, s.input, (s.node 1).right, (s.node 3).head)) =
      some ([0], [1, 2], [3], 1) ∧
    (State.transitions { CompositeActions := false } (State.init [{}, {}, {}])
        [['S'], ['S'], ['l', '2'], ['D', 'x']]).map
      (fun s => (s.stack, s.input, (s.node 1).label, (s.node 2).label, (s.node 3).label)) =
      some ([0], [1, 2], [], [], ['x']) := by
  refine ⟨?_, ?_, ?_, ?_, ?_⟩ <;> decide

/-! ## The children added by `R` and `r<n>`, the tokens moved by `l<n>` -/

theorem actionDepth_digit (c d : Char) (rest : List Char)
    (hd : d = '2' ∨ d = '3' ∨ d = '4') :
    actionDepth (c :: d :: rest) = 2 ∧ d = '2' ∨ actionDepth (c :: d :: rest) = 3 ∧ d = '3' ∨
      actionDepth (c :: d :: rest) = 4 ∧ d = '4' := by
  rcases hd with rfl | rfl | rfl
  · exact Or.inl ⟨rfl, rfl⟩
  · exact Or.inr (Or.inl ⟨rfl, rfl⟩)
  · exact Or.inr (Or.inr ⟨rfl, rfl⟩)

theorem take_reverse_succ (l : List Nat) (k : Nat) (h : k < l.length) :
    (l.take (k + 1)).reverse = l.getD k 0 :: (l.take k).reverse := by
  rw [List.take_succ, List.reverse_append]
  simp [List.getD_eq_getElem?_getD, List.getElem?_eq_getElem h]

/-- C22: for `n` in 2, 3, 4 and every state with a non-empty input (whose
pointers are objects of the state), `l<n>` returns `this`, sets the head of the
next token to the id of `stack[-n]` and appends the next token to
`stack[-n].right`.  When `stack.size() > n` the stack loses its top `n` tokens
and on the input the next token is replaced by them, `stack[-n]` being the new
next token, then `stack[-(n-1)]`, ..., the old top last.  When
`stack.size() == n` the stack becomes `stack[-n]` alone (the bottom of the
stack) and the `n-1` tokens above it replace the next token in the same
order. -/
theorem left_moves_tokens (cfg : FeatureConfig) (s : State) (d : Char) (label : List Char)
    (x : Nat) (i : List Nat) (hd : d = '2' ∨ d = '3' ∨ d = '4')
    (hl : actionDepth ['l', d] ≤ s.stack.length) (hi : s.input = x :: i)
    (hx : x < s.nodes.length) (hv : ∀ p ∈ s.stack, p < s.nodes.length) :
    ∃ s', s.transition cfg State.copy ('l' :: d :: label) = .this s' ∧
      (s'.node x).head = (s.node (s.stack.getD (actionDepth ['l', d] - 1) 0)).id ∧
      (s'.node (s.stack.getD (actionDepth ['l', d] - 1) 0)).right =
        (s.node (s.stack.getD (actionDepth ['l', d] - 1) 0)).right ++ [x] ∧
      (actionDepth ['l', d] < s.stack.length →
        s'.stack = s.stack.drop (actionDepth ['l', d]) ∧
        s'.input = (s.stack.take (actionDepth ['l', d])).reverse ++ i) ∧
      (s.stack.length = actionDepth ['l', d] →
        s'.stack = [s.stack.getD (actionDepth ['l', d] - 1) 0] ∧
        s.stack.getLast? = some (s.stack.getD (actionDepth ['l', d] - 1) 0) ∧
        s'.input = (s.stack.take (actionDepth ['l', d] - 1)).reverse ++ i) := by
  have hda : actionDepth ('l' :: d :: label) = actionDepth ['l', d] := rfl
  have h2 : 2 ≤ actionDepth ['l', d] := by
    rcases hd with rfl | rfl | rfl <;> decide
  obtain ⟨s', e, hnode, _, hs', hi', _⟩ :=
    leftN_spec cfg s ('l' :: d :: label) x i hi (by rw [hda]; omega) (by rw [hda]; exact hl)
  rw [hda] at hnode hs' hi'
  generalize actionDepth ['l', d] = n at *
  have hn : s.stack.getD (n - 1) 0 < s.nodes.length :=
    hv _ (getD_mem_of_lt _ _ (by omega))
  have hdl : (s.stack.drop (n - 1)).length = s.stack.length - (n - 1) := List.length_drop _ _
  refine ⟨s', by rw [transition_l]; exact e, ?_, ?_, ?_, ?_⟩
  · generalize s.stack.getD (n - 1) 0 = nth at hnode hn ⊢
    rw [hnode]
    cases cfg.CompositeActions
    · simp [node_linkHead, hx]
    · simp [node_linkLabel, node_linkHead, hx]
  · generalize s.stack.getD (n - 1) 0 = nth at hnode hn ⊢
    rw [hnode]
    cases cfg.CompositeActions
    · simp [right_pushRight, hn]
    · simp [right_pushRight, hn]
  · intro hlt
    have h1 : 1 < (s.stack.drop (n - 1)).length := by omega
    rw [if_pos h1] at hs' hi'
    constructor
    · have e1 : n - 1 + 1 = n := by omega
      rw [hs', List.tail_drop, e1]
    · rw [hi']
      obtain ⟨m, rfl⟩ : ∃ m, n = m + 1 := ⟨n - 1, by omega⟩
      rw [take_reverse_succ _ m (by omega)]
      rfl
  · intro heq
    have h1 : ¬ 1 < (s.stack.drop (n - 1)).length := by omega
    rw [if_neg h1] at hs' hi'
    have hd1 : s.stack.drop (n - 1) = [s.stack.getD (n - 1) 0] := by
      have h3 : (s.stack.drop (n - 1)).length = 1 := by omega
      rcases hdr : s.stack.drop (n - 1) with _ | ⟨b, _ | ⟨c, r⟩⟩
      · simp [hdr] at h3
      · rw [getD_eq_head_drop, hdr]; rfl
      · simp [hdr] at h3
    refine ⟨?_, ?_, hi'⟩
    · rw [hs', hd1]; rfl
    · have : (s.stack.drop (n - 1)).getLast? = s.stack.getLast? := by
        rw [List.getLast?_drop, if_neg (by omega)]
      rw [← this, hd1]; rfl

theorem left_moves_tokens_witness :
    ('2' = '2' ∨ '2' = '3' ∨ '2' = '4') ∧
    actionDepth ['l', '2'] ≤ threeUnderFour.stack.length ∧ threeUnderFour.input = [4] ∧
    4 < threeUnderFour.nodes.length ∧ (∀ p ∈ threeUnderFour.stack, p < threeUnderFour.nodes.length) ∧
    ∃ s', threeUnderFour.transition {} State.copy ['l', '2', 'y'] = .this s' ∧
      (s'.node 4).head = (threeUnderFour.node (threeUnderFour.stack.getD
        (actionDepth ['l', '2'] - 1) 0)).id ∧
      (s'.node (threeUnderFour.stack.getD (actionDepth ['l', '2'] - 1) 0)).right =
        (threeUnderFour.node (threeUnderFour.stack.getD (actionDepth ['l', '2'] - 1) 0)).right ++
          [4] ∧
      (actionDepth ['l', '2'] < threeUnderFour.stack.length →
        s'.stack = threeUnderFour.stack.drop (actionDepth ['l', '2']) ∧
        s'.input = (threeUnderFour.stack.take (actionDepth ['l', '2'])).reverse ++ []) ∧
      (threeUnderFour.stack.length = actionDepth ['l', '2'] →
        s'.stack = [threeUnderFour.stack.getD (actionDepth ['l', '2'] - 1) 0] ∧
        threeUnderFour.stack.getLast? =
          some (threeUnderFour.stack.getD (actionDepth ['l', '2'] - 1) 0) ∧
        s'.input = (threeUnderFour.stack.take (actionDepth ['l', '2'] - 1)).reverse ++ []) :=
  ⟨by decide, by decide, rfl, by decide, by decide,
    left_moves_tokens {} threeUnderFour '2' ['y'] 4 [] (by decide) (by decide) rfl
      (by decide) (by decide)⟩

/-! ## The pairs of the `SecondOrder` block -/

theorem compareStr_neg (p q : List Char) : compareStr p q < 0 ↔ p < q := by
  induction p generalizing q with
  | nil =>
    cases q with
    | nil => simp [compareStr]
    | cons b bs =>
      unfold compareStr
      constructor
      · intro _; exact List.Lex.nil
      · intro _; decide
  | cons a as ih =>
    cases q with
    | nil => simp [compareStr]
    | cons b bs =>
      unfold compareStr
      by_cases hab : a < b
      · simp only [hab, if_true]
        constructor
        · intro _; exact List.Lex.rel hab
        · intro _; decide
      · by_cases hba : b < a
        · simp only [hab, hba, if_false, if_true]
          constructor
          · intro h; exact absurd h (by decide)
          · intro h
            exfalso
            have h2 : (b :: bs) < (a :: as) := List.Lex.rel hba
            exact lt_asymm h h2
        · simp only [hab, hba, if_false]
          have e : a = b := le_antisymm (not_lt.mp hba) (not_lt.mp hab)
          subst e
          rw [ih bs]
          exact (List.Lex.cons_iff).symm

theorem combo_eq (preds : Features) (i j : Nat) :
    combo preds i j = pairPredicate (preds.getD i []) (preds.getD j []) := by
  unfold combo pairPredicate
  by_cases h : preds.getD i [] < preds.getD j []
  · rw [if_pos ((compareStr_neg _ _).mpr h), min_eq_left h.le, max_eq_right h.le]
  · rw [if_neg (fun h' => h ((compareStr_neg _ _).mp h')), min_eq_right (not_lt.mp h),
      max_eq_left (not_lt.mp h)]

theorem getD_append_lt (p acc : Features) (i : Nat) (h : i < p.length) :
    (p ++ acc).getD i [] = p.getD i [] := by
  simp [List.getD_eq_getElem?_getD, List.getElem?_append_left h]

theorem pairLoop_eq (p : Features) (i : Nat) (hi : i < p.length) :
    ∀ (fuel j : Nat) (acc : Features), p.length ≤ j + fuel → j ≤ p.length →
      pairLoop p.length i fuel j (p ++ acc) =
        p ++ acc ++ (List.range' j (p.length - j)).map fun j =>
          pairPredicate (p.getD i []) (p.getD j []) := by
  intro fuel
  induction fuel with
  | zero =>
    intro j acc h1 h2
    have : p.length - j = 0 := by omega
    simp [pairLoop, this]
  | succ fuel ih =>
    intro j acc h1 h2
    unfold pairLoop
    split
    · rename_i hj
      rw [combo_eq, getD_append_lt p acc i hi, getD_append_lt p acc j hj, List.append_assoc,
        ih (j + 1) _ (by omega) (by omega)]
      have e : p.length - j = (p.length - (j + 1)) + 1 := by omega
      rw [e, List.range'_succ]
      simp
    · rename_i hj
      have : p.length - j = 0 := by omega
      simp [this]

theorem filter_lt_range (i k : Nat) :
    (List.range k).filter (fun j => decide (i < j)) = List.range' (i + 1) (k - (i + 1)) := by
  induction k with
  | zero => simp
  | succ k ih =>
    rw [List.range_succ, List.filter_append, ih]
    by_cases h : i < k
    · have e : k + 1 - (i + 1) = (k - (i + 1)) + 1 := by omega
      rw [e, List.range'_concat]
      simp [h]
      omega
    · have e1 : k - (i + 1) = 0 := by omega
      have e2 : k + 1 - (i + 1) = 0 := by omega
      simp [h, e1, e2]

theorem pairsLoop_eq (p : Features) :
    ∀ (fuel i : Nat) (acc : Features), p.length ≤ i + fuel → i ≤ p.length →
      pairsLoop p.length fuel i (p ++ acc) =
        p ++ acc ++ ((List.range' i (p.length - i)).map fun i =>
          ((List.range p.length).filter fun j => i < j).map fun j =>
            pairPredicate (p.getD i []) (p.getD j [])).flatten := by
  intro fuel
  induction fuel with
  | zero =>
    intro i acc h1 h2
    have : p.length - i = 0 := by omega
    simp [pairsLoop, this]
  | succ fuel ih =>
    intro i acc h1 h2
    unfold pairsLoop
    split
    · rename_i hi
      rw [pairLoop_eq p i hi p.length (i + 1) acc (by omega) (by omega), List.append_assoc,
        ih (i + 1) _ (by omega) (by omega)]
      have e : p.length - i = (p.length - (i + 1)) + 1 := by omega
      rw [e, List.range'_succ]
      simp only [List.map_cons, List.flatten_cons]
      rw [filter_lt_range]
      simp
    · rename_i hi
      have : p.length - i = 0 := by omega
      simp [this]

theorem sum_pairs (k : Nat) :
    (((List.range k).map fun i => k - (i + 1)).sum) * 2 = k * (k - 1) := by
  induction k with
  | zero => rfl
  | succ k ih =>
    rw [List.range_succ_eq_map, List.map_cons, List.sum_cons, List.map_map]
    have e : ((fun i => k + 1 - (i + 1)) ∘ Nat.succ) = fun i => k - (i + 1) := by
      funext i
      simp
    rw [e, Nat.add_mul, ih]
    cases k with
    | zero => rfl
    | succ k =>
      simp only [Nat.add_sub_cancel]
      ring

theorem pairPredicates_length (p : Features) :
    (pairPredicates p).length = p.length * (p.length - 1) / 2 := by
  have h : (pairPredicates p).length = ((List.range p.length).map fun i => p.length - (i + 1)).sum := by
    unfold pairPredicates
    rw [List.length_flatten, List.map_map]
    congr 1
    apply List.map_congr_left
    intro i _
    simp [filter_lt_range]
  rw [h]
  have := sum_pairs p.length
  omega

/-- C25: with `SecondOrder` on, if the families before it have emitted the
predicates `p_0 .. p_(k-1)` (fewer than 4294967296 of them, the range of the
`unsigned` counters), the block returns these `k` predicates unchanged followed
by the pair predicates of the specification: exactly `k(k-1)/2` of them, one
for every pair of positions `i < j`, each `min(p_i,p_j) + '#' + max(p_i,p_j)`
under the lexicographic order of strings. -/
theorem second_order_pairs (preds : Features) (h : preds.length < 4294967296) :
    secondOrder preds = some (preds ++ pairPredicates preds) ∧
    (pairPredicates preds).length = preds.length * (preds.length - 1) / 2 ∧
    ∀ i j, i < j → j < preds.length →
      min (preds.getD i []) (preds.getD j []) ++ '#' :: max (preds.getD i []) (preds.getD j []) ∈
        pairPredicates preds := by
  refine ⟨?_, pairPredicates_length preds, ?_⟩
  · unfold secondOrder
    rw [if_pos h]
    have := pairsLoop_eq preds preds.length 0 [] (by omega) (by omega)
    simp only [List.append_nil, Nat.sub_zero] at this
    rw [this]
    unfold pairPredicates
    rw [List.range_eq_range']
  · intro i j hij hj
    unfold pairPredicates
    exact List.mem_flatten.mpr ⟨_, List.mem_map.mpr ⟨i, List.mem_range.mpr (by omega), rfl⟩,
      List.mem_map.mpr ⟨j, List.mem_filter.mpr ⟨List.mem_range.mpr hj, by simpa using hij⟩,
        rfl⟩⟩

theorem second_order_pairs_witness :
    [['b'], ['a'], ['c']].length < 4294967296 ∧
    secondOrder [['b'], ['a'], ['c']] =
      some ([['b'], ['a'], ['c']] ++ pairPredicates [['b'], ['a'], ['c']]) ∧
    pairPredicates [['b'], ['a'], ['c']] = [['a', '#', 'b'], ['b', '#', 'c'], ['a', '#', 'c']] ∧
    (pairPredicates [['b'], ['a'], ['c']]).length = 3 * (3 - 1) / 2 :=
  ⟨by decide, (second_order_pairs [['b'], ['a'], ['c']] (by decide)).1, by decide,
    (second_order_pairs [['b'], ['a'], ['c']] (by decide)).2.1⟩

/-! ## Layout of the token features -/

theorem featureText_eq (u : Bool) (tp : TokenPath) (letter : Char) (value : List Char) :
    featureText u tp letter value = pieceLayout u tp.code tp.root letter value := rfl

theorem writeText_spec (acc t text' : List Char) (pos' : Nat)
    (h : writeText (acc.take 4095) acc.length t = some (text', pos')) :
    text' = (acc ++ t).take 4095 ∧ pos' = (acc ++ t).length := by
  unfold writeText at h
  split at h
  · simp at h
  · split at h
    · rename_i h1 h2
      simp only [Option.some.injEq, Prod.mk.injEq] at h
      obtain ⟨rfl, rfl⟩ := h
      refine ⟨?_, by simp⟩
      rw [List.take_append_of_le_length (by omega)]
    · rename_i h1 h2
      simp only [Option.some.injEq, Prod.mk.injEq] at h
      obtain ⟨rfl, rfl⟩ := h
      refine ⟨?_, by simp⟩
      rw [List.take_of_length_le (show acc.length ≤ 4095 by omega)]

theorem writeText_defined (acc t : List Char) (h : acc.length ≤ 4096) :
    ∃ r, writeText (acc.take 4095) acc.length t = some r := by
  unfold writeText
  rw [if_neg (by omega)]
  split
  · exact ⟨_, rfl⟩
  · exact ⟨_, rfl⟩

theorem restFeature_nil (ta : TokenAccess) (cfg : TokenFeatureConfig) (s : State)
    (acc : List Char) : restFeature ta cfg s acc [] = none := by
  simp [restFeature]

theorem restFeature_stop (ta : TokenAccess) (cfg : TokenFeatureConfig) (s : State)
    (acc : List Char) (fs : FeatureSpec) (rest : List FeatureSpec)
    (h : s.specPiece ta cfg fs = none) : restFeature ta cfg s acc (fs :: rest) = none := by
  simp [restFeature, h]

theorem restFeature_skip (ta : TokenAccess) (cfg : TokenFeatureConfig) (s : State)
    (acc : List Char) (fs : FeatureSpec) (rest : List FeatureSpec)
    (h : s.specPiece ta cfg fs = some none) :
    restFeature ta cfg s acc (fs :: rest) = restFeature ta cfg s acc rest := by
  cases rest with
  | nil => simp [restFeature, h]
  | cons r rs =>
    simp [restFeature, h, State.chainPieces, List.getLast?_cons_cons]

theorem restFeature_last (ta : TokenAccess) (cfg : TokenFeatureConfig) (s : State)
    (acc : List Char) (fs : FeatureSpec) (t : List Char)
    (h : s.specPiece ta cfg fs = some (some t)) :
    restFeature ta cfg s acc [fs] = some ((acc ++ t).take 4095) := by
  simp [restFeature, h, State.chainPieces]

theorem restFeature_write (ta : TokenAccess) (cfg : TokenFeatureConfig) (s : State)
    (acc : List Char) (fs r : FeatureSpec) (rs : List FeatureSpec) (t : List Char)
    (h : s.specPiece ta cfg fs = some (some t)) :
    restFeature ta cfg s acc (fs :: r :: rs) = restFeature ta cfg s (acc ++ t) (r :: rs) := by
  simp [restFeature, h, State.chainPieces, List.getLast?_cons_cons]

/-- The loop over the `FeatureSpec`s of a chain pushes the feature of the
chain, and behind it the predicates of `childPunctFeature` only. -/
theorem chainFeatures_spec (ta : TokenAccess) (cfg : TokenFeatureConfig) (s : State)
    (l : List FeatureSpec) (first : Bool) (acc : List Char) (visited : List Nat)
    (preds : Features) (v : List Nat)
    (h : State.chainFeatures ta cfg s l first (acc.take 4095) acc.length visited =
      some (preds, v)) :
    ∃ puncts : Features, (cfg.LexChildNonWord = false → puncts = []) ∧
      (puncts = [] ∨ ∃ tok root vis,
        puncts = (childPunctFeature ta cfg.unambiguous s tok root vis).1) ∧
      preds = (restFeature ta cfg s acc l).toList ++ puncts := by
  induction l generalizing first acc with
  | nil =>
    simp only [State.chainFeatures, Option.some.injEq, Prod.mk.injEq] at h
    obtain ⟨rfl, _⟩ := h
    exact ⟨[], fun _ => rfl, Or.inl rfl, by simp [restFeature_nil]⟩
  | cons fs rest ih =>
    unfold State.chainFeatures at h
    rcases ha : s.anchor fs.path.root with _ | tok0
    · rw [ha] at h
      simp only [Option.some.injEq, Prod.mk.injEq] at h
      obtain ⟨rfl, _⟩ := h
      have hp : s.specPiece ta cfg fs = none := by simp [State.specPiece, ha]
      exact ⟨[], fun _ => rfl, Or.inl rfl, by simp [restFeature_stop _ _ _ _ _ _ hp]⟩
    rw [ha] at h
    dsimp only at h
    rcases hf : ta.follow s tok0 fs.path with _ | tok
    · rw [hf] at h
      dsimp only at h
      have hp : s.specPiece ta cfg fs = some none := by simp [State.specPiece, ha, hf]
      rw [restFeature_skip _ _ _ _ _ _ hp]
      exact ih false acc h
    rw [hf] at h
    dsimp only at h
    rcases hv : ta.predicted s tok fs.attrIndex with _ | value
    · rw [hv] at h
      simp only [Option.some.injEq, Prod.mk.injEq] at h
      obtain ⟨rfl, _⟩ := h
      have hp : s.specPiece ta cfg fs = none := by simp [State.specPiece, ha, hf, hv]
      exact ⟨[], fun _ => rfl, Or.inl rfl, by simp [restFeature_stop _ _ _ _ _ _ hp]⟩
    rw [hv] at h
    dsimp only at h
    by_cases he : value = []
    · rw [if_pos he] at h
      simp only [Option.some.injEq, Prod.mk.injEq] at h
      obtain ⟨rfl, _⟩ := h
      have hp : s.specPiece ta cfg fs = none := by simp [State.specPiece, ha, hf, hv, he]
      exact ⟨[], fun _ => rfl, Or.inl rfl, by simp [restFeature_stop _ _ _ _ _ _ hp]⟩
    rw [if_neg he] at h
    have hp : s.specPiece ta cfg fs = some (some (featureText cfg.unambiguous fs.path
        (featId fs.attrIndex) value)) := by
      simp [State.specPiece, ha, hf, hv, he, featureText_eq]
    rcases hw : writeText (acc.take 4095) acc.length
        (featureText cfg.unambiguous fs.path (featId fs.attrIndex) value) with _ | ⟨text', pos'⟩
    · rw [hw] at h
      simp at h
    rw [hw] at h
    dsimp only at h
    obtain ⟨e1, e2⟩ := writeText_spec _ _ _ _ hw
    cases rest with
    | nil =>
      dsimp only at h
      rw [restFeature_last _ _ _ _ _ _ hp, ← e1]
      by_cases hc : (first = true ∧ fs.path.length = 0 ∧ cfg.LexChildNonWord = true)
      · rw [if_pos hc] at h
        simp only [Option.some.injEq, Prod.mk.injEq] at h
        obtain ⟨rfl, _⟩ := h
        refine ⟨_, fun h0 => ?_, Or.inr ⟨_, _, _, rfl⟩, rfl⟩
        rw [h0] at hc
        simp at hc
      · rw [if_neg hc] at h
        simp only [Option.some.injEq, Prod.mk.injEq] at h
        obtain ⟨rfl, _⟩ := h
        exact ⟨[], fun _ => rfl, Or.inl rfl, rfl⟩
    | cons r rs =>
      dsimp only at h
      rw [restFeature_write _ _ _ _ _ _ _ _ hp]
      rw [e1, e2] at h
      exact ih false _ h

theorem restFeature_chain (ta : TokenAccess) (cfg : TokenFeatureConfig) (s : State)
    (chain : List FeatureSpec) : restFeature ta cfg s [] chain = s.chainFeature ta cfg chain := by
  simp [restFeature, State.chainFeature]

theorem tokenFeaturesLoop_spec (ta : TokenAccess) (cfg : TokenFeatureConfig) (s : State)
    (chains : List (List FeatureSpec)) (visited : List Nat) (preds : Features)
    (h : State.tokenFeaturesLoop ta cfg s chains visited = some preds) :
    ∃ puncts : List Features, puncts.length = chains.length ∧
      (cfg.LexChildNonWord = false → ∀ p ∈ puncts, p = []) ∧
      (∀ p ∈ puncts, p = [] ∨ ∃ tok root vis,
        p = (childPunctFeature ta cfg.unambiguous s tok root vis).1) ∧
      preds = ((chains.zip puncts).map fun cp =>
        (s.chainFeature ta cfg cp.1).toList ++ cp.2).flatten := by
  induction chains generalizing visited preds with
  | nil =>
    simp only [State.tokenFeaturesLoop, Option.some.injEq] at h
    subst h
    exact ⟨[], rfl, by simp, by simp, by simp⟩
  | cons chain chains ih =>
    unfold State.tokenFeaturesLoop at h
    rcases hc : State.chainFeatures ta cfg s chain true [] 0 visited with _ | ⟨p1, v1⟩
    · rw [hc] at h; simp at h
    rw [hc] at h
    dsimp only at h
    obtain ⟨r, hr, rfl⟩ := Option.map_eq_some'.mp h
    obtain ⟨puncts, hl, h0, h1, rfl⟩ := ih v1 r hr
    obtain ⟨pu, hpu, hpc, rfl⟩ := chainFeatures_spec ta cfg s chain true [] visited p1 v1 hc
    rw [restFeature_chain]
    refine ⟨pu :: puncts, by simp [hl], ?_, ?_, by simp⟩
    · intro hL p hp
      rcases List.mem_cons.mp hp with rfl | hp
      · exact hpu hL
      · exact h0 hL p hp
    · intro p hp
      rcases List.mem_cons.mp hp with rfl | hp
      · exact hpc
      · exact h1 p hp

theorem chainFeatures_defined (ta : TokenAccess) (cfg : TokenFeatureConfig) (s : State)
    (l : List FeatureSpec) (first : Bool) (acc : List Char) (visited : List Nat)
    (hfit : acc.length + (s.chainPieces ta cfg l).flatten.length ≤ 4096) :
    ∃ r, State.chainFeatures ta cfg s l first (acc.take 4095) acc.length visited = some r := by
  induction l generalizing first acc with
  | nil => exact ⟨_, rfl⟩
  | cons fs rest ih =>
    unfold State.chainFeatures
    rcases ha : s.anchor fs.path.root with _ | tok0
    · exact ⟨_, rfl⟩
    dsimp only
    rcases hf : ta.follow s tok0 fs.path with _ | tok
    · dsimp only
      have hp : s.specPiece ta cfg fs = some none := by simp [State.specPiece, ha, hf]
      apply ih
      simpa [State.chainPieces, hp] using hfit
    dsimp only
    rcases hv : ta.predicted s tok fs.attrIndex with _ | value
    · exact ⟨_, rfl⟩
    dsimp only
    by_cases he : value = []
    · rw [if_pos he]; exact ⟨_, rfl⟩
    rw [if_neg he]
    have hp : s.specPiece ta cfg fs = some (some (featureText cfg.unambiguous fs.path
        (featId fs.attrIndex) value)) := by
      simp [State.specPiece, ha, hf, hv, he, featureText_eq]
    have hfit' : (acc ++ featureText cfg.unambiguous fs.path (featId fs.attrIndex) value).length +
        (s.chainPieces ta cfg rest).flatten.length ≤ 4096 := by
      simp [State.chainPieces, hp] at hfit ⊢
      omega
    obtain ⟨⟨text', pos'⟩, hw⟩ := writeText_defined acc
      (featureText cfg.unambiguous fs.path (featId fs.attrIndex) value) (by omega)
    rw [hw]
    dsimp only
    obtain ⟨e1, e2⟩ := writeText_spec _ _ _ _ hw
    cases rest with
    | nil =>
      dsimp only
      split <;> exact ⟨_, rfl⟩
    | cons r rs =>
      dsimp only
      rw [e1, e2]
      exact ih false _ hfit'

theorem tokenFeaturesLoop_defined (ta : TokenAccess) (cfg : TokenFeatureConfig) (s : State)
    (chains : List (List FeatureSpec)) (visited : List Nat)
    (hfit : ∀ chain ∈ chains, (s.chainPieces ta cfg chain).flatten.length ≤ 4096) :
    ∃ r, State.tokenFeaturesLoop ta cfg s chains visited = some r := by
  induction chains generalizing visited with
  | nil => exact ⟨_, rfl⟩
  | cons chain chains ih =>
    unfold State.tokenFeaturesLoop
    obtain ⟨⟨p1, v1⟩, hc⟩ := chainFeatures_defined ta cfg s chain true [] visited
      (by simpa using hfit chain (List.mem_cons_self _ _))
    have hc' : State.chainFeatures ta cfg s chain true [] 0 visited = some (p1, v1) := hc
    rw [hc']
    dsimp only
    obtain ⟨r, hr⟩ := ih v1 (fun c hc => hfit c (List.mem_cons_of_mem _ hc))
    rw [hr]
    exact ⟨_, rfl⟩

/-- C24 (amended): `tokenFeatures` pushes, chain after chain of
`config->features`, the templated token feature of the chain, if it has one,
followed by predicates of `childPunctFeature` only (none when
`LexChildNonWord` is off).  The feature of a chain, of one `FeatureSpec` or of
several, is made of the pieces of its `FeatureSpec`s that find a token, one
after the other, cut at the 4095 characters of the buffer, and every piece is
laid out by
`pieceLayout`: with `UnambiguousFeatures` on, `<path><n><letter><value>` for a
stack anchor (`root < 0`, `n = -root`) and `<path><letter><n><value>` for an
input anchor (`root >= 0`, `n = root`); with it off, `<n><letter><path><value>`
for a stack anchor and `<letter><n><path><value>` for an input anchor.  The
call is defined when the input is not empty and the pieces of each chain fit
the buffer. -/
theorem token_feature_layout (ta : TokenAccess) (cfg : TokenFeatureConfig) (s : State) :
    (s.input ≠ [] →
      (∀ chain ∈ cfg.features, (s.chainPieces ta cfg chain).flatten.length ≤ 4096) →
      ∃ preds, s.tokenFeatures ta cfg = some preds) ∧
    ∀ preds, s.tokenFeatures ta cfg = some preds →
      ∃ puncts : List Features, puncts.length = cfg.features.length ∧
        (cfg.LexChildNonWord = false → ∀ p ∈ puncts, p = []) ∧
        (∀ p ∈ puncts, p = [] ∨ ∃ tok root vis,
          p = (childPunctFeature ta cfg.unambiguous s tok root vis).1) ∧
        preds = ((cfg.features.zip puncts).map fun cp =>
          (s.chainFeature ta cfg cp.1).toList ++ cp.2).flatten := by
  constructor
  · intro hi hfit
    unfold State.tokenFeatures
    rw [if_neg hi]
    exact tokenFeaturesLoop_defined ta cfg s cfg.features [] hfit
  · intro preds h
    unfold State.tokenFeatures at h
    split at h
    · simp at h
    · exact tokenFeaturesLoop_spec ta cfg s cfg.features [] preds h

theorem token_feature_layout_witness :
    theDogBarksShifted.toState.tokenFeatures formAccess
      { features := [[{ attrIndex := 0, path := { root := -1 } },
          { attrIndex := 1, path := { root := 0, code := ['<'] } }],
        [{ attrIndex := 0, path := { root := 5 } }],
        [{ attrIndex := 0, path := { root := 0 } }]], LexChildNonWord := false } =
      some [['1', 'A', 't', 'h', 'e', '<', 'B', '0', 'd', 'o', 'g'], ['A', '0', 'd', 'o', 'g']] ∧
    theDogBarksShifted.toState.chainFeature formAccess
      { features := [], LexChildNonWord := false }
      [{ attrIndex := 0, path := { root := -1 } },
        { attrIndex := 1, path := { root := 0, code := ['<'] } }] =
      some (pieceLayout true [] (-1) 'A' ['t', 'h', 'e'] ++
        pieceLayout true ['<'] 0 'B' ['d', 'o', 'g']) ∧
    ∃ puncts : List Features, puncts.length = 3 ∧
      [['1', 'A', 't', 'h', 'e', '<', 'B', '0', 'd', 'o', 'g'], ['A', '0', 'd', 'o', 'g']] =
        (([[{ attrIndex := 0, path := { root := -1 } },
              { attrIndex := 1, path := { root := 0, code := ['<'] } }],
            [{ attrIndex := 0, path := { root := 5 } }],
            [{ attrIndex := 0, path := { root := 0 } }]].zip puncts).map fun cp =>
          (theDogBarksShifted.toState.chainFeature formAccess
            { features := [[{ attrIndex := 0, path := { root := -1 } },
                { attrIndex := 1, path := { root := 0, code := ['<'] } }],
              [{ attrIndex := 0, path := { root := 5 } }],
              [{ attrIndex := 0, path := { root := 0 } }]], LexChildNonWord := false }
            cp.1).toList ++ cp.2).flatten := by
  refine ⟨by decide, by decide, ?_⟩
  obtain ⟨puncts, h1, _, _, h3⟩ := (token_feature_layout formAccess
    { features := [[{ attrIndex := 0, path := { root := -1 } },
        { attrIndex := 1, path := { root := 0, code := ['<'] } }],
      [{ attrIndex := 0, path := { root := 5 } }],
      [{ attrIndex := 0, path := { root := 0 } }]], LexChildNonWord := false }
    theDogBarksShifted.toState).2
      [['1', 'A', 't', 'h', 'e', '<', 'B', '0', 'd', 'o', 'g'], ['A', '0', 'd', 'o', 'g']]
      (by decide)
  exact ⟨puncts, h1, h3⟩

/-- C24 (counterexample): with `UnambiguousFeatures` on, for the next token
(input anchor `root = 0`) with the form `dog`, attribute index 0 (letter `A`)
and an empty path code, the feature pushed is `A0dog`, letter first, not
`0Adog`; for the top of the stack (`root = -1`, form `the`) it is `1Athe`. -/
theorem token_feature_counterexample :
    theDogBarksShifted.toState.tokenFeatures formAccess
      { features := [[{ attrIndex := 0, path := { root := 0 } }]], LexChildNonWord := false } =
      some [['A', '0', 'd', 'o', 'g']] ∧
    theDogBarksShifted.toState.tokenFeatures formAccess
      { features := [[{ attrIndex := 0, path := { root := -1 } }]], LexChildNonWord := false } =
      some [['1', 'A', 't', 'h', 'e']] ∧
    printInt 0 ++ [featId 0] ++ ['d', 'o', 'g'] = ['0', 'A', 'd', 'o', 'g'] := by
  decide

/-! ## The actions returned by `nextAction` -/

theorem emits_of_some (cfg : FeatureConfig) (ts : TrainState) (m : Option Action)
    (ts1 ts' : TrainState) (he : ∀ act, m = some act → Emits cfg ts act)
    (e : ts1.toState = ts.toState) {a : Action}
    (h : m.map (fun act => (some act, ts1)) = some (some a, ts')) :
    ts'.toState = ts.toState ∧ Emits cfg ts a := by
  obtain ⟨act, hm, h⟩ := Option.map_eq_some'.mp h
  simp only [Prod.mk.injEq, Option.some.injEq] at h
  obtain ⟨rfl, rfl⟩ := h
  exact ⟨e, he _ hm⟩

theorem strchrRrLl_cons (c : Char) (rest : List Char) (h : strchrRrLl (some (c :: rest)) = true) :
    c = 'R' ∨ c = 'r' ∨ c = 'L' ∨ c = 'l' := by
  simpa [strchrRrLl] using h

/-- Every action returned by `nextAction` comes from one of its rules, and the
call leaves the `State` part of the receiver as it is. -/
theorem nextAction_emits (cfg : FeatureConfig) (ts ts' : TrainState) (a : Action)
    (h : ts.nextAction cfg = some (some a, ts')) :
    ts'.toState = ts.toState ∧ Emits cfg ts a := by
  unfold TrainState.nextAction at h
  by_cases hi0 : ts.input.length = 0
  · rw [if_pos hi0] at h
    have hi : ts.input = [] := List.length_eq_zero.mp hi0
    split at h
    · rename_i hl
      simp only [Option.some.injEq, Prod.mk.injEq] at h
      obtain ⟨rfl, rfl⟩ := h
      exact ⟨rfl, Emits.U hi hl⟩
    · simp at h
  rw [if_neg hi0] at h
  have hine : ts.input ≠ [] := fun e => hi0 (by rw [e]; rfl)
  by_cases hD : (!cfg.CompositeActions && strchrRrLl ts.action) = true
  · -- the label of the arc just made
    rw [if_pos hD] at h
    split at h
    · rename_i next rest c act hi ha
      have hRL : c = 'R' ∨ c = 'r' ∨ c = 'L' ∨ c = 'l' := by
        have h2 : strchrRrLl ts.action = true := by
          simp only [Bool.and_eq_true] at hD
          exact hD.2
        rw [ha] at h2
        exact strchrRrLl_cons c act h2
      split at h
      · rename_i hc
        obtain ⟨ch, hch, h⟩ := Option.bind_eq_some.mp h
        obtain ⟨d, hm, h⟩ := Option.map_eq_some'.mp h
        simp only [Prod.mk.injEq, Option.some.injEq] at h
        obtain ⟨rfl, rfl⟩ := h
        obtain ⟨_, rfl⟩ := (makeAction_D _ _ _).mp hm
        refine ⟨rfl, Emits.D _ ch hine ?_⟩
        unfold State.labelTarget
        rw [hi, ha]
        dsimp only
        rw [if_pos hc]
        exact hch
      · rename_i hc
        obtain ⟨ch, hch, h⟩ := Option.bind_eq_some.mp h
        obtain ⟨d, hm, h⟩ := Option.map_eq_some'.mp h
        simp only [Prod.mk.injEq, Option.some.injEq] at h
        obtain ⟨rfl, rfl⟩ := h
        obtain ⟨_, rfl⟩ := (makeAction_D _ _ _).mp hm
        refine ⟨rfl, Emits.D _ ch hine ?_⟩
        have hL : c = 'L' ∨ c = 'l' := by
          rcases hRL with h1 | h1 | h1 | h1
          · exact absurd (Or.inl h1) hc
          · exact absurd (Or.inr h1) hc
          · exact Or.inl h1
          · exact Or.inr h1
        unfold State.labelTarget
        rw [hi, ha]
        dsimp only
        rw [if_neg hc, if_pos hL]
        exact hch
    · simp at h
    · simp at h
  rw [if_neg hD] at h
  by_cases hs0 : ts.stack.length = 0
  · rw [if_pos hs0] at h
    simp only [Option.some.injEq, Prod.mk.injEq] at h
    obtain ⟨rfl, rfl⟩ := h
    exact ⟨rfl, Emits.S hine⟩
  rw [if_neg hs0] at h
  have hsne : ts.stack ≠ [] := fun e => hs0 (by rw [e]; rfl)
  rcases hi : ts.input with _ | ⟨x, inp⟩
  · exact absurd hi hine
  rcases hs : ts.stack with _ | ⟨top, st⟩
  · exact absurd hs hsne
  rw [hi, hs] at h
  dsimp only at h
  simp only [Option.bind_eq_bind] at h
  obtain ⟨onext, h1, h⟩ := Option.bind_eq_some.mp h
  by_cases hc4 : (decide (ts.extracted.length ≠ 0) &&
      onext.head == (ts.node (ts.extracted.headD 0)).id) = true
  · rw [if_pos hc4] at h
    simp only [Option.some.injEq, Prod.mk.injEq] at h
    obtain ⟨rfl, rfl⟩ := h
    refine ⟨rfl, Emits.I hine ?_⟩
    intro he
    simp [he] at hc4
  rw [if_neg hc4] at h
  obtain ⟨c5, h5, h⟩ := Option.bind_eq_some.mp h
  cases c5
  · simp only [Bool.false_eq_true, if_false] at h
    obtain ⟨c6, h6, h⟩ := Option.bind_eq_some.mp h
    cases c6
    · simp only [Bool.false_eq_true, if_false] at h
      obtain ⟨c7, h7, h⟩ := Option.bind_eq_some.mp h
      cases c7
      · simp only [Bool.false_eq_true, if_false] at h
        obtain ⟨c8, h8, h⟩ := Option.bind_eq_some.mp h
        cases c8
        · simp only [Bool.false_eq_true, if_false] at h
          obtain ⟨c9, h9, h⟩ := Option.bind_eq_some.mp h
          cases c9
          · simp only [Bool.false_eq_true, if_false] at h
            obtain ⟨c10, h10, h⟩ := Option.bind_eq_some.mp h
            cases c10
            · simp only [Bool.false_eq_true, if_false] at h
              obtain ⟨c11, h11, h⟩ := Option.bind_eq_some.mp h
              cases c11
              · simp only [Bool.false_eq_true, if_false] at h
                obtain ⟨c12, h12, h⟩ := Option.bind_eq_some.mp h
                cases c12
                · simp only [Bool.false_eq_true, if_false] at h
                  obtain ⟨c13, h13, h⟩ := Option.bind_eq_some.mp h
                  cases c13
                  · simp only [Bool.false_eq_true, if_false] at h
                    obtain ⟨c14, h14, h⟩ := Option.bind_eq_some.mp h
                    cases c14
                    · simp only [Bool.false_eq_true, if_false, Option.some.injEq,
                        Prod.mk.injEq] at h
                      obtain ⟨rfl, rfl⟩ := h
                      exact ⟨rfl, Emits.S hine⟩
                    · have hl := stackToNextLink_true _ _ _ (andThen_true _ _ h14).1
                      simp only [if_true] at h
                      split at h
                      all_goals
                        obtain ⟨y, hy, h⟩ := Option.bind_eq_some.mp h
                        have e1 : y.toState = ts.toState := by
                          first
                            | exact (decrement_some _ _ _ hy).1
                            | (simp only [Option.some.injEq] at hy; rw [← hy])
                        exact emits_of_some cfg ts _ y ts'
                          (fun act hm => Emits.l 4 '4' _ act (by simp) hine hl hm) e1 h
                  · have hl := stackToNextLink_true _ _ _ (andThen_true _ _ h13).1
                    simp only [if_true] at h
                    split at h
                    all_goals
                      obtain ⟨y, hy, h⟩ := Option.bind_eq_some.mp h
                      have e1 : y.toState = ts.toState := by
                        first
                          | exact (decrement_some _ _ _ hy).1
                          | (simp only [Option.some.injEq] at hy; rw [← hy])
                      exact emits_of_some cfg ts _ y ts'
                          (fun act hm => Emits.l 3 '3' _ act (by simp) hine hl hm) e1 h
                · have hl := stackToNextLink_true _ _ _ (andThen_true _ _ h12).1
                  simp only [if_true] at h
                  split at h
                  all_goals
                    obtain ⟨y, hy, h⟩ := Option.bind_eq_some.mp h
                    have e1 : y.toState = ts.toState := by
                      first
                        | exact (decrement_some _ _ _ hy).1
                        | (simp only [Option.some.injEq] at hy; rw [← hy])
                    exact emits_of_some cfg ts _ y ts'
                          (fun act hm => Emits.l 2 '2' _ act (by simp) hine hl hm) e1 h
              · simp only [if_true, Option.some.injEq, Prod.mk.injEq] at h
                obtain ⟨rfl, rfl⟩ := h
                exact ⟨rfl, Emits.S hine⟩
            · obtain ⟨l4, hl4, hr4⟩ := Option.bind_eq_some.mp h10
              have e := (andThen_true _ _ hr4).1
              subst e
              have hl := nextToStackLink_true _ _ _ (andThen_true _ _ hl4).2
              simp only [if_true] at h
              obtain ⟨y, hy, h⟩ := Option.bind_eq_some.mp h
              obtain ⟨e1, _⟩ := decrement_some _ _ _ hy
              obtain ⟨o, ho, h⟩ := Option.bind_eq_some.mp h
              exact emits_of_some cfg ts _ y ts'
                          (fun act hm => Emits.r 4 '4' _ act (by simp) hine hl hm) e1 h
          · obtain ⟨l3, hl3, hr3⟩ := Option.bind_eq_some.mp h9
            have e := (andThen_true _ _ hr3).1
            subst e
            have hl := nextToStackLink_true _ _ _ hl3
            simp only [if_true] at h
            obtain ⟨y, hy, h⟩ := Option.bind_eq_some.mp h
            obtain ⟨e1, _⟩ := decrement_some _ _ _ hy
            obtain ⟨o, ho, h⟩ := Option.bind_eq_some.mp h
            exact emits_of_some cfg ts _ y ts'
                          (fun act hm => Emits.r 3 '3' _ act (by simp) hine hl hm) e1 h
        · obtain ⟨l2, hl2, hr2⟩ := Option.bind_eq_some.mp h8
          have e := (andThen_true _ _ hr2).1
          subst e
          have hl := nextToStackLink_true _ _ _ hl2
          simp only [if_true] at h
          obtain ⟨y, hy, h⟩ := Option.bind_eq_some.mp h
          obtain ⟨e1, _⟩ := decrement_some _ _ _ hy
          obtain ⟨o, ho, h⟩ := Option.bind_eq_some.mp h
          exact emits_of_some cfg ts _ y ts'
                          (fun act hm => Emits.r 2 '2' _ act (by simp) hine hl hm) e1 h
      · simp only [if_true] at h
        split at h
        all_goals
          obtain ⟨y, hy, h⟩ := Option.bind_eq_some.mp h
          have e1 : y.toState = ts.toState := by
            first
              | exact (decrement_some _ _ _ hy).1
              | (simp only [Option.some.injEq] at hy; rw [← hy])
          exact emits_of_some cfg ts _ y ts' (fun act hm => Emits.L _ act hine hsne hm) e1 h
    · have h0 := (andThen_true _ _ h6).1
      simp only [if_true, Option.some.injEq, Prod.mk.injEq] at h
      obtain ⟨rfl, rfl⟩ := h
      simp only [Bool.and_eq_true, decide_eq_true_eq] at h0
      refine ⟨rfl, Emits.P hine h0.1 ?_⟩
      rw [hs]; exact h0.2
  · simp only [if_true] at h
    obtain ⟨r, hr, h⟩ := Option.bind_eq_some.mp h
    cases r
    · simp only [Bool.not_false, if_true, Option.some.injEq, Prod.mk.injEq] at h
      obtain ⟨rfl, rfl⟩ := h
      exact ⟨rfl, Emits.S hine⟩
    · simp only [Bool.not_true, Bool.false_eq_true, if_false] at h
      obtain ⟨y, hy, h⟩ := Option.bind_eq_some.mp h
      obtain ⟨e1, _⟩ := decrement_some _ _ _ hy
      obtain ⟨o, ho, h⟩ := Option.bind_eq_some.mp h
      exact emits_of_some cfg ts _ y ts' (fun act hm => Emits.R _ act hine hsne hm) e1 h

theorem isNull_false_of_ne (r : Result) (h : ∀ s', r ≠ .null s') : r.isNull = false := by
  cases r with
  | this s => rfl
  | null s => exact absurd rfl (h s)
  | undefined => rfl

theorem Right_not_null (cfg : FeatureConfig) (s : State) (a : Action)
    (h : s.stack.length ≠ 1) : (s.Right cfg State.copy a).isNull = false := by
  unfold State.Right
  rw [if_neg h]
  split
  · rfl
  · simp only [State.copy]
    split <;> rfl

theorem right_not_null (cfg : FeatureConfig) (s : State) (a : Action)
    (h : actionDepth a < s.stack.length) : (s.right cfg State.copy a).isNull = false := by
  unfold State.right
  simp only [State.copy]
  rw [if_neg (by omega)]
  split
  · rfl
  · split
    · rfl
    · split
      · split <;> rfl
      · rfl

theorem left_not_null (cfg : FeatureConfig) (s : State) (a : Action)
    (h : actionDepth a ≤ s.stack.length) : (s.left cfg State.copy a).isNull = false := by
  apply isNull_false_of_ne
  intro s' e
  unfold State.left at e
  simp only [State.copy] at e
  rw [if_neg (by omega)] at e
  split at e
  · simp at e
  · split at e
    · simp at e
    · split at e
      · simp at e
      · split at e
        · simp at e
        · split at e
          · simp at e
          · split at e <;> simp at e

theorem makeAction_one (c : Bool) (x : Char) (l : List Char) (act : Action)
    (h : MakeAction c [x] l = some act) : ∃ rest, act = x :: rest := by
  unfold MakeAction at h
  split at h
  · split at h
    · exact ⟨l, (Option.some.inj h).symm⟩
    · simp at h
  · exact ⟨[], (Option.some.inj h).symm⟩

theorem makeAction_two (c : Bool) (x d : Char) (l : List Char) (act : Action)
    (h : MakeAction c [x, d] l = some act) : ∃ rest, act = x :: d :: rest := by
  unfold MakeAction at h
  split at h
  · split at h
    · exact ⟨l, (Option.some.inj h).symm⟩
    · simp at h
  · exact ⟨[], (Option.some.inj h).symm⟩

theorem actionDepth_of_digit (x digit : Char) (rest : List Char) (n : Nat)
    (h : n = 2 ∧ digit = '2' ∨ n = 3 ∧ digit = '3' ∨ n = 4 ∧ digit = '4') :
    actionDepth (x :: digit :: rest) = n := by
  rcases h with ⟨rfl, rfl⟩ | ⟨rfl, rfl⟩ | ⟨rfl, rfl⟩ <;> rfl

/-- What each rule of `nextAction` has tested is what `transition` needs. -/
theorem emits_applicable (cfg : FeatureConfig) (ts : TrainState) (a : Action)
    (he : Emits cfg ts a) :
    (ts.toState.transition cfg State.copy a).isNull = false ∧
    (a.head? = some 'r' ∨ a.head? = some 'l' →
      2 ≤ actionDepth a ∧ actionDepth a ≤ 4 ∧ actionDepth a < ts.stack.length) ∧
    (a.head? = some 'U' → 1 < ts.stack.length) ∧
    (a.head? = some 'I' → ts.extracted ≠ []) ∧
    (a.head? = some 'P' → 1 < ts.stack.length) := by
  cases he with
  | U hi hl =>
    refine ⟨?_, by simp, fun _ => hl, by simp, by simp⟩
    rw [transition_U]
    cases hn : ts.toState.Unshift.isNull with
    | false => rfl
    | true =>
      have := (Unshift_cases ts.toState).1.mp hn
      omega
  | D l ch hi ht =>
    refine ⟨?_, by simp, by simp, by simp, by simp⟩
    rw [transition_D]
    exact isNull_false_of_ne _ (fun s' => DepLink_ne_null _ s' _)
  | S hi =>
    refine ⟨?_, by simp, by simp, by simp, by simp⟩
    rw [transition_S]
    split
    · rfl
    · exact isNull_false_of_ne _ (fun s' => Shift_ne_null _ s')
  | I hi he =>
    refine ⟨?_, by simp, by simp, fun _ => he, by simp⟩
    rw [transition_I]
    cases hn : ts.toState.Insert.isNull with
    | false => rfl
    | true => exact absurd ((Insert_cases ts.toState).1.mp hn) he
  | R l _ hi hs hm =>
    obtain ⟨rest, e⟩ := makeAction_one cfg.CompositeActions 'R' l a hm
    subst e
    refine ⟨?_, by simp, by simp, by simp, by simp⟩
    rw [transition_R]
    split
    · exact isNull_false_of_ne _ (fun s' => Shift_ne_null _ s')
    · rename_i h1
      exact Right_not_null cfg _ _ h1
  | P hi hE hl =>
    refine ⟨?_, by simp, by simp, by simp, fun _ => hl⟩
    rw [transition_P]
    cases hn : ts.toState.Pop.isNull with
    | false => rfl
    | true =>
      have := (Pop_cases ts.toState).1.mp hn
      omega
  | L l _ hi hs hm =>
    obtain ⟨rest, e⟩ := makeAction_one cfg.CompositeActions 'L' l a hm
    subst e
    refine ⟨?_, by simp, by simp, by simp, by simp⟩
    rw [transition_L]
    exact isNull_false_of_ne _ (fun s' => Left_ne_null cfg _ _ s' _)
  | r n digit l _ hd hi hl hm =>
    obtain ⟨rest, e⟩ := makeAction_two cfg.CompositeActions 'r' digit l a hm
    have hn := actionDepth_of_digit 'r' digit rest n hd
    subst e
    refine ⟨?_, fun _ => ?_, by simp, by simp, by simp⟩
    · rw [transition_r]
      exact right_not_null cfg _ _ (by rw [hn]; exact hl)
    · rw [hn]
      exact ⟨by omega, by omega, hl⟩
  | l n digit l _ hd hi hl hm =>
    obtain ⟨rest, e⟩ := makeAction_two cfg.CompositeActions 'l' digit l a hm
    have hn := actionDepth_of_digit 'l' digit rest n hd
    subst e
    refine ⟨?_, fun _ => ?_, by simp, by simp, by simp⟩
    · rw [transition_l]
      exact left_not_null cfg _ _ (by rw [hn]; exact hl.le)
    · rw [hn]
      exact ⟨by omega, by omega, hl⟩

theorem isThis_of_defined (r : Result) (h1 : r.defined = true) (h2 : r.isNull = false) :
    r.isThis = true := by
  cases r with
  | this s => rfl
  | null s => simp at h2
  | undefined => simp [Result.defined] at h1

theorem Shift_defined (s : State) (hi : s.input ≠ []) : s.Shift.defined = true := by
  unfold State.Shift
  split
  · rename_i h; exact absurd h hi
  · rfl

/-- With the child to label in place, no predecessor, and a stack that is not
empty when the recorded action is `r<n>`, `DepLink` returns the state. -/
theorem DepLink_isThis (s : State) (l : List Char) (ch : Nat)
    (ht : s.labelTarget = some ch) (hp : s.previous = none)
    (hr : firstChar s.action = some (some 'r') → s.stack ≠ []) :
    (s.DepLink ('D' :: l)).isThis = true := by
  obtain ⟨y, i, c, rest, hi, ha, hc⟩ := labelTarget_some s ch ht
  rcases hc with ⟨hc | hc, hl⟩ | ⟨hn, hc | hc, hl⟩ <;> subst hc
  · rw [DepLink_spec_R s l rest y ch i hi hp ha hl]; rfl
  · rcases hs : s.stack with _ | ⟨b, st⟩
    · exact absurd hs (hr (by rw [ha]; rfl))
    · rw [DepLink_spec_r s l rest y ch b i st hi hs hp ha hl]; rfl
  · rw [DepLink_spec_L s l rest y ch i hi hp ha hl]; rfl
  · rw [DepLink_spec_l s l rest y ch i hi hp ha hl]; rfl

/-- What each rule of `nextAction` has tested makes `transition` return the
state; for `D`, when the state has no predecessor and its stack is not empty
if the recorded action is `r<n>`. -/
theorem emits_this (cfg : FeatureConfig) (ts : TrainState) (a : Action)
    (he : Emits cfg ts a)
    (hD : a.head? = some 'D' → ts.previous = none ∧
      (firstChar ts.action = some (some 'r') → ts.stack ≠ [])) :
    (ts.toState.transition cfg State.copy a).isThis = true := by
  have hn := (emits_applicable cfg ts a he).1
  cases he with
  | U hi hl =>
    refine isThis_of_defined _ ?_ hn
    rw [transition_U]; exact Unshift_defined _
  | D l ch hi ht =>
    obtain ⟨hp, hr⟩ := hD rfl
    rw [transition_D]
    exact DepLink_isThis ts.toState l ch ht hp hr
  | S hi =>
    refine isThis_of_defined _ ?_ hn
    rw [transition_S]
    split
    · rfl
    · exact Shift_defined _ hi
  | I hi he =>
    refine isThis_of_defined _ ?_ hn
    rw [transition_I]; exact Insert_defined _
  | R l _ hi hs hm =>
    refine isThis_of_defined _ ?_ hn
    obtain ⟨rest, e⟩ := makeAction_one cfg.CompositeActions 'R' l a hm
    subst e
    rw [transition_R]
    split
    · exact Shift_defined _ hi
    · exact Right_defined cfg _ _ hs hi
  | P hi hE hl =>
    refine isThis_of_defined _ ?_ hn
    rw [transition_P]; exact Pop_defined _
  | L l _ hi hs hm =>
    refine isThis_of_defined _ ?_ hn
    obtain ⟨rest, e⟩ := makeAction_one cfg.CompositeActions 'L' l a hm
    subst e
    rw [transition_L]
    exact Left_defined cfg _ _ hs hi
  | r n digit l _ hd hi hl hm =>
    refine isThis_of_defined _ ?_ hn
    obtain ⟨rest, e⟩ := makeAction_two cfg.CompositeActions 'r' digit l a hm
    have hn := actionDepth_of_digit 'r' digit rest n hd
    subst e
    rw [transition_r]
    have h1 : 1 ≤ actionDepth ('r' :: digit :: rest) := by
      rcases hd with h | h | h <;> omega
    exact rightN_defined cfg _ _ h1 hi
  | l n digit l _ hd hi hl hm =>
    refine isThis_of_defined _ ?_ hn
    obtain ⟨rest, e⟩ := makeAction_two cfg.CompositeActions 'l' digit l a hm
    have hn := actionDepth_of_digit 'l' digit rest n hd
    subst e
    rw [transition_l]
    have h2 : 2 ≤ actionDepth ('l' :: digit :: rest) := by
      rcases hd with h | h | h <;> omega
    exact leftN_defined cfg _ _ h2 hi

theorem Shift_previous (s s' : State) (h : s.Shift = .this s') : s'.previous = s.previous := by
  unfold State.Shift at h
  split at h
  · simp at h
  · simp at h; subst h; rfl

theorem Unshift_previous (s s' : State) (h : s.Unshift = .this s') :
    s'.previous = s.previous := by
  unfold State.Unshift at h
  split at h
  · simp at h
  · split at h
    · simp at h
    · simp at h; subst h; rfl

theorem Insert_previous (s s' : State) (h : s.Insert = .this s') : s'.previous = s.previous := by
  unfold State.Insert at h
  split at h
  · simp at h
  · simp at h; subst h; rfl

theorem Pop_previous (s s' : State) (h : s.Pop = .this s') : s'.previous = s.previous := by
  unfold State.Pop at h
  split at h
  · simp at h
  · simp at h; subst h; rfl

theorem DepLink_previous (s s' : State) (a : Action) (h : s.DepLink a = .this s') :
    s'.previous = s.previous ∧ (s' = s ∨ s'.action = some a) := by
  rcases DepLink_cases s s' a h with ⟨_, rfl⟩ | ⟨x, i, ch, _, _, _, h1⟩ | ⟨x, i, ch, _, _, _, h1⟩
  · exact ⟨rfl, Or.inl rfl⟩
  · rcases h1 with ⟨_, b, st, _, rfl⟩ | ⟨_, rfl⟩ <;> exact ⟨rfl, Or.inr rfl⟩
  · rcases h1 with ⟨_, rfl⟩ | ⟨_, rfl⟩ <;> exact ⟨rfl, Or.inr rfl⟩

theorem labelReady_of_action (s s' : State) (c : Char) (rest : List Char) (hc : c ≠ 'r')
    (hp : s'.previous = s.previous) (ha : s'.action = some (c :: rest)) (hr : s.labelReady) :
    s'.labelReady := by
  refine ⟨hp.trans hr.1, fun h => ?_⟩
  rw [ha] at h
  simp [firstChar] at h
  exact absurd h hc

/-- The actions of the oracle keep a state ready for `D`. -/
theorem labelReady_emitted (cfg : FeatureConfig) (ts : TrainState) (a : Action) (s1 : State)
    (he : Emits cfg ts a) (hr : ts.labelReady)
    (ht : ts.toState.transition cfg State.copy a = .this s1) : s1.labelReady := by
  cases he with
  | U hi hl =>
    rw [transition_U] at ht
    exact labelReady_of_action _ _ 'U' [] (by decide) (Unshift_previous _ _ ht)
      (Unshift_this _ _ ht) hr
  | D l ch hi hlt =>
    rw [transition_D] at ht
    obtain ⟨hp, h1 | h1⟩ := DepLink_previous _ _ _ ht
    · rw [h1]; exact hr
    · exact labelReady_of_action _ _ 'D' l (by decide) hp h1 hr
  | S hi =>
    rw [transition_S] at ht
    split at ht
    · cases ht; exact hr
    · exact labelReady_of_action _ _ 'S' [] (by decide) (Shift_previous _ _ ht)
        (Shift_this _ _ ht) hr
  | I hi he =>
    rw [transition_I] at ht
    exact labelReady_of_action _ _ 'I' [] (by decide) (Insert_previous _ _ ht)
      (Insert_this _ _ ht) hr
  | R l _ hi hs hm =>
    obtain ⟨rest, e⟩ := makeAction_one cfg.CompositeActions 'R' l a hm
    subst e
    rw [transition_R] at ht
    split at ht
    · exact labelReady_of_action _ _ 'S' [] (by decide) (Shift_previous _ _ ht)
        (Shift_this _ _ ht) hr
    · rename_i h1
      rcases hi' : ts.input with _ | ⟨x, i⟩
      · exact absurd hi' hi
      rcases hs' : ts.stack with _ | ⟨t, _ | ⟨b, st⟩⟩
      · exact absurd hs' hs
      · rw [hs'] at h1; simp at h1
      · obtain ⟨s', e, _, _, _, _, _, hact, _, hprev, _⟩ :=
          Right_spec cfg ts.toState ('R' :: rest) t x (b :: st) i hs' (by simp) hi'
        rw [e] at ht
        cases ht
        exact labelReady_of_action _ _ 'R' rest (by decide) hprev hact hr
  | P hi hE hl =>
    rw [transition_P] at ht
    exact labelReady_of_action _ _ 'P' [] (by decide) (Pop_previous _ _ ht)
      (Pop_this _ _ ht) hr
  | L l _ hi hs hm =>
    obtain ⟨rest, e⟩ := makeAction_one cfg.CompositeActions 'L' l a hm
    subst e
    rw [transition_L] at ht
    rcases hi' : ts.input with _ | ⟨x, i⟩
    · exact absurd hi' hi
    rcases hs' : ts.stack with _ | ⟨t, st⟩
    · exact absurd hs' hs
    obtain ⟨s', e, _, _, _, _, _, hact, _, hprev, _⟩ :=
      Left_spec cfg ts.toState ('L' :: rest) t x st i hs' hi'
    rw [e] at ht
    cases ht
    exact labelReady_of_action _ _ 'L' rest (by decide) hprev hact hr
  | r n digit l _ hd hi hl hm =>
    obtain ⟨rest, e⟩ := makeAction_two cfg.CompositeActions 'r' digit l a hm
    have hn := actionDepth_of_digit 'r' digit rest n hd
    subst e
    rw [transition_r] at ht
    rcases hi' : ts.input with _ | ⟨x, i⟩
    · exact absurd hi' hi
    have h2 : 2 ≤ n := by rcases hd with h | h | h <;> omega
    obtain ⟨s', e, _, _, hst, _, _, hact, _, hprev, _⟩ :=
      rightN_spec cfg ts.toState ('r' :: digit :: rest) x i hi' (by rw [hn]; omega)
        (by rw [hn]; exact hl)
    rw [e] at ht
    cases ht
    refine ⟨hprev.trans hr.1, fun _ => ?_⟩
    rw [hst, hn]
    intro h0
    have hlen := congrArg List.length h0
    have hl' : n < ts.toState.stack.length := hl
    split at hlen
    · rw [List.length_tail, List.length_eraseIdx] at hlen
      split at hlen <;> simp at hlen <;> omega
    · rw [List.length_eraseIdx] at hlen
      split at hlen <;> simp at hlen <;> omega
  | l n digit l _ hd hi hl hm =>
    obtain ⟨rest, e⟩ := makeAction_two cfg.CompositeActions 'l' digit l a hm
    have hn := actionDepth_of_digit 'l' digit rest n hd
    subst e
    rw [transition_l] at ht
    rcases hi' : ts.input with _ | ⟨x, i⟩
    · exact absurd hi' hi
    have h2 : 2 ≤ n := by rcases hd with h | h | h <;> omega
    obtain ⟨s', e, _, _, _, _, _, hact, _, hprev, _⟩ :=
      leftN_spec cfg ts.toState ('l' :: digit :: rest) x i hi' (by rw [hn]; exact h2)
        (by rw [hn]; exact hl.le)
    rw [e] at ht
    cases ht
    exact labelReady_of_action _ _ 'l' (digit :: rest) (by decide) hprev hact hr

theorem labelReady_step (cfg : FeatureConfig) (ts ts1 : TrainState) (a : Action)
    (h : ts.step cfg = some (some (a, ts1))) (hr : ts.labelReady) : ts1.labelReady := by
  obtain ⟨ts', s1, hna, htr, e⟩ := step_some cfg ts ts1 a h
  subst e
  obtain ⟨e, he⟩ := nextAction_emits cfg ts ts' a hna
  rw [e] at htr
  rcases htr with htr | htr
  · exact labelReady_emitted cfg ts a s1 he hr htr
  · have := (emits_applicable cfg ts a he).1
    rw [htr] at this
    simp at this

theorem labelReady_rounds (cfg : FeatureConfig) (k : Nat) (ts0 ts : TrainState)
    (hr0 : ts0.labelReady) (h : ts0.after cfg k = some ts) : ts.labelReady := by
  induction k generalizing ts0 with
  | zero =>
    simp only [TrainState.after, Option.some.injEq] at h
    subst h
    exact hr0
  | succ k ih =>
    unfold TrainState.after at h
    split at h
    · rename_i a ts1 hst
      exact ih ts1 (labelReady_step cfg ts0 ts1 a hst hr0) h
    · simp at h

/-- Every state of a training run is ready for `D`. -/
theorem labelReady_after (cfg : FeatureConfig) (sent : Sentence) (k : Nat) (ts : TrainState)
    (h : (TrainState.init sent).bind (TrainState.after cfg k) = some ts) : ts.labelReady := by
  obtain ⟨ts0, h0, h⟩ := Option.bind_eq_some.mp h
  have hr0 : ts0.labelReady := by
    unfold State.labelReady
    rw [(init_toState sent ts0 h0).1]
    exact ⟨rfl, fun h => by simp [State.init, firstChar] at h⟩
  exact labelReady_rounds cfg k ts0 ts hr0 h

/-- C23 (the code at the failing input): on the sentence with gold heads
`1->3`, `2->0`, `3->0`, after the first `S` the stack is root, 1 and the next
token is 2: it is resolved, its gold head is the id of `stack[-2]`, the
synthetic root, `stack.size()` is 2, and neither the `R` rule nor the `L` rule
applies to the top.  `StackToNextLink(2)` is false, because it asks for
`stack.size() > 2`, and `nextAction` returns `S`, not `l2`.  In general an
`l<n>` is returned only when `stack.size() > n`. -/
theorem left_to_root_not_emitted :
    (TrainState.init rootOverOne).bind (TrainState.after {} 1) = some rootOverOneShifted ∧
    rootOverOneShifted.stack = [1, 0] ∧ rootOverOneShifted.input = [2, 3] ∧
    rootOverOneShifted.extracted = [] ∧
    goldHead rootOverOne 2 = 0 ∧ (rootOverOneShifted.node 0).id = 0 ∧
    rootOverOneShifted.Resolved 2 = some true ∧
    goldHead rootOverOne 1 ≠ 2 ∧ goldHead rootOverOne 2 ≠ 1 ∧
    rootOverOneShifted.StackToNextLink 2 (goldHead rootOverOne 2) = false ∧
    rootOverOneShifted.nextAction {} = some (some ['S'], rootOverOneShifted) ∧
    (∀ (cfg : FeatureConfig) (ts ts' : TrainState) (a : Action),
      ts.nextAction cfg = some (some a, ts') → a.head? = some 'l' →
        actionDepth a < ts.stack.length) := by
  refine ⟨by decide, rfl, rfl, rfl, by decide, by decide, by decide, by decide, by decide,
    by decide, by decide, ?_⟩
  intro cfg ts ts' a h hl
  obtain ⟨_, he⟩ := nextAction_emits cfg ts ts' a h
  exact ((emits_applicable cfg ts a he).2.1 (Or.inr hl)).2.2

/-! ## A reduction followed by `D` against the composite action -/

theorem agree_of_node (s1 s2 : State) (hs : s1.stack = s2.stack) (hi : s1.input = s2.input)
    (hn : ∀ q, s1.node q = s2.node q) : s1.agree s2 :=
  ⟨hs, hi, fun q => by rw [hn q]; exact ⟨rfl, rfl, rfl, rfl⟩⟩

theorem transitions_two (cfg : FeatureConfig) (s s1 s2 : State) (a b : Action)
    (h1 : s.transition cfg State.copy a = .this s1)
    (h2 : s1.transition cfg State.copy b = .this s2) :
    State.transitions cfg s [a, b] = some s2 := by
  simp [State.transitions, h1, h2]

theorem transitions_one (cfg : FeatureConfig) (s s1 : State) (a : Action)
    (h1 : s.transition cfg State.copy a = .this s1) :
    State.transitions cfg s [a] = some s1 := by
  simp [State.transitions, h1]

/-- `R` then `D<label>` against `R<label>`. -/
theorem agree_R (c1 c2 : FeatureConfig) (h1 : c1.CompositeActions = false)
    (h2 : c2.CompositeActions = true) (s : State) (label : List Char) (t x : Nat)
    (st i : List Nat) (hp : s.previous = none) (hs : s.stack = t :: st) (hst : st ≠ [])
    (hi : s.input = x :: i) (hx : x < s.nodes.length) :
    ∃ s2 s3, State.transitions c1 s [['R'], 'D' :: label] = some s2 ∧
      State.transitions c2 s ['R' :: label] = some s3 ∧ s2.agree s3 := by
  obtain ⟨s1, e1, n1, l1, k1, i1, _, a1, _, p1, _⟩ := Right_spec c1 s ['R'] t x st i hs hst hi
  obtain ⟨s3, e3, n3, l3, k3, i3, _⟩ := Right_spec c2 s ('R' :: label) t x st i hs hst hi
  simp only [h1, Bool.false_eq_true, if_false] at n1
  simp only [h2, if_true, List.drop_succ_cons, List.drop_zero] at n3
  have hlen : s.stack.length ≠ 1 := by
    rw [hs]
    cases st with
    | nil => exact absurd rfl hst
    | cons b r => simp
  have hc : (s1.node x).left.getLast? = some t := by
    rw [n1]
    simp [left_pushLeft, hx]
  have e2 := DepLink_spec_R s1 label [] x t i i1 (p1.trans hp) a1 hc
  refine ⟨_, s3, transitions_two c1 s s1 _ _ _ (by rw [transition_R, if_neg hlen]; exact e1)
    (by rw [transition_D]; exact e2),
    transitions_one c2 s s3 _ (by rw [transition_R, if_neg hlen]; exact e3), ?_⟩
  refine agree_of_node _ _ (by simp [k1, k3]) (by simp [i1, i3]) ?_
  intro q
  rw [n3]
  simp only [node_mk_nodes]
  have hl : s1.nodes.length =
      ((s.pushLeft x t).linkHead t ((s.pushLeft x t).node x).id).nodes.length := by
    rw [l1]; simp [State.linkHead, State.pushLeft, State.setNode]
  exact node_linkLabel_congr _ _ t label n1 hl q

/-- `L` then `D<label>` against `L<label>`, `ArcEager` off. -/
theorem agree_L (c1 c2 : FeatureConfig) (h1 : c1.CompositeActions = false)
    (h2 : c2.CompositeActions = true) (hE1 : c1.arcEager = false) (hE2 : c2.arcEager = false)
    (s : State) (label : List Char) (t x : Nat)
    (st i : List Nat) (hp : s.previous = none) (hs : s.stack = t :: st)
    (hi : s.input = x :: i) (ht : t < s.nodes.length) :
    ∃ s2 s3, State.transitions c1 s [['L'], 'D' :: label] = some s2 ∧
      State.transitions c2 s ['L' :: label] = some s3 ∧ s2.agree s3 := by
  obtain ⟨s1, e1, n1, l1, k1, i1, _, a1, _, p1, _⟩ := Left_spec c1 s ['L'] t x st i hs hi
  obtain ⟨s3, e3, n3, l3, k3, i3, _⟩ := Left_spec c2 s ('L' :: label) t x st i hs hi
  simp only [h1, hE1, Bool.false_eq_true, if_false] at n1 k1 i1
  simp only [h2, hE2, if_true, Bool.false_eq_true, if_false, List.drop_succ_cons,
    List.drop_zero] at n3 k3 i3
  have hc : (s1.node t).right.getLast? = some x := by
    rw [n1]
    simp [right_pushRight, ht]
  have e2 := DepLink_spec_L s1 label [] t x i i1 (p1.trans hp) a1 hc
  have hl : s1.nodes.length =
      ((s.pushRight t x).linkHead x ((s.pushRight t x).node t).id).nodes.length := by
    rw [l1]; simp [State.linkHead, State.pushRight, State.setNode]
  refine ⟨_, s3, transitions_two c1 s s1 _ _ _ (by rw [transition_L]; exact e1)
    (by rw [transition_D]; exact e2),
    transitions_one c2 s s3 _ (by rw [transition_L]; exact e3), ?_⟩
  have hn : ∀ q, (s1.linkLabel x label).node q = s3.node q := by
    intro q
    rw [n3]
    exact node_linkLabel_congr _ _ x label n1 hl q
  cases st with
  | nil =>
    have he : s1.stack.isEmpty = true := by rw [k1]; rfl
    rw [if_pos he]
    exact agree_of_node _ _ (by simp [k3]) (by simp [i3]) (fun q => hn q)
  | cons b r =>
    have he : ¬ s1.stack.isEmpty = true := by rw [k1]; simp
    rw [if_neg he]
    exact agree_of_node _ _ (by simp [k1, k3]) (by simp [i1, i3]) (fun q => hn q)

/-- `r<n>` then `D<label>` against `r<n><label>`. -/
theorem agree_rN (c1 c2 : FeatureConfig) (h1 : c1.CompositeActions = false)
    (h2 : c2.CompositeActions = true) (s : State) (d : Char) (label : List Char) (x : Nat)
    (i : List Nat) (hd : d = '2' ∨ d = '3' ∨ d = '4') (hp : s.previous = none)
    (hl : actionDepth ['r', d] < s.stack.length) (hi : s.input = x :: i)
    (hx : x < s.nodes.length) :
    ∃ s2 s3, State.transitions c1 s [['r', d], 'D' :: label] = some s2 ∧
      State.transitions c2 s ['r' :: d :: label] = some s3 ∧ s2.agree s3 := by
  have hda : actionDepth ('r' :: d :: label) = actionDepth ['r', d] := rfl
  have hn2 : 2 ≤ actionDepth ['r', d] := by
    rcases hd with rfl | rfl | rfl <;> decide
  obtain ⟨s1, e1, n1, l1, k1, i1, _, a1, _, p1, _⟩ :=
    rightN_spec c1 s ['r', d] x i hi (by omega) hl
  obtain ⟨s3, e3, n3, l3, k3, i3, _⟩ :=
    rightN_spec c2 s ('r' :: d :: label) x i hi (by rw [hda]; omega) (by rw [hda]; exact hl)
  rw [hda] at n3 k3 i3
  simp only [h1, Bool.false_eq_true, if_false] at n1 k1 i1
  simp only [h2, if_true, List.drop_succ_cons, List.drop_zero] at n3 k3 i3
  generalize s.stack.getD (actionDepth ['r', d] - 1) 0 = nth at n1 n3
  have hc : (s1.node x).left.getLast? = some nth := by
    rw [n1]
    simp [left_pushLeft, hx]
  have hne : (s.stack.eraseIdx (actionDepth ['r', d] - 1)).length = s.stack.length - 1 := by
    rw [List.length_eraseIdx, if_pos (by omega)]
  rcases her : s.stack.eraseIdx (actionDepth ['r', d] - 1) with _ | ⟨b, r⟩
  · rw [her] at hne
    simp at hne
    omega
  rw [her] at k1 k3 i3
  have e2 := DepLink_spec_r s1 label [d] x nth b i r i1 k1 (p1.trans hp) a1 hc
  have hlen : s1.nodes.length =
      ((s.pushLeft x nth).linkHead nth ((s.pushLeft x nth).node x).id).nodes.length := by
    rw [l1]; simp [State.linkHead, State.pushLeft, State.setNode]
  refine ⟨_, s3, transitions_two c1 s s1 _ _ _ (by rw [transition_r]; exact e1)
    (by rw [transition_D]; exact e2),
    transitions_one c2 s s3 _ (by rw [transition_r]; exact e3), ?_⟩
  refine agree_of_node _ _ (by simp [k3]) (by simp [i3]) ?_
  intro q
  rw [n3]
  exact node_linkLabel_congr _ _ nth label n1 hlen q

/-- `l<n>` then `D<label>` against `l<n><label>`, when `stack.size() > n`. -/
theorem agree_lN (c1 c2 : FeatureConfig) (h1 : c1.CompositeActions = false)
    (h2 : c2.CompositeActions = true) (s : State) (d : Char) (label : List Char) (x : Nat)
    (i : List Nat) (hd : d = '2' ∨ d = '3' ∨ d = '4') (hp : s.previous = none)
    (hl : actionDepth ['l', d] < s.stack.length) (hi : s.input = x :: i)
    (hv : ∀ p ∈ s.stack, p < s.nodes.length) :
    ∃ s2 s3, State.transitions c1 s [['l', d], 'D' :: label] = some s2 ∧
      State.transitions c2 s ['l' :: d :: label] = some s3 ∧ s2.agree s3 := by
  have hda : actionDepth ('l' :: d :: label) = actionDepth ['l', d] := rfl
  have hn2 : 2 ≤ actionDepth ['l', d] := by
    rcases hd with rfl | rfl | rfl <;> decide
  obtain ⟨s1, e1, n1, l1, k1, i1, _, a1, _, p1, _⟩ :=
    leftN_spec c1 s ['l', d] x i hi (by omega) hl.le
  obtain ⟨s3, e3, n3, l3, k3, i3, _⟩ :=
    leftN_spec c2 s ('l' :: d :: label) x i hi (by rw [hda]; omega) (by rw [hda]; exact hl.le)
  rw [hda] at n3 k3 i3
  have hdl : 1 < (s.stack.drop (actionDepth ['l', d] - 1)).length := by
    rw [List.length_drop]; omega
  simp only [h1, Bool.false_eq_true, if_false, hdl, if_true] at n1 k1 i1
  simp only [h2, if_true, hdl, List.drop_succ_cons, List.drop_zero] at n3 k3 i3
  have hnth : s.stack.getD (actionDepth ['l', d] - 1) 0 < s.nodes.length :=
    hv _ (getD_mem_of_lt _ _ (by omega))
  generalize s.stack.getD (actionDepth ['l', d] - 1) 0 = nth at n1 n3 i1 i3 hnth
  have hc : (s1.node nth).right.getLast? = some x := by
    rw [n1]
    simp [right_pushRight, hnth]
  have e2 := DepLink_spec_l s1 label [d] nth x _ i1 (p1.trans hp) a1 hc
  have hne : ¬ s1.stack.isEmpty = true := by
    rw [k1]
    intro he
    have : (s.stack.drop (actionDepth ['l', d] - 1)).tail.length = 0 := by
      rw [List.isEmpty_iff] at he
      rw [he]; rfl
    rw [List.length_tail] at this
    omega
  rw [if_neg hne] at e2
  have hlen : s1.nodes.length =
      ((s.pushRight nth x).linkHead x ((s.pushRight nth x).node nth).id).nodes.length := by
    rw [l1]; simp [State.linkHead, State.pushRight, State.setNode]
  refine ⟨_, s3, transitions_two c1 s s1 _ _ _ (by rw [transition_l]; exact e1)
    (by rw [transition_D]; exact e2),
    transitions_one c2 s s3 _ (by rw [transition_l]; exact e3), ?_⟩
  refine agree_of_node _ _ (by simp [k1, k3]) (by simp [i1, i3]) ?_
  intro q
  rw [n3]
  exact node_linkLabel_congr _ _ x label n1 hlen q

/-- C28 (the code at the failing input): with `ArcEager` off, on every state
without predecessor (whose pointers are objects of the state), `R` then
`D<x>`, `L` then `D<x>`, `r<n>` then `D<x>` and, when `stack.size() > n`, `l<n>`
then `D<x>` with `CompositeActions` off succeed and leave the same stack, input,
heads, labels and child lists as `R<x>`, `L<x>`, `r<n><x>`, `l<n><x>` with
`CompositeActions` on.  When `stack.size() == n`, `l<n>` leaves the former top
as next token: on the state `rightChildShifted` (stack root, 1; next token 3;
token 2 under token 1 with label `a`) `l2x` labels token 3 with `x`, while `l2`
then `Dx` writes `x` on token 2 and leaves token 3 without label. -/
theorem labelling_modes_differ :
    (∀ (c1 c2 : FeatureConfig) (s : State) (label : List Char) (t x : Nat) (st i : List Nat),
      c1.CompositeActions = false → c2.CompositeActions = true →
      s.previous = none → s.stack = t :: st → st ≠ [] → s.input = x :: i →
      x < s.nodes.length →
      ∃ s2 s3, State.transitions c1 s [['R'], 'D' :: label] = some s2 ∧
        State.transitions c2 s ['R' :: label] = some s3 ∧ s2.agree s3) ∧
    (∀ (c1 c2 : FeatureConfig) (s : State) (label : List Char) (t x : Nat) (st i : List Nat),
      c1.CompositeActions = false → c2.CompositeActions = true →
      c1.arcEager = false → c2.arcEager = false →
      s.previous = none → s.stack = t :: st → s.input = x :: i → t < s.nodes.length →
      ∃ s2 s3, State.transitions c1 s [['L'], 'D' :: label] = some s2 ∧
        State.transitions c2 s ['L' :: label] = some s3 ∧ s2.agree s3) ∧
    (∀ (c1 c2 : FeatureConfig) (s : State) (d : Char) (label : List Char) (x : Nat)
      (i : List Nat), c1.CompositeActions = false → c2.CompositeActions = true →
      (d = '2' ∨ d = '3' ∨ d = '4') → s.previous = none →
      actionDepth ['r', d] < s.stack.length → s.input = x :: i → x < s.nodes.length →
      ∃ s2 s3, State.transitions c1 s [['r', d], 'D' :: label] = some s2 ∧
        State.transitions c2 s ['r' :: d :: label] = some s3 ∧ s2.agree s3) ∧
    (∀ (c1 c2 : FeatureConfig) (s : State) (d : Char) (label : List Char) (x : Nat)
      (i : List Nat), c1.CompositeActions = false → c2.CompositeActions = true →
      (d = '2' ∨ d = '3' ∨ d = '4') → s.previous = none →
      actionDepth ['l', d] < s.stack.length → s.input = x :: i →
      (∀ p ∈ s.stack, p < s.nodes.length) →
      ∃ s2 s3, State.transitions c1 s [['l', d], 'D' :: label] = some s2 ∧
        State.transitions c2 s ['l' :: d :: label] = some s3 ∧ s2.agree s3) ∧
    State.transitions { CompositeActions := false } (State.init [{}, {}, {}])
      [['S'], ['L'], ['D', 'a'], ['S']] = some rightChildShifted ∧
    rightChildShifted.stack.length = actionDepth ['l', '2'] ∧
    (State.transitions {} rightChildShifted [['l', '2', 'x']]).map
      (fun s => (s.stack, s.input, (s.node 2).label, (s.node 3).label, (s.node 3).head)) =
      some ([0], [1], ['a'], ['x'], 0) ∧
    (State.transitions { CompositeActions := false } rightChildShifted
        [['l', '2'], ['D', 'x']]).map
      (fun s => (s.stack, s.input, (s.node 2).label, (s.node 3).label, (s.node 3).head)) =
      some ([0], [1], ['x'], [], 0) := by
  refine ⟨?_, ?_, ?_, ?_, by decide, by decide, by decide, by decide⟩
  · intro c1 c2 s label t x st i h1 h2 hp hs hst hi hx
    exact agree_R c1 c2 h1 h2 s label t x st i hp hs hst hi hx
  · intro c1 c2 s label t x st i h1 h2 hE1 hE2 hp hs hi ht
    exact agree_L c1 c2 h1 h2 hE1 hE2 s label t x st i hp hs hi ht
  · intro c1 c2 s d label x i h1 h2 hd hp hl hi hx
    exact agree_rN c1 c2 h1 h2 s d label x i hd hp hl hi hx
  · intro c1 c2 s d label x i h1 h2 hd hp hl hi hv
    exact agree_lN c1 c2 h1 h2 s d label x i hd hp hl hi hv

/-! ## Conservation of the tokens -/

theorem perm_by_multiset {l1 l2 : List Nat} (h : (l1 : Multiset Nat) = l2) : l1.Perm l2 :=
  Multiset.coe_eq_coe.mp h

theorem kept_of_moved {s s1 : State} (h : s.Moved s1) : s.Kept s1 :=
  ⟨h.1, fun q => (h.2.1 q).1, fun _ ha => h.2.2.subset ha⟩

theorem kept_of_attached {s s1 : State} {c p : Nat} (h : s.Attached s1 c p) : s.Kept s1 :=
  ⟨h.1, h.2.1, fun _ ha => h.2.2.2.2.2.2.1.symm.subset (List.mem_cons_of_mem _ ha)⟩

theorem sound_of_kept {s s1 : State} (h : s.Kept s1) (hs : s.Sound) : s1.Sound := by
  refine ⟨?_, ?_⟩
  · intro p hp
    rw [h.2.1 p]
    exact hs.ids p (h.1 ▸ hp)
  · intro a ha
    rw [h.1]
    exact hs.bound a (h.2.2 a ha)

theorem children_eq {s s1 : State} (q : Nat) (hl : (s1.node q).left = (s.node q).left)
    (hr : (s1.node q).right = (s.node q).right) : s1.children q = s.children q := by
  unfold State.children
  rw [hl, hr]

theorem transGen_congr {r1 r2 : Nat → Nat → Prop} (h : ∀ a b, r1 a b → r2 a b) {a b : Nat}
    (t : Relation.TransGen r1 a b) : Relation.TransGen r2 a b :=
  Relation.TransGen.mono h t

theorem conserved_of_moved {s s1 : State} (h : s.Moved s1) (hc : s.Conserved) :
    s1.Conserved := by
  obtain ⟨hlen, hn, hp⟩ := h
  have hch : ∀ q, s1.children q = s.children q :=
    fun q => children_eq q (hn q).2.2.1 (hn q).2.2.2
  refine ⟨hp.nodup_iff.mpr hc.nodup, ?_, ?_, ?_, ?_, ?_, ?_⟩
  · intro c hcl
    rw [hp.mem_iff]
    simp only [hch]
    exact hc.attached c (hlen ▸ hcl)
  · intro c p q h1 h2
    rw [hch] at h1 h2
    exact hc.parent c p q h1 h2
  · intro p
    rw [hch]
    exact hc.once p
  · intro c p h1
    rw [hch] at h1
    rw [(hn c).2.1, (hn p).1]
    exact hc.heads c p h1
  · intro c p h1
    rw [hch] at h1
    rw [hlen]
    exact hc.valid c p h1
  · intro p t
    apply hc.acyclic p
    refine transGen_congr ?_ t
    intro a b hab
    rw [hch] at hab
    exact hab

theorem conserved_of_attached {s s1 : State} {c p : Nat} (h : s.Attached s1 c p)
    (hs : s.Sound) (hc : s.Conserved) : s1.Conserved := by
  obtain ⟨hlen, hid, hhead, hheads, hcp, hcq, hw, hpw⟩ := h
  have hcw : c ∈ s.waiting := hw.symm.subset (List.mem_cons_self _ _)
  have hnd : (c :: s1.waiting).Nodup := hw.nodup_iff.mp hc.nodup
  have hcn : c ∉ s1.waiting := (List.nodup_cons.mp hnd).1
  have hcl : c < s.nodes.length := hs.bound c hcw
  have hnoc : ∀ q, c ∉ s.children q := by
    intro q hq
    exact ((hc.attached c hcl).mpr ⟨q, hq⟩) hcw
  have hmem : ∀ a q, a ∈ s1.children q ↔ a ∈ s.children q ∨ (a = c ∧ q = p) := by
    intro a q
    by_cases hq : q = p
    · subst hq
      rw [hcp.mem_iff, List.mem_cons]
      constructor
      · rintro (h1 | h1)
        · exact Or.inr ⟨h1, rfl⟩
        · exact Or.inl h1
      · rintro (h1 | ⟨h1, _⟩)
        · exact Or.inr h1
        · exact Or.inl h1
    · rw [hcq q hq]
      constructor
      · intro h1; exact Or.inl h1
      · rintro (h1 | ⟨_, h1⟩)
        · exact h1
        · exact absurd h1 hq
  have hatt : ∀ a, a < s1.nodes.length → (a ∉ s1.waiting ↔ ∃ q, a ∈ s1.children q) := by
    intro a ha
    rw [hlen] at ha
    by_cases hac : a = c
    · subst hac
      constructor
      · intro _
        exact ⟨p, (hmem a p).mpr (Or.inr ⟨rfl, rfl⟩)⟩
      · intro _
        exact hcn
    · have hwa : a ∈ s1.waiting ↔ a ∈ s.waiting := by
        rw [hw.mem_iff, List.mem_cons]
        constructor
        · intro h1; exact Or.inr h1
        · rintro (h1 | h1)
          · exact absurd h1 hac
          · exact h1
      rw [hwa, hc.attached a ha]
      constructor
      · rintro ⟨q, hq⟩
        exact ⟨q, (hmem a q).mpr (Or.inl hq)⟩
      · rintro ⟨q, hq⟩
        rcases (hmem a q).mp hq with h1 | ⟨h1, _⟩
        · exact ⟨q, h1⟩
        · exact absurd h1 hac
  refine ⟨(List.nodup_cons.mp hnd).2, hatt, ?_, ?_, ?_, ?_, ?_⟩
  · intro a q1 q2 h1 h2
    rcases (hmem a q1).mp h1 with h1 | ⟨e1, e1'⟩
    · rcases (hmem a q2).mp h2 with h2 | ⟨e2, _⟩
      · exact hc.parent a q1 q2 h1 h2
      · subst e2
        exact absurd h1 (hnoc q1)
    · rcases (hmem a q2).mp h2 with h2 | ⟨_, e2'⟩
      · subst e1
        exact absurd h2 (hnoc q2)
      · rw [e1', e2']
  · intro q
    by_cases hq : q = p
    · subst hq
      rw [hcp.nodup_iff, List.nodup_cons]
      exact ⟨hnoc q, hc.once q⟩
    · rw [hcq q hq]
      exact hc.once q
  · intro a q h1
    rcases (hmem a q).mp h1 with h1 | ⟨e1, e2⟩
    · have hac : a ≠ c := by
        rintro rfl
        exact hnoc q h1
      rw [hheads a hac, hid q]
      exact hc.heads a q h1
    · subst e1
      subst e2
      rw [hhead, hid]
  · intro a q h1
    rw [hlen]
    rcases (hmem a q).mp h1 with h1 | ⟨e1, _⟩
    · exact hc.valid a q h1
    · rw [e1]; exact hcl
  · -- a cycle would go through the new arc, hence through `p`, which still waits
    have hpl : p < s1.nodes.length := by
      rw [hlen]
      exact hs.bound p (hw.symm.subset (List.mem_cons_of_mem _ hpw))
    have hpn : ∀ q, p ∉ s1.children q := by
      intro q hq
      exact ((hatt p hpl).mpr ⟨q, hq⟩) hpw
    have key : ∀ a b, Relation.TransGen (fun x y => x ∈ s1.children y) a b →
        Relation.TransGen (fun x y => x ∈ s.children y) a b ∨ b = p := by
      intro a b t
      induction t with
      | single h1 =>
        rcases (hmem _ _).mp h1 with h1 | ⟨_, h1⟩
        · exact Or.inl (Relation.TransGen.single h1)
        · exact Or.inr h1
      | tail t1 h1 ih =>
        rcases (hmem _ _).mp h1 with h1' | ⟨_, h1'⟩
        · rcases ih with ih | ih
          · exact Or.inl (Relation.TransGen.tail ih h1')
          · subst ih
            exact absurd h1 (hpn _)
        · exact Or.inr h1'
    intro a t
    rcases key a a t with h1 | h1
    · exact hc.acyclic a h1
    · subst h1
      obtain ⟨b, hb, _⟩ := Relation.TransGen.head'_iff.mp t
      exact hpn b hb

theorem children_init (sent : Sentence) (p : Nat) : (State.init sent).children p = [] := by
  have hd : (default : TreeToken).left = [] ∧ (default : TreeToken).right = [] := ⟨rfl, rfl⟩
  unfold State.children State.node State.init
  simp only [List.getD_eq_getElem?_getD]
  rcases p with _ | p
  · simp
  · simp only [List.getElem?_cons_succ, List.getElem?_map]
    cases (List.range sent.length)[p]? <;> simp [hd]

theorem waiting_init (sent : Sentence) :
    (State.init sent).waiting = 0 :: (List.range sent.length).map (· + 1) := by
  simp [State.waiting, State.init]

theorem sound_init (sent : Sentence) : (State.init sent).Sound := by
  refine ⟨(ordered_init sent).ids, ?_⟩
  intro a ha
  rw [waiting_init] at ha
  simp [State.init] at ha ⊢
  rcases ha with h | ⟨i, hi, rfl⟩ <;> omega

theorem conserved_init (sent : Sentence) : (State.init sent).Conserved := by
  refine ⟨?_, ?_, ?_, ?_, ?_, ?_, ?_⟩
  · rw [waiting_init, List.nodup_cons]
    constructor
    · simp
    · exact (List.nodup_range _).map (fun a b h => by simpa using h)
  · intro c hc
    simp only [children_init, List.not_mem_nil, exists_false, iff_false, not_not]
    rw [waiting_init]
    simp [State.init] at hc ⊢
    rcases c with _ | c
    · exact Or.inl rfl
    · exact Or.inr ⟨c, by omega, rfl⟩
  · intro c p q h
    rw [children_init] at h
    simp at h
  · intro p
    rw [children_init]
    exact List.nodup_nil
  · intro c p h
    rw [children_init] at h
    simp at h
  · intro c p h
    rw [children_init] at h
    simp at h
  · intro p t
    obtain ⟨b, hb, _⟩ := Relation.TransGen.head'_iff.mp t
    rw [children_init] at hb
    simp at hb

theorem children_linkLabel (s : State) (p q : Nat) (l : List Char) :
    (s.linkLabel p l).children q = s.children q := by
  simp [State.children]

theorem children_linkHead (s : State) (p h q : Nat) :
    (s.linkHead p h).children q = s.children q := by
  simp [State.children]

/-- The nodes after `t` became the last left child of `x`. -/
theorem attachLeft_facts (s s1 : State) (x t : Nat) (c : Bool) (l : List Char)
    (hx : x < s.nodes.length) (ht : t < s.nodes.length)
    (hn : ∀ q, s1.node q = (if c = true then
        (((s.pushLeft x t).linkHead t ((s.pushLeft x t).node x).id).linkLabel t l).node q
      else ((s.pushLeft x t).linkHead t ((s.pushLeft x t).node x).id).node q)) :
    (∀ q, (s1.node q).id = (s.node q).id) ∧ (s1.node t).head = (s.node x).id ∧
    (∀ q, q ≠ t → (s1.node q).head = (s.node q).head) ∧
    (s1.children x).Perm (t :: s.children x) ∧ (∀ q, q ≠ x → s1.children q = s.children q) := by
  have hl : ∀ q, (s1.node q).left =
      if q = x ∧ x < s.nodes.length then (s.node x).left ++ [t] else (s.node q).left := by
    intro q
    rw [hn]
    cases c <;> simp [left_pushLeft]
  have hr : ∀ q, (s1.node q).right = (s.node q).right := by
    intro q
    rw [hn]
    cases c <;> simp
  refine ⟨?_, ?_, ?_, ?_, ?_⟩
  · intro q
    rw [hn]
    cases c <;> simp
  · rw [hn]
    cases c <;> simp [head_linkHead, ht]
  · intro q hq
    rw [hn]
    cases c <;> simp [head_linkHead, hq]
  · unfold State.children
    rw [hl, hr, if_pos ⟨rfl, hx⟩]
    apply perm_by_multiset
    simp only [← Multiset.coe_add, ← Multiset.cons_coe, ← Multiset.singleton_add,
      Multiset.coe_nil, add_zero]
    abel
  · intro q hq
    unfold State.children
    rw [hl, hr, if_neg (fun h => hq h.1)]

/-- The nodes after `x` became the last right child of `t`. -/
theorem attachRight_facts (s s1 : State) (x t : Nat) (c : Bool) (l : List Char)
    (hx : x < s.nodes.length) (ht : t < s.nodes.length)
    (hn : ∀ q, s1.node q = (if c = true then
        (((s.pushRight t x).linkHead x ((s.pushRight t x).node t).id).linkLabel x l).node q
      else ((s.pushRight t x).linkHead x ((s.pushRight t x).node t).id).node q)) :
    (∀ q, (s1.node q).id = (s.node q).id) ∧ (s1.node x).head = (s.node t).id ∧
    (∀ q, q ≠ x → (s1.node q).head = (s.node q).head) ∧
    (s1.children t).Perm (x :: s.children t) ∧ (∀ q, q ≠ t → s1.children q = s.children q) := by
  have hr : ∀ q, (s1.node q).right =
      if q = t ∧ t < s.nodes.length then (s.node t).right ++ [x] else (s.node q).right := by
    intro q
    rw [hn]
    cases c <;> simp [right_pushRight]
  have hl : ∀ q, (s1.node q).left = (s.node q).left := by
    intro q
    rw [hn]
    cases c <;> simp
  refine ⟨?_, ?_, ?_, ?_, ?_⟩
  · intro q
    rw [hn]
    cases c <;> simp
  · rw [hn]
    cases c <;> simp [head_linkHead, hx]
  · intro q hq
    rw [hn]
    cases c <;> simp [head_linkHead, hq]
  · unfold State.children
    rw [hl, hr, if_pos ⟨rfl, ht⟩]
    apply perm_by_multiset
    simp only [← Multiset.coe_add, ← Multiset.cons_coe, ← Multiset.singleton_add,
      Multiset.coe_nil, add_zero]
    abel
  · intro q hq
    unfold State.children
    rw [hl, hr, if_neg (fun h => hq h.1)]

theorem moved_refl (s : State) : s.Moved s :=
  ⟨rfl, fun _ => ⟨rfl, rfl, rfl, rfl⟩, List.Perm.refl _⟩

/-- A successor that differs by the places of the waiting tokens, by a label
and by the recorded fields is a `Moved` one. -/
theorem moved_of_label (s s1 : State) (hlen : s1.nodes.length = s.nodes.length)
    (hn : ∀ q, s1.node q = s.node q ∨ ∃ p l, s1.node q = (s.linkLabel p l).node q)
    (hp : s1.waiting.Perm s.waiting) : s.Moved s1 := by
  refine ⟨hlen, ?_, hp⟩
  intro q
  rcases hn q with h | ⟨p, l, h⟩
  · rw [h]; exact ⟨rfl, rfl, rfl, rfl⟩
  · rw [h]; simp

theorem moved_Shift (s s1 : State) (h : s.Shift = .this s1) : s.Moved s1 := by
  unfold State.Shift at h
  split at h
  · simp at h
  · rename_i x i hi
    cases h
    refine ⟨rfl, fun _ => ⟨rfl, rfl, rfl, rfl⟩, ?_⟩
    simp only [State.waiting, hi]
    apply perm_by_multiset
    simp only [← Multiset.coe_add, ← Multiset.cons_coe, ← Multiset.singleton_add]
    abel

theorem moved_Unshift (s s1 : State) (h : s.Unshift = .this s1) : s.Moved s1 := by
  unfold State.Unshift at h
  split at h
  · simp at h
  · split at h
    · simp at h
    · rename_i t st hs
      cases h
      refine ⟨rfl, fun _ => ⟨rfl, rfl, rfl, rfl⟩, ?_⟩
      simp only [State.waiting, hs]
      apply perm_by_multiset
      simp only [← Multiset.coe_add, ← Multiset.cons_coe, ← Multiset.singleton_add]
      abel

theorem moved_Extract (s s1 : State) (h : s.Extract = .this s1) : s.Moved s1 := by
  unfold State.Extract at h
  split at h
  · simp at h
  · split at h
    · rename_i t n st x i hs hi
      cases h
      refine ⟨rfl, fun _ => ⟨rfl, rfl, rfl, rfl⟩, ?_⟩
      simp only [State.waiting, hs, hi]
      apply perm_by_multiset
      simp only [← Multiset.coe_add, ← Multiset.cons_coe, ← Multiset.singleton_add]
      abel
    · simp at h

theorem moved_Insert (s s1 : State) (h : s.Insert = .this s1) : s.Moved s1 := by
  unfold State.Insert at h
  split at h
  · simp at h
  · rename_i x e he
    cases h
    refine ⟨rfl, fun _ => ⟨rfl, rfl, rfl, rfl⟩, ?_⟩
    simp only [State.waiting, he]
    apply perm_by_multiset
    simp only [← Multiset.coe_add, ← Multiset.cons_coe, ← Multiset.singleton_add]
    abel

theorem kept_Pop (s s1 : State) (h : s.Pop = .this s1) : s.Kept s1 := by
  unfold State.Pop at h
  split at h
  · simp at h
  · cases h
    refine ⟨rfl, fun _ => rfl, ?_⟩
    intro a ha
    simp only [State.waiting, List.mem_append] at ha ⊢
    rcases ha with (ha | ha) | ha
    · exact Or.inl (Or.inl (List.mem_of_mem_tail ha))
    · exact Or.inl (Or.inr ha)
    · exact Or.inr ha

theorem moved_DepLink (s s1 : State) (a : Action) (h : s.DepLink a = .this s1) :
    s.Moved s1 := by
  rcases DepLink_cases s s1 a h with ⟨_, e⟩ |
      ⟨x, i, child, hi, _, _, ⟨_, b, st, hs, e⟩ | ⟨_, e⟩⟩ |
      ⟨x, i, child, hi, _, _, ⟨hs, e⟩ | ⟨_, e⟩⟩
  · rw [e]; exact moved_refl s
  · subst e
    refine moved_of_label _ _ (by simp) (fun q => Or.inr ⟨child, a.drop 1, rfl⟩) ?_
    simp only [State.waiting, linkLabel_extracted, hs, hi]
    apply perm_by_multiset
    simp only [← Multiset.coe_add, ← Multiset.cons_coe, ← Multiset.singleton_add]
    abel
  · subst e
    exact moved_of_label _ _ (by simp) (fun q => Or.inr ⟨child, a.drop 1, rfl⟩)
      (by simp [State.waiting])
  · subst e
    refine moved_of_label _ _ (by simp) (fun q => Or.inr ⟨child, a.drop 1, rfl⟩) ?_
    simp only [State.waiting, linkLabel_extracted, hs, hi]
    apply perm_by_multiset
    simp only [← Multiset.coe_add, ← Multiset.cons_coe, ← Multiset.singleton_add,
      Multiset.coe_nil]
    abel
  · subst e
    exact moved_of_label _ _ (by simp) (fun q => Or.inr ⟨child, a.drop 1, rfl⟩)
      (by simp [State.waiting])

theorem mem_waiting_stack {s : State} {a : Nat} (h : a ∈ s.stack) : a ∈ s.waiting := by
  simp [State.waiting, h]

theorem mem_waiting_input {s : State} {a : Nat} (h : a ∈ s.input) : a ∈ s.waiting := by
  simp [State.waiting, h]

theorem attached_Right (cfg : FeatureConfig) (s s1 : State) (a : Action)
    (h : s.Right cfg State.copy a = .this s1) (hs : s.Sound) :
    ∃ c p, s.Attached s1 c p := by
  obtain ⟨t, st, x, i, hst, hne, hi⟩ := Right_shape cfg s s1 a h
  obtain ⟨s2, e, hnode, hlen, hs', hi', hex, _⟩ := Right_spec cfg s a t x st i hst hne hi
  rw [e] at h
  cases h
  have ht : t < s.nodes.length := hs.bound t (mem_waiting_stack (by rw [hst]; simp))
  have hx : x < s.nodes.length := hs.bound x (mem_waiting_input (by rw [hi]; simp))
  obtain ⟨f1, f2, f3, f4, f5⟩ :=
    attachLeft_facts s s1 x t cfg.CompositeActions (a.drop 1) hx ht hnode
  refine ⟨t, x, hlen, f1, f2, f3, f4, f5, ?_, ?_⟩
  · simp only [State.waiting, hst, hi, hs', hi', hex]
    rfl
  · exact mem_waiting_input (by rw [hi']; simp)

theorem attached_Left (cfg : FeatureConfig) (hE : cfg.arcEager = false) (s s1 : State)
    (a : Action) (h : s.Left cfg State.copy a = .this s1) (hs : s.Sound) :
    ∃ c p, s.Attached s1 c p := by
  obtain ⟨t, st, x, i, hst, hi⟩ := Left_shape cfg s s1 a h
  obtain ⟨s2, e, hnode, hlen, hs', hi', hex, _⟩ := Left_spec cfg s a t x st i hst hi
  rw [e] at h
  cases h
  have ht : t < s.nodes.length := hs.bound t (mem_waiting_stack (by rw [hst]; simp))
  have hx : x < s.nodes.length := hs.bound x (mem_waiting_input (by rw [hi]; simp))
  obtain ⟨f1, f2, f3, f4, f5⟩ :=
    attachRight_facts s s1 x t cfg.CompositeActions (a.drop 1) hx ht hnode
  simp only [hE, Bool.false_eq_true, if_false] at hs' hi'
  refine ⟨x, t, hlen, f1, f2, f3, f4, f5, ?_, ?_⟩
  · simp only [State.waiting, hst, hi, hs', hi', hex]
    cases cfg.CompositeActions
    · simp only [Bool.false_eq_true, if_false]
      apply perm_by_multiset
      simp only [← Multiset.coe_add, ← Multiset.cons_coe, ← Multiset.singleton_add]
      abel
    · cases st with
      | nil =>
        simp only [if_true, ne_eq, not_true_eq_false, if_false]
        apply perm_by_multiset
        simp only [← Multiset.coe_add, ← Multiset.cons_coe, ← Multiset.singleton_add,
          Multiset.coe_nil]
        abel
      | cons b r =>
        simp only [if_true, ne_eq, reduceCtorEq, not_false_eq_true]
        apply perm_by_multiset
        simp only [← Multiset.coe_add, ← Multiset.cons_coe, ← Multiset.singleton_add]
        abel
  · cases hC : cfg.CompositeActions
    · simp only [hC, Bool.false_eq_true, if_false] at hi'
      exact mem_waiting_input (by rw [hi']; simp)
    · simp only [hC, if_true] at hs' hi'
      cases st with
      | nil =>
        simp only [ne_eq, not_true_eq_false, if_false] at hs'
        exact mem_waiting_stack (by rw [hs']; simp)
      | cons b r =>
        simp only [ne_eq, reduceCtorEq, not_false_eq_true, if_true] at hi'
        exact mem_waiting_input (by rw [hi']; simp)

theorem eraseIdx_perm (l : List Nat) (k : Nat) (h : k < l.length) :
    l.Perm (l.getD k 0 :: l.eraseIdx k) := by
  induction l generalizing k with
  | nil => simp at h
  | cons a l ih =>
    cases k with
    | zero => simp
    | succ k =>
      simp only [List.length_cons, Nat.add_lt_add_iff_right] at h
      have := ih k h
      simp only [List.getD_cons_succ, List.eraseIdx_cons_succ]
      exact (List.Perm.cons a this).trans (List.Perm.swap _ _ _)

theorem attached_rightN (cfg : FeatureConfig) (s s1 : State) (a : Action)
    (h : s.right cfg State.copy a = .this s1) (hs : s.Sound) :
    ∃ c p, s.Attached s1 c p := by
  obtain ⟨hine, h1, hl⟩ := rightN_this cfg s s1 a h
  rcases hi : s.input with _ | ⟨x, i⟩
  · exact absurd hi hine
  obtain ⟨s2, e, hnode, hlen, hs', hi', hex, _⟩ := rightN_spec cfg s a x i hi h1 hl
  rw [e] at h
  cases h
  have hmem : s.stack.getD (actionDepth a - 1) 0 ∈ s.stack := getD_mem_of_lt _ _ (by omega)
  have ht : s.stack.getD (actionDepth a - 1) 0 < s.nodes.length :=
    hs.bound _ (mem_waiting_stack hmem)
  have hx : x < s.nodes.length := hs.bound x (mem_waiting_input (by rw [hi]; simp))
  obtain ⟨f1, f2, f3, f4, f5⟩ :=
    attachLeft_facts s s1 x _ cfg.CompositeActions (a.drop 2) hx ht hnode
  have hp := eraseIdx_perm s.stack (actionDepth a - 1) (by omega)
  have hlen2 : (s.stack.eraseIdx (actionDepth a - 1)).length = s.stack.length - 1 := by
    rw [List.length_eraseIdx, if_pos (by omega)]
  generalize s.stack.getD (actionDepth a - 1) 0 = nth at *
  generalize s.stack.eraseIdx (actionDepth a - 1) = er at *
  refine ⟨nth, x, hlen, f1, f2, f3, f4, f5, ?_, ?_⟩
  · simp only [State.waiting, hi, hs', hi', hex]
    have hp2 : (s.stack ++ x :: i ++ s.extracted).Perm ((nth :: er) ++ x :: i ++ s.extracted) :=
      (hp.append_right _).append_right _
    refine hp2.trans ?_
    cases cfg.CompositeActions
    · simp only [Bool.false_eq_true, if_false]
      rfl
    · simp only [if_true]
      rcases er with _ | ⟨b, r⟩
      · simp at hlen2
        omega
      · simp only [List.tail_cons, List.headD_cons]
        apply perm_by_multiset
        simp only [← Multiset.coe_add, ← Multiset.cons_coe, ← Multiset.singleton_add]
        abel
  · apply mem_waiting_input
    rw [hi']
    cases cfg.CompositeActions <;> simp

theorem attached_leftN (cfg : FeatureConfig) (s s1 : State) (a : Action)
    (h : s.left cfg State.copy a = .this s1) (hs : s.Sound) :
    ∃ c p, s.Attached s1 c p := by
  obtain ⟨hine, h2, hl⟩ := leftN_this cfg s s1 a h
  rcases hi : s.input with _ | ⟨x, i⟩
  · exact absurd hi hine
  obtain ⟨s2, e, hnode, hlen, hs', hi', hex, _⟩ := leftN_spec cfg s a x i hi h2 hl
  rw [e] at h
  cases h
  have hmem : s.stack.getD (actionDepth a - 1) 0 ∈ s.stack := getD_mem_of_lt _ _ (by omega)
  have ht : s.stack.getD (actionDepth a - 1) 0 < s.nodes.length :=
    hs.bound _ (mem_waiting_stack hmem)
  have hx : x < s.nodes.length := hs.bound x (mem_waiting_input (by rw [hi]; simp))
  obtain ⟨f1, f2, f3, f4, f5⟩ :=
    attachRight_facts s s1 x _ cfg.CompositeActions (a.drop 2) hx ht hnode
  have hsplit : s.stack = s.stack.take (actionDepth a - 1) ++
      s.stack.getD (actionDepth a - 1) 0 :: (s.stack.drop (actionDepth a - 1)).tail := by
    have h3 : s.stack.drop (actionDepth a - 1) =
        s.stack.getD (actionDepth a - 1) 0 :: (s.stack.drop (actionDepth a - 1)).tail := by
      rcases hd : s.stack.drop (actionDepth a - 1) with _ | ⟨b, r⟩
      · have := congrArg List.length hd
        rw [List.length_drop] at this
        simp at this
        omega
      · rw [getD_eq_head_drop, hd]
        rfl
    conv_lhs => rw [← List.take_append_drop (actionDepth a - 1) s.stack, h3]
  generalize s.stack.getD (actionDepth a - 1) 0 = nth at *
  generalize (s.stack.drop (actionDepth a - 1)).tail = dr at *
  generalize hdl : (s.stack.drop (actionDepth a - 1)).length = dl at *
  generalize s.stack.take (actionDepth a - 1) = tk at *
  refine ⟨x, nth, hlen, f1, f2, f3, f4, f5, ?_, ?_⟩
  · simp only [State.waiting, hi, hs', hi', hex, hsplit]
    by_cases h1 : 1 < dl
    · simp only [h1, if_true]
      apply perm_by_multiset
      simp only [← Multiset.coe_add, ← Multiset.cons_coe, ← Multiset.singleton_add,
        Multiset.coe_reverse]
      abel
    · simp only [h1, if_false]
      apply perm_by_multiset
      simp only [← Multiset.coe_add, ← Multiset.cons_coe, ← Multiset.singleton_add,
        Multiset.coe_reverse]
      abel
  · by_cases h1 : 1 < dl
    · simp only [h1, if_true] at hi'
      exact mem_waiting_input (by rw [hi']; simp)
    · simp only [h1, if_false] at hs'
      exact mem_waiting_stack (by rw [hs']; simp)

/-- With `ArcEager` off every successful action other than `P` moves the
waiting tokens or attaches one of them to another one. -/
theorem step_transition (cfg : FeatureConfig) (hE : cfg.arcEager = false) (s s1 : State)
    (a : Action) (hP : a.head? ≠ some 'P') (h : s.transition cfg State.copy a = .this s1)
    (hs : s.Sound) : s.Moved s1 ∨ ∃ c p, s.Attached s1 c p := by
  unfold State.transition at h
  simp only [hP, if_false] at h
  split at h
  · split at h
    · cases h; exact Or.inl (moved_refl s)
    · exact Or.inl (moved_Shift _ _ h)
  split at h
  · split at h
    · exact Or.inl (moved_Shift _ _ h)
    · exact Or.inr (attached_Right cfg _ _ _ h hs)
  split at h
  · exact Or.inr (attached_Left cfg hE _ _ _ h hs)
  split at h
  · exact Or.inr (attached_rightN cfg _ _ _ h hs)
  split at h
  · exact Or.inr (attached_leftN cfg _ _ _ h hs)
  split at h
  · exact Or.inl (moved_DepLink _ _ _ h)
  split at h
  · exact Or.inl (moved_Extract _ _ h)
  split at h
  · exact Or.inl (moved_Insert _ _ h)
  split at h
  · exact Or.inl (moved_Unshift _ _ h)
  · simp at h

theorem conserved_transitions (cfg : FeatureConfig) (hE : cfg.arcEager = false)
    (acts : List Action) (s s1 : State) (hact : ∀ a ∈ acts, a.head? ≠ some 'P')
    (h : State.transitions cfg s acts = some s1) (hs : s.Sound) (hc : s.Conserved) :
    s1.Sound ∧ s1.Conserved ∧ s1.nodes.length = s.nodes.length := by
  induction acts generalizing s with
  | nil => simp [State.transitions] at h; subst h; exact ⟨hs, hc, rfl⟩
  | cons a as ih =>
    cases ht : s.transition cfg State.copy a with
    | this s2 =>
      simp only [State.transitions, ht] at h
      have ha := hact a (List.mem_cons_self _ _)
      have hrest := fun b hb => hact b (List.mem_cons_of_mem _ hb)
      rcases step_transition cfg hE s s2 a ha ht hs with hm | ⟨c, p, hat⟩
      · obtain ⟨r1, r2, r3⟩ := ih s2 hrest h (sound_of_kept (kept_of_moved hm) hs)
          (conserved_of_moved hm hc)
        exact ⟨r1, r2, r3.trans hm.1⟩
      · obtain ⟨r1, r2, r3⟩ := ih s2 hrest h (sound_of_kept (kept_of_attached hat) hs)
          (conserved_of_attached hat hs hc)
        exact ⟨r1, r2, r3.trans hat.1⟩
    | null s2 => simp [State.transitions, ht] at h
    | undefined => simp [State.transitions, ht] at h

/-- C27: with `ArcEager` off, for every sequence of successful actions other
than `P` (so for every sequence of successful `S`, `U`, `L`, `R`, `l<n>`,
`r<n>`, `D`, `E` and `I` actions) applied from an initial state: no token, the
synthetic root included, occurs twice across stack, input and extracted; a
token (the root included) occurs in none of them exactly when it is a child of
some node; a token is a child of one node only, and once, so that it received a
head once, the id of that node; and the arcs have no cycle. -/
theorem tokens_conserved (cfg : FeatureConfig) (hE : cfg.arcEager = false) (sent : Sentence)
    (acts : List Action) (s : State) (hact : ∀ a ∈ acts, a.head? ≠ some 'P')
    (h : State.transitions cfg (State.init sent) acts = some s) :
    (s.stack ++ s.input ++ s.extracted).Nodup ∧
    (∀ c, c ≤ sent.length → (c ∉ s.stack ++ s.input ++ s.extracted ↔
      ∃ p, c ∈ (s.node p).left ∨ c ∈ (s.node p).right)) ∧
    (∀ c p q, c ∈ (s.node p).left ∨ c ∈ (s.node p).right →
      c ∈ (s.node q).left ∨ c ∈ (s.node q).right → p = q) ∧
    (∀ p, ((s.node p).left ++ (s.node p).right).Nodup) ∧
    (∀ c p, c ∈ (s.node p).left ∨ c ∈ (s.node p).right → (s.node c).head = (s.node p).id) ∧
    (∀ p, ¬ Relation.TransGen
      (fun c q => c ∈ (s.node q).left ∨ c ∈ (s.node q).right) p p) := by
  obtain ⟨_, hc, hlen⟩ :=
    conserved_transitions cfg hE acts _ s hact h (sound_init sent) (conserved_init sent)
  have hlen' : s.nodes.length = sent.length + 1 := by
    rw [hlen]; simp [State.init]
  have hm : ∀ c q, (c ∈ (s.node q).left ∨ c ∈ (s.node q).right) ↔ c ∈ s.children q := by
    intro c q
    unfold State.children
    rw [List.mem_append]
  refine ⟨hc.nodup, ?_, ?_, hc.once, ?_, ?_⟩
  · intro c hcl
    simp only [hm]
    exact hc.attached c (by omega)
  · intro c p q h1 h2
    exact hc.parent c p q ((hm c p).mp h1) ((hm c q).mp h2)
  · intro c p h1
    exact hc.heads c p ((hm c p).mp h1)
  · intro p t
    exact hc.acyclic p (Relation.TransGen.mono (fun a b hab => (hm a b).mp hab) t)

theorem tokens_conserved_witness :
    ({} : FeatureConfig).arcEager = false ∧
    (∀ a ∈ [['S'], ['R', 'a'], ['L', 'b']], a.head? ≠ some 'P') ∧
    State.transitions {} (State.init [{}, {}]) [['S'], ['R', 'a'], ['L', 'b']] =
      some twoAttached ∧
    (twoAttached.stack ++ twoAttached.input ++ twoAttached.extracted).Nodup ∧
    (∀ c, c ≤ [({} : Token), {}].length →
      (c ∉ twoAttached.stack ++ twoAttached.input ++ twoAttached.extracted ↔
        ∃ p, c ∈ (twoAttached.node p).left ∨ c ∈ (twoAttached.node p).right)) :=
  ⟨rfl, by decide, by decide,
    (tokens_conserved {} rfl [{}, {}] [['S'], ['R', 'a'], ['L', 'b']] twoAttached (by decide)
      (by decide)).1,
    (tokens_conserved {} rfl [{}, {}] [['S'], ['R', 'a'], ['L', 'b']] twoAttached (by decide)
      (by decide)).2.1⟩

/-! ## Reads of `punctCount` and `inQuotes` -/

theorem kept_Left (cfg : FeatureConfig) (s s1 : State) (a : Action)
    (h : s.Left cfg State.copy a = .this s1) (hs : s.Sound) : s.Kept s1 := by
  cases hE : cfg.arcEager
  · obtain ⟨c, p, hat⟩ := attached_Left cfg hE s s1 a h hs
    exact kept_of_attached hat
  · obtain ⟨t, st, x, i, hst, hi⟩ := Left_shape cfg s s1 a h
    obtain ⟨s2, e, hnode, hlen, hs', hi', hex, _⟩ := Left_spec cfg s a t x st i hst hi
    rw [e] at h
    cases h
    have ht : t < s.nodes.length := hs.bound t (mem_waiting_stack (by rw [hst]; simp))
    have hx : x < s.nodes.length := hs.bound x (mem_waiting_input (by rw [hi]; simp))
    obtain ⟨f1, _⟩ := attachRight_facts s s1 x t cfg.CompositeActions (a.drop 1) hx ht hnode
    simp only [hE, if_true] at hs' hi'
    refine ⟨hlen, f1, ?_⟩
    intro b hb
    simp only [State.waiting, hs', hi', hex, hst, hi, List.mem_append, List.mem_cons] at hb ⊢
    tauto

/-- Every successful action keeps the objects and takes the waiting tokens
among those of before, under every configuration. -/
theorem kept_transition (cfg : FeatureConfig) (s s1 : State) (a : Action)
    (h : s.transition cfg State.copy a = .this s1) (hs : s.Sound) : s.Kept s1 := by
  by_cases hL : a.head? = some 'L'
  · unfold State.transition at h
    simp only [hL, Option.some.injEq, Char.reduceEq, if_false, if_true] at h
    exact kept_Left cfg _ _ _ h hs
  by_cases hP : a.head? = some 'P'
  · unfold State.transition at h
    simp only [hP, Option.some.injEq, Char.reduceEq, if_false, if_true] at h
    exact kept_Pop _ _ h
  · unfold State.transition at h
    simp only [hP, hL, if_false] at h
    split at h
    · split at h
      · cases h; exact kept_of_moved (moved_refl s)
      · exact kept_of_moved (moved_Shift _ _ h)
    split at h
    · split at h
      · exact kept_of_moved (moved_Shift _ _ h)
      · obtain ⟨c, p, hat⟩ := attached_Right cfg _ _ _ h hs
        exact kept_of_attached hat
    split at h
    · obtain ⟨c, p, hat⟩ := attached_rightN cfg _ _ _ h hs
      exact kept_of_attached hat
    split at h
    · obtain ⟨c, p, hat⟩ := attached_leftN cfg _ _ _ h hs
      exact kept_of_attached hat
    split at h
    · exact kept_of_moved (moved_DepLink _ _ _ h)
    split at h
    · exact kept_of_moved (moved_Extract _ _ h)
    split at h
    · exact kept_of_moved (moved_Insert _ _ h)
    split at h
    · exact kept_of_moved (moved_Unshift _ _ h)
    · simp at h

theorem sound_transitions (cfg : FeatureConfig) (acts : List Action) (s s1 : State)
    (h : State.transitions cfg s acts = some s1) (hs : s.Sound) :
    s1.Sound ∧ s1.nodes.length = s.nodes.length := by
  induction acts generalizing s with
  | nil => simp [State.transitions] at h; subst h; exact ⟨hs, rfl⟩
  | cons a as ih =>
    cases ht : s.transition cfg State.copy a with
    | this s2 =>
      simp only [State.transitions, ht] at h
      have hk := kept_transition cfg s s2 a ht hs
      obtain ⟨r1, r2⟩ := ih s2 h (sound_of_kept hk hs)
      exact ⟨r1, r2.trans hk.1⟩
    | null s2 => simp [State.transitions, ht] at h
    | undefined => simp [State.transitions, ht] at h

theorem scan_length (pat : Patterns) (forms : List (List Char)) :
    ∀ (count : Nat) (inquote : Bool) (info : SentenceInfo),
      (SentenceInfo.scan pat forms count inquote info).punctCount.length =
        info.punctCount.length + forms.length ∧
      (SentenceInfo.scan pat forms count inquote info).inQuotes.length =
        info.inQuotes.length + forms.length := by
  induction forms with
  | nil => intro _ _ _; exact ⟨rfl, rfl⟩
  | cons f rest ih =>
    intro count inquote info
    unfold SentenceInfo.scan
    dsimp only
    split
    · obtain ⟨h1, h2⟩ := ih (count + if pat.ispunct f = true then 1 else 0) true
        { punctCount := info.punctCount ++ [count + if pat.ispunct f = true then 1 else 0],
          inQuotes := info.inQuotes ++ [inquote] }
      rw [h1, h2]
      simp
      omega
    · split
      · obtain ⟨h1, h2⟩ := ih (count + if pat.ispunct f = true then 1 else 0) false
          { punctCount := info.punctCount ++ [count + if pat.ispunct f = true then 1 else 0],
            inQuotes := info.inQuotes ++ [false] }
        rw [h1, h2]
        simp
        omega
      · obtain ⟨h1, h2⟩ := ih (count + if pat.ispunct f = true then 1 else 0) inquote
          { punctCount := info.punctCount ++ [count + if pat.ispunct f = true then 1 else 0],
            inQuotes := info.inQuotes ++ [inquote] }
        rw [h1, h2]
        simp
        omega

theorem init_length (pat : Patterns) (forms : List (List Char)) :
    (SentenceInfo.init pat forms).punctCount.length = forms.length ∧
    (SentenceInfo.init pat forms).inQuotes.length = forms.length := by
  have := scan_length pat forms 0 false {}
  simpa [SentenceInfo.init] using this

theorem readAt_isSome {α : Type} (v : List α) (i : Int) (h0 : 0 ≤ i) (h1 : i < v.length) :
    (readAt v i).isSome = true := by
  unfold readAt
  rw [if_pos h0]
  have : i.toNat < v.length := by omega
  simp [List.getElem?_eq_getElem this]

theorem readAt_neg {α : Type} (v : List α) (i : Int) (h0 : i < 0) : readAt v i = none := by
  unfold readAt
  rw [if_neg (by omega)]

/-- C29 (the code at the failing input): in every state reached from an
initial state by successful actions, under every configuration, whose next
token is a token of the sentence, the index `id-1` of `inQuotes` is in
`[0, sentence.size())`, so is the index `id-2` of `punctCount` when `id > 1`
(the test that guards its reads), and the reads of `State::predicates` are
inside the vectors.  With `CompositeActions` off, `L` on the initial state of a
one-token sentence leaves the stack empty and the synthetic root, id 0, as next
token: the input is not empty, the index `id-1` is -1 and with `InQuotes` on
`predicates` reads `inQuotes[-1]`. -/
theorem predicates_reads_in_range :
    (∀ (cfg : FeatureConfig) (pc : PunctConfig) (pat : Patterns) (sent : Sentence)
      (acts : List Action) (s : State),
      State.transitions cfg (State.init sent) acts = some s → s.input ≠ [] →
      (s.node (s.input.headD 0)).id ≠ 0 →
        0 ≤ s.quoteIndex ∧ s.quoteIndex < sent.length ∧
        (1 < (s.node (s.input.headD 0)).id → 0 ≤ s.punctIndex ∧ s.punctIndex < sent.length) ∧
        (s.punctPredicates cfg pc (SentenceInfo.init pat (sent.map (·.form)))).isSome = true) ∧
    State.transitions { CompositeActions := false } (State.init [{}]) [['L']] =
      some leftOnRoot ∧
    leftOnRoot.input ≠ [] ∧ (leftOnRoot.node (leftOnRoot.input.headD 0)).id = 0 ∧
    leftOnRoot.quoteIndex = -1 ∧
    (∀ (pat : Patterns) (pc : PunctConfig), pc.InQuotes = true →
      leftOnRoot.punctPredicates { CompositeActions := false } pc
        (SentenceInfo.init pat [[]]) = none) ∧
    leftOnRoot.punctPredicates { CompositeActions := false } {}
      (SentenceInfo.init commaPatterns [[]]) = some [['(']] := by
  refine ⟨?_, by decide, by decide, by decide, by decide, ?_, by decide⟩
  · intro cfg pc pat sent acts s h hi hid
    obtain ⟨hs, hlen⟩ := sound_transitions cfg acts _ s h (sound_init sent)
    have hlen' : s.nodes.length = sent.length + 1 := by
      rw [hlen]; simp [State.init]
    rcases hx : s.input with _ | ⟨x, i⟩
    · exact absurd hx hi
    have hxl : x < s.nodes.length := hs.bound x (mem_waiting_input (by rw [hx]; simp))
    have hidx : (s.node x).id = x := hs.ids x hxl
    simp only [hx, List.headD_cons] at hid
    have hq : s.quoteIndex = (x : Int) - 1 := by
      simp [State.quoteIndex, hx, hidx]
    have hp : s.punctIndex = (x : Int) - 2 := by
      simp [State.punctIndex, hx, hidx]
    have hx0 : x ≠ 0 := by rw [hidx] at hid; exact hid
    obtain ⟨l1, l2⟩ := init_length pat (sent.map (·.form))
    rw [List.length_map] at l1 l2
    simp only [List.headD_cons, hidx]
    refine ⟨by omega, by omega, fun _ => ⟨by omega, by omega⟩, ?_⟩
    unfold State.punctPredicates
    simp only [hx, List.headD_cons, hidx, reduceCtorEq, if_false]
    split
    · rfl
    · have r2 : (readAt (SentenceInfo.init pat (sent.map (·.form))).inQuotes s.quoteIndex).isSome
          = true := readAt_isSome _ _ (by omega) (by omega)
      have r1 : 1 < x → (readAt (SentenceInfo.init pat (sent.map (·.form))).punctCount
          s.punctIndex).isSome = true := fun h1 => readAt_isSome _ _ (by omega) (by omega)
      obtain ⟨q, hq1⟩ := Option.isSome_iff_exists.mp r2
      rw [hq1]
      by_cases h1 : 1 < x
      · obtain ⟨c, hc1⟩ := Option.isSome_iff_exists.mp (r1 h1)
        rw [hc1]
        have h1' : ((x : Int) > 1) := by omega
        simp only [h1', true_and]
        cases pc.InPunct <;> cases pc.PunctCount <;> cases pc.InQuotes <;> simp
      · have h1' : ¬ ((x : Int) > 1) := by omega
        simp only [h1', false_and, if_false]
        cases pc.InQuotes <;> simp
  · intro pat pc hq
    have e : leftOnRoot.quoteIndex = -1 := by decide
    unfold State.punctPredicates
    rw [if_neg (by decide), if_neg (by decide)]
    simp only [hq, if_true, e, readAt_neg _ (-1) (by decide)]
    have h0 : ¬ (((leftOnRoot.node (leftOnRoot.input.headD 0)).id : Int) > 1) := by decide
    simp [h0]

end DeSR
